import Mathlib

/-!
# SkyBench: skyline algorithms

A shallow embedding of the skyline algorithms of SkyBench (`common.h`,
`pivot_selection.cpp`, `skytree.cpp`, `parallel_bskytree.cpp`, `pskyline.cpp`,
`qflow.cpp`, `hybrid.cpp`, `pq_filter.h`, `utilities.h`, `testdriver.cpp`) and proofs
about them.

Conventions of the embedding:

* `NUM_DIMS` is a compile-time constant of the C++ sources; here it is the explicit
  argument `d` of every function.
* Coordinates are rational numbers (every finite `float` is one), so comparisons
  are exact; sums and quotients (`score`, `ComputeDistance`) are computed exactly.
* `std::vector` and arrays are lists, indices and bit masks are natural numbers
  (`SHIFTS[i]` is `2 ^ i`; no 32-bit wrap-around is modelled).
* Loops that the sources run with OpenMP are executed in index order.
* Loops whose trip count is not syntactically bounded take a fuel argument and
  return `none` when it runs out.
-/

namespace SkyBench

/-! ## common.h -/

/-- `DOM_LEFT` of common.h. -/
def DOM_LEFT : Nat := 0
/-- `DOM_RIGHT` of common.h. -/
def DOM_RIGHT : Nat := 1
/-- `DOM_INCOMP` of common.h. -/
def DOM_INCOMP : Nat := 2

/-- `ALL_ONES` of common.h, `(1 << NUM_DIMS) - 1`. -/
def ALL_ONES (d : Nat) : Nat := 2 ^ d - 1

/-- The table `SHIFTS` of common.h, `SHIFTS[i] = 1 << i`. -/
def SHIFTS (i : Nat) : Nat := 2 ^ i

/-- `TUPLE` of common.h: the coordinates and the point id. -/
structure TUPLE where
  elems : List ℚ
  pid : Nat
deriving DecidableEq, Inhabited

/-- `STUPLE` of common.h: a tuple with a score. -/
structure STUPLE extends TUPLE where
  score : ℚ
deriving DecidableEq, Inhabited

/-- `TUPLE_S` of common.h: a tuple with a partition bitmask. -/
structure TUPLE_S extends TUPLE where
  partition : Nat
deriving DecidableEq, Inhabited

/-- `EPTUPLE` of common.h: a scored tuple with the encoded partition word. -/
structure EPTUPLE extends STUPLE where
  partition : Nat
deriving DecidableEq, Inhabited

/-- Read `t.elems[i]`. -/
def TUPLE.elem (t : TUPLE) (i : Nat) : ℚ := t.elems.getD i 0

/-- Dominance of the specification: `p` is no worse than `q` on every dimension and
strictly better (smaller) on at least one. -/
def Dominates (d : Nat) (p q : TUPLE) : Prop :=
  (∀ i, i < d → p.elem i ≤ q.elem i) ∧ ∃ i, i < d ∧ p.elem i < q.elem i

/-- Weak dominance: `p` is no worse than `q` on every dimension. -/
def WeakDom (d : Nat) (p q : TUPLE) : Prop :=
  ∀ i, i < d → p.elem i ≤ q.elem i

/-- Coordinate equality on the first `d` dimensions. -/
def CoordEq (d : Nat) (p q : TUPLE) : Prop :=
  ∀ i, i < d → p.elem i = q.elem i

/-- The loop of `DominanceTest` over the remaining dimensions. -/
def DominanceTest.loop (t1 t2 : TUPLE) : List Nat → Bool → Bool → Nat
  | [], t1_better, t2_better =>
    if !t1_better && t2_better then DOM_RIGHT
    else if !t2_better && t1_better then DOM_LEFT
    else DOM_INCOMP
  | i :: rest, t1_better, t2_better =>
    let b1 := if t1.elem i < t2.elem i then true else t1_better
    let b2 := if t1.elem i < t2.elem i then t2_better
              else if t1.elem i > t2.elem i then true else t2_better
    if b1 && b2 then DOM_INCOMP else DominanceTest.loop t1 t2 rest b1 b2

/-- `DominanceTest` of common.h (scalar path): two-way dominance test. -/
def DominanceTest (d : Nat) (t1 t2 : TUPLE) : Nat :=
  DominanceTest.loop t1 t2 (List.range d) false false

/-- `DT_bitmap_dvc` of common.h: bit `dim` is set iff `sky[dim] <= cur[dim]`. -/
def DT_bitmap_dvc (d : Nat) (cur_value sky_value : TUPLE) : Nat :=
  (List.range d).foldl
    (fun lattice dim =>
      if sky_value.elem dim ≤ cur_value.elem dim then lattice ||| SHIFTS dim else lattice) 0

/-- `DT_bitmap` of common.h: bit `dim` is set iff `sky[dim] < cur[dim]`. -/
def DT_bitmap (d : Nat) (cur_value sky_value : TUPLE) : Nat :=
  (List.range d).foldl
    (fun lattice dim =>
      if sky_value.elem dim < cur_value.elem dim then lattice ||| SHIFTS dim else lattice) 0

/-- `DominateLeft` of common.h: one-way strict dominance test. -/
def DominateLeft (d : Nat) (t1 t2 : TUPLE) : Bool :=
  if (List.range d).all (fun i => decide (t1.elem i ≤ t2.elem i)) then
    (List.range d).any (fun i => decide (t1.elem i < t2.elem i))
  else false

/-- `DominateLeftDVC` of common.h: `1` unless some coordinate of `t1` is larger. -/
def DominateLeftDVC (d : Nat) (t1 t2 : TUPLE) : Nat :=
  if (List.range d).any (fun i => decide (t1.elem i > t2.elem i)) then 0 else 1

/-- The loop of `DT_dvc` over the remaining dimensions. -/
def DT_dvc.loop (t1 t2 : TUPLE) : List Nat → Bool → Bool → Option (Bool × Bool)
  | [], t1_better, t2_better => some (t1_better, t2_better)
  | k :: rest, t1_better, t2_better =>
    let b1 := decide (t1.elem k < t2.elem k) || t1_better
    let b2 := decide (t1.elem k > t2.elem k) || t2_better
    if b1 && b2 then none else DT_dvc.loop t1 t2 rest b1 b2

/-- `DT_dvc` of common.h with assertions disabled: on coordinate-equal tuples the
final `assert( false )` is skipped and `DOM_INCOMP` is returned. -/
def DT_dvc (d : Nat) (t1 t2 : TUPLE) : Nat :=
  match DT_dvc.loop t1 t2 (List.range d) false false with
  | none => DOM_INCOMP
  | some (t1_better, t2_better) =>
    if !t1_better && t2_better then DOM_RIGHT
    else if !t2_better && t1_better then DOM_LEFT
    else DOM_INCOMP

/-- `DominatedLeft` of common.h: true iff no coordinate of `t1` is smaller. -/
def DominatedLeft (d : Nat) (t1 t2 : TUPLE) : Bool :=
  (List.range d).all (fun k => !decide (t1.elem k < t2.elem k))

/-- `EqualityTest` of common.h. -/
def EqualityTest (d : Nat) (t1 t2 : TUPLE) : Bool :=
  (List.range d).all (fun k => decide (t1.elem k = t2.elem k))

/-! ## bskytree/pivot_selection.cpp -/

namespace PivotSelection

/-- `PivotSelection::SetRangeList`. -/
def SetRangeList (d : Nat) (min_list max_list : List ℚ) : List ℚ :=
  (List.range d).map (fun k => max_list.getD k 0 - min_list.getD k 0)

/-- The loop of `ComputeDistance` over dimensions `1 .. NUM_DIMS-1`. -/
def ComputeDistance.loop (value min_list range_list : List ℚ) : List Nat → ℚ → ℚ → ℚ
  | [], max_d, min_d => max_d - min_d
  | k :: rest, max_d, min_d =>
    let norm_value := (value.getD k 0 - min_list.getD k 0) / range_list.getD k 0
    if min_d > norm_value then ComputeDistance.loop value min_list range_list rest max_d norm_value
    else if max_d < norm_value then
      ComputeDistance.loop value min_list range_list rest norm_value min_d
    else ComputeDistance.loop value min_list range_list rest max_d min_d

/-- `PivotSelection::ComputeDistance`: spread of the normalized coordinates. The quotients
are exact; where a range is zero the source divides a `float` by zero (`inf` or `NaN`),
which has no exact value: the quotient is `0` here, and statements about the value of a
distance are made for boxes of positive extent only. -/
def ComputeDistance (d : Nat) (value min_list range_list : List ℚ) : ℚ :=
  let v0 := (value.getD 0 0 - min_list.getD 0 0) / range_list.getD 0 0
  ComputeDistance.loop value min_list range_list (List.range d).tail v0 v0

/-- `PivotSelection::EvaluatePoint`: `dataset[pos]` passes iff `DominatedLeft` fails
against every `dataset[i]`, `i < pos`. -/
def EvaluatePoint (d : Nat) (pos : Nat) (dataset : List TUPLE) : Bool :=
  (List.range pos).all
    (fun i => !DominatedLeft d (dataset.getD pos default) (dataset.getD i default))

/-- The idiom `dataset[cur_pos] = dataset[tail]; dataset.pop_back();`. -/
def popAt (dataset : List TUPLE) (cur_pos : Nat) : List TUPLE :=
  (dataset.set cur_pos (dataset.getD (dataset.length - 1) default)).dropLast

/-- `std::swap( dataset[head], dataset[cur_pos] )` with `head = 0`. -/
def swapHead (dataset : List TUPLE) (cur_pos : Nat) : List TUPLE :=
  (dataset.set 0 (dataset.getD cur_pos default)).set cur_pos (dataset.getD 0 default)

/-- The `while ( cur_pos <= tail )` loop of `PivotSelection::Execute`; `tail` is always
`dataset.size() - 1`. -/
def Execute.loop (d : Nat) (min_list range_list : List ℚ) :
    Nat → List TUPLE → Nat → ℚ → Option (List TUPLE)
  | 0, _, _, _ => none
  | fuel + 1, dataset, cur_pos, min_dist =>
    if cur_pos ≤ dataset.length - 1 then
      let dtest := DominanceTest d (dataset.getD 0 default) (dataset.getD cur_pos default)
      if dtest = DOM_LEFT then
        Execute.loop d min_list range_list fuel (popAt dataset cur_pos) cur_pos min_dist
      else if dtest = DOM_RIGHT then
        let dataset1 := popAt (dataset.set 0 (dataset.getD cur_pos default)) cur_pos
        Execute.loop d min_list range_list fuel dataset1 1
          (ComputeDistance d (dataset1.getD 0 default).elems min_list range_list)
      else
        let cur_dist :=
          ComputeDistance d (dataset.getD cur_pos default).elems min_list range_list
        if cur_dist < min_dist then
          if EvaluatePoint d cur_pos dataset then
            Execute.loop d min_list range_list fuel (swapHead dataset cur_pos) (cur_pos + 1)
              cur_dist
          else
            Execute.loop d min_list range_list fuel (popAt dataset cur_pos) cur_pos min_dist
        else
          Execute.loop d min_list range_list fuel dataset (cur_pos + 1) min_dist
    else some dataset

/-- `PivotSelection::Execute` on a dataset; the empty dataset (where the source reads
`dataset[0]` out of bounds) has no result. -/
def Execute (d : Nat) (min_list max_list : List ℚ) (dataset : List TUPLE) :
    Option (List TUPLE) :=
  if dataset = [] then none
  else
    let range_list := SetRangeList d min_list max_list
    Execute.loop d min_list range_list ((dataset.length + 1) * (dataset.length + 1)) dataset 1
      (ComputeDistance d (dataset.getD 0 default).elems min_list range_list)

end PivotSelection

/-! ## bskytree/node.h, bskytree/skytree.cpp -/

/-- `Node` of node.h: lattice code, pivot point and the ordered children. -/
inductive Node where
  | mk (lattice : Nat) (point : TUPLE) (children : List Node)

/-- Field `lattice` of a node. -/
def Node.lattice : Node → Nat
  | .mk l _ _ => l

/-- Field `point` of a node. -/
def Node.point : Node → TUPLE
  | .mk _ p _ => p

/-- Field `children` of a node. -/
def Node.children : Node → List Node
  | .mk _ _ c => c

namespace SkyTree

/-- The mutable members `eqm_` and `dominated_` of `SkyTree`. -/
structure State where
  eqm_ : List Nat
  dominated_ : List Bool

/-- `std::map::operator[]` followed by `push_back` on a map kept as a list sorted by key. -/
def mapPush : List (Nat × List TUPLE) → Nat → TUPLE → List (Nat × List TUPLE)
  | [], key, t => [(key, [t])]
  | (k, v) :: rest, key, t =>
    if key = k then (k, v ++ [t]) :: rest
    else if key < k then (key, [t]) :: (k, v) :: rest
    else (k, v) :: mapPush rest key t

/-- The loop of `SkyTree::MapPointToRegion` over `dataset[1..]`. -/
def MapPointToRegion.loop (d : Nat) (pivot : TUPLE) :
    List TUPLE → List (Nat × List TUPLE) → List Nat → List (Nat × List TUPLE) × List Nat
  | [], data_map, eqm => (data_map, eqm)
  | it :: rest, data_map, eqm =>
    if EqualityTest d pivot it then MapPointToRegion.loop d pivot rest data_map (eqm ++ [it.pid])
    else
      let lattice := DT_bitmap_dvc d it pivot
      if lattice < SHIFTS d - 1 then
        MapPointToRegion.loop d pivot rest (mapPush data_map lattice it) eqm
      else MapPointToRegion.loop d pivot rest data_map eqm

/-- `SkyTree::MapPointToRegion`: buckets of `dataset[1..]` by lattice code against the
pivot `dataset[0]`; returns the map and the extended `eqm_`. -/
def MapPointToRegion (d : Nat) (dataset : List TUPLE) (eqm : List Nat) :
    List (Nat × List TUPLE) × List Nat :=
  MapPointToRegion.loop d (dataset.getD 0 default) dataset.tail [] eqm

mutual
/-- `SkyTree::FilterPoint`. -/
def FilterPoint (d : Nat) (cur_value : TUPLE) : Node → Bool
  | .mk _ point children =>
    let lattice := DT_bitmap_dvc d cur_value point
    if lattice < SHIFTS d - 1 then FilterPoint.loop d cur_value lattice children
    else true
/-- The loop of `FilterPoint` over the children, with its `break`. -/
def FilterPoint.loop (d : Nat) (cur_value : TUPLE) (lattice : Nat) : List Node → Bool
  | [] => false
  | .mk cur_lattice p ch :: rest =>
    if cur_lattice ≤ lattice then
      if cur_lattice &&& lattice = cur_lattice then
        if FilterPoint d cur_value (.mk cur_lattice p ch) then true
        else FilterPoint.loop d cur_value lattice rest
      else FilterPoint.loop d cur_value lattice rest
    else false
end

/-- `SkyTree::FilterPoint_without_skytree`: all children are visited, each with
`FilterPoint`. -/
def FilterPoint_without_skytree (d : Nat) (cur_value : TUPLE) (skytree : Node) : Bool :=
  let lattice := DT_bitmap_dvc d cur_value skytree.point
  if lattice < SHIFTS d - 1 then skytree.children.any (fun c => FilterPoint d cur_value c)
  else true

/-- The `while ( it != dataset.end() )` loop of `PartialDominance` against one child:
a dominated point is overwritten by `dataset.back()`, which is then popped. The first
argument bounds the remaining iterations (`dataset.size() - it`). -/
def PartialDominance.filter (d : Nat) (useTree : Bool) (child : Node) :
    Nat → List TUPLE → Nat → List TUPLE
  | 0, dataset, _ => dataset
  | n + 1, dataset, it =>
    if it < dataset.length then
      let hit :=
        if useTree then FilterPoint d (dataset.getD it default) child
        else FilterPoint_without_skytree d (dataset.getD it default) child
      if hit then PartialDominance.filter d useTree child n (PivotSelection.popAt dataset it) it
      else PartialDominance.filter d useTree child n dataset (it + 1)
    else dataset

/-- The loop of `SkyTree::PartialDominance` over the children built so far. -/
def PartialDominance.loop (d : Nat) (useTree : Bool) (lattice : Nat) :
    List Node → List TUPLE → List TUPLE
  | [], dataset => dataset
  | c :: rest, dataset =>
    if c.lattice ≤ lattice then
      if c.lattice &&& lattice = c.lattice then
        let dataset1 := PartialDominance.filter d useTree c dataset.length dataset 0
        if dataset1.isEmpty then dataset1
        else PartialDominance.loop d useTree lattice rest dataset1
      else PartialDominance.loop d useTree lattice rest dataset
    else dataset

/-- `SkyTree::PartialDominance`. -/
def PartialDominance (d : Nat) (useTree : Bool) (lattice : Nat) (dataset : List TUPLE)
    (skytree_children : List Node) : List TUPLE :=
  PartialDominance.loop d useTree lattice skytree_children dataset

/-- The second loop of `PartialDominance_with_trees`: is `point` filtered by a child of
the left tree whose code is a sub-mask of `lattice`? -/
def PartialDominance_with_trees.left (d : Nat) (useTree : Bool) (lattice : Nat)
    (point : TUPLE) : List Node → Bool
  | [] => false
  | c :: rest =>
    if c.lattice ≤ lattice then
      if c.lattice &&& lattice = c.lattice then
        if (if useTree then FilterPoint d point c else FilterPoint_without_skytree d point c)
        then true
        else PartialDominance_with_trees.left d useTree lattice point rest
      else PartialDominance_with_trees.left d useTree lattice point rest
    else false

mutual
/-- `SkyTree::PartialDominance_with_trees`: returns the flag, the updated right tree and
the updated `dominated_`. -/
def PartialDominance_with_trees (d : Nat) (useTree : Bool) (lattice : Nat)
    (left_children : List Node) : Node → List Bool → Bool × Node × List Bool
  | .mk l point children, dominated =>
    let r := PartialDominance_with_trees.right d useTree lattice left_children children dominated
    if PartialDominance_with_trees.left d useTree lattice point left_children then
      (true, .mk l point r.1, r.2.set point.pid true)
    else (false, .mk l point r.1, r.2)
/-- The first loop of `PartialDominance_with_trees` over the children of the right tree:
a child that reports `true` and has no children left is erased. -/
def PartialDominance_with_trees.right (d : Nat) (useTree : Bool) (lattice : Nat)
    (left_children : List Node) : List Node → List Bool → List Node × List Bool
  | [], dominated => ([], dominated)
  | .mk l p ch :: rest, dominated =>
    let r := PartialDominance_with_trees d useTree lattice left_children (.mk l p ch) dominated
    let r2 := PartialDominance_with_trees.right d useTree lattice left_children rest r.2.2
    if r.1 && r.2.1.children.length = 0 then (r2.1, r2.2) else (r.2.1 :: r2.1, r2.2)
end

/-- The bounding box handed to the recursive call: `(min_list2, max_list2)`. -/
def childBox (d : Nat) (cur_lattice : Nat) (pivot : TUPLE) (min_list max_list : List ℚ) :
    List ℚ × List ℚ :=
  ((List.range d).map (fun k =>
      if cur_lattice &&& SHIFTS k = SHIFTS k then pivot.elem k else min_list.getD k 0),
   (List.range d).map (fun k =>
      if cur_lattice &&& SHIFTS k = SHIFTS k then max_list.getD k 0 else pivot.elem k))

/-- The loop of `ComputeSkyTree` over the entries of `point_map` (ascending keys);
`recurse` is the recursive call. -/
def ComputeSkyTree.loop (d : Nat) (useTree useDnC : Bool)
    (recurse : List ℚ → List ℚ → List TUPLE → Nat → State → Option (Node × State))
    (pivot : TUPLE) (min_list max_list : List ℚ) :
    List (Nat × List TUPLE) → List Node → State → Option (List Node × State)
  | [], children, st => some (children, st)
  | (cur_lattice, ds) :: rest, children, st =>
    let cur_dataset :=
      if !useDnC && children.length > 0 then PartialDominance d useTree cur_lattice ds children
      else ds
    if cur_dataset.length > 0 then
      let box := childBox d cur_lattice pivot min_list max_list
      match recurse box.1 box.2 cur_dataset cur_lattice st with
      | none => none
      | some (child_node, st1) =>
        if useDnC && children.length > 0 then
          let r := PartialDominance_with_trees d useTree cur_lattice children child_node
            st1.dominated_
          ComputeSkyTree.loop d useTree useDnC recurse pivot min_list max_list rest
            (children ++ [r.2.1]) { st1 with dominated_ := r.2.2 }
        else
          ComputeSkyTree.loop d useTree useDnC recurse pivot min_list max_list rest
            (children ++ [child_node]) st1
    else ComputeSkyTree.loop d useTree useDnC recurse pivot min_list max_list rest children st

/-- `SkyTree::ComputeSkyTree`; the first argument bounds the recursion depth. -/
def ComputeSkyTree (d : Nat) (useTree useDnC : Bool) :
    Nat → List ℚ → List ℚ → List TUPLE → Nat → State → Option (Node × State)
  | 0, _, _, _, _, _ => none
  | fuel + 1, min_list, max_list, dataset, lattice, st =>
    match PivotSelection.Execute d min_list max_list dataset with
    | none => none
    | some dataset1 =>
      let pivot := dataset1.getD 0 default
      let pm := MapPointToRegion d dataset1 st.eqm_
      match ComputeSkyTree.loop d useTree useDnC (ComputeSkyTree d useTree useDnC fuel)
          pivot min_list max_list pm.1 [] { st with eqm_ := pm.2 } with
      | none => none
      | some (children, st1) => some (.mk lattice pivot children, st1)

mutual
/-- `SkyTree::TraverseSkyTree`: pre-order list of pids, skipping flagged ones when
`useDnC` is set. -/
def TraverseSkyTree (useDnC : Bool) (dominated : List Bool) : Node → List Nat
  | .mk _ point children =>
    (if !useDnC || !dominated.getD point.pid false then [point.pid] else [])
      ++ TraverseSkyTree.loop useDnC dominated children
/-- The loop of `TraverseSkyTree` over the children. -/
def TraverseSkyTree.loop (useDnC : Bool) (dominated : List Bool) : List Node → List Nat
  | [] => []
  | c :: rest => TraverseSkyTree useDnC dominated c ++ TraverseSkyTree.loop useDnC dominated rest
end

/-- `SkyTree::Init`: copy the rows, `pid` is the row index. -/
def Init (dataset : List (List ℚ)) : List TUPLE :=
  dataset.enum.map (fun ir => { elems := ir.2, pid := ir.1 })

/-- `SkyTree::Init` followed by `SkyTree::Execute`. -/
def Execute (d : Nat) (useTree useDnC : Bool) (dataset : List (List ℚ)) : Option (List Nat) :=
  let data := Init dataset
  let useDnC1 := useDnC && decide (0 < dataset.length)
  let st : State := { eqm_ := [], dominated_ := List.replicate dataset.length false }
  match ComputeSkyTree d useTree useDnC1 (data.length + 1) (List.replicate d 0)
      (List.replicate d 1) data 0 st with
  | none => none
  | some (skytree, st1) => some (TraverseSkyTree useDnC1 st1.dominated_ skytree ++ st1.eqm_)

end SkyTree

/-! ## pskyline/pskyline.h, pskyline/pskyline.cpp -/

/-- `DEAD` of common.h. -/
def DEAD : Nat := 1
/-- `LIVE` of common.h. -/
def LIVE : Nat := 0

/-- `Block` of pskyline.h: `data[start .. end]` inclusive, and the skyline size. -/
structure Block where
  start : Int
  end_ : Int
  size : Nat
deriving DecidableEq, Inhabited

namespace PSkyline

/-- `PSkyline::Init`, the tuples: `pid` is the row index. -/
def InitData (data : List (List ℚ)) : List TUPLE :=
  data.enum.map (fun ir => { elems := ir.2, pid := ir.1 })

/-- `PSkyline::Init`, the blocks: `num_threads` ranges of `block_size_ = n / threads`
tuples, the last one ending at `n - 1`. -/
def InitBlocks (num_threads n : Nat) : List Block :=
  let block_size : Nat := n / num_threads
  ((List.range num_threads).map (fun i =>
      ({ start := (i * block_size : Nat), end_ := ((i * block_size + block_size : Nat) : Int) - 1,
         size := 0 } : Block))).modify
    (fun b => { b with end_ := (n : Int) - 1 }) (num_threads - 1)

/-- The inner `while ( i <= tail )` loop of `sskyline`; `D[k]` is `data[start + k]`.
Returns the data and `tail`. -/
def sskyline.inner (d : Nat) (start : Nat) (head : Int) :
    Nat → List TUPLE → Int → Int → Option (List TUPLE × Int)
  | 0, _, _, _ => none
  | fuel + 1, data, tail, i =>
    if i ≤ tail then
      let Dhead := data.getD (start + head.toNat) default
      let Di := data.getD (start + i.toNat) default
      let Dtail := data.getD (start + tail.toNat) default
      let dtest := DominanceTest d Dhead Di
      if dtest = DOM_LEFT then
        sskyline.inner d start head fuel (data.set (start + i.toNat) Dtail) (tail - 1) i
      else if dtest = DOM_RIGHT then
        let data1 := data.set (start + head.toNat) Di
        sskyline.inner d start head fuel
          (data1.set (start + i.toNat) (data1.getD (start + tail.toNat) default)) (tail - 1)
          (head + 1)
      else sskyline.inner d start head fuel data tail (i + 1)
    else some (data, tail)

/-- The outer `while ( head < tail )` loop of `sskyline`. -/
def sskyline.outer (d : Nat) (start : Nat) (size : Nat) :
    Nat → List TUPLE → Int → Int → Option (List TUPLE × Int)
  | 0, _, _, _ => none
  | fuel + 1, data, head, tail =>
    if head < tail then
      match sskyline.inner d start head ((size + 1) * (size + 1)) data tail (head + 1) with
      | none => none
      | some (data1, tail1) => sskyline.outer d start size fuel data1 (head + 1) tail1
    else some (data, tail)

/-- `PSkyline::sskyline` on one block: returns the data and the block with its `size`. -/
def sskyline (d : Nat) (data : List TUPLE) (input : Block) : Option (List TUPLE × Block) :=
  let size : Int := input.end_ - input.start + 1
  match sskyline.outer d input.start.toNat size.toNat (size.toNat + 1) data 0 (size - 1) with
  | none => none
  | some (data1, tail) => some (data1, { input with size := (tail + 1).toNat })

/-- `PSkyline::PMap`: `sskyline` on every block, in block order. -/
def PMap (d : Nat) : List TUPLE → List Block → Option (List TUPLE × List Block)
  | data, [] => some (data, [])
  | data, b :: rest =>
    match sskyline d data b with
    | none => none
    | some (data1, b1) =>
      match PMap d data1 rest with
      | none => none
      | some (data2, out) => some (data2, b1 :: out)

/-- `PSkyline::CheckSurvival`: `s[i]` is `data[sstart + i]`, `flag[i]` is
`flags[fstart + i]`. Returns the verdict for `x` and the updated flags. -/
def CheckSurvival (d : Nat) (x : TUPLE) (data : List TUPLE) (sstart fstart : Nat) :
    List Nat → List Nat → Nat × List Nat
  | [], flags => (LIVE, flags)
  | i :: rest, flags =>
    if flags.getD (fstart + i) LIVE = DEAD then CheckSurvival d x data sstart fstart rest flags
    else
      let dtest := DominanceTest d x (data.getD (sstart + i) default)
      if dtest = DOM_LEFT then
        CheckSurvival d x data sstart fstart rest (flags.set (fstart + i) DEAD)
      else if dtest = DOM_RIGHT then (DEAD, flags)
      else CheckSurvival d x data sstart fstart rest flags

/-- `memmove( dst, src, len )` on the tuple array. -/
def memmove (data : List TUPLE) (dst src len : Nat) : List TUPLE :=
  (List.range len).foldl (fun acc k => acc.set (dst + k) (data.getD (src + k) default)) data

/-- `PSkyline::PMerge`: returns the data, the flags and the merged block. -/
def PMerge (d : Nat) (data : List TUPLE) (flags : List Nat) (left right : Block) :
    List TUPLE × List Nat × Block :=
  let ls := left.start.toNat
  let data1 := memmove data (ls + left.size) right.start.toNat right.size
  let flags1 := (List.range (left.size + right.size)).foldl (fun f k => f.set (ls + k) LIVE) flags
  let flags2 := (List.range left.size).foldl
    (fun f i =>
      let r := CheckSurvival d (data1.getD (ls + i) default) data1 (ls + left.size)
        (ls + left.size) (List.range right.size) f
      r.2.set (ls + i) r.1) flags1
  let r := (List.range (left.size + right.size)).foldl
    (fun (acc : List TUPLE × Nat) i =>
      if flags2.getD (ls + i) LIVE = LIVE then
        (acc.1.set (ls + acc.2) (acc.1.getD (ls + i) default), acc.2 + 1)
      else acc) (data1, 0)
  (r.1, flags2, { left with size := r.2 })

/-- `PSkyline::SReduce`. -/
def SReduce (d : Nat) (num_threads : Nat) (data : List TUPLE) (flags : List Nat)
    (input : List Block) : List TUPLE × Block :=
  if num_threads = 1 then (data, input.getD 0 default)
  else
    let r := (input.drop 1).foldl
      (fun (acc : List TUPLE × List Nat × Block) b => PMerge d acc.1 acc.2.1 acc.2.2 b)
      (data, flags, input.getD 0 default)
    (r.1, r.2.2)

/-- `PSkyline::Init` followed by `PSkyline::Execute`; `num_threads = 0` (a division by
zero in the constructor) has no result. -/
def Execute (d : Nat) (num_threads : Nat) (data : List (List ℚ)) : Option (List Nat) :=
  if num_threads = 0 then none
  else
    let data_ := InitData data
    let input_ := InitBlocks num_threads data.length
    match PMap d data_ input_ with
    | none => none
    | some (data1, output) =>
      let r := SReduce d num_threads data1 (List.replicate data.length LIVE) output
      some ((r.1.take r.2.size).map (fun t => t.pid))

end PSkyline

/-! ## qflow/qflow.cpp -/

namespace QFlow

/-- `QFlow::Init`: copy the rows, `pid` is the row index. -/
def Init (data : List (List ℚ)) : List STUPLE :=
  data.enum.map (fun ir => { elems := ir.2, pid := ir.1, score := 0 })

/-- `QFlow::ComputeScores`: `score = elems[0] + ... + elems[NUM_DIMS-1]`. -/
def ComputeScores (d : Nat) (data : List STUPLE) : List STUPLE :=
  data.map (fun t =>
    { t with score := (List.range d).tail.foldl (fun s j => s + t.elem j) (t.elem 0) })

/-- `QFlow::STupleComp`. -/
def STupleComp (d : Nat) (lhs rhs : STUPLE) : Bool :=
  if lhs.score < rhs.score then true
  else if rhs.score < lhs.score then false
  else
    decide ((List.range d).tail.foldl (fun s k => s + lhs.elem k) (lhs.elem 0)
      < (List.range d).tail.foldl (fun s k => s + rhs.elem k) (rhs.elem 0))

/-- Phase I of `QFlow::skyline`: `sky[i]` for the block `[start, stop)` against
`data[0 .. head1]`. -/
def phaseI (d : Nat) (data : List STUPLE) (sky : List Bool) (head1 start stop : Nat) :
    List Bool :=
  (List.range' start (stop - start)).foldl
    (fun sky i =>
      sky.set i (!(List.range (head1 + 1)).any (fun j =>
        DominateLeft d (data.getD j default).toTUPLE (data.getD i default).toTUPLE))) sky

/-- First compression of `QFlow::skyline`: candidates move to `data[head1+1 ..]`;
returns the data and `head2`. -/
def compressI (data : List STUPLE) (sky : List Bool) (head1 start stop : Nat) :
    List STUPLE × Nat :=
  (List.range' start (stop - start)).foldl
    (fun (acc : List STUPLE × Nat) i =>
      if sky.getD i false then (acc.1.set (acc.2 + 1) (acc.1.getD i default), acc.2 + 1)
      else acc) (data, head1)

/-- Phase II of `QFlow::skyline`: `sky[i]` for the candidates `data[head1+1 .. head2]`,
each against the candidates before it. -/
def phaseII (d : Nat) (data : List STUPLE) (sky : List Bool) (head1 head2 : Nat) : List Bool :=
  (List.range' (head1 + 1) (head2 - head1)).foldl
    (fun sky i =>
      sky.set i (!(List.range' (head1 + 1) (i - (head1 + 1))).any (fun j =>
        DominateLeft d (data.getD j default).toTUPLE (data.getD i default).toTUPLE))) sky

/-- Second compression of `QFlow::skyline`: confirmed points move to `data[head1+1 ..]`;
returns the data and the new `head1`. -/
def compressII (data : List STUPLE) (sky : List Bool) (head1 head2 : Nat) :
    List STUPLE × Nat :=
  (List.range' (head1 + 1) (head2 - head1)).foldl
    (fun (acc : List STUPLE × Nat) i =>
      if sky.getD i false then (acc.1.set (acc.2 + 1) (acc.1.getD i default), acc.2 + 1)
      else acc) (data, head1)

/-- The `while ( start < n_ )` loop of `QFlow::skyline`; returns the data and `head1`.
The sum `start + accum_` has the type of `accum_`, `uint32_t`, and wraps at `2 ^ 32`; the
comparison `stop > n_` is unsigned. (`n_` is assumed to fit the `int` cursors.) -/
def skyline.loop (d : Nat) (n accum : Nat) :
    Nat → List STUPLE → List Bool → Nat → Nat → Option (List STUPLE × Nat)
  | 0, _, _, _, _ => none
  | fuel + 1, data, sky, head1, start =>
    if start < n then
      let sum := (start + accum) % 2 ^ 32
      let stop := if sum > n then n else sum
      let sky1 := phaseI d data sky head1 start stop
      let c1 := compressI data sky1 head1 start stop
      let sky2 := phaseII d c1.1 sky1 head1 c1.2
      let c2 := compressII c1.1 sky2 head1 c1.2
      skyline.loop d n accum fuel c2.1 sky2 c2.2 stop
    else some (data, head1)

/-- `QFlow::skyline`: returns the data and the number of surviving tuples. -/
def skyline (d : Nat) (accum : Nat) (data : List STUPLE) : Option (List STUPLE × Nat) :=
  match skyline.loop d data.length accum (data.length + 1) data
      ((List.replicate data.length false).set 0 true) 0 1 with
  | none => none
  | some (data1, head1) => some (data1, head1 + 1)

/-- `QFlow::Init` followed by `QFlow::Execute`; `sort` is `std::sort` with the comparator
`STupleComp`. The empty input (where `skyline` reads `data_[0]`) has no result. -/
def Execute (d : Nat) (sort : List STUPLE → List STUPLE) (accum : Nat)
    (data : List (List ℚ)) : Option (List Nat) :=
  if data = [] then none
  else
    match skyline d accum (sort (ComputeScores d (Init data))) with
    | none => none
    | some (data1, num_survive) => some ((data1.take num_survive).map (fun t => t.pid))

end QFlow

/-- A model of `std::sort` with a comparator: insertion sort, which places an element
before the first one that does not compare less than it. -/
def stdSort {α : Type} (comp : α → α → Bool) (l : List α) : List α :=
  l.insertionSort (fun a b => comp b a = false)

/-! ## bskytree/parallel_bskytree.cpp -/

/-- `BSKYTREE_ACCUM` of common.h. -/
def BSKYTREE_ACCUM : Int := 256

namespace ParallelBSkyTree

/-- The members `data_` and `eqm_`, and the local array `dead`. -/
structure State where
  S : List TUPLE_S
  dead : List Bool
  eqm_ : List Nat

/-- `ParallelBSkyTree::Init`: copy the rows; `partition` starts as `(uint32_t) -1`. -/
def Init (dataset : List (List ℚ)) : List TUPLE_S :=
  dataset.enum.map (fun ir => { elems := ir.2, pid := ir.1, partition := 2 ^ 32 - 1 })

/-- `ParallelBSkyTree::EvaluatePoint`. -/
def EvaluatePoint (d : Nat) (pos : Nat) (data : List TUPLE_S) : Bool :=
  (List.range pos).all
    (fun i => !DominatedLeft d (data.getD pos default).toTUPLE (data.getD i default).toTUPLE)

/-- The idiom `data_[cur_pos] = data_[tail]; data_.pop_back();`. -/
def popAt (data : List TUPLE_S) (cur_pos : Nat) : List TUPLE_S :=
  (data.set cur_pos (data.getD (data.length - 1) default)).dropLast

/-- The `while ( cur_pos <= tail )` loop of `ParallelBSkyTree::SelectBalanced`. -/
def SelectBalanced.loop (d : Nat) (min_list range_list : List ℚ) :
    Nat → List TUPLE_S → Nat → ℚ → Option (List TUPLE_S)
  | 0, _, _, _ => none
  | fuel + 1, data, cur_pos, min_dist =>
    if cur_pos ≤ data.length - 1 then
      let dtest := DominanceTest d (data.getD 0 default).toTUPLE
        (data.getD cur_pos default).toTUPLE
      if dtest = DOM_LEFT then
        SelectBalanced.loop d min_list range_list fuel (popAt data cur_pos) cur_pos min_dist
      else if dtest = DOM_RIGHT then
        let data1 := popAt (data.set 0 (data.getD cur_pos default)) cur_pos
        SelectBalanced.loop d min_list range_list fuel data1 1
          (PivotSelection.ComputeDistance d (data1.getD 0 default).elems min_list range_list)
      else
        let cur_dist :=
          PivotSelection.ComputeDistance d (data.getD cur_pos default).elems min_list range_list
        if cur_dist < min_dist then
          if EvaluatePoint d cur_pos data then
            SelectBalanced.loop d min_list range_list fuel
              ((data.set 0 (data.getD cur_pos default)).set cur_pos (data.getD 0 default))
              (cur_pos + 1) cur_dist
          else
            SelectBalanced.loop d min_list range_list fuel (popAt data cur_pos) cur_pos min_dist
        else
          SelectBalanced.loop d min_list range_list fuel data (cur_pos + 1) min_dist
    else some data

/-- `ParallelBSkyTree::SelectBalanced` (its `SetRangeList` and `ComputeDistance` are
copies of those of `PivotSelection`); the box is `[0, 1]` on every dimension. -/
def SelectBalanced (d : Nat) (data : List TUPLE_S) : Option (List TUPLE_S) :=
  if data = [] then none
  else
    let min_list : List ℚ := List.replicate d 0
    let range_list := PivotSelection.SetRangeList d min_list (List.replicate d 1)
    SelectBalanced.loop d min_list range_list ((data.length + 1) * (data.length + 1)) data 1
      (PivotSelection.ComputeDistance d (data.getD 0 default).elems min_list range_list)

/-- The `for` loop of `ParallelBSkyTree::DoPartioning`: after a removal the loop still
increments `i`. The first argument bounds the remaining iterations. -/
def DoPartioning.loop (d : Nat) :
    Nat → List TUPLE_S → List Nat → Nat → List TUPLE_S × List Nat
  | 0, data, eqm, _ => (data, eqm)
  | n + 1, data, eqm, i =>
    if i < data.length then
      let pivot := data.getD 0 default
      let di := data.getD i default
      if EqualityTest d pivot.toTUPLE di.toTUPLE then
        DoPartioning.loop d n (popAt data i) (eqm ++ [di.pid]) (i + 1)
      else
        let lattice := DT_bitmap_dvc d di.toTUPLE pivot.toTUPLE
        if lattice < SHIFTS d - 1 then
          DoPartioning.loop d n (data.set i { di with partition := lattice }) eqm (i + 1)
        else DoPartioning.loop d n (popAt data i) eqm (i + 1)
    else (data, eqm)

/-- `ParallelBSkyTree::DoPartioning`. -/
def DoPartioning (d : Nat) (data : List TUPLE_S) (eqm : List Nat) : List TUPLE_S × List Nat :=
  DoPartioning.loop d data.length data eqm 1

/-- The `while ( cur <= p_tail )` loop run for one temporal head `th`. -/
def headPass (d : Nat) (th : Nat) (p_htail p_tail : Int) :
    Nat → List TUPLE_S → List Bool → Int → Option (List TUPLE_S × List Bool)
  | 0, _, _, _ => none
  | fuel + 1, S, dead, cur =>
    if cur ≤ p_tail then
      if dead.getD cur.toNat false then headPass d th p_htail p_tail fuel S dead (cur + 1)
      else
        let sth := S.getD th default
        let scur := S.getD cur.toNat default
        if sth.partition &&& scur.partition = sth.partition
            ∨ sth.partition &&& scur.partition = scur.partition then
          let dt_test := DT_dvc d sth.toTUPLE scur.toTUPLE
          if dt_test = DOM_LEFT then
            headPass d th p_htail p_tail fuel S (dead.set cur.toNat true) (cur + 1)
          else if dt_test = DOM_RIGHT then
            headPass d th p_htail p_tail fuel (S.set th scur) (dead.set cur.toNat true)
              (p_htail + 1)
          else headPass d th p_htail p_tail fuel S dead (cur + 1)
        else headPass d th p_htail p_tail fuel S dead (cur + 1)
    else some (S, dead)

/-- The loop over the temporal heads `th = p_head .. p_htail` (run in index order). -/
def parallelHeads (d : Nat) (p_htail p_tail : Int) (size : Nat) :
    List Nat → List TUPLE_S → List Bool → Option (List TUPLE_S × List Bool)
  | [], S, dead => some (S, dead)
  | th :: rest, S, dead =>
    match headPass d th p_htail p_tail ((size + 1) * (size + 1)) S dead (p_htail + 1) with
    | none => none
    | some (S1, dead1) => parallelHeads d p_htail p_tail size rest S1 dead1

/-- The single-threaded nest `for th .. while ( c <= htail )`; the state is
`(S, dead, htail, th, c)` and a `c` beyond `htail` moves on to the next `th`. -/
def sequentialHeads (d : Nat) :
    Nat → List TUPLE_S → List Bool → Int → Int → Int → Option (List TUPLE_S × List Bool × Int)
  | 0, _, _, _, _, _ => none
  | fuel + 1, S, dead, htail, th, c =>
    if th ≤ htail then
      if c ≤ htail then
        let sth := S.getD th.toNat default
        let sc := S.getD c.toNat default
        let shtail := S.getD htail.toNat default
        if sth.pid = sc.pid then
          sequentialHeads d fuel (S.set c.toNat shtail) (dead.set htail.toNat true)
            (htail - 1) th c
        else
          let dt_test := DT_dvc d sth.toTUPLE sc.toTUPLE
          if dt_test = DOM_LEFT then
            sequentialHeads d fuel (S.set c.toNat shtail) (dead.set htail.toNat true)
              (htail - 1) th c
          else if dt_test = DOM_RIGHT then
            let S1 := S.set th.toNat sc
            sequentialHeads d fuel (S1.set c.toNat (S1.getD htail.toNat default))
              (dead.set htail.toNat true) (htail - 1) th (th + 1)
          else sequentialHeads d fuel S dead htail th (c + 1)
      else sequentialHeads d fuel S dead htail (th + 1) (th + 2)
    else some (S, dead, htail)

/-- The inner `while ( !dead[head_dead] && head_dead < tail_alive )`. -/
def skipAlive (dead : List Bool) (tail_alive : Int) : Nat → Int → Int
  | 0, head_dead => head_dead
  | n + 1, head_dead =>
    if !dead.getD head_dead.toNat false && decide (head_dead < tail_alive) then
      skipAlive dead tail_alive n (head_dead + 1)
    else head_dead

/-- The loop `while ( dead[tail_alive] ) --tail_alive;`; running below index `0` has
no result. -/
def skipDead (dead : List Bool) : Nat → Int → Option Int
  | 0, _ => none
  | n + 1, tail_alive =>
    if tail_alive < 0 then none
    else if dead.getD tail_alive.toNat false then skipDead dead n (tail_alive - 1)
    else some tail_alive

/-- The compression loop `while ( head_dead < tail_alive )`. -/
def compress :
    Nat → List TUPLE_S → List Bool → Int → Int → Option (List TUPLE_S × List Bool × Int)
  | 0, _, _, _, _ => none
  | fuel + 1, S, dead, head_dead, tail_alive =>
    if head_dead < tail_alive then
      let hd := skipAlive dead tail_alive S.length head_dead
      match skipDead dead (S.length + 1) tail_alive with
      | none => none
      | some ta =>
        if ta > hd then
          compress fuel (S.set hd.toNat (S.getD ta.toNat default))
            ((dead.set hd.toNat false).set ta.toNat true) (hd + 1) (ta - 1)
        else compress fuel S dead hd ta
    else some (S, dead, tail_alive)

/-- The main `while ( head < tail )` loop of `BSkyTreeS_ALGO`; returns `S` and `tail`. -/
def mainLoop (d : Nat) :
    Nat → List TUPLE_S → List Bool → Int → Int → Option (List TUPLE_S × Int)
  | 0, _, _, _, _ => none
  | fuel + 1, S, dead, head, tail =>
    if head < tail then
      let htail := if head + BSKYTREE_ACCUM - 1 < tail then head + BSKYTREE_ACCUM - 1 else tail
      match parallelHeads d htail tail S.length
          (List.range' head.toNat (htail - head + 1).toNat) S dead with
      | none => none
      | some (S1, dead1) =>
        match sequentialHeads d ((S.length + 1) * (S.length + 1) + 1) S1 dead1 htail head
            (head + 1) with
        | none => none
        | some (S2, dead2, htail2) =>
          let head2 := htail2 + 1
          match compress (S.length + 1) S2 dead2 head2 tail with
          | none => none
          | some (S3, dead3, tail_alive) =>
            match skipDead dead3 (S.length + 1) tail_alive with
            | none => none
            | some tail3 => mainLoop d fuel S3 dead3 head2 tail3
    else some (S, tail)

/-- `ParallelBSkyTree::BSkyTreeS_ALGO`: the pids of `S[0 .. tail]` and `eqm_`. -/
def BSkyTreeS_ALGO (d : Nat) (data : List TUPLE_S) : Option (List Nat × List Nat) :=
  match SelectBalanced d data with
  | none => none
  | some data1 =>
    let p := DoPartioning d data1 []
    match mainLoop d (p.1.length + 1) p.1 (List.replicate p.1.length false) 1
        ((p.1.length : Int) - 1) with
    | none => none
    | some (S, tail) => some ((S.take (tail + 1).toNat).map (fun t => t.pid), p.2)

/-- `ParallelBSkyTree::Init` followed by `ParallelBSkyTree::Execute`. -/
def Execute (d : Nat) (dataset : List (List ℚ)) : Option (List Nat) :=
  match BSkyTreeS_ALGO d (Init dataset) with
  | none => none
  | some (skyline, eqm) => some (skyline ++ eqm)

end ParallelBSkyTree

/-! ## common.h: the encoded partition tuple -/

/-- `__builtin_popcount` on a 32-bit word. -/
def popcount (p : Nat) : Nat :=
  ((List.range 32).filter (fun i => p.testBit i)).length

/-- `EPTUPLE::operator<`. -/
def EPTUPLE.lt (a rhs : EPTUPLE) : Bool :=
  if a.partition < rhs.partition then true
  else if rhs.partition < a.partition then false
  else if a.score < rhs.score then true
  else false

/-- `EPTUPLE::markPruned`: `partition = NUM_DIMS << NUM_DIMS`. -/
def EPTUPLE.markPruned (d : Nat) (t : EPTUPLE) : EPTUPLE :=
  { t with partition := d <<< d }

/-- `EPTUPLE::isPruned`. -/
def EPTUPLE.isPruned (d : Nat) (t : EPTUPLE) : Bool :=
  t.partition = d <<< d

/-- `EPTUPLE::getLevel`. -/
def EPTUPLE.getLevel (d : Nat) (t : EPTUPLE) : Nat :=
  t.partition >>> d

/-- `EPTUPLE::getPartition`. -/
def EPTUPLE.getPartition (d : Nat) (t : EPTUPLE) : Nat :=
  t.partition &&& ALL_ONES d

/-- `EPTUPLE::setPartition`. -/
def EPTUPLE.setPartition (d : Nat) (t : EPTUPLE) (p_bitmap : Nat) : EPTUPLE :=
  { t with partition := (popcount p_bitmap <<< d) ||| p_bitmap }

/-- `EPTUPLE::canskip_partition`. -/
def EPTUPLE.canskip_partition (d : Nat) (t : EPTUPLE) (other : Nat) : Bool :=
  ((t.getPartition d ^^^ other) &&& other) ≠ 0

/-! ## common/pq_filter.h -/

namespace PQFilter

/-- `std::__push_heap` of libstdc++ (`bits/stl_heap.h`) with `PQComparator`
(`a.second < b.second`), on the vector of `(index, score)` pairs of a `PQ`: the hole at
`holeIndex` moves up while it is below `topIndex` and its parent compares less than
`value`, then receives `value`. The first argument bounds the iterations; `holeIndex` of
them suffice. -/
def push_heap.hole (value : Nat × ℚ) (topIndex : Nat) :
    Nat → List (Nat × ℚ) → Nat → List (Nat × ℚ)
  | 0, v, holeIndex => v.set holeIndex value
  | fuel + 1, v, holeIndex =>
    let parent := (holeIndex - 1) / 2
    if holeIndex > topIndex ∧ (v.getD parent (0, 0)).2 < value.2 then
      push_heap.hole value topIndex fuel (v.set holeIndex (v.getD parent (0, 0))) parent
    else v.set holeIndex value

/-- `std::push_heap( first, last, comp )`: the last element is sifted up. -/
def push_heap (v : List (Nat × ℚ)) : List (Nat × ℚ) :=
  push_heap.hole (v.getD (v.length - 1) (0, 0)) 0 (v.length - 1) v (v.length - 1)

/-- The `while ( secondChild < (len - 1) / 2 )` loop of `std::__adjust_heap`: the hole
moves down to the child that does not compare less than its sibling. Returns the vector,
`holeIndex` and `secondChild`; the first argument bounds the iterations, `len` of them
suffice. -/
def adjust_heap.loop (len : Nat) :
    Nat → List (Nat × ℚ) → Nat → Nat → List (Nat × ℚ) × Nat × Nat
  | 0, v, holeIndex, secondChild => (v, holeIndex, secondChild)
  | fuel + 1, v, holeIndex, secondChild =>
    if secondChild < (len - 1) / 2 then
      let sc := 2 * (secondChild + 1)
      let sc1 := if (v.getD sc (0, 0)).2 < (v.getD (sc - 1) (0, 0)).2 then sc - 1 else sc
      adjust_heap.loop len fuel (v.set holeIndex (v.getD sc1 (0, 0))) sc1 sc1
    else (v, holeIndex, secondChild)

/-- `std::__adjust_heap( first, holeIndex, len, value, comp )`. -/
def adjust_heap (v : List (Nat × ℚ)) (holeIndex len : Nat) (value : Nat × ℚ) :
    List (Nat × ℚ) :=
  let r := adjust_heap.loop len len v holeIndex holeIndex
  let r1 : List (Nat × ℚ) × Nat :=
    if len % 2 = 0 ∧ r.2.2 = (len - 2) / 2 then
      let sc := 2 * (r.2.2 + 1)
      (r.1.set r.2.1 (r.1.getD (sc - 1) (0, 0)), sc - 1)
    else (r.1, r.2.1)
  push_heap.hole value holeIndex r1.2 r1.1 r1.2

/-- `std::pop_heap( first, last, comp )`: the first element goes to the last cell and the
old last element is sifted down from the root over the other cells. -/
def pop_heap (v : List (Nat × ℚ)) : List (Nat × ℚ) :=
  if v.length > 1 then
    let last := v.length - 1
    let value := v.getD last (0, 0)
    adjust_heap (v.set last (v.getD 0 (0, 0))) 0 last value
  else v

/-- `PQ::top`: `c.front()` of the vector that holds the heap. -/
def top (q : List (Nat × ℚ)) : Nat × ℚ := q.getD 0 (0, 0)

/-- `PQ::push`: `c.push_back( x ); push_heap( c.begin(), c.end(), comp )`. -/
def push (q : List (Nat × ℚ)) (x : Nat × ℚ) : List (Nat × ℚ) := push_heap (q ++ [x])

/-- `PQ::pop`: `pop_heap( c.begin(), c.end(), comp ); c.pop_back()`. -/
def pop (q : List (Nat × ℚ)) : List (Nat × ℚ) := (pop_heap q).dropLast

/-- The Manhattan norm loop `sum += data[i].elems[j]`, starting from `0`. -/
def sumElems (d : Nat) (t : TUPLE) : ℚ :=
  (List.range d).foldl (fun s j => s + t.elem j) 0

/-- Seeding: the first `pq_size` points are scored and pushed on every queue. -/
def seed (d : Nat) (pq_size num_threads : Nat) (data : List EPTUPLE) :
    List EPTUPLE × List (List (Nat × ℚ)) :=
  (List.range pq_size).foldl
    (fun (acc : List EPTUPLE × List (List (Nat × ℚ))) i =>
      let t := acc.1.getD i default
      let sc := sumElems d t.toTUPLE
      (acc.1.set i { t with score := sc }, acc.2.map (fun q => push q (i, sc))))
    (data, List.replicate num_threads [])

/-- The scoring loop over all points; iteration `i` is run by thread `sched i`, whose
queue replaces its top when the new sum is smaller. -/
def scan (d : Nat) (n : Nat) (sched : Nat → Nat) (data : List EPTUPLE)
    (PQs : List (List (Nat × ℚ))) : List EPTUPLE × List (List (Nat × ℚ)) :=
  (List.range n).foldl
    (fun (acc : List EPTUPLE × List (List (Nat × ℚ))) i =>
      let t := acc.1.getD i default
      let sum := sumElems d t.toTUPLE
      let th_id := sched i
      let q := acc.2.getD th_id []
      (acc.1.set i { t with score := sum },
       if (top q).2 > sum then acc.2.set th_id (push (pop q) (i, sum)) else acc.2))
    (data, PQs)

/-- Draining one queue in `top` order. -/
def drain : Nat → List (Nat × ℚ) → List Nat
  | 0, _ => []
  | n + 1, q => if q = [] then [] else (top q).1 :: drain n (pop q)

/-- The pre-filter loop: a point dominated by a pruner is marked pruned. -/
def prune (d : Nat) (n : Nat) (pruners : List Nat) (data : List EPTUPLE) : List EPTUPLE :=
  (List.range n).foldl
    (fun acc i =>
      if pruners.any (fun it =>
          DominateLeft d (acc.getD it default).toTUPLE (acc.getD i default).toTUPLE)
      then acc.set i ((acc.getD i default).markPruned d) else acc) data

/-- The compaction loop `if ( data[i].isPruned() ) data[i--] = data[--new_n];`. -/
def compact (d : Nat) : Nat → List EPTUPLE → Nat → Nat → List EPTUPLE × Nat
  | 0, data, _, new_n => (data, new_n)
  | fuel + 1, data, i, new_n =>
    if i < new_n then
      if (data.getD i default).isPruned d then
        compact d fuel (data.set i (data.getD (new_n - 1) default)) i (new_n - 1)
      else compact d fuel data (i + 1) new_n
    else (data, new_n)

/-- `PQFilter::Execute`: returns the array and `new_n`. -/
def Execute (d : Nat) (sched : Nat → Nat) (data : List EPTUPLE) (n pq_size num_threads : Nat) :
    List EPTUPLE × Nat :=
  let s := seed d pq_size num_threads data
  let r := scan d n sched s.1 s.2
  let pruners := (r.2.map (fun q => drain q.length q)).flatten
  compact d n (prune d n pruners r.1) 0 n

end PQFilter

/-! ## hybrid/hybrid.cpp -/

namespace Hybrid

/-- `sort( data_ + start, data_ + stop )`. -/
def sortRange (sort : List EPTUPLE → List EPTUPLE) (data : List EPTUPLE) (start stop : Nat) :
    List EPTUPLE :=
  data.take start ++ sort ((data.take stop).drop start) ++ data.drop stop

/-- `Hybrid::partition`: medians of the first `n` points, then `setPartition`. -/
def partition (d : Nat) (data : List EPTUPLE) (n : Nat) : List EPTUPLE :=
  let median : TUPLE :=
    { elems := (List.range d).map (fun i =>
        (((data.take n).map (fun t => t.elem i)).insertionSort (· ≤ ·)).getD (n / 2) 0),
      pid := 0 }
  (List.range n).foldl
    (fun acc i =>
      let t := acc.getD i default
      acc.set i (t.setPartition d (DT_bitmap d t.toTUPLE median))) data

/-- `Hybrid::Init`: returns `data_` and `n_`. -/
def Init (d : Nat) (sort : List EPTUPLE → List EPTUPLE) (sched : Nat → Nat)
    (num_threads pq_size : Nat) (data : List (List ℚ)) : List EPTUPLE × Nat :=
  let data_ : List EPTUPLE :=
    data.enum.map (fun ir => { elems := ir.2, pid := ir.1, score := 0, partition := 0 })
  let r := PQFilter.Execute d sched data_ data.length pq_size num_threads
  let data1 := partition d r.1 r.2
  (sortRange sort data1 0 r.2, r.2)

/-- The inner loop of `compare_to_skyline_points` over `data_[begin+1 .. end)`. -/
def compare_to_skyline_points.inner (d : Nat) (data : List EPTUPLE) (t : EPTUPLE)
    (bitmap : Nat) : List Nat → Bool
  | [] => false
  | i :: rest =>
    let di := data.getD i default
    if ((2 ^ 32 - 1 - bitmap) &&& di.partition = 0) ∨ di.partition = 0 then
      if DominateLeft d di.toTUPLE t.toTUPLE then true
      else compare_to_skyline_points.inner d data t bitmap rest
    else compare_to_skyline_points.inner d data t bitmap rest

/-- The loop of `compare_to_skyline_points` over the entries of `part_map_` but the
sentinel; true iff `t` gets marked. -/
def compare_to_skyline_points.loop (d : Nat) (data : List EPTUPLE) (t : EPTUPLE) :
    List (Nat × Nat) → Bool
  | [] => false
  | [_] => false
  | it :: nxt :: rest =>
    if !t.canskip_partition d it.1 then
      let begin_ := it.2
      let end_ := nxt.2
      let bitmap := DT_bitmap_dvc d t.toTUPLE (data.getD begin_ default).toTUPLE
      if bitmap = ALL_ONES d ∧ !EqualityTest d t.toTUPLE (data.getD begin_ default).toTUPLE then
        true
      else if compare_to_skyline_points.inner d data t bitmap
          (List.range' (begin_ + 1) (end_ - (begin_ + 1))) then true
      else compare_to_skyline_points.loop d data t (nxt :: rest)
    else compare_to_skyline_points.loop d data t (nxt :: rest)

/-- `Hybrid::compare_to_skyline_points` applied to `data_[i]`. -/
def compare_to_skyline_points (d : Nat) (part_map : List (Nat × Nat)) (data : List EPTUPLE)
    (i : Nat) : List EPTUPLE :=
  let t := data.getD i default
  if compare_to_skyline_points.loop d data t part_map then data.set i (t.markPruned d)
  else data

/-- First loop of `compare_to_peers`: `some i` is the index at which it breaks or ends,
`none` means `me` was marked. -/
def compare_to_peers.below (d : Nat) (data : List EPTUPLE) (me : Nat) : List Nat → Option Nat
  | [] => some me
  | i :: rest =>
    let di := data.getD i default
    let dme := data.getD me default
    if di.isPruned d then compare_to_peers.below d data me rest
    else if di.getLevel d = dme.getLevel d then some i
    else if !dme.canskip_partition d (di.getPartition d) then
      if DominateLeftDVC d di.toTUPLE dme.toTUPLE ≠ 0 then none
      else compare_to_peers.below d data me rest
    else compare_to_peers.below d data me rest

/-- Second loop of `compare_to_peers`: skip while the partition is smaller. -/
def compare_to_peers.skip (d : Nat) (data : List EPTUPLE) (me : Nat) : Nat → Nat → Option Nat
  | 0, _ => none
  | fuel + 1, i =>
    if (data.getD i default).getPartition d < (data.getD me default).getPartition d then
      compare_to_peers.skip d data me fuel (i + 1)
    else some i

/-- Third loop of `compare_to_peers`: true iff `me` gets marked. -/
def compare_to_peers.same (d : Nat) (data : List EPTUPLE) (me : Nat) : Nat → Nat → Option Bool
  | 0, _ => none
  | fuel + 1, i =>
    if (data.getD i default).score < (data.getD me default).score then
      if DominateLeftDVC d (data.getD i default).toTUPLE (data.getD me default).toTUPLE ≠ 0 then
        some true
      else compare_to_peers.same d data me fuel (i + 1)
    else some false

/-- `Hybrid::compare_to_peers`; the two unbounded loops have no result when they run
past the end of the array. -/
def compare_to_peers (d : Nat) (data : List EPTUPLE) (me start : Nat) : Option (List EPTUPLE) :=
  match compare_to_peers.below d data me (List.range' start (me - start)) with
  | none => some (data.set me ((data.getD me default).markPruned d))
  | some i =>
    match compare_to_peers.skip d data me (data.length + 1 - i) i with
    | none => none
    | some i1 =>
      match compare_to_peers.same d data me (data.length + 1 - i1) i1 with
      | none => none
      | some true => some (data.set me ((data.getD me default).markPruned d))
      | some false => some data

/-- The scan `for (i = start; i < stop && !data_[i].isPruned(); ++i)`. -/
def scanLive (d : Nat) (data : List EPTUPLE) (stop : Nat) : Nat → Nat → Nat
  | 0, i => i
  | fuel + 1, i =>
    if i < stop ∧ !(data.getD i default).isPruned d then scanLive d data stop fuel (i + 1)
    else i

/-- The loop of `update_partition_map` over the new points `[start, end)`. -/
def update_partition_map.loop (d : Nat) :
    List Nat → List EPTUPLE → List (Nat × Nat) → Nat → Nat → List EPTUPLE × List (Nat × Nat)
  | [], data, part_map, _, _ => (data, part_map)
  | i :: rest, data, part_map, last_val, part_start =>
    let di := data.getD i default
    if di.getPartition d ≠ last_val then
      update_partition_map.loop d rest data (part_map ++ [(di.getPartition d, i)])
        (di.getPartition d) i
    else
      let bitcode := DT_bitmap_dvc d di.toTUPLE (data.getD part_start default).toTUPLE
      update_partition_map.loop d rest (data.set i { di with partition := bitcode }) part_map
        last_val part_start

/-- `Hybrid::update_partition_map`. -/
def update_partition_map (d : Nat) (data : List EPTUPLE) (part_map : List (Nat × Nat))
    (start end_ : Nat) : List EPTUPLE × List (Nat × Nat) :=
  let pm := part_map.dropLast
  let last := pm.getD (pm.length - 1) (0, 0)
  let r := update_partition_map.loop d (List.range' start (end_ - start)) data pm last.1 last.2
  (r.1, r.2 ++ [(0, end_ + 1)])

/-- The copy loop `data_[head] = data_[i]` of the final compression; returns the data and
`head`. -/
def copyLive (d : Nat) (stop : Nat) : Nat → List EPTUPLE → Nat → Nat → List EPTUPLE × Nat
  | 0, data, _, head => (data, head)
  | fuel + 1, data, i, head =>
    if i < stop ∧ !(data.getD i default).isPruned d then
      copyLive d stop fuel (data.set head (data.getD i default)) (i + 1) (head + 1)
    else (data, head)

/-- Phase II over `[start, stop)` in index order. -/
def phaseII (d : Nat) (start : Nat) : List Nat → List EPTUPLE → Option (List EPTUPLE)
  | [], data => some data
  | i :: rest, data =>
    match compare_to_peers d data i start with
    | none => none
    | some data1 => phaseII d start rest data1

/-- The `while ( start < n_ )` loop of `Hybrid::skyline`; returns the data and `head`. -/
def skyline.loop (d : Nat) (sort : List EPTUPLE → List EPTUPLE) (n accum : Nat) :
    Nat → List EPTUPLE → List (Nat × Nat) → Nat → Nat → Option (List EPTUPLE × Nat)
  | 0, _, _, _, _ => none
  | fuel + 1, data, part_map, head, start =>
    if start < n then
      let stop := if start + accum > n then n else start + accum
      let data1 := (List.range' start (stop - start)).foldl
        (fun acc i => compare_to_skyline_points d part_map acc i) data
      let data2 := sortRange sort data1 start stop
      let stop1 := scanLive d data2 stop (stop - start) start
      match phaseII d start (List.range' start (stop1 - start)) data2 with
      | none => none
      | some data3 =>
        let data4 := sortRange sort data3 start stop1
        let r := copyLive d stop1 (stop1 - start) data4 start head
        let u := update_partition_map d r.1 part_map head r.2
        skyline.loop d sort n accum fuel u.1 u.2 r.2 (start + accum)
    else some (data, head)

/-- `Hybrid::skyline`. -/
def skyline (d : Nat) (sort : List EPTUPLE → List EPTUPLE) (accum : Nat)
    (data : List EPTUPLE) (n : Nat) : Option (List EPTUPLE × Nat) :=
  let p0 := (data.getD 0 default).getPartition d
  skyline.loop d sort n accum (n + 1) data [(p0, 0), (p0, 1)] 0 0

/-- `Hybrid::Init` followed by `Hybrid::Execute`; `sort` is `std::sort` with
`EPTUPLE::operator<`, `sched` assigns the iterations of the pre-filter to threads. -/
def Execute (d : Nat) (sort : List EPTUPLE → List EPTUPLE) (sched : Nat → Nat)
    (num_threads accum pq_size : Nat) (data : List (List ℚ)) : Option (List Nat) :=
  let p := Init d sort sched num_threads pq_size data
  match skyline d sort accum p.1 p.2 with
  | none => none
  | some (data1, num_survive) => some ((data1.take num_survive).map (fun t => t.pid))

end Hybrid

/-! ## util/utilities.h -/

/-- The comparison loop of `CompareTwoLists` over two sorted vectors of the same size:
the flag is cleared at the first index whose entries differ. -/
def CompareTwoLists.loop : List Int → List Int → Bool
  | a :: list1, b :: list2 => if a ≠ b then false else CompareTwoLists.loop list1 list2
  | _, _ => true

/-- `CompareTwoLists`: the flag it returns. `std::sort` on `int` is the ascending sort;
the printing under `print_missing` does not touch the flag. -/
def CompareTwoLists (list1 list2 : List Int) (print_missing : Bool) : Bool :=
  let flag :=
    if list1.length = list2.length then
      CompareTwoLists.loop (list1.insertionSort (· ≤ ·)) (list2.insertionSort (· ≤ ·))
    else false
  if !flag && print_missing then flag else flag

/-! ## testdriver.cpp -/

/-- `DEFAULT_ALPHA` of common.h. -/
def DEFAULT_ALPHA : Nat := 1024

/-- `DEFAULT_QP_SIZE` of common.h. -/
def DEFAULT_QP_SIZE : Nat := 8

/-- The fields of `Config` that reach the algorithms. -/
structure Config where
  alpha_size : Nat
  pq_size : Nat

/-- The configuration `main` builds when neither `-a` nor `-q` is given. -/
def Config.defaults : Config := { alpha_size := DEFAULT_ALPHA, pq_size := DEFAULT_QP_SIZE }

/-- The two `if`s of `doVerboseTest` on an input of `n` rows. -/
def doVerboseTest.clamp (n : Nat) (cfg : Config) : Config :=
  let cfg1 : Config := if n < cfg.alpha_size then { cfg with alpha_size := n / 2 } else cfg
  if n < cfg1.pq_size then { cfg1 with pq_size := 1 } else cfg1

/-- The `(alpha, pq_size)` that `doVerboseTest` passes to `createMTSkyline` on an input
of `n` rows. -/
def doVerboseTest (n : Nat) (cfg : Config) : Nat × Nat :=
  let cfg1 := doVerboseTest.clamp n cfg
  (cfg1.alpha_size, cfg1.pq_size)

/-- The `(alpha, pq_size)` that `doPerformanceTest` passes to `createMTSkyline` on an
input of `n` rows: the configured values. -/
def doPerformanceTest (n : Nat) (cfg : Config) : Nat × Nat :=
  let _rows := n
  (cfg.alpha_size, cfg.pq_size)

/-! ## common/dt_avx.h: the vectorised dominance tests -/

namespace AVX

/-- Compare predicate `1` (`_CMP_LT_OS`) of `_mm_cmp_ps` on one lane. -/
def CMP_LT (x y : ℚ) : Bool := decide (x < y)

/-- Compare predicate `2` (`_CMP_LE_OS`) of `_mm_cmp_ps` on one lane. -/
def CMP_LE (x y : ℚ) : Bool := decide (x ≤ y)

/-- The instructions `_mm_cmp_ps` / `_mm256_cmp_ps` on the `w` lanes loaded from
`a.elems + dim` and `b.elems + dim`, followed by `movemask`: bit `j` of the result is the
outcome of the compare on lane `j`. -/
def cmp_movemask (cmp : ℚ → ℚ → Bool) (a b : TUPLE) (dim w : Nat) : Nat :=
  (List.range w).foldl
    (fun mask j => if cmp (a.elem (dim + j)) (b.elem (dim + j)) then mask ||| 2 ^ j else mask) 0

/-- The loops `for (; dim + w <= NUM_DIMS; dim += w) lattice = lattice | (mask << dim)` of
`DT_bitmap_dvc` and `DT_bitmap`; the state is `(dim, lattice)` and the first argument
bounds the iterations. -/
def bitmapBlocks (cmp : ℚ → ℚ → Bool) (d w : Nat) (cur sky : TUPLE) :
    Nat → Nat × Nat → Nat × Nat
  | 0, s => s
  | fuel + 1, (dim, lattice) =>
    if dim + w ≤ d then
      let mask := cmp_movemask cmp sky cur dim w
      bitmapBlocks cmp d w cur sky fuel (dim + w, lattice ||| (mask <<< dim))
    else (dim, lattice)

/-- The scalar loop `for (; dim < NUM_DIMS; ++dim) if ( ... ) lattice |= SHIFTS[dim]` that
ends `DT_bitmap_dvc` and `DT_bitmap`. -/
def bitmapTail (cmp : ℚ → ℚ → Bool) (d : Nat) (cur sky : TUPLE) (s : Nat × Nat) : Nat :=
  (List.range' s.1 (d - s.1)).foldl
    (fun lattice dim =>
      if cmp (sky.elem dim) (cur.elem dim) then lattice ||| SHIFTS dim else lattice) s.2

/-- The three `#if` branches shared by `DT_bitmap_dvc` and `DT_bitmap`: 8-lane and 4-lane
blocks for `NUM_DIMS >= 8`, 4-lane blocks for `NUM_DIMS >= 4`, the scalar loop alone
otherwise. -/
def bitmap (cmp : ℚ → ℚ → Bool) (d : Nat) (cur sky : TUPLE) : Nat :=
  if d ≥ 8 then
    bitmapTail cmp d cur sky
      (bitmapBlocks cmp d 4 cur sky d (bitmapBlocks cmp d 8 cur sky d (0, 0)))
  else if d ≥ 4 then bitmapTail cmp d cur sky (bitmapBlocks cmp d 4 cur sky d (0, 0))
  else bitmapTail cmp d cur sky (0, 0)

/-- `DT_bitmap_dvc` of dt_avx.h: lanes compared with `sky <= cur`. -/
def DT_bitmap_dvc (d : Nat) (cur sky : TUPLE) : Nat := bitmap CMP_LE d cur sky

/-- `DT_bitmap` of dt_avx.h: lanes compared with `sky < cur`. -/
def DT_bitmap (d : Nat) (cur sky : TUPLE) : Nat := bitmap CMP_LT d cur sky

/-- The block loops of `DominanceTest`; the state is `(dim, left_better, right_better)`,
`none` is the early `return DOM_INCOMP`, and the first argument bounds the iterations. -/
def DominanceTest.blocks (d w : Nat) (left right : TUPLE) :
    Nat → Nat × Nat × Nat → Option (Nat × Nat × Nat)
  | 0, s => some s
  | fuel + 1, (dim, left_better, right_better) =>
    if dim + w ≤ d then
      let left_better1 :=
        if left_better = 0 then cmp_movemask CMP_LT left right dim w &&& (SHIFTS w - 1)
        else left_better
      let right_better1 :=
        if right_better = 0 then cmp_movemask CMP_LT right left dim w &&& (SHIFTS w - 1)
        else right_better
      if left_better1 ≠ 0 ∧ right_better1 ≠ 0 then none
      else DominanceTest.blocks d w left right fuel (dim + w, left_better1, right_better1)
    else some (dim, left_better, right_better)

/-- The scalar loop that ends `DominanceTest` when `NUM_DIMS >= 4`. -/
def DominanceTest.tail (left right : TUPLE) : List Nat → Nat × Nat → Option (Nat × Nat)
  | [], s => some s
  | dim :: rest, (left_better, right_better) =>
    let right_better1 :=
      if right_better = 0 ∧ right.elem dim < left.elem dim then 1 else right_better
    let left_better1 :=
      if left_better = 0 ∧ left.elem dim < right.elem dim then 1 else left_better
    if left_better1 ≠ 0 ∧ right_better1 ≠ 0 then none
    else DominanceTest.tail left right rest (left_better1, right_better1)

/-- The loop of `DominanceTest` when `NUM_DIMS < 4`. -/
def DominanceTest.small (left right : TUPLE) : List Nat → Nat × Nat → Option (Nat × Nat)
  | [], s => some s
  | dim :: rest, (left_better, right_better) =>
    let right_better1 :=
      if right_better = 0 then (if right.elem dim < left.elem dim then 1 else 0)
      else right_better
    let left_better1 :=
      if left_better = 0 then (if left.elem dim < right.elem dim then 1 else 0)
      else left_better
    if left_better1 ≠ 0 ∧ right_better1 ≠ 0 then none
    else DominanceTest.small left right rest (left_better1, right_better1)

/-- The final `if` cascade of `DominanceTest`. -/
def DominanceTest.finish (s : Option (Nat × Nat)) : Nat :=
  match s with
  | none => DOM_INCOMP
  | some (left_better, right_better) =>
    if left_better ≠ 0 ∧ right_better = 0 then DOM_LEFT
    else if right_better ≠ 0 ∧ left_better = 0 then DOM_RIGHT
    else DOM_INCOMP

/-- `DominanceTest` of dt_avx.h. -/
def DominanceTest (d : Nat) (left right : TUPLE) : Nat :=
  if d ≥ 8 then
    match DominanceTest.blocks d 8 left right d (0, 0, 0) with
    | none => DOM_INCOMP
    | some s1 =>
      match DominanceTest.blocks d 4 left right d s1 with
      | none => DOM_INCOMP
      | some s2 =>
        DominanceTest.finish
          (DominanceTest.tail left right (List.range' s2.1 (d - s2.1)) s2.2)
  else if d ≥ 4 then
    match DominanceTest.blocks d 4 left right d (0, 0, 0) with
    | none => DOM_INCOMP
    | some s2 =>
      DominanceTest.finish
        (DominanceTest.tail left right (List.range' s2.1 (d - s2.1)) s2.2)
  else DominanceTest.finish (DominanceTest.small left right (List.range d) (0, 0))

/-- The block loops of `DominateLeft` and `DominateLeftDVC`: `none` is the early
`return false` on a mask other than `full` (255 or 15); the first argument bounds the
iterations. -/
def leBlocks (d w full : Nat) (left right : TUPLE) : Nat → Nat → Option Nat
  | 0, dim => some dim
  | fuel + 1, dim =>
    if dim + w ≤ d then
      if cmp_movemask CMP_LE left right dim w ≠ full then none
      else leBlocks d w full left right fuel (dim + w)
    else some dim

/-- The scalar loop `for (; dim < NUM_DIMS; dim++) if ( right.elems[dim] < left.elems[dim] )
return false;` -/
def leTail (d : Nat) (left right : TUPLE) (dim : Nat) : Bool :=
  (List.range' dim (d - dim)).all (fun k => !decide (right.elem k < left.elem k))

/-- The part shared by `DominateLeft` and `DominateLeftDVC`: false iff one of the early
`return false` is taken. -/
def leAll (d : Nat) (left right : TUPLE) : Bool :=
  if d ≥ 8 then
    match leBlocks d 8 255 left right d 0 with
    | none => false
    | some dim1 =>
      match leBlocks d 4 15 left right d dim1 with
      | none => false
      | some dim2 => leTail d left right dim2
  else if d ≥ 4 then
    match leBlocks d 4 15 left right d 0 with
    | none => false
    | some dim2 => leTail d left right dim2
  else leTail d left right 0

/-- `DominateLeft` of dt_avx.h: the lane-wise test, then the equality test. -/
def DominateLeft (d : Nat) (left right : TUPLE) : Bool :=
  if leAll d left right then
    (List.range d).any (fun dim => decide (right.elem dim ≠ left.elem dim))
  else false

/-- `DominateLeftDVC` of dt_avx.h. -/
def DominateLeftDVC (d : Nat) (left right : TUPLE) : Bool :=
  leAll d left right

end AVX

/-! ## bskytree/skytree.cpp: `MaxDepth` -/

namespace SkyTree

mutual
/-- `SkyTree::MaxDepth` (without its counters `skytree_levels_`): the number of nodes on
the longest path from the root. -/
def MaxDepth : Node → Nat
  | .mk _ _ [] => 1
  | .mk _ _ (c :: rest) => MaxDepth.loop rest (MaxDepth c) + 1
/-- The loop of `MaxDepth` over `children[1 ..]`. -/
def MaxDepth.loop : List Node → Nat → Nat
  | [], depth => depth
  | c :: rest, depth =>
    MaxDepth.loop rest (if MaxDepth c > depth then MaxDepth c else depth)
end

end SkyTree

/-! ## pskyline/pskyline.cpp: `PMerge` under any order of its parallel loop -/

namespace PSkyline

/-- `PSkyline::PMerge` with the iterations of the `omp parallel for` over the left points
run in the order `order`; `PMerge` is the order `0, 1, .., left.size - 1`. -/
def PMergeIn (d : Nat) (order : List Nat) (data : List TUPLE) (flags : List Nat)
    (left right : Block) : List TUPLE × List Nat × Block :=
  let ls := left.start.toNat
  let data1 := memmove data (ls + left.size) right.start.toNat right.size
  let flags1 := (List.range (left.size + right.size)).foldl (fun f k => f.set (ls + k) LIVE) flags
  let flags2 := order.foldl
    (fun f i =>
      let r := CheckSurvival d (data1.getD (ls + i) default) data1 (ls + left.size)
        (ls + left.size) (List.range right.size) f
      r.2.set (ls + i) r.1) flags1
  let r := (List.range (left.size + right.size)).foldl
    (fun (acc : List TUPLE × Nat) i =>
      if flags2.getD (ls + i) LIVE = LIVE then
        (acc.1.set (ls + acc.2) (acc.1.getD (ls + i) default), acc.2 + 1)
      else acc) (data1, 0)
  (r.1, flags2, { left with size := r.2 })

end PSkyline

/-! # Specification-level notions used by the theorems -/

/-! ## Specification-level notions for the node tree -/

mutual
/-- The points stored in a tree, in pre-order. -/
def Node.points : Node → List TUPLE
  | .mk _ p ch => p :: Node.pointsList ch
/-- The points stored in a list of trees. -/
def Node.pointsList : List Node → List TUPLE
  | [] => []
  | c :: rest => c.points ++ Node.pointsList rest
end

mutual
/-- Child-order invariant of a tree: at every node the children are in strictly
increasing order of their lattice code, and every point below a child has that code
against the node's point. -/
def Node.WF (d : Nat) : Node → Prop
  | .mk _ p ch => Node.WFList d p ch ∧ (ch.map Node.lattice).Pairwise (· < ·)
/-- The invariant for the children of a node with point `pt`. -/
def Node.WFList (d : Nat) (pt : TUPLE) : List Node → Prop
  | [] => True
  | c :: rest =>
    Node.WF d c ∧ (∀ t ∈ c.points, DT_bitmap_dvc d t pt = c.lattice) ∧ Node.WFList d pt rest
end

/-- `p` is dominated by no member of `D`. -/
def SkyIn (d : Nat) (D : List TUPLE) (p : TUPLE) : Prop := ∀ q ∈ D, ¬ Dominates d q p

namespace SkyTree

/-- What a call `ComputeSkyTree(min_list, max_list, D, node(lat))` establishes. -/
structure TreeSpec (d : Nat) (D : List TUPLE) (lat : Nat) (st : State) (T : Node)
    (st' : State) : Prop where
  lattice_eq : T.lattice = lat
  dominated_eq : st'.dominated_ = st.dominated_
  wf : T.WF d
  sound : ∀ p ∈ T.points, p ∈ D ∧ SkyIn d D p
  cover : ∀ p ∈ D, ∃ t ∈ T.points, WeakDom d t p
  eqm : ∃ E, st'.eqm_ = st.eqm_ ++ E ∧ (∀ pid ∈ E, ∃ p ∈ D, p.pid = pid ∧ SkyIn d D p) ∧
    (∀ p ∈ D, SkyIn d D p → p ∈ T.points ∨ p.pid ∈ E)

/-- Invariant of the loop of `ComputeSkyTree` after the buckets `pre` have been processed:
`U` is the dataset after pivot selection, `v` the pivot. -/
structure LoopSpec (d : Nat) (U : List TUPLE) (v : TUPLE) (st0 : State)
    (pre : List (Nat × List TUPLE)) (children : List Node) (st : State) : Prop where
  dominated_eq : st.dominated_ = st0.dominated_
  sorted : (children.map Node.lattice).Pairwise (· < ·)
  keys : ∀ c ∈ children, c.lattice ∈ pre.map Prod.fst
  wf : Node.WFList d v children
  sound : ∀ p ∈ Node.pointsList children, p ∈ U ∧ SkyIn d U p
  cover : ∀ e ∈ pre, ∀ p ∈ e.2, ∃ t ∈ Node.pointsList children, WeakDom d t p
  eqm : ∃ E, st.eqm_ = st0.eqm_ ++ E ∧ (∀ pid ∈ E, ∃ p ∈ U, p.pid = pid ∧ SkyIn d U p) ∧
    (∀ e ∈ pre, ∀ p ∈ e.2, SkyIn d U p → p ∈ Node.pointsList children ∨ p.pid ∈ E)

/-- The recursive call succeeds on every non-empty dataset of at most `bound` tuples. -/
def RecOK (d : Nat)
    (recurse : List ℚ → List ℚ → List TUPLE → Nat → State → Option (Node × State))
    (bound : Nat) : Prop :=
  ∀ (ml Ml : List ℚ) (B : List TUPLE) (lat : Nat) (st : State), B ≠ [] → B.length ≤ bound →
    ∃ T st', recurse ml Ml B lat st = some (T, st') ∧ TreeSpec d B lat st T st'

end SkyTree

/-- The tuples `data[s .. s+len)`, as a predicate. -/
def Win {α : Type} [Inhabited α] (data : List α) (s len : Nat) (p : α) : Prop :=
  ∃ k, k < len ∧ data.getD (s + k) default = p

/-- `L` is the skyline of `A`: a subset of `A` that dominates or contains every member of
`A` and has no internal dominance. -/
def SkylineOfSet (d : Nat) (L A : TUPLE → Prop) : Prop :=
  (∀ p, L p → A p) ∧ (∀ a, A a → L a ∨ ∃ l, L l ∧ Dominates d l a) ∧
    (∀ x y, L x → L y → ¬ Dominates d x y)

namespace PSkyline

/-- Invariant of the inner loop of `sskyline` on the window `data[s .. s+w)`; `A` is the
original content of the window and `data0` the array at entry. -/
structure InvIn (d : Nat) (A : TUPLE → Prop) (data0 : List TUPLE) (s w : Nat) (head : Int)
    (data : List TUPLE) (tail i : Int) : Prop where
  h0 : 0 ≤ head
  ht : head ≤ tail
  hi : head + 1 ≤ i
  hi2 : i ≤ tail + 1
  hw : tail < w
  hlen : data.length = data0.length
  hbound : s + w ≤ data0.length
  frame : ∀ k, (k < s ∨ s + w ≤ k) → data.getD k default = data0.getD k default
  sub : ∀ j : Nat, (j : Int) ≤ tail → A (data.getD (s + j) default)
  cover : ∀ a, A a → ∃ j : Nat, (j : Int) ≤ tail ∧
    (data.getD (s + j) default = a ∨ Dominates d (data.getD (s + j) default) a)
  kept : ∀ j j' : Nat, (j : Int) < head → (j' : Int) ≤ tail → j ≠ j' →
    ¬ Dominates d (data.getD (s + j) default) (data.getD (s + j') default) ∧
    ¬ Dominates d (data.getD (s + j') default) (data.getD (s + j) default)
  seen : ∀ j : Nat, head < (j : Int) → (j : Int) < i →
    ¬ Dominates d (data.getD (s + head.toNat) default) (data.getD (s + j) default) ∧
    ¬ Dominates d (data.getD (s + j) default) (data.getD (s + head.toNat) default)

/-- Invariant of the outer loop of `sskyline`. -/
structure InvOut (d : Nat) (A : TUPLE → Prop) (data0 : List TUPLE) (s w : Nat)
    (data : List TUPLE) (head tail : Int) : Prop where
  h0 : 0 ≤ head
  ht : head ≤ tail + 1
  hw : tail < w
  hlen : data.length = data0.length
  hbound : s + w ≤ data0.length
  frame : ∀ k, (k < s ∨ s + w ≤ k) → data.getD k default = data0.getD k default
  sub : ∀ j : Nat, (j : Int) ≤ tail → A (data.getD (s + j) default)
  cover : ∀ a, A a → ∃ j : Nat, (j : Int) ≤ tail ∧
    (data.getD (s + j) default = a ∨ Dominates d (data.getD (s + j) default) a)
  kept : ∀ j j' : Nat, (j : Int) < head → (j' : Int) ≤ tail → j ≠ j' →
    ¬ Dominates d (data.getD (s + j) default) (data.getD (s + j') default) ∧
    ¬ Dominates d (data.getD (s + j') default) (data.getD (s + j) default)

end PSkyline

namespace PSkyline

/-- Invariant of the flag array of `PMerge` after the first `n` left tuples have been
checked: `Lf i` and `Rf j` are the left and right tuples, kept at `flags[ls+i]` and
`flags[ls+a+j]`. -/
structure FlagInv (d : Nat) (Lf Rf : Nat → TUPLE) (ls a b : Nat) (len : Nat) (n : Nat)
    (f : List Nat) : Prop where
  hlen : f.length = len
  left : ∀ i, i < n → (f.getD (ls + i) LIVE = LIVE ↔ ∀ j, j < b → ¬ Dominates d (Rf j) (Lf i))
  right : ∀ j, j < b → (f.getD (ls + a + j) LIVE = DEAD ↔ ∃ i, i < n ∧ Dominates d (Lf i) (Rf j))
  bool : ∀ j, j < b → f.getD (ls + a + j) LIVE = DEAD ∨ f.getD (ls + a + j) LIVE = LIVE

end PSkyline

namespace QFlow

/-- The tuples `data[s .. s+len)` without their scores, as a predicate. -/
def WinT (data : List STUPLE) (s len : Nat) (t : TUPLE) : Prop :=
  ∃ k, k < len ∧ (data.getD (s + k) default).toTUPLE = t

/-- In `S` no tuple is dominated by a later one (what sorting by score achieves). -/
def NoBackDom (d : Nat) (S : List STUPLE) : Prop :=
  ∀ i j, i < j → j < S.length →
    ¬ Dominates d (S.getD j default).toTUPLE (S.getD i default).toTUPLE

/-- Invariant of the block loop of `QFlow::skyline`: `data[0 .. head1]` is the skyline of
the first `start` tuples of the sorted input `S`, and the rest is untouched. -/
structure Inv (d : Nat) (S data : List STUPLE) (sky : List Bool) (head1 start : Nat) :
    Prop where
  len : data.length = S.length
  slen : sky.length = S.length
  hs : head1 + 1 ≤ start
  hn : start ≤ S.length
  suffix : ∀ k, start ≤ k → data.getD k default = S.getD k default
  sky : SkylineOfSet d (WinT data 0 (head1 + 1)) (WinT S 0 start)

/-- The result `r` of compressing the flagged cells of `data[s .. s+len)` to
`data[head1+1 ..]`; `cand` lists the flagged cells in order. -/
structure Compressed (data : List STUPLE) (sky : List Bool) (head1 s len : Nat)
    (cand : List Nat) (r : List STUPLE × Nat) : Prop where
  bound : cand.length ≤ len
  mem : ∀ c, c < cand.length → s ≤ cand.getD c 0 ∧ cand.getD c 0 < s + len ∧
    sky.getD (cand.getD c 0) false = true
  all : ∀ i, s ≤ i → i < s + len → sky.getD i false = true →
    ∃ c, c < cand.length ∧ cand.getD c 0 = i
  mono : ∀ c c', c < c' → c' < cand.length → cand.getD c 0 < cand.getD c' 0
  len : r.1.length = data.length
  count : r.2 = head1 + cand.length
  frame : ∀ k, (k < head1 + 1 ∨ head1 + 1 + cand.length ≤ k) →
    r.1.getD k default = data.getD k default
  pos : ∀ c, c < cand.length →
    r.1.getD (head1 + 1 + c) default = data.getD (cand.getD c 0) default

end QFlow

namespace PivotSelection

/-- Invariant of the pivot-selection loop, relative to the dataset `orig` at entry. -/
structure Inv (d : Nat) (ml rl : List ℚ) (orig ds : List TUPLE) (cp : Nat) (md : ℚ) : Prop where
  len : 1 ≤ ds.length
  cp1 : 1 ≤ cp
  md_eq : md = ComputeDistance d (ds.getD 0 default).elems ml rl
  sub : ∀ j, j < ds.length → ds.getD j default ∈ orig
  cover : ∀ p ∈ orig, ∃ j, j < ds.length ∧
    (ds.getD j default = p ∨ Dominates d (ds.getD j default) p)
  seen : ∀ j, 1 ≤ j → j < cp → j < ds.length →
    ¬ Dominates d (ds.getD j default) (ds.getD 0 default) ∧
    md ≤ ComputeDistance d (ds.getD j default).elems ml rl ∧
    (Dominates d (ds.getD 0 default) (ds.getD j default) →
      md < ComputeDistance d (ds.getD j default).elems ml rl)

end PivotSelection

instance Dominates.decidable (d : Nat) (p q : TUPLE) : Decidable (Dominates d p q) :=
  inferInstanceAs (Decidable ((∀ i, i < d → p.elem i ≤ q.elem i) ∧
    ∃ i, i < d ∧ p.elem i < q.elem i))

/-- Scenario E1 of the specification: five rows in two dimensions. -/
def E1 : List (List ℚ) := [[1, 2], [2, 1], [3, 3], [1/2, 5], [5, 1/2]]

/-- Scenario E2 of the specification: the row `(1,1,1)` five times. -/
def E2 : List (List ℚ) := [[1, 1, 1], [1, 1, 1], [1, 1, 1], [1, 1, 1], [1, 1, 1]]

/-- Seven rows in four dimensions; row 4 exceeds the median in every dimension and is
dominated by no row. -/
def hybridRows : List (List ℚ) :=
  [[1, 1, 9, 1], [9, 1, 1, 1], [1, 9, 1, 1], [1, 1, 1, 9], [5, 5, 5, 5], [9, 2, 1, 1],
   [1, 9, 2, 1]]

/-- Nine rows in four dimensions; rows 4 and 5 are equal, exceed the median in every
dimension and are dominated by no row. -/
def hybridDupRows : List (List ℚ) :=
  [[1, 1, 1, 9], [9, 1, 1, 1], [1, 9, 1, 1], [1, 1, 9, 1], [5, 5, 5, 5], [5, 5, 5, 5],
   [9, 2, 1, 1], [1, 9, 2, 1], [1, 1, 9, 2]]

/-- Five rows in two dimensions; row 4 dominates rows 1, 2 and 3. -/
def partitionRows : List (List ℚ) := [[0, 1/2], [1/2, 0], [3/4, 0], [1, 0], [1/4, 0]]

/-- Three tuples in two dimensions; the last one dominates the second. -/
def pivotTuples : List TUPLE :=
  [{ elems := [0, 1], pid := 0 }, { elems := [1, 0], pid := 1 }, { elems := [2/5, 0], pid := 2 }]

/-- A second model of `std::sort`, which leaves equal elements in the opposite order. -/
def stdSortRev {α : Type} (comp : α → α → Bool) (l : List α) : List α :=
  stdSort comp l.reverse

/-- The distinct-value condition for two points: they differ on every dimension. -/
def DistinctValues (d : Nat) (p q : TUPLE) : Prop := ∀ i, i < d → p.elem i ≠ q.elem i

/-- The mask `a` is a sub-mask of `b`: every bit of `a` is a bit of `b`. -/
def SubMask (a b : Nat) : Prop := a &&& b = a

instance WeakDom.decidable (d : Nat) (p q : TUPLE) : Decidable (WeakDom d p q) :=
  inferInstanceAs (Decidable (∀ i, i < d → p.elem i ≤ q.elem i))

instance CoordEq.decidable (d : Nat) (p q : TUPLE) : Decidable (CoordEq d p q) :=
  inferInstanceAs (Decidable (∀ i, i < d → p.elem i = q.elem i))

instance DistinctValues.decidable (d : Nat) (p q : TUPLE) : Decidable (DistinctValues d p q) :=
  inferInstanceAs (Decidable (∀ i, i < d → p.elem i ≠ q.elem i))

instance SubMask.decidable (a b : Nat) : Decidable (SubMask a b) :=
  inferInstanceAs (Decidable (a &&& b = a))

/-- Two points in three dimensions that differ on every dimension; the first dominates the
second. -/
def dvcLow : TUPLE := { elems := [1, 2, 3], pid := 0 }

/-- See `dvcLow`. -/
def dvcHigh : TUPLE := { elems := [2, 3, 4], pid := 1 }

/-- A pivot in three dimensions. -/
def dvcPivot : TUPLE := { elems := [2, 2, 2], pid := 2 }

/-- The point `dvcLow` as an encoded tuple whose partition is its strict mask `4` against
`dvcPivot`. -/
def dvcLowE : EPTUPLE :=
  EPTUPLE.setPartition 3 { elems := [1, 2, 3], pid := 0, score := 6, partition := 0 } 4

/-- Lexicographic comparison of the triples `(getLevel, getPartition, score)` of two
encoded tuples. -/
def LexLevelMaskScore (d : Nat) (a b : EPTUPLE) : Prop :=
  a.getLevel d < b.getLevel d ∨
    (a.getLevel d = b.getLevel d ∧
      (a.getPartition d < b.getPartition d ∨
        (a.getPartition d = b.getPartition d ∧ a.score < b.score)))

/-- A comparison function is a strict weak order: irreflexive, transitive, and
incomparability is transitive. -/
def StrictWeakOrder {α : Type} (lt : α → α → Bool) : Prop :=
  (∀ a, lt a a = false) ∧
  (∀ a b c, lt a b = true → lt b c = true → lt a c = true) ∧
  (∀ a b c, lt a b = false → lt b a = false → lt b c = false → lt c b = false →
    lt a c = false ∧ lt c a = false)

mutual
/-- Every lattice code stored below the root of a tree is smaller than `ALL_ONES`. -/
def Node.LatBound (d : Nat) : Node → Prop
  | .mk _ _ ch => Node.LatBoundList d ch
/-- The bound on the lattice codes for a list of children and all their descendants. -/
def Node.LatBoundList (d : Nat) : List Node → Prop
  | [] => True
  | c :: rest => c.lattice < ALL_ONES d ∧ Node.LatBound d c ∧ Node.LatBoundList d rest
end

namespace SkyTree

/-- The recursive call returns, on every non-empty dataset of at most `bound` tuples, a
tree over points of the dataset that has the requested lattice code and meets the
child-order invariant and the bound on the codes. -/
def RecTree (d : Nat)
    (recurse : List ℚ → List ℚ → List TUPLE → Nat → State → Option (Node × State))
    (bound : Nat) : Prop :=
  ∀ (ml Ml : List ℚ) (B : List TUPLE) (lat : Nat) (st : State), B ≠ [] → B.length ≤ bound →
    ∃ T st', recurse ml Ml B lat st = some (T, st') ∧ T.lattice = lat ∧ T.WF d ∧
      T.LatBound d ∧ ∀ p ∈ T.points, p ∈ B

end SkyTree

namespace PQFilter

/-- The pruner list that `PQFilter::Execute` merges from the queues after the scan. -/
def pruners (d : Nat) (sched : Nat → Nat) (data : List EPTUPLE) (n pq_size num_threads : Nat) :
    List Nat :=
  let s := seed d pq_size num_threads data
  let r := scan d n sched s.1 s.2
  (r.2.map (fun q => drain q.length q)).flatten

/-- The array `data_` that `Hybrid::Init` hands to the pre-filter: row `i` with pid `i`,
score and partition word zero. -/
def input (rows : List (List ℚ)) : List EPTUPLE :=
  rows.enum.map (fun ir => { elems := ir.2, pid := ir.1, score := 0, partition := 0 })

end PQFilter

namespace Hybrid

/-- The values of `part_map_` after each call `update_partition_map( head, end )` made by
the loop of `Hybrid::skyline`, each with the argument `end` of the call. -/
def skyline.maps (d : Nat) (sort : List EPTUPLE → List EPTUPLE) (n accum : Nat) :
    Nat → List EPTUPLE → List (Nat × Nat) → Nat → Nat → List (List (Nat × Nat) × Nat)
  | 0, _, _, _, _ => []
  | fuel + 1, data, part_map, head, start =>
    if start < n then
      let stop := if start + accum > n then n else start + accum
      let data1 := (List.range' start (stop - start)).foldl
        (fun acc i => compare_to_skyline_points d part_map acc i) data
      let data2 := sortRange sort data1 start stop
      let stop1 := scanLive d data2 stop (stop - start) start
      match phaseII d start (List.range' start (stop1 - start)) data2 with
      | none => []
      | some data3 =>
        let data4 := sortRange sort data3 start stop1
        let r := copyLive d stop1 (stop1 - start) data4 start head
        let u := update_partition_map d r.1 part_map head r.2
        (u.2, r.2) :: skyline.maps d sort n accum fuel u.1 u.2 r.2 (start + accum)
    else []

/-- The partition maps of a run of `Hybrid::Init` and `Hybrid::Execute`, see
`skyline.maps`. -/
def maps (d : Nat) (sort : List EPTUPLE → List EPTUPLE) (sched : Nat → Nat)
    (num_threads accum pq_size : Nat) (data : List (List ℚ)) :
    List (List (Nat × Nat) × Nat) :=
  let p := Init d sort sched num_threads pq_size data
  let p0 := (p.1.getD 0 default).getPartition d
  skyline.maps d sort p.2 accum (p.2 + 1) p.1 [(p0, 0), (p0, 1)] 0 0

end Hybrid

/-- Four rows in three dimensions: rows 2 and 3 are equal and dominated by row 1. -/
def dncRows : List (List ℚ) :=
  [[1/2, 1/2, 1/2], [3/4, 1/4, 1/4], [1, 3/4, 1/4], [1, 3/4, 1/4]]

/-- Three rows in two dimensions with the Manhattan norms `1`, `5` and `3`. -/
def prunerRows : List (List ℚ) := [[0, 1], [2, 3], [1, 2]]

/-- A tree in two dimensions with the child-order invariant: the root `(2,2)` and its
children `(3,1)` with code `1` and `(1,3)` with code `2`. -/
def filterTree : Node :=
  .mk 0 { elems := [2, 2], pid := 0 }
    [.mk 1 { elems := [3, 1], pid := 1 } [], .mk 2 { elems := [1, 3], pid := 2 } []]

namespace QFlow

/-- The score of `t` is the sum of its coordinates, as `ComputeScores` leaves it. -/
def Scored (d : Nat) (t : STUPLE) : Prop :=
  t.score = (List.range d).tail.foldl (fun s j => s + t.elem j) (t.elem 0)

end QFlow

namespace SkyTree

/-- The recursive call returns trees whose depth is at most the size of the dataset. -/
def RecDepth
    (recurse : List ℚ → List ℚ → List TUPLE → Nat → State → Option (Node × State)) : Prop :=
  ∀ (ml Ml : List ℚ) (B : List TUPLE) (lat : Nat) (st : State) (T : Node) (st' : State),
    recurse ml Ml B lat st = some (T, st') → MaxDepth T ≤ B.length

/-- `MaxDepth` of the tree that `SkyTree::Execute` builds on the rows `dataset`. -/
def depthOf (d : Nat) (useTree useDnC : Bool) (dataset : List (List ℚ)) : Option Nat :=
  let data := Init dataset
  let useDnC1 := useDnC && decide (0 < dataset.length)
  let st : State := { eqm_ := [], dominated_ := List.replicate dataset.length false }
  (ComputeSkyTree d useTree useDnC1 (data.length + 1) (List.replicate d 0)
    (List.replicate d 1) data 0 st).map (fun r => MaxDepth r.1)

end SkyTree

/-- The tuples `data[s .. s+m)`, as a list. -/
def window (data : List TUPLE) (s m : Nat) : List TUPLE :=
  (List.range m).map (fun k => data.getD (s + k) default)

/-- The tuples of `L` that no tuple of `L` dominates, each as often as it occurs in `L`. -/
def undominated (d : Nat) (L : List TUPLE) : List TUPLE :=
  L.filter (fun p => decide (∀ q ∈ L, ¬ Dominates d q p))

namespace PSkyline

/-- Invariant of the flag array of `PMerge` after the left tuples listed in `done` have
been checked, in any order: `Lf i` and `Rf j` are the left and right tuples, kept at
`flags[ls+i]` and `flags[ls+a+j]`. -/
structure FlagInvOn (d : Nat) (Lf Rf : Nat → TUPLE) (ls a b : Nat) (len : Nat)
    (done : List Nat) (f : List Nat) : Prop where
  hlen : f.length = len
  left : ∀ i ∈ done,
    (f.getD (ls + i) LIVE = LIVE ↔ ∀ j, j < b → ¬ Dominates d (Rf j) (Lf i))
  right : ∀ j, j < b →
    (f.getD (ls + a + j) LIVE = DEAD ↔ ∃ i ∈ done, Dominates d (Lf i) (Rf j))
  bool : ∀ j, j < b → f.getD (ls + a + j) LIVE = DEAD ∨ f.getD (ls + a + j) LIVE = LIVE

end PSkyline

namespace Hybrid

/-- The values of `(head, start)` at the top of the iterations of the `while` loop of
`Hybrid::skyline`, the final test included; the recursion is that of `skyline.loop`. -/
def skyline.cursors (d : Nat) (sort : List EPTUPLE → List EPTUPLE) (n accum : Nat) :
    Nat → List EPTUPLE → List (Nat × Nat) → Nat → Nat → List (Nat × Nat)
  | 0, _, _, _, _ => []
  | fuel + 1, data, part_map, head, start =>
    (head, start) ::
      (if start < n then
        let stop := if start + accum > n then n else start + accum
        let data1 := (List.range' start (stop - start)).foldl
          (fun acc i => compare_to_skyline_points d part_map acc i) data
        let data2 := sortRange sort data1 start stop
        let stop1 := scanLive d data2 stop (stop - start) start
        match phaseII d start (List.range' start (stop1 - start)) data2 with
        | none => []
        | some data3 =>
          let data4 := sortRange sort data3 start stop1
          let r := copyLive d stop1 (stop1 - start) data4 start head
          let u := update_partition_map d r.1 part_map head r.2
          skyline.cursors d sort n accum fuel u.1 u.2 r.2 (start + accum)
      else [])

/-- Phase I as the loop of `Hybrid::skyline` runs it: for every iteration and every block
point that Phase I marks there, the value of `head`, the pid of the point and the pids of
the points of `data_[0 .. head)` that dominate it (`DominateLeft`); the recursion is that
of `skyline.loop`. -/
def skyline.marks (d : Nat) (sort : List EPTUPLE → List EPTUPLE) (n accum : Nat) :
    Nat → List EPTUPLE → List (Nat × Nat) → Nat → Nat → List (Nat × Nat × List Nat)
  | 0, _, _, _, _ => []
  | fuel + 1, data, part_map, head, start =>
    if start < n then
      let stop := if start + accum > n then n else start + accum
      let data1 := (List.range' start (stop - start)).foldl
        (fun acc i => compare_to_skyline_points d part_map acc i) data
      let marked := (List.range' start (stop - start)).filter (fun j =>
        !(data.getD j default).isPruned d && (data1.getD j default).isPruned d)
      let here := marked.map (fun j =>
        (head, (data.getD j default).pid,
          ((List.range head).filter (fun i =>
            DominateLeft d (data.getD i default).toTUPLE (data.getD j default).toTUPLE)).map
            (fun i => (data.getD i default).pid)))
      let data2 := sortRange sort data1 start stop
      let stop1 := scanLive d data2 stop (stop - start) start
      match phaseII d start (List.range' start (stop1 - start)) data2 with
      | none => here
      | some data3 =>
        let data4 := sortRange sort data3 start stop1
        let r := copyLive d stop1 (stop1 - start) data4 start head
        let u := update_partition_map d r.1 part_map head r.2
        here ++ skyline.marks d sort n accum fuel u.1 u.2 r.2 (start + accum)
    else []

/-- The Phase I marks of a run of `Hybrid::Init` and `Hybrid::Execute`, see
`skyline.marks`. -/
def marks (d : Nat) (sort : List EPTUPLE → List EPTUPLE) (sched : Nat → Nat)
    (num_threads accum pq_size : Nat) (data : List (List ℚ)) : List (Nat × Nat × List Nat) :=
  let p := Init d sort sched num_threads pq_size data
  let p0 := (p.1.getD 0 default).getPartition d
  skyline.marks d sort p.2 accum (p.2 + 1) p.1 [(p0, 0), (p0, 1)] 0 0

end Hybrid

namespace ParallelBSkyTree

/-- The argument pairs of the calls of `DT_dvc` that the single-threaded nest makes, in
order; the recursion is that of `sequentialHeads`. -/
def sequentialHeads.calls (d : Nat) :
    Nat → List TUPLE_S → List Bool → Int → Int → Int → List (TUPLE × TUPLE)
  | 0, _, _, _, _, _ => []
  | fuel + 1, S, dead, htail, th, c =>
    if th ≤ htail then
      if c ≤ htail then
        let sth := S.getD th.toNat default
        let sc := S.getD c.toNat default
        let shtail := S.getD htail.toNat default
        if sth.pid = sc.pid then
          sequentialHeads.calls d fuel (S.set c.toNat shtail) (dead.set htail.toNat true)
            (htail - 1) th c
        else
          let dt_test := DT_dvc d sth.toTUPLE sc.toTUPLE
          (sth.toTUPLE, sc.toTUPLE) ::
            (if dt_test = DOM_LEFT then
              sequentialHeads.calls d fuel (S.set c.toNat shtail) (dead.set htail.toNat true)
                (htail - 1) th c
            else if dt_test = DOM_RIGHT then
              let S1 := S.set th.toNat sc
              sequentialHeads.calls d fuel (S1.set c.toNat (S1.getD htail.toNat default))
                (dead.set htail.toNat true) (htail - 1) th (th + 1)
            else sequentialHeads.calls d fuel S dead htail th (c + 1))
      else sequentialHeads.calls d fuel S dead htail (th + 1) (th + 2)
    else []

/-- The calls of `DT_dvc` made by the single-threaded nest in the first iteration of the
main loop of `BSkyTreeS_ALGO`. -/
def firstNestCalls (d : Nat) (data : List TUPLE_S) : Option (List (TUPLE × TUPLE)) :=
  match SelectBalanced d data with
  | none => none
  | some data1 =>
    let p := DoPartioning d data1 []
    let S := p.1
    let dead := List.replicate S.length false
    let head : Int := 1
    let tail : Int := (S.length : Int) - 1
    if head < tail then
      let htail := if head + BSKYTREE_ACCUM - 1 < tail then head + BSKYTREE_ACCUM - 1 else tail
      match parallelHeads d htail tail S.length
          (List.range' head.toNat (htail - head + 1).toNat) S dead with
      | none => none
      | some (S1, dead1) =>
        some (sequentialHeads.calls d ((S.length + 1) * (S.length + 1) + 1) S1 dead1 htail head
          (head + 1))
    else some []

/-- The array `data_` that `DoPartioning` leaves, as `(pid, partition)` pairs, and `eqm_`,
when `SelectBalanced` and `DoPartioning` run on the rows `dataset`. -/
def partitioned (d : Nat) (dataset : List (List ℚ)) : Option (List (Nat × Nat) × List Nat) :=
  (SelectBalanced d (Init dataset)).map (fun data1 =>
    let p := DoPartioning d data1 []
    (p.1.map (fun t => (t.pid, t.partition)), p.2))

end ParallelBSkyTree

/-- Four tuples in two dimensions: the second and the third are equal and dominate the
first. -/
def blockTuples : List TUPLE :=
  [{ elems := [1/2, 1/2], pid := 0 }, { elems := [1/4, 1/4], pid := 1 },
   { elems := [1/4, 1/4], pid := 2 }, { elems := [3/4, 0], pid := 3 }]

/-- Four tuples in two dimensions, two dominance-free halves: the first tuple dominates
the last. -/
def mergeTuples : List TUPLE :=
  [{ elems := [1, 2], pid := 0 }, { elems := [2, 1], pid := 1 },
   { elems := [1/2, 5], pid := 2 }, { elems := [3, 3], pid := 3 }]

/-- Two scored tuples in two dimensions; the first dominates the second. -/
def scoredPair : List STUPLE :=
  [{ elems := [1, 2], pid := 0, score := 3 }, { elems := [2, 2], pid := 1, score := 4 }]

/-- Two encoded tuples in two dimensions, both in partition `0`. -/
def encodedPair : List EPTUPLE :=
  [{ elems := [1, 2], pid := 0, score := 3, partition := 0 },
   { elems := [2, 1], pid := 1, score := 3, partition := 0 }]

/-- Three rows in two dimensions; the first two dominate the last and are not dominated. -/
def wrapRows : List (List ℚ) := [[1, 2], [2, 1], [3, 3]]

/-- Three rows in two dimensions; the last two are equal. -/
def tieRows : List (List ℚ) := [[0, 1], [1, 0], [1, 0]]

/-- Four rows in two dimensions, each the centre of the region left by the one before:
the tree built on them is a chain. -/
def chainRows : List (List ℚ) := [[1/2, 1/2], [3/4, 1/4], [7/8, 1/8], [15/16, 1/16]]

/-! # Theorems -/

/-! ## Dominance: order facts -/

theorem Dominates.weak {d : Nat} {p q : TUPLE} (h : Dominates d p q) : WeakDom d p q := h.1

theorem Dominates.irrefl (d : Nat) (p : TUPLE) : ¬ Dominates d p p := by
  rintro ⟨_, i, _, hi⟩
  exact lt_irrefl _ hi

theorem WeakDom.refl (d : Nat) (p : TUPLE) : WeakDom d p p := fun _ _ => le_refl _

theorem WeakDom.trans_weak {d : Nat} {p q r : TUPLE} (h1 : WeakDom d p q) (h2 : WeakDom d q r) :
    WeakDom d p r := fun i hi => le_trans (h1 i hi) (h2 i hi)

theorem Dominates.trans {d : Nat} {p q r : TUPLE} (h1 : Dominates d p q) (h2 : Dominates d q r) :
    Dominates d p r := by
  obtain ⟨i, hi, hlt⟩ := h1.2
  exact ⟨fun j hj => le_trans (h1.1 j hj) (h2.1 j hj), i, hi, lt_of_lt_of_le hlt (h2.1 i hi)⟩

theorem Dominates.of_weak_left {d : Nat} {p q r : TUPLE} (h1 : WeakDom d p q)
    (h2 : Dominates d q r) : Dominates d p r := by
  obtain ⟨i, hi, hlt⟩ := h2.2
  exact ⟨fun j hj => le_trans (h1 j hj) (h2.1 j hj), i, hi, lt_of_le_of_lt (h1 i hi) hlt⟩

theorem Dominates.of_weak_right {d : Nat} {p q r : TUPLE} (h1 : Dominates d p q)
    (h2 : WeakDom d q r) : Dominates d p r := by
  obtain ⟨i, hi, hlt⟩ := h1.2
  exact ⟨fun j hj => le_trans (h1.1 j hj) (h2 j hj), i, hi, lt_of_lt_of_le hlt (h2 i hi)⟩

theorem Dominates.asymm {d : Nat} {p q : TUPLE} (h1 : Dominates d p q) : ¬ Dominates d q p :=
  fun h2 => Dominates.irrefl d p (h1.trans h2)

theorem CoordEq.symm {d : Nat} {p q : TUPLE} (h : CoordEq d p q) : CoordEq d q p :=
  fun i hi => (h i hi).symm

theorem CoordEq.toWeakDom {d : Nat} {p q : TUPLE} (h : CoordEq d p q) : WeakDom d p q :=
  fun i hi => le_of_eq (h i hi)

theorem CoordEq.not_dominates {d : Nat} {p q : TUPLE} (h : CoordEq d p q) :
    ¬ Dominates d p q := by
  rintro ⟨_, i, hi, hlt⟩
  exact absurd (h i hi) (ne_of_lt hlt)

/-- Weak dominance is either strict dominance or coordinate equality. -/
theorem WeakDom.dominates_or_coordEq {d : Nat} {p q : TUPLE} (h : WeakDom d p q) :
    Dominates d p q ∨ CoordEq d p q := by
  by_cases hc : CoordEq d p q
  · exact Or.inr hc
  · left
    simp only [CoordEq, not_forall] at hc
    obtain ⟨i, hi, hne⟩ := hc
    exact ⟨h, i, hi, lt_of_le_of_ne (h i hi) hne⟩

theorem Dominates.congr_right {d : Nat} {p q r : TUPLE} (h : Dominates d p q)
    (e : CoordEq d q r) : Dominates d p r := h.of_weak_right e.toWeakDom

theorem Dominates.congr_left {d : Nat} {p q r : TUPLE} (h : Dominates d q r)
    (e : CoordEq d p q) : Dominates d p r := Dominates.of_weak_left e.toWeakDom h

/-! ## The scalar dominance tests decide the specification's relation -/

theorem DominanceTest.loop_sound (t1 t2 : TUPLE) (ls : List Nat) (b1 b2 : Bool)
    (hb : ¬ (b1 = true ∧ b2 = true)) :
    (DominanceTest.loop t1 t2 ls b1 b2 = DOM_LEFT ↔
      (b2 = false ∧ (∀ i ∈ ls, t1.elem i ≤ t2.elem i) ∧
        (b1 = true ∨ ∃ i ∈ ls, t1.elem i < t2.elem i))) ∧
    (DominanceTest.loop t1 t2 ls b1 b2 = DOM_RIGHT ↔
      (b1 = false ∧ (∀ i ∈ ls, t2.elem i ≤ t1.elem i) ∧
        (b2 = true ∨ ∃ i ∈ ls, t2.elem i < t1.elem i))) := by
  induction ls generalizing b1 b2 with
  | nil =>
    cases b1 <;> cases b2 <;> simp [DominanceTest.loop, DOM_LEFT, DOM_RIGHT, DOM_INCOMP] at hb ⊢
  | cons i rest ih =>
    have e1 : DOM_INCOMP ≠ DOM_LEFT := by decide
    have e2 : DOM_INCOMP ≠ DOM_RIGHT := by decide
    have ih00 := ih false false (by simp)
    have ih10 := ih true false (by simp)
    have ih01 := ih false true (by simp)
    simp only [List.mem_cons, forall_eq_or_imp, exists_eq_or_imp]
    have hstep : DominanceTest.loop t1 t2 (i :: rest) b1 b2 =
        (if ((if t1.elem i < t2.elem i then true else b1) &&
            (if t1.elem i < t2.elem i then b2
              else if t1.elem i > t2.elem i then true else b2)) = true then DOM_INCOMP
         else DominanceTest.loop t1 t2 rest (if t1.elem i < t2.elem i then true else b1)
            (if t1.elem i < t2.elem i then b2
              else if t1.elem i > t2.elem i then true else b2)) := rfl
    rw [hstep]
    clear hstep ih
    generalize t1.elem i = x
    generalize t2.elem i = y
    rcases lt_trichotomy x y with hlt | heq | hgt
    · have h1 : x ≤ y := le_of_lt hlt
      have h2 : ¬ y ≤ x := not_le.mpr hlt
      have h3 : ¬ y < x := not_lt.mpr h1
      rw [if_pos hlt, if_pos hlt]
      cases b2 with
      | true =>
        clear ih00 ih10 ih01
        simp [hlt, h1, h2, h3, e1, e2]
      | false =>
        simp only [Bool.and_false, Bool.false_eq_true, if_false]
        rw [ih10.1, ih10.2]
        clear ih00 ih10 ih01
        simp [hlt, h1, h2, h3]
    · have h1 : x ≤ y := le_of_eq heq
      have h2 : y ≤ x := le_of_eq heq.symm
      have h3 : ¬ y < x := not_lt.mpr h1
      have h4 : ¬ x < y := not_lt.mpr h2
      have h5 : ¬ x > y := h3
      rw [if_neg h4, if_neg h4, if_neg h5]
      cases b1 <;> cases b2
      · simp only [Bool.and_self, Bool.false_eq_true, if_false]
        rw [ih00.1, ih00.2]; clear ih00 ih10 ih01
        simp [h1, h2, h3, h4]
      · simp only [Bool.false_and, Bool.false_eq_true, if_false]
        rw [ih01.1, ih01.2]; clear ih00 ih10 ih01
        simp [h1, h2, h3, h4]
      · simp only [Bool.and_false, Bool.false_eq_true, if_false]
        rw [ih10.1, ih10.2]; clear ih00 ih10 ih01
        simp [h1, h2, h3, h4]
      · exact absurd ⟨rfl, rfl⟩ hb
    · have h1 : y ≤ x := le_of_lt hgt
      have h2 : ¬ x ≤ y := not_le.mpr hgt
      have h3 : ¬ x < y := not_lt.mpr h1
      have h5 : x > y := hgt
      rw [if_neg h3, if_neg h3, if_pos h5]
      cases b1 with
      | true =>
        clear ih00 ih10 ih01
        simp [hgt, h1, h2, h3, e1, e2]
      | false =>
        simp only [Bool.false_and, Bool.false_eq_true, if_false]
        rw [ih01.1, ih01.2]
        clear ih00 ih10 ih01
        simp [hgt, h1, h2, h3]

theorem DominanceTest_left_iff (d : Nat) (t1 t2 : TUPLE) :
    DominanceTest d t1 t2 = DOM_LEFT ↔ Dominates d t1 t2 := by
  have := (DominanceTest.loop_sound t1 t2 (List.range d) false false (by simp)).1
  rw [DominanceTest, this]
  simp [Dominates, List.mem_range]

theorem DominanceTest_right_iff (d : Nat) (t1 t2 : TUPLE) :
    DominanceTest d t1 t2 = DOM_RIGHT ↔ Dominates d t2 t1 := by
  have := (DominanceTest.loop_sound t1 t2 (List.range d) false false (by simp)).2
  rw [DominanceTest, this]
  simp [Dominates, List.mem_range]

theorem DominateLeft_iff (d : Nat) (t1 t2 : TUPLE) :
    DominateLeft d t1 t2 = true ↔ Dominates d t1 t2 := by
  simp only [DominateLeft, Dominates]
  by_cases h : ∀ i, i < d → t1.elem i ≤ t2.elem i
  · have : (List.range d).all (fun i => decide (t1.elem i ≤ t2.elem i)) = true := by
      simpa [List.all_eq_true] using h
    simp only [this, if_true, List.any_eq_true, List.mem_range, decide_eq_true_eq]
    exact ⟨fun h' => ⟨h, h'⟩, fun h' => h'.2⟩
  · have : ¬ ((List.range d).all (fun i => decide (t1.elem i ≤ t2.elem i)) = true) := by
      simpa [List.all_eq_true] using h
    simp only [this, if_false]
    constructor
    · intro h'; exact absurd h' (by simp)
    · intro h'; exact absurd h'.1 h

theorem DominatedLeft_iff (d : Nat) (t1 t2 : TUPLE) :
    DominatedLeft d t1 t2 = true ↔ WeakDom d t2 t1 := by
  simp [DominatedLeft, WeakDom, List.all_eq_true]

theorem EqualityTest_iff (d : Nat) (t1 t2 : TUPLE) :
    EqualityTest d t1 t2 = true ↔ CoordEq d t1 t2 := by
  simp [EqualityTest, CoordEq, List.all_eq_true]

/-! ## Lists read through `getD` -/

theorem getD_mem {α : Type} [Inhabited α] {l : List α} {j : Nat} (h : j < l.length) :
    l.getD j default ∈ l := by
  rw [List.getD_eq_getElem _ _ h]
  exact List.getElem_mem h

theorem mem_iff_getD {α : Type} [Inhabited α] {l : List α} {p : α} :
    p ∈ l ↔ ∃ j, j < l.length ∧ l.getD j default = p := by
  constructor
  · intro h
    obtain ⟨n, hn, e⟩ := List.mem_iff_getElem.mp h
    exact ⟨n, hn, by rw [List.getD_eq_getElem _ _ hn]; exact e⟩
  · rintro ⟨j, hj, e⟩
    exact e ▸ getD_mem hj

theorem getD_set {α : Type} [Inhabited α] (l : List α) (i j : Nat) (a : α) (hj : j < l.length) :
    (l.set i a).getD j default = if i = j then a else l.getD j default := by
  have h1 : j < (l.set i a).length := by simpa using hj
  rw [List.getD_eq_getElem _ _ h1, List.getD_eq_getElem _ _ hj, List.getElem_set]

theorem getD_dropLast {α : Type} [Inhabited α] (l : List α) (j : Nat) (hj : j < l.length - 1) :
    l.dropLast.getD j default = l.getD j default := by
  have h1 : j < l.dropLast.length := by simpa using hj
  have h2 : j < l.length := by omega
  rw [List.getD_eq_getElem _ _ h1, List.getD_eq_getElem _ _ h2, List.getElem_dropLast]

namespace PivotSelection

theorem length_popAt (ds : List TUPLE) (cp : Nat) : (popAt ds cp).length = ds.length - 1 := by
  simp [popAt]

theorem getD_popAt (ds : List TUPLE) (cp j : Nat) (hj : j < ds.length - 1) :
    (popAt ds cp).getD j default =
      if cp = j then ds.getD (ds.length - 1) default else ds.getD j default := by
  unfold popAt
  rw [getD_dropLast _ _ (by simpa using hj), getD_set _ _ _ _ (by omega)]

theorem length_swapHead (ds : List TUPLE) (cp : Nat) : (swapHead ds cp).length = ds.length := by
  simp [swapHead]

theorem getD_swapHead (ds : List TUPLE) (cp j : Nat) (hj : j < ds.length) :
    (swapHead ds cp).getD j default =
      if cp = j then ds.getD 0 default
      else if 0 = j then ds.getD cp default else ds.getD j default := by
  unfold swapHead
  rw [getD_set _ _ _ _ (by simpa using hj), getD_set _ _ _ _ hj]

/-- `ComputeDistance` reads only the first `d` coordinates. -/
theorem ComputeDistance.loop_congr (v w ml rl : List ℚ) (ks : List Nat)
    (h : ∀ k ∈ ks, v.getD k 0 = w.getD k 0) (mx mn : ℚ) :
    ComputeDistance.loop v ml rl ks mx mn = ComputeDistance.loop w ml rl ks mx mn := by
  induction ks generalizing mx mn with
  | nil => rfl
  | cons k rest ih =>
    have hk := h k (List.mem_cons_self _ _)
    have ih' := fun mx mn => ih (fun k hk => h k (List.mem_cons_of_mem _ hk)) mx mn
    simp only [ComputeDistance.loop, hk, ih']

theorem ComputeDistance_congr (d : Nat) (hd : 0 < d) (a b : TUPLE) (ml rl : List ℚ)
    (h : CoordEq d a b) :
    ComputeDistance d a.elems ml rl = ComputeDistance d b.elems ml rl := by
  unfold ComputeDistance
  have h0 : a.elems.getD 0 0 = b.elems.getD 0 0 := h 0 hd
  rw [h0]
  apply ComputeDistance.loop_congr
  intro k hk
  have : k ∈ List.range d := List.mem_of_mem_tail hk
  exact h k (List.mem_range.mp this)

theorem EvaluatePoint_iff (d pos : Nat) (ds : List TUPLE) :
    EvaluatePoint d pos ds = true ↔
      ∀ i, i < pos → ¬ WeakDom d (ds.getD i default) (ds.getD pos default) := by
  simp only [EvaluatePoint, List.all_eq_true, List.mem_range, Bool.not_eq_true']
  constructor
  · intro h i hi hw
    have := h i hi
    rw [← Bool.not_eq_true, DominatedLeft_iff] at this
    exact this hw
  · intro h i hi
    rw [← Bool.not_eq_true, DominatedLeft_iff]
    exact h i hi

end PivotSelection

namespace PivotSelection

theorem Inv.remove {d : Nat} {ml rl : List ℚ} {orig ds : List TUPLE} {cp : Nat} {md : ℚ}
    (inv : Inv d ml rl orig ds cp md) (hcp : cp ≤ ds.length - 1) (i : Nat) (hi : i < cp)
    (hdom : Dominates d (ds.getD i default) (ds.getD cp default)) :
    Inv d ml rl orig (popAt ds cp) cp md := by
  have hlen := inv.len
  have hcp1 := inv.cp1
  have hL : (popAt ds cp).length = ds.length - 1 := length_popAt ds cp
  have g0 : (popAt ds cp).getD 0 default = ds.getD 0 default := by
    rw [getD_popAt _ _ _ (by omega), if_neg (by omega)]
  refine ⟨by omega, hcp1, by rw [g0]; exact inv.md_eq, ?_, ?_, ?_⟩
  · intro j hj
    rw [hL] at hj
    rw [getD_popAt _ _ _ hj]
    split
    · exact inv.sub _ (by omega)
    · exact inv.sub _ (by omega)
  · intro p hp
    obtain ⟨j, hj, hc⟩ := inv.cover p hp
    by_cases hjc : j = cp
    · subst hjc
      refine ⟨i, by omega, Or.inr ?_⟩
      rw [getD_popAt _ _ _ (by omega), if_neg (by omega)]
      rcases hc with h | h
      · exact h ▸ hdom
      · exact hdom.trans h
    · by_cases hjl : j = ds.length - 1
      · refine ⟨cp, by omega, ?_⟩
        rw [getD_popAt _ _ _ (by omega), if_pos rfl]
        rw [hjl] at hc
        exact hc
      · refine ⟨j, by omega, ?_⟩
        rw [getD_popAt _ _ _ (by omega), if_neg (fun h => hjc h.symm)]
        exact hc
  · intro j h1 h2 h3
    rw [hL] at h3
    rw [g0, getD_popAt _ _ _ h3, if_neg (by omega)]
    exact inv.seen j h1 h2 (by omega)

theorem Inv.domRight {d : Nat} {ml rl : List ℚ} {orig ds : List TUPLE} {cp : Nat} {md : ℚ}
    (inv : Inv d ml rl orig ds cp md) (hcp : cp ≤ ds.length - 1)
    (hdom : Dominates d (ds.getD cp default) (ds.getD 0 default)) :
    Inv d ml rl orig (popAt (ds.set 0 (ds.getD cp default)) cp) 1
      (ComputeDistance d ((popAt (ds.set 0 (ds.getD cp default)) cp).getD 0 default).elems
        ml rl) := by
  have hlen := inv.len
  have hcp1 := inv.cp1
  have hL : (popAt (ds.set 0 (ds.getD cp default)) cp).length = ds.length - 1 := by
    rw [length_popAt]; simp
  have g : ∀ j, j < ds.length - 1 →
      (popAt (ds.set 0 (ds.getD cp default)) cp).getD j default =
        if cp = j then ds.getD (ds.length - 1) default
        else if 0 = j then ds.getD cp default else ds.getD j default := by
    intro j hj
    rw [getD_popAt _ _ _ (by simpa using hj)]
    simp only [List.length_set]
    rw [getD_set _ _ _ _ (by omega), getD_set _ _ _ _ (by omega)]
    split
    · rw [if_neg (by omega)]
    · rfl
  refine ⟨by omega, le_refl _, rfl, ?_, ?_, ?_⟩
  · intro j hj
    rw [hL] at hj
    rw [g j hj]
    split
    · exact inv.sub _ (by omega)
    · split
      · exact inv.sub _ (by omega)
      · exact inv.sub _ (by omega)
  · intro p hp
    obtain ⟨j, hj, hc⟩ := inv.cover p hp
    by_cases hj0 : j = 0
    · subst hj0
      refine ⟨0, by omega, Or.inr ?_⟩
      rw [g 0 (by omega), if_neg (by omega), if_pos rfl]
      rcases hc with h | h
      · exact h ▸ hdom
      · exact hdom.trans h
    · by_cases hjc : j = cp
      · subst hjc
        refine ⟨0, by omega, ?_⟩
        rw [g 0 (by omega), if_neg (by omega), if_pos rfl]
        exact hc
      · by_cases hjl : j = ds.length - 1
        · refine ⟨cp, by omega, ?_⟩
          rw [g cp (by omega), if_pos rfl]
          rw [hjl] at hc
          exact hc
        · refine ⟨j, by omega, ?_⟩
          rw [g j (by omega), if_neg (fun h => hjc h.symm), if_neg (fun h => hj0 h.symm)]
          exact hc
  · intro j h1 h2
    omega

theorem Inv.swap {d : Nat} {ml rl : List ℚ} {orig ds : List TUPLE} {cp : Nat} {md : ℚ}
    (inv : Inv d ml rl orig ds cp md) (hcp : cp ≤ ds.length - 1)
    (hnl : ¬ Dominates d (ds.getD 0 default) (ds.getD cp default))
    (hlt : ComputeDistance d (ds.getD cp default).elems ml rl < md)
    (hev : EvaluatePoint d cp ds = true) :
    Inv d ml rl orig (swapHead ds cp) (cp + 1)
      (ComputeDistance d (ds.getD cp default).elems ml rl) := by
  have hlen := inv.len
  have hcp1 := inv.cp1
  have hL : (swapHead ds cp).length = ds.length := length_swapHead ds cp
  have g0 : (swapHead ds cp).getD 0 default = ds.getD cp default := by
    rw [getD_swapHead _ _ _ (by omega), if_neg (by omega), if_pos rfl]
  have gc : (swapHead ds cp).getD cp default = ds.getD 0 default := by
    rw [getD_swapHead _ _ _ (by omega), if_pos rfl]
  have gj : ∀ j, j < ds.length → j ≠ 0 → j ≠ cp →
      (swapHead ds cp).getD j default = ds.getD j default := by
    intro j hj h0 hc
    rw [getD_swapHead _ _ _ hj, if_neg (fun h => hc h.symm), if_neg (fun h => h0 h.symm)]
  rw [EvaluatePoint_iff] at hev
  refine ⟨by omega, by omega, by rw [g0], ?_, ?_, ?_⟩
  · intro j hj
    rw [hL] at hj
    by_cases h0 : j = 0
    · subst h0; rw [g0]; exact inv.sub _ (by omega)
    · by_cases hc : j = cp
      · subst hc; rw [gc]; exact inv.sub _ (by omega)
      · rw [gj j hj h0 hc]; exact inv.sub _ hj
  · intro p hp
    obtain ⟨j, hj, hc⟩ := inv.cover p hp
    by_cases h0 : j = 0
    · subst h0
      exact ⟨cp, by omega, by rw [gc]; exact hc⟩
    · by_cases hjc : j = cp
      · subst hjc
        exact ⟨0, by omega, by rw [g0]; exact hc⟩
      · exact ⟨j, by omega, by rw [gj j hj h0 hjc]; exact hc⟩
  · intro j h1 h2 h3
    rw [hL] at h3
    rw [g0]
    by_cases hjc : j = cp
    · subst hjc
      rw [gc, ← inv.md_eq]
      exact ⟨hnl, le_of_lt hlt, fun _ => hlt⟩
    · rw [gj j h3 (by omega) hjc]
      have hs := inv.seen j h1 (by omega) h3
      have hlt' := lt_of_lt_of_le hlt hs.2.1
      exact ⟨fun h => hev j (by omega) h.weak, le_of_lt hlt', fun _ => hlt'⟩

theorem Inv.advance {d : Nat} {ml rl : List ℚ} {orig ds : List TUPLE} {cp : Nat} {md : ℚ}
    (inv : Inv d ml rl orig ds cp md)
    (hnl : ¬ Dominates d (ds.getD 0 default) (ds.getD cp default))
    (hnr : ¬ Dominates d (ds.getD cp default) (ds.getD 0 default))
    (hge : ¬ ComputeDistance d (ds.getD cp default).elems ml rl < md) :
    Inv d ml rl orig ds (cp + 1) md := by
  refine ⟨inv.len, by have := inv.cp1; omega, inv.md_eq, inv.sub, inv.cover, ?_⟩
  intro j h1 h2 h3
  by_cases hjc : j = cp
  · subst hjc
    exact ⟨hnr, not_lt.mp hge, fun h => absurd h hnl⟩
  · exact inv.seen j h1 (by omega) h3

theorem Inv.evalFalse {d : Nat} (hd : 0 < d) {ml rl : List ℚ} {orig ds : List TUPLE}
    {cp : Nat} {md : ℚ}
    (inv : Inv d ml rl orig ds cp md) (hcp : cp ≤ ds.length - 1)
    (hlt : ComputeDistance d (ds.getD cp default).elems ml rl < md)
    (hev : ¬ EvaluatePoint d cp ds = true) :
    Inv d ml rl orig (popAt ds cp) cp md := by
  rw [EvaluatePoint_iff] at hev
  simp only [not_forall, not_not] at hev
  obtain ⟨i, hi, hw⟩ := hev
  have hlen := inv.len
  refine inv.remove hcp i hi ?_
  rcases hw.dominates_or_coordEq with h | h
  · exact h
  · exfalso
    have he := ComputeDistance_congr d hd _ _ ml rl h
    by_cases h0 : i = 0
    · subst h0
      rw [← he, ← inv.md_eq] at hlt
      exact lt_irrefl _ hlt
    · have hs := inv.seen i (by omega) hi (by omega)
      rw [he] at hs
      exact absurd hlt (not_lt.mpr hs.2.1)

/-- The loop returns within the fuel given by its variant, and the invariant holds of the
result with `cur_pos` past the end. -/
theorem Execute.loop_inv {d : Nat} (hd : 0 < d) (ml rl : List ℚ) (orig : List TUPLE) :
    ∀ (fuel : Nat) (ds : List TUPLE) (cp : Nat) (md : ℚ),
      Inv d ml rl orig ds cp md →
      ds.length * (ds.length + 1) + (ds.length + 1 - cp) < fuel →
      ∃ r md', Execute.loop d ml rl fuel ds cp md = some r ∧ r.length ≤ ds.length ∧
        Inv d ml rl orig r r.length md' := by
  intro fuel
  induction fuel with
  | zero => intro ds cp md _ h; omega
  | succ fuel ih =>
    intro ds cp md inv hfuel
    have hlen := inv.len
    have hcp1 := inv.cp1
    rw [Execute.loop]
    by_cases hcp : cp ≤ ds.length - 1
    · rw [if_pos hcp]
      have hmul : (ds.length - 1) * (ds.length - 1 + 1) + (ds.length - 1 + 1)
          ≤ ds.length * (ds.length + 1) := by
        have e : ds.length - 1 + 1 = ds.length := by omega
        rw [e]
        nlinarith
      simp only []
      by_cases hl : DominanceTest d (ds.getD 0 default) (ds.getD cp default) = DOM_LEFT
      · rw [if_pos hl]
        have inv' := inv.remove hcp 0 (by omega) ((DominanceTest_left_iff _ _ _).mp hl)
        obtain ⟨r, md', h1, h2, h3⟩ := ih _ _ _ inv' (by rw [length_popAt]; omega)
        exact ⟨r, md', h1, by rw [length_popAt] at h2; omega, h3⟩
      · rw [if_neg hl]
        by_cases hr : DominanceTest d (ds.getD 0 default) (ds.getD cp default) = DOM_RIGHT
        · rw [if_pos hr]
          have inv' := inv.domRight hcp ((DominanceTest_right_iff _ _ _).mp hr)
          have hL : (popAt (ds.set 0 (ds.getD cp default)) cp).length = ds.length - 1 := by
            rw [length_popAt]; simp
          obtain ⟨r, md', h1, h2, h3⟩ := ih _ _ _ inv' (by rw [hL]; omega)
          exact ⟨r, md', h1, by rw [hL] at h2; omega, h3⟩
        · rw [if_neg hr]
          have hnl : ¬ Dominates d (ds.getD 0 default) (ds.getD cp default) :=
            fun h => hl ((DominanceTest_left_iff _ _ _).mpr h)
          have hnr : ¬ Dominates d (ds.getD cp default) (ds.getD 0 default) :=
            fun h => hr ((DominanceTest_right_iff _ _ _).mpr h)
          by_cases hlt : ComputeDistance d (ds.getD cp default).elems ml rl < md
          · rw [if_pos hlt]
            by_cases hev : EvaluatePoint d cp ds = true
            · rw [if_pos hev]
              have inv' := inv.swap hcp hnl hlt hev
              obtain ⟨r, md', h1, h2, h3⟩ := ih _ _ _ inv' (by rw [length_swapHead]; omega)
              exact ⟨r, md', h1, by rw [length_swapHead] at h2; omega, h3⟩
            · rw [if_neg hev]
              have inv' := inv.evalFalse hd hcp hlt hev
              obtain ⟨r, md', h1, h2, h3⟩ := ih _ _ _ inv' (by rw [length_popAt]; omega)
              exact ⟨r, md', h1, by rw [length_popAt] at h2; omega, h3⟩
          · rw [if_neg hlt]
            have inv' := inv.advance hnl hnr hlt
            obtain ⟨r, md', h1, h2, h3⟩ := ih _ _ _ inv' (by omega)
            exact ⟨r, md', h1, h2, h3⟩
    · rw [if_neg hcp]
      refine ⟨ds, md, rfl, le_refl _, inv.len, inv.len, inv.md_eq, inv.sub, inv.cover, ?_⟩
      intro j h1 _ h3
      exact inv.seen j h1 (by omega) h3

/-- Summary of `PivotSelection::Execute` on a non-empty dataset. -/
theorem Execute_spec {d : Nat} (hd : 0 < d) (min_list max_list : List ℚ) (ds : List TUPLE)
    (hne : ds ≠ []) :
    ∃ r, Execute d min_list max_list ds = some r ∧ 1 ≤ r.length ∧ r.length ≤ ds.length ∧
      (∀ p ∈ r, p ∈ ds) ∧
      (∀ p ∈ ds, p ∈ r ∨ ∃ q ∈ r, Dominates d q p) ∧
      (∀ q ∈ ds, ¬ Dominates d q (r.getD 0 default)) ∧
      (∀ j, 1 ≤ j → j < r.length → Dominates d (r.getD 0 default) (r.getD j default) →
        ComputeDistance d (r.getD 0 default).elems min_list
            (SetRangeList d min_list max_list)
          < ComputeDistance d (r.getD j default).elems min_list
            (SetRangeList d min_list max_list)) := by
  have hlen : 1 ≤ ds.length := by
    cases ds with
    | nil => exact absurd rfl hne
    | cons _ _ => simp
  have inv0 : Inv d min_list (SetRangeList d min_list max_list) ds ds 1
      (ComputeDistance d (ds.getD 0 default).elems min_list
        (SetRangeList d min_list max_list)) := by
    refine ⟨hlen, le_refl _, rfl, fun j hj => getD_mem hj, ?_, ?_⟩
    · intro p hp
      obtain ⟨j, hj, e⟩ := mem_iff_getD.mp hp
      exact ⟨j, hj, Or.inl e⟩
    · intro j h1 h2; omega
  obtain ⟨r, md', h1, h2, inv⟩ :=
    Execute.loop_inv hd min_list _ ds ((ds.length + 1) * (ds.length + 1)) ds 1 _ inv0
      (by rw [Nat.add_sub_cancel]; nlinarith)
  refine ⟨r, ?_, inv.len, h2, ?_, ?_, ?_, ?_⟩
  · unfold Execute
    rw [if_neg hne]
    exact h1
  · intro p hp
    obtain ⟨j, hj, e⟩ := mem_iff_getD.mp hp
    exact e ▸ inv.sub j hj
  · intro p hp
    obtain ⟨j, hj, hc⟩ := inv.cover p hp
    rcases hc with h | h
    · exact Or.inl (h ▸ getD_mem hj)
    · exact Or.inr ⟨_, getD_mem hj, h⟩
  · intro q hq hdom
    obtain ⟨j, hj, hc⟩ := inv.cover q hq
    have hdj : Dominates d (r.getD j default) (r.getD 0 default) := by
      rcases hc with h | h
      · exact h ▸ hdom
      · exact h.trans hdom
    by_cases h0 : j = 0
    · subst h0; exact Dominates.irrefl _ _ hdj
    · exact (inv.seen j (by omega) hj hj).1 hdj
  · intro j hj1 hj2 hdom
    have := (inv.seen j hj1 hj2 hj2).2.2 hdom
    rw [inv.md_eq] at this
    exact this

end PivotSelection

/-! ## Bitmaps -/

/-- Bits of a mask built by the loop shared by `DT_bitmap_dvc` and `DT_bitmap`. -/
theorem testBit_foldl_mask (c : Nat → Prop) [DecidablePred c] (ls : List Nat) (acc i : Nat) :
    (ls.foldl (fun lattice dim => if c dim then lattice ||| SHIFTS dim else lattice) acc).testBit i
      = (acc.testBit i || decide (i ∈ ls ∧ c i)) := by
  induction ls generalizing acc with
  | nil => simp
  | cons k rest ih =>
    rw [List.foldl_cons, ih]
    by_cases hk : c k
    · rw [if_pos hk, Nat.testBit_or, SHIFTS, Nat.testBit_two_pow]
      by_cases hki : k = i
      · subst hki
        simp [hk]
      · have : ¬ i = k := fun h => hki h.symm
        simp [hki, this]
    · rw [if_neg hk]
      by_cases hki : k = i
      · subst hki
        simp [hk]
      · have : ¬ i = k := fun h => hki h.symm
        simp [this]

theorem DT_bitmap_dvc_testBit (d : Nat) (cur sky : TUPLE) (i : Nat) :
    (DT_bitmap_dvc d cur sky).testBit i = decide (i < d ∧ sky.elem i ≤ cur.elem i) := by
  unfold DT_bitmap_dvc
  rw [testBit_foldl_mask (fun dim => sky.elem dim ≤ cur.elem dim)]
  simp [List.mem_range]

theorem DT_bitmap_testBit (d : Nat) (cur sky : TUPLE) (i : Nat) :
    (DT_bitmap d cur sky).testBit i = decide (i < d ∧ sky.elem i < cur.elem i) := by
  unfold DT_bitmap
  rw [testBit_foldl_mask (fun dim => sky.elem dim < cur.elem dim)]
  simp [List.mem_range]

theorem DT_bitmap_dvc_lt (d : Nat) (cur sky : TUPLE) : DT_bitmap_dvc d cur sky < 2 ^ d := by
  apply Nat.lt_pow_two_of_testBit
  intro i hi
  rw [DT_bitmap_dvc_testBit]
  simp
  omega

theorem DT_bitmap_dvc_eq_all_ones_iff (d : Nat) (cur sky : TUPLE) :
    DT_bitmap_dvc d cur sky = 2 ^ d - 1 ↔ WeakDom d sky cur := by
  constructor
  · intro h i hi
    have := DT_bitmap_dvc_testBit d cur sky i
    rw [h, Nat.testBit_two_pow_sub_one] at this
    simpa [hi] using this
  · intro h
    apply Nat.eq_of_testBit_eq
    intro i
    rw [DT_bitmap_dvc_testBit, Nat.testBit_two_pow_sub_one]
    by_cases hi : i < d
    · simp [hi, h i hi]
    · simp [hi]

/-- The test `lattice < pruned` of the sources fails exactly on weakly dominated points. -/
theorem DT_bitmap_dvc_lt_pruned_iff (d : Nat) (cur sky : TUPLE) :
    DT_bitmap_dvc d cur sky < SHIFTS d - 1 ↔ ¬ WeakDom d sky cur := by
  rw [← DT_bitmap_dvc_eq_all_ones_iff, SHIFTS]
  have := DT_bitmap_dvc_lt d cur sky
  omega

/-- Partial dominance: a weakly dominating point has a sub-mask. -/
theorem DT_bitmap_dvc_submask (d : Nat) (q p v : TUPLE) (h : WeakDom d q p) :
    DT_bitmap_dvc d q v &&& DT_bitmap_dvc d p v = DT_bitmap_dvc d q v := by
  apply Nat.eq_of_testBit_eq
  intro i
  rw [Nat.testBit_and, DT_bitmap_dvc_testBit, DT_bitmap_dvc_testBit]
  by_cases hi : i < d
  · by_cases hq : v.elem i ≤ q.elem i
    · have : v.elem i ≤ p.elem i := le_trans hq (h i hi)
      simp [hi, hq, this]
    · simp [hi, hq]
  · simp [hi]

theorem le_of_and_eq_left {a b : Nat} (h : a &&& b = a) : a ≤ b := by
  rw [← h]; exact Nat.and_le_right

theorem DT_bitmap_dvc_congr (d : Nat) (q p v : TUPLE) (h : CoordEq d q p) :
    DT_bitmap_dvc d q v = DT_bitmap_dvc d p v := by
  apply Nat.eq_of_testBit_eq
  intro i
  rw [DT_bitmap_dvc_testBit, DT_bitmap_dvc_testBit]
  by_cases hi : i < d
  · rw [h i hi]
  · simp [hi]

theorem Node.mem_pointsList {t : TUPLE} : ∀ {l : List Node},
    t ∈ Node.pointsList l ↔ ∃ c ∈ l, t ∈ c.points
  | [] => by simp [Node.pointsList]
  | c :: rest => by
    rw [Node.pointsList, List.mem_append, Node.mem_pointsList (l := rest)]
    simp

theorem Node.pointsList_append (a b : List Node) :
    Node.pointsList (a ++ b) = Node.pointsList a ++ Node.pointsList b := by
  induction a with
  | nil => simp [Node.pointsList]
  | cons c rest ih => simp [Node.pointsList, ih]

theorem Node.WFList_iff {d : Nat} {pt : TUPLE} : ∀ {l : List Node},
    Node.WFList d pt l ↔
      ∀ c ∈ l, Node.WF d c ∧ ∀ t ∈ c.points, DT_bitmap_dvc d t pt = c.lattice
  | [] => by simp [Node.WFList]
  | c :: rest => by
    rw [Node.WFList, Node.WFList_iff (l := rest)]
    simp only [List.mem_cons, forall_eq_or_imp]
    tauto

namespace SkyTree

mutual
/-- `FilterPoint` on a tree with the child-order invariant is an exhaustive search for a
weakly dominating point. -/
theorem FilterPoint_iff (d : Nat) (cur : TUPLE) : ∀ (T : Node), T.WF d →
    (FilterPoint d cur T = true ↔ ∃ t ∈ T.points, WeakDom d t cur)
  | .mk l p ch => by
    intro hwf
    rw [Node.WF] at hwf
    rw [FilterPoint, Node.points]
    by_cases hlt : DT_bitmap_dvc d cur p < SHIFTS d - 1
    · rw [if_pos hlt, FilterPoint.loop_iff d cur p ch hwf.1 hwf.2]
      have hnw := (DT_bitmap_dvc_lt_pruned_iff d cur p).mp hlt
      simp only [List.mem_cons, exists_eq_or_imp]
      constructor
      · intro h; exact Or.inr h
      · rintro (h | h)
        · exact absurd h hnw
        · exact h
    · rw [if_neg hlt]
      have hw : WeakDom d p cur := by
        by_contra hc
        exact hlt ((DT_bitmap_dvc_lt_pruned_iff d cur p).mpr hc)
      simp only [List.mem_cons, exists_eq_or_imp, true_iff]
      exact Or.inl hw
theorem FilterPoint.loop_iff (d : Nat) (cur pt : TUPLE) : ∀ (ch : List Node),
    Node.WFList d pt ch → (ch.map Node.lattice).Pairwise (· < ·) →
    (FilterPoint.loop d cur (DT_bitmap_dvc d cur pt) ch = true ↔
      ∃ t ∈ Node.pointsList ch, WeakDom d t cur)
  | [] => by
    intro _ _
    simp [FilterPoint.loop, Node.pointsList]
  | .mk k p ch' :: rest => by
    intro hwf hs
    rw [Node.WFList] at hwf
    rw [List.map_cons, List.pairwise_cons] at hs
    have ih1 := FilterPoint_iff d cur (.mk k p ch') hwf.1
    have ih2 := FilterPoint.loop_iff d cur pt rest hwf.2.2 hs.2
    rw [FilterPoint.loop, Node.pointsList]
    simp only [List.mem_append]
    by_cases hle : k ≤ DT_bitmap_dvc d cur pt
    · rw [if_pos hle]
      by_cases hsub : k &&& DT_bitmap_dvc d cur pt = k
      · rw [if_pos hsub]
        by_cases hf : FilterPoint d cur (.mk k p ch') = true
        · rw [if_pos hf]
          obtain ⟨t, ht, hw⟩ := ih1.mp hf
          simp only [true_iff]
          exact ⟨t, Or.inl ht, hw⟩
        · rw [if_neg hf, ih2]
          constructor
          · rintro ⟨t, ht, hw⟩; exact ⟨t, Or.inr ht, hw⟩
          · rintro ⟨t, ht | ht, hw⟩
            · exact absurd (ih1.mpr ⟨t, ht, hw⟩) hf
            · exact ⟨t, ht, hw⟩
      · rw [if_neg hsub, ih2]
        constructor
        · rintro ⟨t, ht, hw⟩; exact ⟨t, Or.inr ht, hw⟩
        · rintro ⟨t, ht | ht, hw⟩
          · exfalso
            have hb := hwf.2.1 t ht
            have := DT_bitmap_dvc_submask d t cur pt hw
            rw [hb] at this
            exact hsub this
          · exact ⟨t, ht, hw⟩
    · rw [if_neg hle]
      simp only [Bool.false_eq_true, false_iff, not_exists, not_and]
      intro t ht hw
      have hsubm := DT_bitmap_dvc_submask d t cur pt hw
      have hle' := le_of_and_eq_left hsubm
      rcases ht with ht | ht
      · have hb := hwf.2.1 t ht
        rw [hb] at hle'
        exact hle hle'
      · obtain ⟨c, hc, htc⟩ := Node.mem_pointsList.mp ht
        have hb := (Node.WFList_iff.mp hwf.2.2 c hc).2 t htc
        rw [hb] at hle'
        have hk : k < c.lattice := hs.1 c.lattice (List.mem_map.mpr ⟨c, hc, rfl⟩)
        have hk' : (Node.mk k p ch').lattice = k := rfl
        omega
end

end SkyTree

namespace PivotSelection

theorem mem_popAt {ds : List TUPLE} {it : Nat} (hit : it < ds.length) {p : TUPLE} :
    p ∈ popAt ds it ↔ ∃ j, j < ds.length ∧ j ≠ it ∧ ds.getD j default = p := by
  rw [mem_iff_getD, length_popAt]
  constructor
  · rintro ⟨j, hj, e⟩
    rw [getD_popAt _ _ _ hj] at e
    by_cases h : it = j
    · rw [if_pos h] at e
      exact ⟨ds.length - 1, by omega, by omega, e⟩
    · rw [if_neg h] at e
      exact ⟨j, by omega, fun h' => h h'.symm, e⟩
  · rintro ⟨j, hj, hne, e⟩
    by_cases hl : j = ds.length - 1
    · refine ⟨it, by omega, ?_⟩
      rw [getD_popAt _ _ _ (by omega), if_pos rfl, ← hl]
      exact e
    · refine ⟨j, by omega, ?_⟩
      rw [getD_popAt _ _ _ (by omega), if_neg (fun h => hne h.symm)]
      exact e

end PivotSelection

namespace SkyTree

/-! ### `mapPush` and `MapPointToRegion` -/

theorem mapPush_keys (m : List (Nat × List TUPLE)) (key : Nat) (t : TUPLE) :
    ∀ e ∈ mapPush m key t, e.1 = key ∨ e.1 ∈ m.map Prod.fst := by
  induction m with
  | nil => simp [mapPush]
  | cons a rest ih =>
    obtain ⟨k, v⟩ := a
    intro e he
    rw [mapPush] at he
    split at he
    · rename_i hk
      rcases List.mem_cons.mp he with h | h
      · left; rw [h]; exact hk.symm
      · right; exact List.mem_map.mpr ⟨e, List.mem_cons_of_mem _ h, rfl⟩
    · split at he
      · rcases List.mem_cons.mp he with h | h
        · left; rw [h]
        · right; exact List.mem_map.mpr ⟨e, h, rfl⟩
      · rcases List.mem_cons.mp he with h | h
        · right; rw [h]; simp
        · rcases ih e h with h' | h'
          · exact Or.inl h'
          · right; simp only [List.map_cons, List.mem_cons]; exact Or.inr h'

theorem mapPush_sorted (m : List (Nat × List TUPLE)) (key : Nat) (t : TUPLE)
    (hs : (m.map Prod.fst).Pairwise (· < ·)) :
    ((mapPush m key t).map Prod.fst).Pairwise (· < ·) := by
  induction m with
  | nil => simp [mapPush]
  | cons a rest ih =>
    obtain ⟨k, v⟩ := a
    rw [List.map_cons, List.pairwise_cons] at hs
    rw [mapPush]
    split
    · rw [List.map_cons, List.pairwise_cons]
      exact hs
    · split
      · rename_i hlt
        rw [List.map_cons, List.pairwise_cons]
        refine ⟨?_, by rw [List.map_cons, List.pairwise_cons]; exact hs⟩
        intro b hb
        rcases List.mem_cons.mp hb with h | h
        · rw [h]; exact hlt
        · exact lt_trans hlt (hs.1 b h)
      · rename_i hne hnlt
        rw [List.map_cons, List.pairwise_cons]
        refine ⟨?_, ih hs.2⟩
        intro b hb
        obtain ⟨e, he, rfl⟩ := List.mem_map.mp hb
        rcases mapPush_keys rest key t e he with h | h
        · rw [h]; show k < key; omega
        · exact hs.1 _ h

theorem mapPush_mem (m : List (Nat × List TUPLE)) (key : Nat) (t : TUPLE) (k : Nat)
    (ds : List TUPLE) (p : TUPLE) (he : (k, ds) ∈ mapPush m key t) (hp : p ∈ ds) :
    (∃ ds0, (k, ds0) ∈ m ∧ p ∈ ds0) ∨ (k = key ∧ p = t) := by
  induction m with
  | nil =>
    simp only [mapPush, List.mem_singleton, Prod.mk.injEq] at he
    obtain ⟨rfl, rfl⟩ := he
    right
    exact ⟨rfl, by simpa using hp⟩
  | cons a rest ih =>
    obtain ⟨k0, v⟩ := a
    rw [mapPush] at he
    split at he
    · rename_i hk
      rcases List.mem_cons.mp he with h | h
      · simp only [Prod.mk.injEq] at h
        obtain ⟨rfl, rfl⟩ := h
        rcases List.mem_append.mp hp with h' | h'
        · left; exact ⟨v, List.mem_cons_self _ _, h'⟩
        · right; exact ⟨hk.symm, by simpa using h'⟩
      · left; exact ⟨ds, List.mem_cons_of_mem _ h, hp⟩
    · split at he
      · rcases List.mem_cons.mp he with h | h
        · simp only [Prod.mk.injEq] at h
          obtain ⟨rfl, rfl⟩ := h
          right; exact ⟨rfl, by simpa using hp⟩
        · left; exact ⟨ds, h, hp⟩
      · rcases List.mem_cons.mp he with h | h
        · left; exact ⟨ds, by rw [h]; exact List.mem_cons_self _ _, hp⟩
        · rcases ih h with ⟨ds0, h1, h2⟩ | h'
          · left; exact ⟨ds0, List.mem_cons_of_mem _ h1, h2⟩
          · right; exact h'

theorem mapPush_mono (m : List (Nat × List TUPLE)) (key : Nat) (t : TUPLE) (k : Nat)
    (p : TUPLE) (h : ∃ ds0, (k, ds0) ∈ m ∧ p ∈ ds0) :
    ∃ ds, (k, ds) ∈ mapPush m key t ∧ p ∈ ds := by
  induction m with
  | nil => obtain ⟨_, h, _⟩ := h; simp at h
  | cons a rest ih =>
    obtain ⟨k0, v⟩ := a
    obtain ⟨ds0, h1, h2⟩ := h
    rw [mapPush]
    split
    · rename_i hk
      rcases List.mem_cons.mp h1 with h | h
      · simp only [Prod.mk.injEq] at h
        obtain ⟨rfl, rfl⟩ := h
        exact ⟨ds0 ++ [t], List.mem_cons_self _ _, List.mem_append_left _ h2⟩
      · exact ⟨ds0, List.mem_cons_of_mem _ h, h2⟩
    · split
      · exact ⟨ds0, List.mem_cons_of_mem _ h1, h2⟩
      · rcases List.mem_cons.mp h1 with h | h
        · exact ⟨ds0, by rw [h]; exact List.mem_cons_self _ _, h2⟩
        · obtain ⟨ds, h3, h4⟩ := ih ⟨ds0, h, h2⟩
          exact ⟨ds, List.mem_cons_of_mem _ h3, h4⟩

theorem mapPush_new (m : List (Nat × List TUPLE)) (key : Nat) (t : TUPLE) :
    ∃ ds, (key, ds) ∈ mapPush m key t ∧ t ∈ ds := by
  induction m with
  | nil => exact ⟨[t], by simp [mapPush], by simp⟩
  | cons a rest ih =>
    obtain ⟨k0, v⟩ := a
    rw [mapPush]
    split
    · rename_i hk
      exact ⟨v ++ [t], by rw [hk]; exact List.mem_cons_self _ _, by simp⟩
    · split
      · exact ⟨[t], List.mem_cons_self _ _, by simp⟩
      · obtain ⟨ds, h3, h4⟩ := ih
        exact ⟨ds, List.mem_cons_of_mem _ h3, h4⟩

theorem mapPush_length (m : List (Nat × List TUPLE)) (key : Nat) (t : TUPLE) (N : Nat)
    (h : ∀ e ∈ m, e.2.length ≤ N) : ∀ e ∈ mapPush m key t, e.2.length ≤ N + 1 := by
  induction m with
  | nil => simp [mapPush]
  | cons a rest ih =>
    obtain ⟨k0, v⟩ := a
    intro e he
    have hv : v.length ≤ N := h (k0, v) (List.mem_cons_self _ _)
    have hrest : ∀ e ∈ rest, e.2.length ≤ N := fun e he => h e (List.mem_cons_of_mem _ he)
    rw [mapPush] at he
    split at he
    · rcases List.mem_cons.mp he with h' | h'
      · rw [h']; simp; omega
      · have := hrest e h'; omega
    · split at he
      · rcases List.mem_cons.mp he with h' | h'
        · rw [h']; simp
        · have := h e h'; omega
      · rcases List.mem_cons.mp he with h' | h'
        · rw [h']; show v.length ≤ N + 1; omega
        · exact ih hrest e h'

/-- What `MapPointToRegion.loop` computes from an accumulated map and `eqm_`. -/
theorem MapPointToRegion.loop_regions (d : Nat) (v : TUPLE) :
    ∀ (rest : List TUPLE) (m : List (Nat × List TUPLE)) (eqm : List Nat) (N : Nat),
      (m.map Prod.fst).Pairwise (· < ·) → (∀ e ∈ m, e.2.length ≤ N) →
      (((MapPointToRegion.loop d v rest m eqm).1.map Prod.fst).Pairwise (· < ·)) ∧
      (∀ e ∈ (MapPointToRegion.loop d v rest m eqm).1, e.2.length ≤ N + rest.length) ∧
      (∀ k ds p, (k, ds) ∈ (MapPointToRegion.loop d v rest m eqm).1 → p ∈ ds →
        (∃ ds0, (k, ds0) ∈ m ∧ p ∈ ds0) ∨
          (p ∈ rest ∧ ¬ WeakDom d v p ∧ DT_bitmap_dvc d p v = k)) ∧
      (∀ k p, (∃ ds0, (k, ds0) ∈ m ∧ p ∈ ds0) →
        ∃ ds, (k, ds) ∈ (MapPointToRegion.loop d v rest m eqm).1 ∧ p ∈ ds) ∧
      (∀ p ∈ rest, ¬ WeakDom d v p →
        ∃ ds, (DT_bitmap_dvc d p v, ds) ∈ (MapPointToRegion.loop d v rest m eqm).1 ∧ p ∈ ds) ∧
      (MapPointToRegion.loop d v rest m eqm).2 =
        eqm ++ (rest.filter (fun p => EqualityTest d v p)).map (fun p => p.pid) := by
  intro rest
  induction rest with
  | nil =>
    intro m eqm N hs hN
    simp only [MapPointToRegion.loop, List.length_nil, Nat.add_zero, List.not_mem_nil,
      false_and, or_false, List.filter_nil, List.map_nil, List.append_nil]
    exact ⟨hs, hN, fun k ds p h1 h2 => ⟨ds, h1, h2⟩, fun k p h => h,
      fun p hp => False.elim hp, trivial⟩
  | cons it rest ih =>
    intro m eqm N hs hN
    rw [MapPointToRegion.loop]
    by_cases heq : EqualityTest d v it = true
    · rw [if_pos heq]
      obtain ⟨h1, h2, h3, h4, h5, h6⟩ := ih m (eqm ++ [it.pid]) N hs hN
      have hw : WeakDom d v it := ((EqualityTest_iff _ _ _).mp heq).toWeakDom
      refine ⟨h1, ?_, ?_, h4, ?_, ?_⟩
      · intro e he; have := h2 e he; simp only [List.length_cons]; omega
      · intro k ds p hk hp
        rcases h3 k ds p hk hp with h | ⟨ha, hb, hc⟩
        · exact Or.inl h
        · exact Or.inr ⟨List.mem_cons_of_mem _ ha, hb, hc⟩
      · intro p hp hnw
        rcases List.mem_cons.mp hp with h | h
        · rw [h] at hnw; exact absurd hw hnw
        · exact h5 p h hnw
      · rw [h6, List.filter_cons, if_pos heq]
        simp
    · rw [if_neg heq]
      simp only []
      by_cases hlt : DT_bitmap_dvc d it v < SHIFTS d - 1
      · rw [if_pos hlt]
        have hnw := (DT_bitmap_dvc_lt_pruned_iff d it v).mp hlt
        obtain ⟨h1, h2, h3, h4, h5, h6⟩ :=
          ih (mapPush m (DT_bitmap_dvc d it v) it) eqm (N + 1) (mapPush_sorted _ _ _ hs)
            (mapPush_length _ _ _ N hN)
        refine ⟨h1, ?_, ?_, ?_, ?_, ?_⟩
        · intro e he; have := h2 e he; simp only [List.length_cons]; omega
        · intro k ds p hk hp
          rcases h3 k ds p hk hp with ⟨ds0, ha, hb⟩ | ⟨ha, hb, hc⟩
          · rcases mapPush_mem _ _ _ _ _ _ ha hb with h | ⟨rfl, rfl⟩
            · exact Or.inl h
            · exact Or.inr ⟨List.mem_cons_self _ _, hnw, rfl⟩
          · exact Or.inr ⟨List.mem_cons_of_mem _ ha, hb, hc⟩
        · intro k p h
          exact h4 k p (mapPush_mono _ _ _ _ _ h)
        · intro p hp hnwp
          rcases List.mem_cons.mp hp with h | h
          · rw [h]
            exact h4 _ _ (mapPush_new m _ it)
          · exact h5 p h hnwp
        · rw [h6, List.filter_cons, if_neg heq]
      · rw [if_neg hlt]
        have hw : WeakDom d v it := by
          by_contra hc
          exact hlt ((DT_bitmap_dvc_lt_pruned_iff d it v).mpr hc)
        obtain ⟨h1, h2, h3, h4, h5, h6⟩ := ih m eqm N hs hN
        refine ⟨h1, ?_, ?_, h4, ?_, ?_⟩
        · intro e he; have := h2 e he; simp only [List.length_cons]; omega
        · intro k ds p hk hp
          rcases h3 k ds p hk hp with h | ⟨ha, hb, hc⟩
          · exact Or.inl h
          · exact Or.inr ⟨List.mem_cons_of_mem _ ha, hb, hc⟩
        · intro p hp hnw
          rcases List.mem_cons.mp hp with h | h
          · rw [h] at hnw; exact absurd hw hnw
          · exact h5 p h hnw
        · rw [h6, List.filter_cons, if_neg heq]

/-! ### `PartialDominance` -/

theorem PartialDominance.filter_spec (d : Nat) (useTree : Bool) (child : Node) :
    ∀ (n : Nat) (ds : List TUPLE) (it : Nat), ds.length - it ≤ n →
      (∀ j, j < it → j < ds.length →
        (if useTree then FilterPoint d (ds.getD j default) child
          else FilterPoint_without_skytree d (ds.getD j default) child) = false) →
      (∀ p ∈ PartialDominance.filter d useTree child n ds it, p ∈ ds ∧
        (if useTree then FilterPoint d p child
          else FilterPoint_without_skytree d p child) = false) ∧
      (∀ p ∈ ds, (if useTree then FilterPoint d p child
          else FilterPoint_without_skytree d p child) = false →
        p ∈ PartialDominance.filter d useTree child n ds it) ∧
      (PartialDominance.filter d useTree child n ds it).length ≤ ds.length := by
  intro n
  induction n with
  | zero =>
    intro ds it hn hseen
    rw [PartialDominance.filter]
    refine ⟨?_, fun p hp _ => hp, le_refl _⟩
    intro p hp
    obtain ⟨j, hj, e⟩ := mem_iff_getD.mp hp
    exact ⟨hp, e ▸ hseen j (by omega) hj⟩
  | succ n ih =>
    intro ds it hn hseen
    rw [PartialDominance.filter]
    by_cases hit : it < ds.length
    · rw [if_pos hit]
      simp only []
      by_cases hh : (if useTree then FilterPoint d (ds.getD it default) child
          else FilterPoint_without_skytree d (ds.getD it default) child) = true
      · rw [if_pos hh]
        have hL := PivotSelection.length_popAt ds it
        obtain ⟨h1, h2, h3⟩ := ih (PivotSelection.popAt ds it) it (by omega) (by
          intro j hj1 hj2
          rw [hL] at hj2
          rw [PivotSelection.getD_popAt _ _ _ hj2, if_neg (show ¬ it = j by omega)]
          exact hseen j hj1 (by omega))
        refine ⟨?_, ?_, by omega⟩
        · intro p hp
          obtain ⟨ha, hb⟩ := h1 p hp
          obtain ⟨j, hj, _, e⟩ := (PivotSelection.mem_popAt hit).mp ha
          exact ⟨e ▸ getD_mem hj, hb⟩
        · intro p hp hf
          apply h2 p _ hf
          obtain ⟨j, hj, e⟩ := mem_iff_getD.mp hp
          refine (PivotSelection.mem_popAt hit).mpr ⟨j, hj, ?_, e⟩
          intro hji
          rw [hji] at e
          rw [e, hf] at hh
          exact Bool.false_ne_true hh
      · rw [if_neg hh]
        have hh' := Bool.eq_false_iff.mpr hh
        obtain ⟨h1, h2, h3⟩ := ih ds (it + 1) (by omega) (by
          intro j hj1 hj2
          by_cases hji : j = it
          · rw [hji]; exact hh'
          · exact hseen j (by omega) hj2)
        exact ⟨h1, h2, h3⟩
    · rw [if_neg hit]
      refine ⟨?_, fun p hp _ => hp, le_refl _⟩
      intro p hp
      obtain ⟨j, hj, e⟩ := mem_iff_getD.mp hp
      exact ⟨hp, e ▸ hseen j (by omega) hj⟩

/-- `PartialDominance` with the tree filter keeps exactly the points that no child whose
code is a sub-mask of `lattice` filters. -/
theorem PartialDominance.loop_children (d : Nat) (lattice : Nat) :
    ∀ (children : List Node) (ds : List TUPLE),
      (children.map Node.lattice).Pairwise (· < ·) →
      (∀ p ∈ PartialDominance.loop d true lattice children ds, p ∈ ds) ∧
      (PartialDominance.loop d true lattice children ds).length ≤ ds.length ∧
      (∀ p ∈ PartialDominance.loop d true lattice children ds, ∀ c ∈ children,
        c.lattice &&& lattice = c.lattice → FilterPoint d p c = false) ∧
      (∀ p ∈ ds, p ∉ PartialDominance.loop d true lattice children ds →
        ∃ c ∈ children, FilterPoint d p c = true) := by
  intro children
  induction children with
  | nil =>
    intro ds _
    simp [PartialDominance.loop]
  | cons c rest ih =>
    intro ds hs
    rw [List.map_cons, List.pairwise_cons] at hs
    rw [PartialDominance.loop]
    by_cases hle : c.lattice ≤ lattice
    · rw [if_pos hle]
      by_cases hsub : c.lattice &&& lattice = c.lattice
      · rw [if_pos hsub]
        obtain ⟨f1, f2, f3⟩ := PartialDominance.filter_spec d true c ds.length ds 0 (by omega)
          (by intro j hj; omega)
        simp only [if_true] at f1 f2
        simp only []
        by_cases hemp : (PartialDominance.filter d true c ds.length ds 0).isEmpty = true
        · rw [if_pos hemp]
          have hnil := List.isEmpty_iff.mp hemp
          rw [hnil]
          refine ⟨by simp, by simp, by simp, ?_⟩
          intro p hp _
          refine ⟨c, List.mem_cons_self _ _, ?_⟩
          by_contra hc
          have := f2 p hp (Bool.eq_false_iff.mpr hc)
          rw [hnil] at this
          exact absurd this (List.not_mem_nil _)
        · rw [if_neg hemp]
          obtain ⟨h1, h2, h3, h4⟩ := ih (PartialDominance.filter d true c ds.length ds 0) hs.2
          refine ⟨fun p hp => (f1 p (h1 p hp)).1, by omega, ?_, ?_⟩
          · intro p hp c' hc' hsub'
            rcases List.mem_cons.mp hc' with h | h
            · rw [h]; exact (f1 p (h1 p hp)).2
            · exact h3 p hp c' h hsub'
          · intro p hp hnot
            by_cases hin : p ∈ PartialDominance.filter d true c ds.length ds 0
            · obtain ⟨c', hc', hf⟩ := h4 p hin hnot
              exact ⟨c', List.mem_cons_of_mem _ hc', hf⟩
            · refine ⟨c, List.mem_cons_self _ _, ?_⟩
              by_contra hc
              exact hin (f2 p hp (Bool.eq_false_iff.mpr hc))
      · rw [if_neg hsub]
        obtain ⟨h1, h2, h3, h4⟩ := ih ds hs.2
        refine ⟨h1, h2, ?_, ?_⟩
        · intro p hp c' hc' hsub'
          rcases List.mem_cons.mp hc' with h | h
          · rw [h] at hsub'; exact absurd hsub' hsub
          · exact h3 p hp c' h hsub'
        · intro p hp hnot
          obtain ⟨c', hc', hf⟩ := h4 p hp hnot
          exact ⟨c', List.mem_cons_of_mem _ hc', hf⟩
    · rw [if_neg hle]
      refine ⟨fun p hp => hp, le_refl _, ?_, fun p hp hnot => absurd hp hnot⟩
      intro p _ c' hc' hsub'
      exfalso
      have hle' := le_of_and_eq_left hsub'
      rcases List.mem_cons.mp hc' with h | h
      · rw [h] at hle'; exact hle hle'
      · have := hs.1 c'.lattice (List.mem_map.mpr ⟨c', h, rfl⟩)
        omega

end SkyTree

namespace SkyTree

theorem pointsList_singleton (T : Node) : Node.pointsList [T] = T.points := by
  simp [Node.pointsList]

/-- One bucket of the loop of `ComputeSkyTree` (tree filter, no divide-and-conquer). -/
theorem ComputeSkyTree.loop_step (d : Nat)
    (recurse : List ℚ → List ℚ → List TUPLE → Nat → State → Option (Node × State))
    (bound : Nat) (hrec : RecOK d recurse bound)
    (U : List TUPLE) (v : TUPLE) (ml Ml : List ℚ) (st0 : State)
    (pre post : List (Nat × List TUPLE)) (k : Nat) (ds : List TUPLE)
    (M1 : ((pre ++ (k, ds) :: post).map Prod.fst).Pairwise (· < ·))
    (M2 : ∀ e ∈ pre ++ (k, ds) :: post, ∀ p ∈ e.2,
      p ∈ U ∧ ¬ WeakDom d v p ∧ DT_bitmap_dvc d p v = e.1)
    (M3 : ∀ q ∈ U, WeakDom d v q ∨
      ∃ e ∈ pre ++ (k, ds) :: post, DT_bitmap_dvc d q v = e.1 ∧ q ∈ e.2)
    (M4 : ∀ e ∈ pre ++ (k, ds) :: post, e.2.length ≤ bound)
    (children : List Node) (st : State) (inv : LoopSpec d U v st0 pre children st) :
    ∃ children1 st1,
      ComputeSkyTree.loop d true false recurse v ml Ml ((k, ds) :: post) children st =
        ComputeSkyTree.loop d true false recurse v ml Ml post children1 st1 ∧
      LoopSpec d U v st0 (pre ++ [(k, ds)]) children1 st1 := by
  have hmem : (k, ds) ∈ pre ++ (k, ds) :: post := by simp
  have hcur : (if (!false && decide (children.length > 0)) = true then
      PartialDominance d true k ds children else ds)
      = PartialDominance.loop d true k children ds := by
    cases children with
    | nil => simp [PartialDominance.loop]
    | cons c rest => simp [PartialDominance]
  obtain ⟨p1, p2, p3, p4⟩ := PartialDominance.loop_children d k children ds inv.sorted
  have hwf := Node.WFList_iff.mp inv.wf
  have hkeylt : ∀ c ∈ children, c.lattice < k := by
    intro c hc
    have hk := inv.keys c hc
    rw [List.map_append, List.pairwise_append] at M1
    exact M1.2.2 _ hk k (by simp)
  -- no point of the children weakly dominates a kept point
  have q3 : ∀ p ∈ PartialDominance.loop d true k children ds,
      ¬ ∃ t ∈ Node.pointsList children, WeakDom d t p := by
    rintro p hp ⟨t, ht, hw⟩
    obtain ⟨c, hc, htc⟩ := Node.mem_pointsList.mp ht
    have hb := (hwf c hc).2 t htc
    have hsub := DT_bitmap_dvc_submask d t p v hw
    rw [hb, (M2 _ hmem p (p1 p hp)).2.2] at hsub
    have hf := p3 p hp c hc hsub
    have := (FilterPoint_iff d p c (hwf c hc).1).mpr ⟨t, htc, hw⟩
    rw [hf] at this
    exact Bool.false_ne_true this
  have q4 : ∀ p ∈ ds, p ∉ PartialDominance.loop d true k children ds →
      ∃ t ∈ Node.pointsList children, WeakDom d t p := by
    intro p hp hnot
    obtain ⟨c, hc, hf⟩ := p4 p hp hnot
    obtain ⟨t, ht, hw⟩ := (FilterPoint_iff d p c (hwf c hc).1).mp hf
    exact ⟨t, Node.mem_pointsList.mpr ⟨c, hc, ht⟩, hw⟩
  have q5 : ∀ p ∈ ds, p ∉ PartialDominance.loop d true k children ds → ¬ SkyIn d U p := by
    intro p hp hnot hsky
    obtain ⟨t, ht, hw⟩ := q4 p hp hnot
    obtain ⟨c, hc, htc⟩ := Node.mem_pointsList.mp ht
    have hb := (hwf c hc).2 t htc
    rcases hw.dominates_or_coordEq with h | h
    · exact hsky t (inv.sound t ht).1 h
    · have := DT_bitmap_dvc_congr d t p v h
      rw [hb, (M2 _ hmem p hp).2.2] at this
      have := hkeylt c hc
      omega
  have KD : ∀ p ∈ PartialDominance.loop d true k children ds, ∀ q ∈ U, Dominates d q p →
      q ∈ PartialDominance.loop d true k children ds := by
    intro p hp q hq hdom
    have hpds := p1 p hp
    have hM2p := M2 _ hmem p hpds
    rcases M3 q hq with h | ⟨e, he, hbq, hqe⟩
    · exact absurd (h.trans_weak hdom.weak) hM2p.2.1
    · have hsub := DT_bitmap_dvc_submask d q p v hdom.weak
      rw [hbq, hM2p.2.2] at hsub
      have hle := le_of_and_eq_left hsub
      rcases List.mem_append.mp he with h | h
      · obtain ⟨t, ht, hw⟩ := inv.cover e h q hqe
        exact absurd ⟨t, ht, hw.trans_weak hdom.weak⟩ (q3 p hp)
      · rcases List.mem_cons.mp h with h' | h'
        · rw [h'] at hqe
          by_contra hnot
          obtain ⟨t, ht, hw⟩ := q4 q hqe hnot
          exact absurd ⟨t, ht, hw.trans_weak hdom.weak⟩ (q3 p hp)
        · exfalso
          rw [List.map_append, List.pairwise_append, List.map_cons, List.pairwise_cons] at M1
          have := M1.2.1.1 e.1 (List.mem_map.mpr ⟨e, h', rfl⟩)
          omega
  have hskyU : ∀ p ∈ PartialDominance.loop d true k children ds,
      SkyIn d (PartialDominance.loop d true k children ds) p → SkyIn d U p := by
    intro p hp hsky q hq hdom
    exact hsky q (KD p hp q hq hdom) hdom
  obtain ⟨E1, hE1, hE1s, hE1c⟩ := inv.eqm
  rw [ComputeSkyTree.loop]
  simp only [hcur]
  by_cases hpos : (PartialDominance.loop d true k children ds).length > 0
  · rw [if_pos hpos]
    have hne : PartialDominance.loop d true k children ds ≠ [] := by
      intro h; rw [h] at hpos; simp at hpos
    obtain ⟨T, st1, hr, ts⟩ := hrec (childBox d k v ml Ml).1 (childBox d k v ml Ml).2
      (PartialDominance.loop d true k children ds) k st hne
      (le_trans p2 (M4 _ hmem))
    rw [hr]
    simp only [Bool.false_and, Bool.false_eq_true, if_false]
    refine ⟨children ++ [T], st1, rfl, ?_⟩
    obtain ⟨E2, hE2, hE2s, hE2c⟩ := ts.eqm
    have hpts : Node.pointsList (children ++ [T]) = Node.pointsList children ++ T.points := by
      rw [Node.pointsList_append, pointsList_singleton]
    refine ⟨by rw [ts.dominated_eq, inv.dominated_eq], ?_, ?_, ?_, ?_, ?_, ?_⟩
    · rw [List.map_append, List.pairwise_append]
      refine ⟨inv.sorted, by simp, ?_⟩
      intro a ha b hb
      obtain ⟨c, hc, rfl⟩ := List.mem_map.mp ha
      simp only [List.map_cons, List.map_nil, List.mem_singleton] at hb
      rw [hb, ts.lattice_eq]
      exact hkeylt c hc
    · intro c hc
      rcases List.mem_append.mp hc with h | h
      · have := inv.keys c h
        rw [List.map_append]
        exact List.mem_append_left _ this
      · rw [List.mem_singleton] at h
        rw [h, ts.lattice_eq]
        simp
    · rw [Node.WFList_iff]
      intro c hc
      rcases List.mem_append.mp hc with h | h
      · exact hwf c h
      · rw [List.mem_singleton] at h
        rw [h]
        refine ⟨ts.wf, ?_⟩
        intro t ht
        rw [ts.lattice_eq]
        exact (M2 _ hmem t (p1 t (ts.sound t ht).1)).2.2
    · intro p hp
      rw [hpts] at hp
      rcases List.mem_append.mp hp with h | h
      · exact inv.sound p h
      · have hs := ts.sound p h
        exact ⟨(M2 _ hmem p (p1 p hs.1)).1, hskyU p hs.1 hs.2⟩
    · intro e he p hp
      rw [hpts]
      rcases List.mem_append.mp he with h | h
      · obtain ⟨t, ht, hw⟩ := inv.cover e h p hp
        exact ⟨t, List.mem_append_left _ ht, hw⟩
      · rw [List.mem_singleton] at h
        rw [h] at hp
        by_cases hin : p ∈ PartialDominance.loop d true k children ds
        · obtain ⟨t, ht, hw⟩ := ts.cover p hin
          exact ⟨t, List.mem_append_right _ ht, hw⟩
        · obtain ⟨t, ht, hw⟩ := q4 p hp hin
          exact ⟨t, List.mem_append_left _ ht, hw⟩
    · refine ⟨E1 ++ E2, by rw [hE2, hE1, List.append_assoc], ?_, ?_⟩
      · intro pid hpid
        rcases List.mem_append.mp hpid with h | h
        · exact hE1s pid h
        · obtain ⟨p, hp, hpp, hsky⟩ := hE2s pid h
          exact ⟨p, (M2 _ hmem p (p1 p hp)).1, hpp, hskyU p hp hsky⟩
      · intro e he p hp hsky
        rw [hpts]
        rcases List.mem_append.mp he with h | h
        · rcases hE1c e h p hp hsky with h' | h'
          · exact Or.inl (List.mem_append_left _ h')
          · exact Or.inr (List.mem_append_left _ h')
        · rw [List.mem_singleton] at h
          rw [h] at hp
          have hin : p ∈ PartialDominance.loop d true k children ds := by
            by_contra hnot
            exact q5 p hp hnot hsky
          have hsky' : SkyIn d (PartialDominance.loop d true k children ds) p :=
            fun q hq => hsky q (M2 _ hmem q (p1 q hq)).1
          rcases hE2c p hin hsky' with h' | h'
          · exact Or.inl (List.mem_append_right _ h')
          · exact Or.inr (List.mem_append_right _ h')
  · rw [if_neg hpos]
    have hnil : PartialDominance.loop d true k children ds = [] := by
      cases h : PartialDominance.loop d true k children ds with
      | nil => rfl
      | cons a b => rw [h] at hpos; simp at hpos
    refine ⟨children, st, rfl, inv.dominated_eq, inv.sorted, ?_, inv.wf, inv.sound, ?_, ?_⟩
    · intro c hc
      rw [List.map_append]
      exact List.mem_append_left _ (inv.keys c hc)
    · intro e he p hp
      rcases List.mem_append.mp he with h | h
      · exact inv.cover e h p hp
      · rw [List.mem_singleton] at h
        rw [h] at hp
        exact q4 p hp (by rw [hnil]; exact List.not_mem_nil _)
    · refine ⟨E1, hE1, hE1s, ?_⟩
      intro e he p hp hsky
      rcases List.mem_append.mp he with h | h
      · exact hE1c e h p hp hsky
      · rw [List.mem_singleton] at h
        rw [h] at hp
        exact absurd hsky (q5 p hp (by rw [hnil]; exact List.not_mem_nil _))

/-- The loop of `ComputeSkyTree` over all buckets. -/
theorem ComputeSkyTree.loop_tree (d : Nat)
    (recurse : List ℚ → List ℚ → List TUPLE → Nat → State → Option (Node × State))
    (bound : Nat) (hrec : RecOK d recurse bound)
    (U : List TUPLE) (v : TUPLE) (ml Ml : List ℚ) (st0 : State)
    (pm : List (Nat × List TUPLE))
    (M1 : (pm.map Prod.fst).Pairwise (· < ·))
    (M2 : ∀ e ∈ pm, ∀ p ∈ e.2, p ∈ U ∧ ¬ WeakDom d v p ∧ DT_bitmap_dvc d p v = e.1)
    (M3 : ∀ q ∈ U, WeakDom d v q ∨ ∃ e ∈ pm, DT_bitmap_dvc d q v = e.1 ∧ q ∈ e.2)
    (M4 : ∀ e ∈ pm, e.2.length ≤ bound) :
    ∀ (rest pre : List (Nat × List TUPLE)) (children : List Node) (st : State),
      pm = pre ++ rest → LoopSpec d U v st0 pre children st →
      ∃ children1 st1,
        ComputeSkyTree.loop d true false recurse v ml Ml rest children st
          = some (children1, st1) ∧
        LoopSpec d U v st0 pm children1 st1 := by
  intro rest
  induction rest with
  | nil =>
    intro pre children st hpm inv
    rw [List.append_nil] at hpm
    exact ⟨children, st, by rw [ComputeSkyTree.loop], hpm ▸ inv⟩
  | cons b rest ih =>
    intro pre children st hpm inv
    obtain ⟨k, ds⟩ := b
    obtain ⟨children1, st1, hstep, inv1⟩ :=
      ComputeSkyTree.loop_step d recurse bound hrec U v ml Ml st0 pre rest k ds
        (hpm ▸ M1) (hpm ▸ M2) (hpm ▸ M3) (hpm ▸ M4) children st inv
    obtain ⟨children2, st2, h2, inv2⟩ :=
      ih (pre ++ [(k, ds)]) children1 st1 (by rw [hpm]; simp) inv1
    exact ⟨children2, st2, by rw [hstep, h2], inv2⟩

end SkyTree

theorem SkyIn.of_cover {d : Nat} {D D1 : List TUPLE} {p : TUPLE}
    (hcov : ∀ q ∈ D, q ∈ D1 ∨ ∃ q' ∈ D1, Dominates d q' q) (h : SkyIn d D1 p) :
    SkyIn d D p := by
  intro q hq hdom
  rcases hcov q hq with h1 | ⟨q', hq', hd'⟩
  · exact h q h1 hdom
  · exact h q' hq' (hd'.trans hdom)

theorem SkyIn.congr_point {d : Nat} {D : List TUPLE} {p q : TUPLE} (h : SkyIn d D p)
    (e : CoordEq d p q) : SkyIn d D q :=
  fun r hr hdom => h r hr (hdom.congr_right e.symm)

theorem cons_tail_of_ne_nil {l : List TUPLE} (h : 1 ≤ l.length) :
    l = l.getD 0 default :: l.tail := by
  cases l with
  | nil => simp at h
  | cons a b => simp

namespace SkyTree

theorem TraverseSkyTree_false (dom : List Bool) : ∀ (T : Node),
    TraverseSkyTree false dom T = T.points.map (fun t => t.pid)
  | .mk l p ch => by
    rw [TraverseSkyTree, Node.points, TraverseSkyTree.loop_false dom ch]
    simp
where
  TraverseSkyTree.loop_false (dom : List Bool) : ∀ (ch : List Node),
      TraverseSkyTree.loop false dom ch = (Node.pointsList ch).map (fun t => t.pid)
    | [] => by simp [TraverseSkyTree.loop, Node.pointsList]
    | c :: rest => by
      rw [TraverseSkyTree.loop, Node.pointsList, TraverseSkyTree_false dom c,
        TraverseSkyTree.loop_false dom rest]
      simp

/-- `ComputeSkyTree` (tree filter, no divide-and-conquer) returns on every non-empty
dataset of at most `fuel` tuples and meets `TreeSpec`. -/
theorem ComputeSkyTree_spec {d : Nat} (hd : 0 < d) :
    ∀ fuel, RecOK d (ComputeSkyTree d true false fuel) fuel := by
  intro fuel
  induction fuel with
  | zero =>
    intro ml Ml B lat st hne hlen
    cases B with
    | nil => exact absurd rfl hne
    | cons a b => simp at hlen
  | succ fuel ih =>
    intro ml Ml D lat st hne hlen
    obtain ⟨D1, hex, hlen1, hle1, hsub, hcov, hpiv, _⟩ :=
      PivotSelection.Execute_spec hd ml Ml D hne
    rw [ComputeSkyTree, hex]
    simp only []
    have hD1 := cons_tail_of_ne_nil hlen1
    have hvD1 : D1.getD 0 default ∈ D1 := getD_mem (by omega)
    have htail : ∀ p ∈ D1.tail, p ∈ D1 := fun p hp => List.mem_of_mem_tail hp
    obtain ⟨m1, m2, m3, _, m5, m6⟩ :=
      MapPointToRegion.loop_regions d (D1.getD 0 default) D1.tail [] st.eqm_ 0 (by simp) (by simp)
    have hpm : MapPointToRegion d D1 st.eqm_ =
        MapPointToRegion.loop d (D1.getD 0 default) D1.tail [] st.eqm_ := rfl
    rw [hpm]
    have M2 : ∀ e ∈ (MapPointToRegion.loop d (D1.getD 0 default) D1.tail [] st.eqm_).1,
        ∀ p ∈ e.2, p ∈ D1 ∧ ¬ WeakDom d (D1.getD 0 default) p ∧
          DT_bitmap_dvc d p (D1.getD 0 default) = e.1 := by
      intro e he p hp
      rcases m3 e.1 e.2 p he hp with ⟨_, h, _⟩ | ⟨ha, hb, hc⟩
      · simp at h
      · exact ⟨htail p ha, hb, hc⟩
    have M3 : ∀ q ∈ D1, WeakDom d (D1.getD 0 default) q ∨
        ∃ e ∈ (MapPointToRegion.loop d (D1.getD 0 default) D1.tail [] st.eqm_).1,
          DT_bitmap_dvc d q (D1.getD 0 default) = e.1 ∧ q ∈ e.2 := by
      intro q hq
      by_cases hw : WeakDom d (D1.getD 0 default) q
      · exact Or.inl hw
      · right
        rw [hD1] at hq
        rcases List.mem_cons.mp hq with h | h
        · rw [h] at hw; exact absurd (WeakDom.refl _ _) hw
        · obtain ⟨ds, h1, h2⟩ := m5 q h hw
          exact ⟨_, h1, rfl, h2⟩
    have M4 : ∀ e ∈ (MapPointToRegion.loop d (D1.getD 0 default) D1.tail [] st.eqm_).1,
        e.2.length ≤ fuel := by
      intro e he
      have := m2 e he
      simp only [List.length_tail] at this
      omega
    have inv0 : LoopSpec d D1 (D1.getD 0 default)
        { st with eqm_ := (MapPointToRegion.loop d (D1.getD 0 default) D1.tail [] st.eqm_).2 }
        [] [] { st with eqm_ := (MapPointToRegion.loop d (D1.getD 0 default) D1.tail []
          st.eqm_).2 } := by
      refine ⟨rfl, by simp, by simp, by simp [Node.WFList], by simp [Node.pointsList],
        by simp, ⟨[], by simp, by simp, by simp⟩⟩
    obtain ⟨children, st1, hloop, inv⟩ :=
      ComputeSkyTree.loop_tree d (ComputeSkyTree d true false fuel) fuel ih D1
        (D1.getD 0 default) ml Ml _ _ m1 M2 M3 M4 _ [] [] _ rfl inv0
    rw [hloop]
    refine ⟨.mk lat (D1.getD 0 default) children, st1, rfl, ?_⟩
    obtain ⟨E1, hE1, hE1s, hE1c⟩ := inv.eqm
    have hpivsky : SkyIn d D (D1.getD 0 default) := hpiv
    refine ⟨rfl, by rw [inv.dominated_eq], ?_, ?_, ?_, ?_⟩
    · rw [Node.WF]
      exact ⟨inv.wf, inv.sorted⟩
    · intro p hp
      rw [Node.points] at hp
      rcases List.mem_cons.mp hp with h | h
      · rw [h]
        exact ⟨hsub _ hvD1, hpivsky⟩
      · have := inv.sound p h
        exact ⟨hsub p this.1, SkyIn.of_cover hcov this.2⟩
    · have hc1 : ∀ q ∈ D1, ∃ t ∈ (Node.mk lat (D1.getD 0 default) children).points,
          WeakDom d t q := by
        intro q hq
        rw [Node.points]
        rcases M3 q hq with h | ⟨e, he, _, hqe⟩
        · exact ⟨_, List.mem_cons_self _ _, h⟩
        · obtain ⟨t, ht, hw⟩ := inv.cover e he q hqe
          exact ⟨t, List.mem_cons_of_mem _ ht, hw⟩
      intro p hp
      rcases hcov p hp with h | ⟨q, hq, hdom⟩
      · exact hc1 p h
      · obtain ⟨t, ht, hw⟩ := hc1 q hq
        exact ⟨t, ht, hw.trans_weak hdom.weak⟩
    · refine ⟨(D1.tail.filter (fun p => EqualityTest d (D1.getD 0 default) p)).map
          (fun p => p.pid) ++ E1, ?_, ?_, ?_⟩
      · rw [hE1]
        show (MapPointToRegion.loop d (D1.getD 0 default) D1.tail [] st.eqm_).2 ++ E1 = _
        rw [m6, List.append_assoc]
      · intro pid hpid
        rcases List.mem_append.mp hpid with h | h
        · obtain ⟨p, hp, rfl⟩ := List.mem_map.mp h
          rw [List.mem_filter] at hp
          have he := (EqualityTest_iff _ _ _).mp hp.2
          exact ⟨p, hsub p (htail p hp.1), rfl, hpivsky.congr_point he⟩
        · obtain ⟨p, hp, hpp, hsky⟩ := hE1s pid h
          exact ⟨p, hsub p hp, hpp, SkyIn.of_cover hcov hsky⟩
      · intro p hp hsky
        have hp1 : p ∈ D1 := by
          rcases hcov p hp with h | ⟨q, hq, hdom⟩
          · exact h
          · exact absurd hdom (hsky q (hsub q hq))
        have hsky1 : SkyIn d D1 p := fun q hq => hsky q (hsub q hq)
        rw [Node.points]
        rw [hD1] at hp1
        rcases List.mem_cons.mp hp1 with h | h
        · left; rw [h]; exact List.mem_cons_self _ _
        · by_cases heq : EqualityTest d (D1.getD 0 default) p = true
          · right
            apply List.mem_append_left
            exact List.mem_map.mpr ⟨p, List.mem_filter.mpr ⟨h, heq⟩, rfl⟩
          · by_cases hw : WeakDom d (D1.getD 0 default) p
            · exfalso
              rcases hw.dominates_or_coordEq with h' | h'
              · exact hsky _ (hsub _ hvD1) h'
              · exact heq ((EqualityTest_iff _ _ _).mpr h')
            · obtain ⟨ds, h1, h2⟩ := m5 p h hw
              rcases hE1c _ h1 p h2 hsky1 with h' | h'
              · exact Or.inl (List.mem_cons_of_mem _ h')
              · exact Or.inr (List.mem_append_right _ h')

theorem Init_ne_nil {rows : List (List ℚ)} (h : rows ≠ []) : Init rows ≠ [] := by
  cases rows with
  | nil => exact absurd rfl h
  | cons a b => simp [Init, List.enum]

theorem Init_length_eq (rows : List (List ℚ)) : (Init rows).length = rows.length := by
  simp [Init]

/-- SkyTree with the tree filter and without divide-and-conquer returns exactly the pids
of the undominated input points. -/
theorem Execute_skyline {d : Nat} (hd : 0 < d) (rows : List (List ℚ)) (hne : rows ≠ []) :
    ∃ out, Execute d true false rows = some out ∧
      ∀ pid, pid ∈ out ↔
        ∃ p ∈ Init rows, p.pid = pid ∧ ∀ q ∈ Init rows, ¬ Dominates d q p := by
  obtain ⟨T, st1, hr, ts⟩ := ComputeSkyTree_spec hd ((Init rows).length + 1)
    (List.replicate d 0) (List.replicate d 1) (Init rows) 0
    { eqm_ := [], dominated_ := List.replicate rows.length false } (Init_ne_nil hne) (by omega)
  obtain ⟨E, hE, hEs, hEc⟩ := ts.eqm
  refine ⟨TraverseSkyTree false st1.dominated_ T ++ st1.eqm_, ?_, ?_⟩
  · unfold Execute
    simp only [Bool.false_and]
    rw [hr]
  · intro pid
    rw [TraverseSkyTree_false, hE]
    simp only [List.nil_append, List.mem_append, List.mem_map]
    constructor
    · rintro (⟨p, hp, hpp⟩ | h)
      · exact ⟨p, (ts.sound p hp).1, hpp, (ts.sound p hp).2⟩
      · exact hEs pid h
    · rintro ⟨p, hp, hpp, hsky⟩
      rcases hEc p hp hsky with h | h
      · exact Or.inl ⟨p, h, hpp⟩
      · exact Or.inr (hpp ▸ h)

end SkyTree

theorem SkylineOfSet.iff {d : Nat} {L A : TUPLE → Prop} (h : SkylineOfSet d L A) (p : TUPLE) :
    L p ↔ A p ∧ ∀ q, A q → ¬ Dominates d q p := by
  obtain ⟨h1, h2, h3⟩ := h
  constructor
  · intro hp
    refine ⟨h1 p hp, ?_⟩
    intro q hq hdom
    rcases h2 q hq with hl | ⟨l, hl, hd'⟩
    · exact h3 q p hl hp hdom
    · exact h3 l p hl hp (hd'.trans hdom)
  · rintro ⟨hp, hsky⟩
    rcases h2 p hp with hl | ⟨l, hl, hd'⟩
    · exact hl
    · exact absurd hd' (hsky l (h1 l hl))

/-- Merging two skylines: keep the members that no member of the other one dominates. -/
theorem SkylineOfSet.merge {d : Nat} {L A R B M : TUPLE → Prop}
    (hL : SkylineOfSet d L A) (hR : SkylineOfSet d R B)
    (hM : ∀ p, M p ↔ (L p ∧ ∀ r, R r → ¬ Dominates d r p) ∨
      (R p ∧ ∀ l, L l → ¬ Dominates d l p)) :
    SkylineOfSet d M (fun p => A p ∨ B p) := by
  obtain ⟨l1, l2, l3⟩ := hL
  obtain ⟨r1, r2, r3⟩ := hR
  have covL : ∀ l, L l → M l ∨ ∃ m, M m ∧ Dominates d m l := by
    intro l hl
    by_cases h : ∀ r, R r → ¬ Dominates d r l
    · exact Or.inl ((hM l).mpr (Or.inl ⟨hl, h⟩))
    · simp only [not_forall, not_not] at h
      obtain ⟨r, hr, hdom⟩ := h
      right
      refine ⟨r, (hM r).mpr (Or.inr ⟨hr, ?_⟩), hdom⟩
      intro l' hl' hdom'
      exact l3 l' l hl' hl (hdom'.trans hdom)
  have covR : ∀ r, R r → M r ∨ ∃ m, M m ∧ Dominates d m r := by
    intro r hr
    by_cases h : ∀ l, L l → ¬ Dominates d l r
    · exact Or.inl ((hM r).mpr (Or.inr ⟨hr, h⟩))
    · simp only [not_forall, not_not] at h
      obtain ⟨l, hl, hdom⟩ := h
      right
      refine ⟨l, (hM l).mpr (Or.inl ⟨hl, ?_⟩), hdom⟩
      intro r' hr' hdom'
      exact r3 r' r hr' hr (hdom'.trans hdom)
  refine ⟨?_, ?_, ?_⟩
  · intro p hp
    rcases (hM p).mp hp with h | h
    · exact Or.inl (l1 p h.1)
    · exact Or.inr (r1 p h.1)
  · intro a ha
    rcases ha with ha | ha
    · rcases l2 a ha with h | ⟨l, hl, hdom⟩
      · exact covL a h
      · rcases covL l hl with h | ⟨m, hm, hdom'⟩
        · exact Or.inr ⟨l, h, hdom⟩
        · exact Or.inr ⟨m, hm, hdom'.trans hdom⟩
    · rcases r2 a ha with h | ⟨r, hr, hdom⟩
      · exact covR a h
      · rcases covR r hr with h | ⟨m, hm, hdom'⟩
        · exact Or.inr ⟨r, h, hdom⟩
        · exact Or.inr ⟨m, hm, hdom'.trans hdom⟩
  · intro x y hx hy hdom
    rcases (hM x).mp hx with hx' | hx' <;> rcases (hM y).mp hy with hy' | hy'
    · exact l3 x y hx'.1 hy'.1 hdom
    · exact hy'.2 x hx'.1 hdom
    · exact hy'.2 x hx'.1 hdom
    · exact r3 x y hx'.1 hy'.1 hdom

/-- In-place compaction: the loop that copies the kept entries read at `rpos i` to the
write cursor `off + c`. -/
theorem compact_foldl {α : Type} [Inhabited α] (keep : Nat → Prop) [DecidablePred keep]
    (off : Nat) (rpos : Nat → Nat) :
    ∀ (is : List Nat) (data : List α) (c : Nat),
      is.Pairwise (fun a b => rpos a < rpos b) →
      (∀ i ∈ is, off + c ≤ rpos i) → (∀ i ∈ is, rpos i < data.length) →
      ((is.foldl (fun (acc : List α × Nat) i =>
          if keep i then (acc.1.set (off + acc.2) (acc.1.getD (rpos i) default), acc.2 + 1)
          else acc) (data, c)).1.length = data.length) ∧
      ((is.foldl (fun (acc : List α × Nat) i =>
          if keep i then (acc.1.set (off + acc.2) (acc.1.getD (rpos i) default), acc.2 + 1)
          else acc) (data, c)).2 = c + (is.filter (fun i => decide (keep i))).length) ∧
      (∀ k, (k < off + c ∨ off + c + (is.filter (fun i => decide (keep i))).length ≤ k) →
        (is.foldl (fun (acc : List α × Nat) i =>
          if keep i then (acc.1.set (off + acc.2) (acc.1.getD (rpos i) default), acc.2 + 1)
          else acc) (data, c)).1.getD k default = data.getD k default) ∧
      (∀ j, j < (is.filter (fun i => decide (keep i))).length →
        (is.foldl (fun (acc : List α × Nat) i =>
          if keep i then (acc.1.set (off + acc.2) (acc.1.getD (rpos i) default), acc.2 + 1)
          else acc) (data, c)).1.getD (off + c + j) default
          = data.getD (rpos ((is.filter (fun i => decide (keep i))).getD j 0)) default) := by
  intro is
  induction is with
  | nil =>
    intro data c _ _ _
    simp
  | cons i rest ih =>
    intro data c hp hwr hlen
    rw [List.pairwise_cons] at hp
    have hri : rpos i < data.length := hlen i (List.mem_cons_self _ _)
    have hwi : off + c ≤ rpos i := hwr i (List.mem_cons_self _ _)
    rw [List.foldl_cons]
    by_cases hk : keep i
    · rw [if_pos hk, List.filter_cons, if_pos (by simpa using hk)]
      dsimp only
      have hL : (data.set (off + c) (data.getD (rpos i) default)).length = data.length := by simp
      obtain ⟨h1, h2, h3, h4⟩ := ih (data.set (off + c) (data.getD (rpos i) default)) (c + 1) hp.2
        (by intro i' hi'; have := hp.1 i' hi'; omega)
        (by intro i' hi'; rw [hL]; exact hlen i' (List.mem_cons_of_mem _ hi'))
      refine ⟨by rw [h1, hL], by rw [h2]; simp only [List.length_cons]; omega, ?_, ?_⟩
      · intro k hkk
        simp only [List.length_cons] at hkk
        rw [h3 k (by omega)]
        by_cases hkl : k < data.length
        · rw [getD_set _ _ _ _ hkl, if_neg (by omega)]
        · have e1 : data.getD k default = default := List.getD_eq_default _ _ (by omega)
          have e2 : (data.set (off + c) (data.getD (rpos i) default)).getD k default = default :=
            List.getD_eq_default _ _ (by rw [hL]; omega)
          rw [e1, e2]
      · intro j hj
        simp only [List.length_cons] at hj
        cases j with
        | zero =>
          have h30 := h3 (off + c) (Or.inl (by omega))
          simp only [Nat.add_zero, List.getD_cons_zero]
          rw [h30, getD_set _ _ _ _ (by omega), if_pos rfl]
        | succ j =>
          have := h4 j (by omega)
          rw [show off + c + (j + 1) = off + (c + 1) + j by omega, this]
          simp only [List.getD_cons_succ]
          have hmem : (rest.filter (fun i => decide (keep i))).getD j 0 ∈ rest := by
            have : (rest.filter (fun i => decide (keep i))).getD j 0
                ∈ rest.filter (fun i => decide (keep i)) := by
              rw [List.getD_eq_getElem _ _ (by omega)]
              exact List.getElem_mem _
            exact (List.mem_filter.mp this).1
          have hlt := hp.1 _ hmem
          rw [getD_set _ _ _ _ (hlen _ (List.mem_cons_of_mem _ hmem)), if_neg (by omega)]
    · rw [if_neg hk, List.filter_cons, if_neg (by simpa using hk)]
      exact ih data c hp.2 (fun i' hi' => hwr i' (List.mem_cons_of_mem _ hi'))
        (fun i' hi' => hlen i' (List.mem_cons_of_mem _ hi'))

namespace PSkyline

theorem InvIn.left {d : Nat} {A : TUPLE → Prop} {data0 : List TUPLE} {s w : Nat}
    {H T I : Nat} {data : List TUPLE}
    (inv : InvIn d A data0 s w (H : Int) data (T : Int) (I : Int)) (hIT : I ≤ T)
    (hdom : Dominates d (data.getD (s + H) default) (data.getD (s + I) default)) :
    InvIn d A data0 s w (H : Int) (data.set (s + I) (data.getD (s + T) default))
      ((T : Int) - 1) (I : Int) := by
  have hHI : H < I := by have := inv.hi; omega
  have hTw : T < w := by have := inv.hw; omega
  have hb := inv.hbound
  have hl := inv.hlen
  have g : ∀ j, j < w → (data.set (s + I) (data.getD (s + T) default)).getD (s + j) default =
      if I = j then data.getD (s + T) default else data.getD (s + j) default := by
    intro j hj
    rw [getD_set _ _ _ _ (by omega)]
    by_cases h : I = j
    · rw [if_pos (by omega), if_pos h]
    · rw [if_neg (by omega), if_neg h]
  refine ⟨inv.h0, by omega, inv.hi, by omega, by omega, by simp [hl], hb, ?_, ?_, ?_, ?_, ?_⟩
  · intro k hk
    by_cases hkl : k < data.length
    · rw [getD_set _ _ _ _ hkl, if_neg (by omega)]
      exact inv.frame k hk
    · rw [List.getD_eq_default _ _ (by simp; omega), ← inv.frame k hk,
        List.getD_eq_default _ _ (by omega)]
  · intro j hj
    rw [g j (by omega)]
    split
    · exact inv.sub T (by omega)
    · exact inv.sub j (by omega)
  · intro a ha
    obtain ⟨j, hj, hc⟩ := inv.cover a ha
    by_cases hjI : j = I
    · subst hjI
      refine ⟨H, by omega, Or.inr ?_⟩
      rw [g H (by omega), if_neg (by omega)]
      rcases hc with h | h
      · exact h ▸ hdom
      · exact hdom.trans h
    · by_cases hjT : j = T
      · subst hjT
        refine ⟨I, by omega, ?_⟩
        rw [g I (by omega), if_pos rfl]
        exact hc
      · refine ⟨j, by omega, ?_⟩
        rw [g j (by omega), if_neg (fun h => hjI h.symm)]
        exact hc
  · intro j j' hj hj' hne
    rw [g j (by omega), if_neg (by omega), g j' (by omega)]
    split
    · exact inv.kept j T hj (by omega) (by omega)
    · exact inv.kept j j' hj (by omega) hne
  · intro j hj1 hj2
    simp only [Int.toNat_ofNat] at *
    rw [g j (by omega), if_neg (by omega), g H (by omega), if_neg (by omega)]
    have := inv.seen j hj1 hj2
    simpa using this

theorem InvIn.right {d : Nat} {A : TUPLE → Prop} {data0 : List TUPLE} {s w : Nat}
    {H T I : Nat} {data : List TUPLE}
    (inv : InvIn d A data0 s w (H : Int) data (T : Int) (I : Int)) (hIT : I ≤ T)
    (hdom : Dominates d (data.getD (s + I) default) (data.getD (s + H) default)) :
    InvIn d A data0 s w (H : Int)
      ((data.set (s + H) (data.getD (s + I) default)).set (s + I)
        ((data.set (s + H) (data.getD (s + I) default)).getD (s + T) default))
      ((T : Int) - 1) ((H : Int) + 1) := by
  have hHI : H < I := by have := inv.hi; omega
  have hTw : T < w := by have := inv.hw; omega
  have hb := inv.hbound
  have hl := inv.hlen
  have e1 : (data.set (s + H) (data.getD (s + I) default)).getD (s + T) default
      = data.getD (s + T) default := by
    rw [getD_set _ _ _ _ (by omega), if_neg (by omega)]
  rw [e1]
  have g : ∀ j, j < w →
      ((data.set (s + H) (data.getD (s + I) default)).set (s + I)
        (data.getD (s + T) default)).getD (s + j) default =
      if I = j then data.getD (s + T) default
      else if H = j then data.getD (s + I) default else data.getD (s + j) default := by
    intro j hj
    rw [getD_set _ _ _ _ (by simp; omega), getD_set _ _ _ _ (by omega)]
    by_cases h : I = j
    · rw [if_pos (by omega), if_pos h]
    · rw [if_neg (by omega), if_neg h]
      by_cases h' : H = j
      · rw [if_pos (by omega), if_pos h']
      · rw [if_neg (by omega), if_neg h']
  refine ⟨inv.h0, by omega, by omega, by omega, by omega, by simp [hl], hb, ?_, ?_, ?_, ?_, ?_⟩
  · intro k hk
    by_cases hkl : k < data.length
    · rw [getD_set _ _ _ _ (by simp; omega), if_neg (by omega), getD_set _ _ _ _ hkl,
        if_neg (by omega)]
      exact inv.frame k hk
    · rw [List.getD_eq_default _ _ (by simp; omega), ← inv.frame k hk,
        List.getD_eq_default _ _ (by omega)]
  · intro j hj
    rw [g j (by omega)]
    split
    · exact inv.sub T (by omega)
    · split
      · exact inv.sub I (by omega)
      · exact inv.sub j (by omega)
  · intro a ha
    obtain ⟨j, hj, hc⟩ := inv.cover a ha
    by_cases hjH : j = H
    · subst hjH
      refine ⟨j, by omega, Or.inr ?_⟩
      rw [g j (by omega), if_neg (by omega), if_pos rfl]
      rcases hc with h | h
      · exact h ▸ hdom
      · exact hdom.trans h
    · by_cases hjI : j = I
      · subst hjI
        refine ⟨H, by omega, ?_⟩
        rw [g H (by omega), if_neg (by omega), if_pos rfl]
        exact hc
      · by_cases hjT : j = T
        · subst hjT
          refine ⟨I, by omega, ?_⟩
          rw [g I (by omega), if_pos rfl]
          exact hc
        · refine ⟨j, by omega, ?_⟩
          rw [g j (by omega), if_neg (fun h => hjI h.symm), if_neg (fun h => hjH h.symm)]
          exact hc
  · intro j j' hj hj' hne
    rw [g j (by omega), if_neg (by omega), if_neg (by omega), g j' (by omega)]
    split
    · exact inv.kept j T hj (by omega) (by omega)
    · split
      · exact inv.kept j I hj (by omega) (by omega)
      · exact inv.kept j j' hj (by omega) hne
  · intro j hj1 hj2
    omega

theorem InvIn.next {d : Nat} {A : TUPLE → Prop} {data0 : List TUPLE} {s w : Nat}
    {H T I : Nat} {data : List TUPLE}
    (inv : InvIn d A data0 s w (H : Int) data (T : Int) (I : Int)) (hIT : I ≤ T)
    (hnl : ¬ Dominates d (data.getD (s + H) default) (data.getD (s + I) default))
    (hnr : ¬ Dominates d (data.getD (s + I) default) (data.getD (s + H) default)) :
    InvIn d A data0 s w (H : Int) data (T : Int) ((I : Int) + 1) := by
  refine ⟨inv.h0, inv.ht, by have := inv.hi; omega, by omega, inv.hw, inv.hlen, inv.hbound,
    inv.frame, inv.sub, inv.cover, inv.kept, ?_⟩
  intro j hj1 hj2
  by_cases hjI : j = I
  · subst hjI
    simp only [Int.toNat_ofNat]
    exact ⟨hnl, hnr⟩
  · exact inv.seen j hj1 (by omega)

/-- The inner loop of `sskyline` returns within its fuel and keeps the invariant. -/
theorem sskyline.inner_spec {d : Nat} {A : TUPLE → Prop} {data0 : List TUPLE} {s w : Nat}
    (H : Nat) :
    ∀ (fuel : Nat) (data : List TUPLE) (T I : Nat),
      InvIn d A data0 s w (H : Int) data (T : Int) (I : Int) →
      (T - H) * (w + 1) + (T + 1 - I) < fuel →
      ∃ (data' : List TUPLE) (T' : Nat), sskyline.inner d s (H : Int) fuel data (T : Int) (I : Int)
          = some (data', (T' : Int)) ∧ T' ≤ T ∧
        InvIn d A data0 s w (H : Int) data' (T' : Int) ((T' : Int) + 1) := by
  intro fuel
  induction fuel with
  | zero => intro data T I _ h; omega
  | succ fuel ih =>
    intro data T I inv hfuel
    have hHI : H < I := by have := inv.hi; omega
    have hI2 : I ≤ T + 1 := by have := inv.hi2; omega
    have hTw : T < w := by have := inv.hw; omega
    rw [sskyline.inner]
    by_cases hIT : (I : Int) ≤ (T : Int)
    · have hIT' : I ≤ T := by omega
      rw [if_pos hIT]
      simp only [Int.toNat_ofNat]
      have hmul : (T - 1 - H) * (w + 1) + (w + 1) = (T - H) * (w + 1) := by
        have : T - H = (T - 1 - H) + 1 := by omega
        rw [this, Nat.add_mul, Nat.one_mul]
      by_cases hl : DominanceTest d (data.getD (s + H) default) (data.getD (s + I) default)
          = DOM_LEFT
      · rw [if_pos hl]
        have inv' := inv.left hIT' ((DominanceTest_left_iff _ _ _).mp hl)
        have e : ((T : Int) - 1) = ((T - 1 : Nat) : Int) := by omega
        rw [e] at inv' ⊢
        obtain ⟨data', T', h1, h2, h3⟩ := ih _ (T - 1) I inv' (by omega)
        exact ⟨data', T', h1, by omega, h3⟩
      · rw [if_neg hl]
        by_cases hr : DominanceTest d (data.getD (s + H) default) (data.getD (s + I) default)
            = DOM_RIGHT
        · rw [if_pos hr]
          have inv' := inv.right hIT' ((DominanceTest_right_iff _ _ _).mp hr)
          have e : ((T : Int) - 1) = ((T - 1 : Nat) : Int) := by omega
          have e2 : ((H : Int) + 1) = ((H + 1 : Nat) : Int) := by omega
          rw [e, e2] at inv' ⊢
          obtain ⟨data', T', h1, h2, h3⟩ := ih _ (T - 1) (H + 1) inv' (by omega)
          exact ⟨data', T', h1, by omega, h3⟩
        · rw [if_neg hr]
          have inv' := inv.next hIT'
            (fun h => hl ((DominanceTest_left_iff _ _ _).mpr h))
            (fun h => hr ((DominanceTest_right_iff _ _ _).mpr h))
          have e2 : ((I : Int) + 1) = ((I + 1 : Nat) : Int) := by omega
          rw [e2] at inv' ⊢
          obtain ⟨data', T', h1, h2, h3⟩ := ih _ T (I + 1) inv' (by omega)
          exact ⟨data', T', h1, h2, h3⟩
    · rw [if_neg hIT]
      have e : I = T + 1 := by omega
      refine ⟨data, T, rfl, le_refl _, ?_⟩
      have : ((T : Int) + 1) = (I : Int) := by omega
      rw [this]
      exact inv

end PSkyline

theorem SkylineOfSet.congr {d : Nat} {L L' A A' : TUPLE → Prop} (hL : ∀ p, L p ↔ L' p)
    (hA : ∀ p, A p ↔ A' p) (h : SkylineOfSet d L A) : SkylineOfSet d L' A' := by
  obtain ⟨h1, h2, h3⟩ := h
  refine ⟨fun p hp => (hA p).mp (h1 p ((hL p).mpr hp)), ?_,
    fun x y hx hy => h3 x y ((hL x).mpr hx) ((hL y).mpr hy)⟩
  intro a ha
  rcases h2 a ((hA a).mpr ha) with h | ⟨l, hl, hd⟩
  · exact Or.inl ((hL a).mp h)
  · exact Or.inr ⟨l, (hL l).mp hl, hd⟩

theorem Win_congr {α : Type} [Inhabited α] {data data' : List α} {s len : Nat}
    (h : ∀ k, k < len → data'.getD (s + k) default = data.getD (s + k) default) (p : α) :
    Win data' s len p ↔ Win data s len p := by
  constructor
  · rintro ⟨k, hk, e⟩; exact ⟨k, hk, by rw [← h k hk]; exact e⟩
  · rintro ⟨k, hk, e⟩; exact ⟨k, hk, by rw [h k hk]; exact e⟩

namespace PSkyline

/-- The outer loop of `sskyline` returns, leaving the skyline of the window in its first
`tail + 1` cells. -/
theorem sskyline.outer_spec {d : Nat} {A : TUPLE → Prop} {data0 : List TUPLE} {s w : Nat} :
    ∀ (fuel : Nat) (data : List TUPLE) (H Tp : Nat),
      InvOut d A data0 s w data (H : Int) ((Tp : Int) - 1) → Tp - H < fuel →
      ∃ (data' : List TUPLE) (Tp' : Nat), sskyline.outer d s w fuel data (H : Int) ((Tp : Int) - 1)
          = some (data', (Tp' : Int) - 1) ∧ Tp' ≤ w ∧ data'.length = data0.length ∧
        (∀ k, (k < s ∨ s + w ≤ k) → data'.getD k default = data0.getD k default) ∧
        SkylineOfSet d (Win data' s Tp') A := by
  intro fuel
  induction fuel with
  | zero => intro data H Tp _ h; omega
  | succ fuel ih =>
    intro data H Tp inv hfuel
    have hTw : Tp ≤ w := by have := inv.hw; omega
    rw [sskyline.outer]
    by_cases hlt : (H : Int) < (Tp : Int) - 1
    · rw [if_pos hlt]
      have e1 : ((Tp : Int) - 1) = ((Tp - 1 : Nat) : Int) := by omega
      have e2 : ((H : Int) + 1) = ((H + 1 : Nat) : Int) := by omega
      have invIn : InvIn d A data0 s w (H : Int) data ((Tp - 1 : Nat) : Int)
          ((H + 1 : Nat) : Int) := by
        refine ⟨inv.h0, by omega, by omega, by omega, by omega, inv.hlen, inv.hbound,
          inv.frame, ?_, ?_, ?_, ?_⟩
        · intro j hj; exact inv.sub j (by omega)
        · intro a ha
          obtain ⟨j, hj, hc⟩ := inv.cover a ha
          exact ⟨j, by omega, hc⟩
        · intro j j' hj hj' hne; exact inv.kept j j' hj (by omega) hne
        · intro j hj1 hj2; omega
      have hm : (Tp - 1 - H) * (w + 1) + (Tp - 1 + 1 - (H + 1)) < (w + 1) * (w + 1) := by
        have h1 : Tp - 1 - H ≤ w - 1 := by omega
        have h2 : (Tp - 1 - H) * (w + 1) ≤ (w - 1) * (w + 1) := Nat.mul_le_mul_right _ h1
        have hw1 : w - 1 + 1 = w := by omega
        have h3 : (w - 1) * (w + 1) + (w + 1) = w * (w + 1) := by
          have := Nat.add_mul (w - 1) 1 (w + 1)
          rw [hw1, Nat.one_mul] at this
          omega
        have h4 : w * (w + 1) ≤ (w + 1) * (w + 1) := Nat.mul_le_mul_right _ (by omega)
        omega
      obtain ⟨data1, T', hr, hT', inv1⟩ :=
        sskyline.inner_spec H ((w + 1) * (w + 1)) data (Tp - 1) (H + 1) invIn hm
      rw [e1, e2, hr]
      simp only []
      have e3 : ((T' : Int)) = ((T' + 1 : Nat) : Int) - 1 := by omega
      have invOut : InvOut d A data0 s w data1 ((H + 1 : Nat) : Int)
          (((T' + 1 : Nat) : Int) - 1) := by
        have hHT := inv1.ht
        refine ⟨by omega, by omega, by have := inv1.hw; omega, inv1.hlen, inv1.hbound,
          inv1.frame, ?_, ?_, ?_⟩
        · intro j hj; exact inv1.sub j (by omega)
        · intro a ha
          obtain ⟨j, hj, hc⟩ := inv1.cover a ha
          exact ⟨j, by omega, hc⟩
        · intro j j' hj hj' hne
          by_cases hjH : j = H
          · subst hjH
            by_cases hlt' : j' < j
            · have := inv1.kept j' j (by omega) (by omega) (by omega)
              exact ⟨this.2, this.1⟩
            · have := inv1.seen j' (by omega) (by omega)
              simpa using this
          · exact inv1.kept j j' (by omega) (by omega) hne
      rw [e3]
      obtain ⟨data2, Tp2, h1, h2, h3, h4, h5⟩ := ih data1 (H + 1) (T' + 1) invOut (by omega)
      exact ⟨data2, Tp2, h1, h2, h3, h4, h5⟩
    · rw [if_neg hlt]
      refine ⟨data, Tp, rfl, hTw, inv.hlen, inv.frame, ?_, ?_, ?_⟩
      · rintro p ⟨k, hk, e⟩
        exact e ▸ inv.sub k (by omega)
      · intro a ha
        obtain ⟨j, hj, hc⟩ := inv.cover a ha
        rcases hc with h | h
        · exact Or.inl ⟨j, by omega, h⟩
        · exact Or.inr ⟨_, ⟨j, by omega, rfl⟩, h⟩
      · rintro x y ⟨j, hj, rfl⟩ ⟨j', hj', rfl⟩ hdom
        by_cases hjj : j = j'
        · subst hjj; exact Dominates.irrefl _ _ hdom
        · by_cases hlt' : j < j'
          · exact (inv.kept j j' (by omega) (by omega) hjj).1 hdom
          · exact (inv.kept j' j (by omega) (by omega) (fun h => hjj h.symm)).2 hdom

/-- `sskyline` on a block inside the array. -/
theorem sskyline_spec {d : Nat} (data : List TUPLE) (b : Block) (h0 : 0 ≤ b.start)
    (h1 : b.start ≤ b.end_ + 1)
    (hb : b.start.toNat + (b.end_ - b.start + 1).toNat ≤ data.length) :
    ∃ data' z, sskyline d data b = some (data', { b with size := z }) ∧
      z ≤ (b.end_ - b.start + 1).toNat ∧ data'.length = data.length ∧
      (∀ k, (k < b.start.toNat ∨ b.start.toNat + (b.end_ - b.start + 1).toNat ≤ k) →
        data'.getD k default = data.getD k default) ∧
      SkylineOfSet d (Win data' b.start.toNat z)
        (Win data b.start.toNat (b.end_ - b.start + 1).toNat) := by
  have e1 : (b.end_ - b.start + 1 - 1 : Int)
      = (((b.end_ - b.start + 1).toNat : Nat) : Int) - 1 := by omega
  have inv0 : InvOut d (Win data b.start.toNat (b.end_ - b.start + 1).toNat) data
      b.start.toNat (b.end_ - b.start + 1).toNat data ((0 : Nat) : Int)
      ((((b.end_ - b.start + 1).toNat : Nat) : Int) - 1) := by
    refine ⟨by omega, by omega, by omega, rfl, hb, fun _ _ => rfl, ?_, ?_, ?_⟩
    · intro j hj; exact ⟨j, by omega, rfl⟩
    · rintro a ⟨k, hk, e⟩; exact ⟨k, by omega, Or.inl e⟩
    · intro j j' hj; omega
  obtain ⟨data', Tp', hr, h2, h3, h4, h5⟩ :=
    sskyline.outer_spec ((b.end_ - b.start + 1).toNat + 1) data 0
      (b.end_ - b.start + 1).toNat inv0 (by omega)
  refine ⟨data', Tp', ?_, h2, h3, h4, h5⟩
  unfold sskyline
  simp only []
  rw [e1]
  have e0 : (0 : Int) = ((0 : Nat) : Int) := rfl
  rw [e0, hr]
  simp only []
  have e2 : ((Tp' : Int) - 1 + 1).toNat = Tp' := by omega
  rw [e2]

/-- Window start of a block. -/
theorem PMap_spec {d : Nat} : ∀ (blocks : List Block) (data : List TUPLE),
    (∀ b ∈ blocks, 0 ≤ b.start ∧ b.start ≤ b.end_ + 1 ∧
      b.start.toNat + (b.end_ - b.start + 1).toNat ≤ data.length) →
    blocks.Pairwise (fun a b =>
      a.start.toNat + (a.end_ - a.start + 1).toNat ≤ b.start.toNat) →
    ∃ data' out, PMap d data blocks = some (data', out) ∧ data'.length = data.length ∧
      (∀ k, (∀ b ∈ blocks, k < b.start.toNat ∨
          b.start.toNat + (b.end_ - b.start + 1).toNat ≤ k) →
        data'.getD k default = data.getD k default) ∧
      List.Forall₂ (fun b o => o.start = b.start ∧
        o.size ≤ (b.end_ - b.start + 1).toNat ∧
        SkylineOfSet d (Win data' b.start.toNat o.size)
          (Win data b.start.toNat (b.end_ - b.start + 1).toNat)) blocks out := by
  intro blocks
  induction blocks with
  | nil =>
    intro data _ _
    exact ⟨data, [], rfl, rfl, fun _ _ => rfl, List.Forall₂.nil⟩
  | cons b rest ih =>
    intro data hall hp
    rw [List.pairwise_cons] at hp
    obtain ⟨hb0, hb1, hb2⟩ := hall b (List.mem_cons_self _ _)
    obtain ⟨data1, z, hs, hz, hl1, hf1, hsky1⟩ := sskyline_spec (d := d) data b hb0 hb1 hb2
    obtain ⟨data2, out, hm, hl2, hf2, hfa⟩ := ih data1
      (by intro r hr; rw [hl1]; exact hall r (List.mem_cons_of_mem _ hr)) hp.2
    refine ⟨data2, { b with size := z } :: out, ?_, by rw [hl2, hl1], ?_, ?_⟩
    · rw [PMap, hs]
      simp only []
      rw [hm]
    · intro k hk
      rw [hf2 k (fun r hr => hk r (List.mem_cons_of_mem _ hr)),
        hf1 k (hk b (List.mem_cons_self _ _))]
    · refine List.Forall₂.cons ⟨rfl, hz, ?_⟩ ?_
      · refine SkylineOfSet.congr (fun p => (Win_congr ?_ p).symm) (fun _ => Iff.rfl) hsky1
        intro k hk
        have hk' : k < z := hk
        apply hf2
        intro r hr
        have := hp.1 r hr
        left
        show b.start.toNat + k < r.start.toNat
        omega
      · refine List.forall₂_iff_zip.mpr ⟨(List.forall₂_iff_zip.mp hfa).1, fun {r o} hro => ?_⟩
        · have hrmem : r ∈ rest := (List.of_mem_zip hro).1
          obtain ⟨c1, c2, c3⟩ := (List.forall₂_iff_zip.mp hfa).2 hro
          refine ⟨c1, c2, SkylineOfSet.congr (fun _ => Iff.rfl) (Win_congr ?_) c3⟩
          intro k _
          apply hf1
          right
          have := hp.1 r hrmem
          omega

end PSkyline

theorem getD_set' {α : Type} (l : List α) (i j : Nat) (a dflt : α) (hj : j < l.length) :
    (l.set i a).getD j dflt = if i = j then a else l.getD j dflt := by
  have h1 : j < (l.set i a).length := by simpa using hj
  rw [List.getD_eq_getElem _ _ h1, List.getD_eq_getElem _ _ hj, List.getElem_set]

theorem getD_set_of_ne {α : Type} (l : List α) (i j : Nat) (a dflt : α) (h : i ≠ j) :
    (l.set i a).getD j dflt = l.getD j dflt := by
  by_cases hj : j < l.length
  · rw [getD_set' _ _ _ _ _ hj, if_neg h]
  · rw [List.getD_eq_default _ _ (by simp; omega), List.getD_eq_default _ _ (by omega)]

/-- A loop that writes `v k` to the cells `base + k`, `k < n`. -/
theorem foldl_set_range {α : Type} (base : Nat) (v : Nat → α) (acc : List α) :
    ∀ n, base + n ≤ acc.length →
      ((List.range n).foldl (fun a k => a.set (base + k) (v k)) acc).length = acc.length ∧
      ∀ k dflt, ((List.range n).foldl (fun a k => a.set (base + k) (v k)) acc).getD k dflt =
        if base ≤ k ∧ k < base + n then v (k - base) else acc.getD k dflt := by
  intro n
  induction n with
  | zero =>
    intro _
    refine ⟨rfl, fun k dflt => ?_⟩
    rw [if_neg (by omega)]
    rfl
  | succ n ih =>
    intro hn
    obtain ⟨h1, h2⟩ := ih (by omega)
    rw [List.range_succ, List.foldl_append]
    simp only [List.foldl_cons, List.foldl_nil, List.length_set]
    refine ⟨h1, fun k dflt => ?_⟩
    by_cases hk : base + n = k
    · subst hk
      rw [getD_set' _ _ _ _ _ (by rw [h1]; omega), if_pos rfl, if_pos (by omega)]
      congr 1
      omega
    · rw [getD_set_of_ne _ _ _ _ _ hk, h2]
      by_cases hk2 : base ≤ k ∧ k < base + n
      · rw [if_pos hk2, if_pos (by omega)]
      · rw [if_neg hk2, if_neg (by omega)]

namespace PSkyline

theorem LIVE_ne_DEAD : LIVE ≠ DEAD := by decide

/-- `CheckSurvival` of `x` against the tuples `S j = data[sstart + j]`, `j ∈ js`. -/
theorem CheckSurvival_spec (d : Nat) (x : TUPLE) (data : List TUPLE) (sstart fstart : Nat) :
    ∀ (js : List Nat) (f : List Nat), (∀ j ∈ js, fstart + j < f.length) →
      (CheckSurvival d x data sstart fstart js f).2.length = f.length ∧
      (∀ k, (CheckSurvival d x data sstart fstart js f).2.getD k LIVE = f.getD k LIVE ∨
        ((CheckSurvival d x data sstart fstart js f).2.getD k LIVE = DEAD ∧
          ∃ j ∈ js, k = fstart + j ∧ Dominates d x (data.getD (sstart + j) default))) ∧
      ((CheckSurvival d x data sstart fstart js f).1 = DEAD →
        ∃ j ∈ js, Dominates d (data.getD (sstart + j) default) x) ∧
      ((CheckSurvival d x data sstart fstart js f).1 = LIVE ∨
        (CheckSurvival d x data sstart fstart js f).1 = DEAD) ∧
      ((CheckSurvival d x data sstart fstart js f).1 = LIVE → ∀ j ∈ js,
        (CheckSurvival d x data sstart fstart js f).2.getD (fstart + j) LIVE = DEAD ∨
          (¬ Dominates d x (data.getD (sstart + j) default) ∧
            ¬ Dominates d (data.getD (sstart + j) default) x)) := by
  intro js
  induction js with
  | nil =>
    intro f _
    simp [CheckSurvival, LIVE_ne_DEAD]
  | cons j rest ih =>
    intro f hb
    have hj : fstart + j < f.length := hb j (List.mem_cons_self _ _)
    have hrest : ∀ j' ∈ rest, fstart + j' < f.length :=
      fun j' hj' => hb j' (List.mem_cons_of_mem _ hj')
    rw [CheckSurvival]
    by_cases hdead : f.getD (fstart + j) LIVE = DEAD
    · rw [if_pos hdead]
      obtain ⟨h1, h2, h3, h4, h5⟩ := ih f hrest
      refine ⟨h1, ?_, ?_, h4, ?_⟩
      · intro k
        rcases h2 k with h | ⟨h, j', hj', e, hd⟩
        · exact Or.inl h
        · exact Or.inr ⟨h, j', List.mem_cons_of_mem _ hj', e, hd⟩
      · intro hD
        obtain ⟨j', hj', hd⟩ := h3 hD
        exact ⟨j', List.mem_cons_of_mem _ hj', hd⟩
      · intro hL j' hj'
        rcases List.mem_cons.mp hj' with h | h
        · subst h
          left
          rcases h2 (fstart + j') with h' | ⟨h', _⟩
          · rw [h']; exact hdead
          · exact h'
        · exact h5 hL j' h
    · rw [if_neg hdead]
      simp only []
      by_cases hl : DominanceTest d x (data.getD (sstart + j) default) = DOM_LEFT
      · rw [if_pos hl]
        have hdom := (DominanceTest_left_iff _ _ _).mp hl
        obtain ⟨h1, h2, h3, h4, h5⟩ := ih (f.set (fstart + j) DEAD)
          (by intro j' hj'; simp only [List.length_set]; exact hrest j' hj')
        refine ⟨by rw [h1]; simp, ?_, ?_, h4, ?_⟩
        · intro k
          rcases h2 k with h | ⟨h, j', hj', e, hd⟩
          · by_cases hk : fstart + j = k
            · right
              refine ⟨?_, j, List.mem_cons_self _ _, hk.symm, hdom⟩
              rw [h, getD_set' _ _ _ _ _ (by omega), if_pos hk]
            · left
              rw [h, getD_set_of_ne _ _ _ _ _ hk]
          · exact Or.inr ⟨h, j', List.mem_cons_of_mem _ hj', e, hd⟩
        · intro hD
          obtain ⟨j', hj', hd⟩ := h3 hD
          exact ⟨j', List.mem_cons_of_mem _ hj', hd⟩
        · intro hL j' hj'
          rcases List.mem_cons.mp hj' with h | h
          · subst h
            left
            rcases h2 (fstart + j') with h' | ⟨h', _⟩
            · rw [h', getD_set' _ _ _ _ _ hj, if_pos rfl]
            · exact h'
          · exact h5 hL j' h
      · rw [if_neg hl]
        by_cases hr : DominanceTest d x (data.getD (sstart + j) default) = DOM_RIGHT
        · rw [if_pos hr]
          have hdom := (DominanceTest_right_iff _ _ _).mp hr
          refine ⟨rfl, fun k => Or.inl rfl, fun _ => ⟨j, List.mem_cons_self _ _, hdom⟩,
            Or.inr rfl, ?_⟩
          intro hL
          exact absurd hL.symm LIVE_ne_DEAD
        · rw [if_neg hr]
          have hnl : ¬ Dominates d x (data.getD (sstart + j) default) :=
            fun h => hl ((DominanceTest_left_iff _ _ _).mpr h)
          have hnr : ¬ Dominates d (data.getD (sstart + j) default) x :=
            fun h => hr ((DominanceTest_right_iff _ _ _).mpr h)
          obtain ⟨h1, h2, h3, h4, h5⟩ := ih f hrest
          refine ⟨h1, ?_, ?_, h4, ?_⟩
          · intro k
            rcases h2 k with h | ⟨h, j', hj', e, hd⟩
            · exact Or.inl h
            · exact Or.inr ⟨h, j', List.mem_cons_of_mem _ hj', e, hd⟩
          · intro hD
            obtain ⟨j', hj', hd⟩ := h3 hD
            exact ⟨j', List.mem_cons_of_mem _ hj', hd⟩
          · intro hL j' hj'
            rcases List.mem_cons.mp hj' with h | h
            · subst h
              exact Or.inr ⟨hnl, hnr⟩
            · exact h5 hL j' h

/-- One more left tuple checked. -/
theorem FlagInv.check {d : Nat} {data1 : List TUPLE} {ls a b len n : Nat} {f : List Nat}
    (hLp : ∀ i i', i < a → i' < a →
      ¬ Dominates d (data1.getD (ls + i) default) (data1.getD (ls + i') default))
    (hRp : ∀ j j', j < b → j' < b →
      ¬ Dominates d (data1.getD (ls + a + j) default) (data1.getD (ls + a + j') default))
    (hlen : ls + a + b ≤ len) (hn : n < a)
    (inv : FlagInv d (fun i => data1.getD (ls + i) default)
      (fun j => data1.getD (ls + a + j) default) ls a b len n f) :
    FlagInv d (fun i => data1.getD (ls + i) default)
      (fun j => data1.getD (ls + a + j) default) ls a b len (n + 1)
      ((CheckSurvival d (data1.getD (ls + n) default) data1 (ls + a) (ls + a)
          (List.range b) f).2.set (ls + n)
        (CheckSurvival d (data1.getD (ls + n) default) data1 (ls + a) (ls + a)
          (List.range b) f).1) := by
  have hfl := inv.hlen
  obtain ⟨c1, c2, c3, c4, c5⟩ := CheckSurvival_spec d (data1.getD (ls + n) default) data1
    (ls + a) (ls + a) (List.range b) f
    (by intro j hj; rw [List.mem_range] at hj; omega)
  generalize hr : CheckSurvival d (data1.getD (ls + n) default) data1 (ls + a) (ls + a)
    (List.range b) f = r at c1 c2 c3 c4 c5
  -- flags of the right tuples after the check
  have hright : ∀ j, j < b → (r.2.getD (ls + a + j) LIVE = DEAD ↔
      ∃ i, i < n + 1 ∧ Dominates d (data1.getD (ls + i) default)
        (data1.getD (ls + a + j) default)) := by
    intro j hj
    constructor
    · intro hD
      rcases c2 (ls + a + j) with h | ⟨_, j', _, e, hd⟩
      · rw [h] at hD
        obtain ⟨i, hi, hd⟩ := (inv.right j hj).mp hD
        exact ⟨i, by omega, hd⟩
      · have : j' = j := by omega
        subst this
        exact ⟨n, by omega, hd⟩
    · rintro ⟨i, hi, hd⟩
      by_cases hin : i = n
      · subst hin
        rcases c4 with hL | hD
        · rcases c5 hL j (List.mem_range.mpr hj) with h | h
          · exact h
          · exact absurd hd h.1
        · exfalso
          obtain ⟨j', hj', hd'⟩ := c3 hD
          exact hRp j' j (List.mem_range.mp hj') hj (hd'.trans hd)
      · have hD := (inv.right j hj).mpr ⟨i, by omega, hd⟩
        rcases c2 (ls + a + j) with h | ⟨h, _⟩
        · rw [h]; exact hD
        · exact h
  refine ⟨by simp only [List.length_set]; rw [c1, hfl], ?_, ?_, ?_⟩
  · intro i hi
    by_cases hin : i = n
    · subst hin
      rw [getD_set' _ _ _ _ _ (by rw [c1]; omega), if_pos rfl]
      constructor
      · intro hL j hj hdom
        rcases c5 hL j (List.mem_range.mpr hj) with h | h
        · obtain ⟨i', hi', hd'⟩ := (hright j hj).mp h
          exact hLp i' i (by omega) hn (hd'.trans hdom)
        · exact h.2 hdom
      · intro hno
        rcases c4 with hL | hD
        · exact hL
        · obtain ⟨j', hj', hd'⟩ := c3 hD
          exact absurd hd' (hno j' (List.mem_range.mp hj'))
    · rw [getD_set_of_ne _ _ _ _ _ (by omega)]
      rcases c2 (ls + i) with h | ⟨_, j', _, e, _⟩
      · rw [h]; exact inv.left i (by omega)
      · omega
  · intro j hj
    rw [getD_set_of_ne _ _ _ _ _ (by omega)]
    exact hright j hj
  · intro j hj
    rw [getD_set_of_ne _ _ _ _ _ (by omega)]
    rcases c2 (ls + a + j) with h | ⟨h, _⟩
    · rw [h]; exact inv.bool j hj
    · exact Or.inl h

/-- The flag loop of `PMerge` over the first `n` left tuples. -/
theorem FlagInv.loop {d : Nat} {data1 : List TUPLE} {ls a b len : Nat} {f0 : List Nat}
    (hLp : ∀ i i', i < a → i' < a →
      ¬ Dominates d (data1.getD (ls + i) default) (data1.getD (ls + i') default))
    (hRp : ∀ j j', j < b → j' < b →
      ¬ Dominates d (data1.getD (ls + a + j) default) (data1.getD (ls + a + j') default))
    (hlen : ls + a + b ≤ len) (hf0 : f0.length = len)
    (hzero : ∀ k, k < a + b → f0.getD (ls + k) LIVE = LIVE) :
    ∀ n, n ≤ a →
      FlagInv d (fun i => data1.getD (ls + i) default)
        (fun j => data1.getD (ls + a + j) default) ls a b len n
        ((List.range n).foldl
          (fun f i =>
            let r := CheckSurvival d (data1.getD (ls + i) default) data1 (ls + a)
              (ls + a) (List.range b) f
            r.2.set (ls + i) r.1) f0) := by
  intro n
  induction n with
  | zero =>
    intro _
    refine ⟨hf0, fun i hi => by omega, ?_, ?_⟩
    · intro j hj
      simp only [List.range_zero, List.foldl_nil]
      rw [show ls + a + j = ls + (a + j) by omega, hzero (a + j) (by omega)]
      constructor
      · intro h; exact absurd h LIVE_ne_DEAD
      · rintro ⟨i, hi, _⟩; omega
    · intro j hj
      simp only [List.range_zero, List.foldl_nil]
      rw [show ls + a + j = ls + (a + j) by omega, hzero (a + j) (by omega)]
      exact Or.inr rfl
  | succ n ih =>
    intro hn
    rw [List.range_succ, List.foldl_append]
    simp only [List.foldl_cons, List.foldl_nil]
    exact FlagInv.check hLp hRp hlen (by omega) (ih (by omega))

end PSkyline

/-- The window written by an in-place compaction holds exactly the kept cells. -/
theorem compact_foldl_win {α : Type} [Inhabited α] (keep : Nat → Prop) [DecidablePred keep]
    (off : Nat) (rpos : Nat → Nat) (is : List Nat) (data : List α) (c : Nat)
    (hp : is.Pairwise (fun a b => rpos a < rpos b))
    (hlo : ∀ i ∈ is, off + c ≤ rpos i) (hhi : ∀ i ∈ is, rpos i < data.length) (p : α) :
    Win (is.foldl (fun (acc : List α × Nat) i =>
          if keep i then (acc.1.set (off + acc.2) (acc.1.getD (rpos i) default), acc.2 + 1)
          else acc) (data, c)).1 (off + c)
        ((is.foldl (fun (acc : List α × Nat) i =>
          if keep i then (acc.1.set (off + acc.2) (acc.1.getD (rpos i) default), acc.2 + 1)
          else acc) (data, c)).2 - c) p ↔
      ∃ i ∈ is, keep i ∧ data.getD (rpos i) default = p := by
  obtain ⟨_, h2, _, h4⟩ := compact_foldl keep off rpos is data c hp hlo hhi
  rw [h2, Nat.add_sub_cancel_left]
  constructor
  · rintro ⟨k, hk, e⟩
    rw [h4 k hk] at e
    have hm : (is.filter (fun i => decide (keep i))).getD k default ∈
        is.filter (fun i => decide (keep i)) := getD_mem hk
    rw [List.mem_filter] at hm
    exact ⟨_, hm.1, by simpa using hm.2, e⟩
  · rintro ⟨i, hi, hk, e⟩
    have hm : i ∈ is.filter (fun i => decide (keep i)) := by
      rw [List.mem_filter]; exact ⟨hi, by simpa using hk⟩
    obtain ⟨j, hj, ej⟩ := mem_iff_getD.mp hm
    refine ⟨j, hj, ?_⟩
    rw [h4 j hj]
    have ej' : (is.filter (fun i => decide (keep i))).getD j 0 = i := ej
    rw [ej', e]

namespace PSkyline

theorem PMerge_spec {d : Nat} (data : List TUPLE) (flags : List Nat) (left right : Block)
    (A B : TUPLE → Prop)
    (hL : SkylineOfSet d (Win data left.start.toNat left.size) A)
    (hR : SkylineOfSet d (Win data right.start.toNat right.size) B)
    (hord : left.start.toNat + left.size ≤ right.start.toNat)
    (hbound : right.start.toNat + right.size ≤ data.length)
    (hfl : flags.length = data.length) :
    (PMerge d data flags left right).1.length = data.length ∧
    (PMerge d data flags left right).2.1.length = data.length ∧
    (PMerge d data flags left right).2.2.start = left.start ∧
    (PMerge d data flags left right).2.2.size ≤ left.size + right.size ∧
    (∀ k, (k < left.start.toNat ∨ left.start.toNat + left.size + right.size ≤ k) →
      (PMerge d data flags left right).1.getD k default = data.getD k default) ∧
    SkylineOfSet d (Win (PMerge d data flags left right).1 left.start.toNat
      (PMerge d data flags left right).2.2.size) (fun p => A p ∨ B p) := by
  generalize hls : left.start.toNat = ls at *
  generalize hrs : right.start.toNat = rs at *
  generalize ha : left.size = a at *
  generalize hb : right.size = b at *
  -- the data after the memmove
  obtain ⟨m1, m2⟩ := foldl_set_range (ls + a) (fun k => data.getD (rs + k) default) data b
    (by omega)
  have hd1 : memmove data (ls + a) rs b =
      (List.range b).foldl (fun acc k => acc.set (ls + a + k) (data.getD (rs + k) default))
        data := rfl
  rw [← hd1] at m1 m2
  generalize hdata1 : memmove data (ls + a) rs b = data1 at m1 m2
  have hLd : ∀ i, i < a → data1.getD (ls + i) default = data.getD (ls + i) default := by
    intro i hi
    rw [m2, if_neg (by omega)]
  have hRd : ∀ j, j < b → data1.getD (ls + a + j) default = data.getD (rs + j) default := by
    intro j hj
    rw [m2, if_pos (by omega)]
    congr 2
    omega
  -- the flags after the reset
  obtain ⟨z1, z2⟩ := foldl_set_range ls (fun _ => LIVE) flags (a + b) (by omega)
  generalize hflags1 : (List.range (a + b)).foldl (fun f k => f.set (ls + k) LIVE) flags
    = flags1 at z1 z2
  have hzero : ∀ k, k < a + b → flags1.getD (ls + k) LIVE = LIVE := by
    intro k hk
    rw [z2, if_pos (by omega)]
  -- the flags after the checks
  have hLp : ∀ i i', i < a → i' < a →
      ¬ Dominates d (data1.getD (ls + i) default) (data1.getD (ls + i') default) := by
    intro i i' hi hi'
    rw [hLd i hi, hLd i' hi']
    exact hL.2.2 _ _ ⟨i, hi, rfl⟩ ⟨i', hi', rfl⟩
  have hRp : ∀ j j', j < b → j' < b →
      ¬ Dominates d (data1.getD (ls + a + j) default) (data1.getD (ls + a + j') default) := by
    intro j j' hj hj'
    rw [hRd j hj, hRd j' hj']
    exact hR.2.2 _ _ ⟨j, hj, rfl⟩ ⟨j', hj', rfl⟩
  have inv := FlagInv.loop hLp hRp (show ls + a + b ≤ data.length by omega)
    (show flags1.length = data.length by rw [z1, hfl]) hzero a (le_refl a)
  generalize hflags2 : (List.range a).foldl
      (fun f i =>
        let r := CheckSurvival d (data1.getD (ls + i) default) data1 (ls + a)
          (ls + a) (List.range b) f
        r.2.set (ls + i) r.1) flags1 = flags2 at inv
  -- the compaction
  have hpw : (List.range (a + b)).Pairwise (fun x y => ls + x < ls + y) :=
    (List.pairwise_lt_range (a + b)).imp (fun h => by omega)
  have hlo : ∀ i ∈ List.range (a + b), ls + 0 ≤ ls + i := fun i _ => by omega
  have hhi : ∀ i ∈ List.range (a + b), ls + i < data1.length := by
    intro i hi
    rw [List.mem_range] at hi
    omega
  obtain ⟨c1, c2, c3, _⟩ := compact_foldl (fun i => flags2.getD (ls + i) LIVE = LIVE) ls
    (fun i => ls + i) (List.range (a + b)) data1 0 hpw hlo hhi
  have cw := compact_foldl_win (fun i => flags2.getD (ls + i) LIVE = LIVE) ls
    (fun i => ls + i) (List.range (a + b)) data1 0 hpw hlo hhi
  have hPM : PMerge d data flags left right =
      (((List.range (a + b)).foldl (fun (acc : List TUPLE × Nat) i =>
          if flags2.getD (ls + i) LIVE = LIVE then
            (acc.1.set (ls + acc.2) (acc.1.getD (ls + i) default), acc.2 + 1)
          else acc) (data1, 0)).1, flags2,
        { left with size := ((List.range (a + b)).foldl (fun (acc : List TUPLE × Nat) i =>
          if flags2.getD (ls + i) LIVE = LIVE then
            (acc.1.set (ls + acc.2) (acc.1.getD (ls + i) default), acc.2 + 1)
          else acc) (data1, 0)).2 }) := by
    rw [← hflags2, ← hflags1, ← hdata1, ← hls, ← hrs, ← ha, ← hb]
    rfl
  rw [hPM]
  generalize hres : (List.range (a + b)).foldl (fun (acc : List TUPLE × Nat) i =>
          if flags2.getD (ls + i) LIVE = LIVE then
            (acc.1.set (ls + acc.2) (acc.1.getD (ls + i) default), acc.2 + 1)
          else acc) (data1, 0) = res at c1 c2 c3 cw
  simp only [Nat.add_zero, Nat.zero_add, Nat.sub_zero] at c2 c3 cw
  have hcount : res.2 ≤ a + b := by
    rw [c2]
    calc (List.filter (fun i => decide (flags2.getD (ls + i) LIVE = LIVE))
            (List.range (a + b))).length
        ≤ (List.range (a + b)).length := List.length_filter_le _ _
      _ = a + b := List.length_range _
  refine ⟨by rw [c1, m1], inv.hlen, rfl, hcount, ?_, ?_⟩
  · intro k hk
    show res.1.getD k default = data.getD k default
    by_cases hk1 : k < ls
    · rw [c3 k (Or.inl hk1), m2, if_neg (by omega)]
    · have hk2 : ls + a + b ≤ k := by omega
      rw [c3 k (Or.inr (by rw [← c2]; omega)), m2, if_neg (by omega)]
  · show SkylineOfSet d (Win res.1 ls res.2) (fun p => A p ∨ B p)
    refine SkylineOfSet.merge hL hR (fun p => ?_)
    rw [cw p]
    constructor
    · rintro ⟨i, hi, hk, e⟩
      rw [List.mem_range] at hi
      by_cases hia : i < a
      · left
        rw [hLd i hia] at e
        refine ⟨⟨i, hia, e⟩, ?_⟩
        rintro r ⟨j, hj, rfl⟩ hdom
        have := (inv.left i hia).mp hk j hj
        simp only [] at this
        rw [hRd j hj, hLd i hia, e] at this
        exact this hdom
      · right
        obtain ⟨j, rfl⟩ : ∃ j, i = a + j := ⟨i - a, by omega⟩
        have hj : j < b := by omega
        rw [← Nat.add_assoc] at e hk
        rw [hRd j hj] at e
        refine ⟨⟨j, hj, e⟩, ?_⟩
        rintro l ⟨i', hi', rfl⟩ hdom
        have hD : flags2.getD (ls + a + j) LIVE = DEAD := by
          refine (inv.right j hj).mpr ⟨i', hi', ?_⟩
          rw [hRd j hj, hLd i' hi', e]
          exact hdom
        rw [hk] at hD
        exact LIVE_ne_DEAD hD
    · rintro (⟨⟨i, hi, e⟩, hno⟩ | ⟨⟨j, hj, e⟩, hno⟩)
      · refine ⟨i, List.mem_range.mpr (by omega), ?_, by rw [hLd i hi, e]⟩
        refine (inv.left i hi).mpr (fun j hj hdom => ?_)
        simp only [] at hdom
        rw [hRd j hj, hLd i hi, e] at hdom
        exact hno _ ⟨j, hj, rfl⟩ hdom
      · refine ⟨a + j, List.mem_range.mpr (by omega), ?_, ?_⟩
        · show flags2.getD (ls + (a + j)) LIVE = LIVE
          rw [← Nat.add_assoc]
          rcases inv.bool j hj with h | h
          · exfalso
            obtain ⟨i', hi', hdom⟩ := (inv.right j hj).mp h
            rw [hRd j hj, hLd i' hi', e] at hdom
            exact hno _ ⟨i', hi', rfl⟩ hdom
          · exact h
        · show data1.getD (ls + (a + j)) default = p
          rw [← Nat.add_assoc, hRd j hj, e]

end PSkyline

theorem mem_take_iff_Win {α : Type} [Inhabited α] {l : List α} {m : Nat} (hm : m ≤ l.length)
    (p : α) : p ∈ l.take m ↔ Win l 0 m p := by
  rw [mem_iff_getD]
  have hl : (l.take m).length = m := by simp [hm]
  constructor
  · rintro ⟨j, hj, e⟩
    rw [hl] at hj
    refine ⟨j, hj, ?_⟩
    rw [← e, Nat.zero_add, List.getD_eq_getElem _ _ (by omega),
      List.getD_eq_getElem _ _ (by omega), List.getElem_take]
  · rintro ⟨j, hj, e⟩
    refine ⟨j, by omega, ?_⟩
    rw [← e, Nat.zero_add, List.getD_eq_getElem _ _ (by omega),
      List.getD_eq_getElem _ _ (by omega), List.getElem_take]

namespace PSkyline

/-- The sequential merge loop of `SReduce`. -/
theorem SReduce_fold {d : Nat} (data0 : List TUPLE) (W : Block → Nat) :
    ∀ (bs os : List Block) (data : List TUPLE) (flags : List Nat) (left : Block)
      (A : TUPLE → Prop),
      left.start.toNat = 0 → left.size ≤ data.length → flags.length = data.length →
      SkylineOfSet d (Win data 0 left.size) A →
      List.Forall₂ (fun b o => o.start = b.start ∧ o.size ≤ W b ∧
        SkylineOfSet d (Win data b.start.toNat o.size) (Win data0 b.start.toNat (W b))) bs os →
      (∀ b ∈ bs, left.size ≤ b.start.toNat ∧ b.start.toNat + W b ≤ data.length) →
      bs.Pairwise (fun a b => a.start.toNat + W a ≤ b.start.toNat) →
      (os.foldl (fun (acc : List TUPLE × List Nat × Block) b =>
          PMerge d acc.1 acc.2.1 acc.2.2 b) (data, flags, left)).1.length = data.length ∧
      (os.foldl (fun (acc : List TUPLE × List Nat × Block) b =>
          PMerge d acc.1 acc.2.1 acc.2.2 b) (data, flags, left)).2.2.size ≤ data.length ∧
      SkylineOfSet d
        (Win (os.foldl (fun (acc : List TUPLE × List Nat × Block) b =>
          PMerge d acc.1 acc.2.1 acc.2.2 b) (data, flags, left)).1 0
          (os.foldl (fun (acc : List TUPLE × List Nat × Block) b =>
          PMerge d acc.1 acc.2.1 acc.2.2 b) (data, flags, left)).2.2.size)
        (fun p => A p ∨ ∃ b ∈ bs, Win data0 b.start.toNat (W b) p) := by
  intro bs
  induction bs with
  | nil =>
    intro os data flags left A _ hsz _ hsky hF _ _
    cases hF
    refine ⟨rfl, hsz, ?_⟩
    exact SkylineOfSet.congr (fun _ => Iff.rfl) (fun p => by simp) hsky
  | cons b bs ih =>
    intro os data flags left A hst hsz hfl hsky hF hB hP
    cases hF with
    | cons hbo hrest =>
    rename_i o os
    obtain ⟨hs, hw, hsk⟩ := hbo
    obtain ⟨hb1, hb2⟩ := hB b (List.mem_cons_self _ _)
    have hos : o.start.toNat = b.start.toNat := by rw [hs]
    obtain ⟨p1, p2, p3, p4, p5, p6⟩ := PMerge_spec (d := d) data flags left o A
      (Win data0 b.start.toNat (W b)) (by rw [hst]; exact hsky) (by rw [hos]; exact hsk)
      (by rw [hst, hos]; omega) (by rw [hos]; omega) hfl
    rw [hst] at p5 p6
    simp only [List.foldl_cons]
    generalize PMerge d data flags left o = r at p1 p2 p3 p4 p5 p6
    obtain ⟨data1, flags1, left1⟩ := r
    simp only [] at p1 p2 p3 p4 p5 p6
    have hP' := List.pairwise_cons.mp hP
    have hF' : List.Forall₂ (fun b o => o.start = b.start ∧ o.size ≤ W b ∧
        SkylineOfSet d (Win data1 b.start.toNat o.size) (Win data0 b.start.toNat (W b)))
        bs os := by
      rw [List.forall₂_iff_zip] at hrest ⊢
      refine ⟨hrest.1, fun {b' o'} hm => ?_⟩
      obtain ⟨q1, q2, q3⟩ := hrest.2 hm
      have hb' : b' ∈ bs := (List.of_mem_zip hm).1
      have hord := hP'.1 b' hb'
      refine ⟨q1, q2, SkylineOfSet.congr (fun p => (Win_congr (fun k hk => ?_) p).symm)
        (fun _ => Iff.rfl) q3⟩
      exact p5 _ (Or.inr (by omega))
    obtain ⟨r1, r2, r3⟩ := ih os data1 flags1 left1 (fun p => A p ∨ Win data0 b.start.toNat (W b) p)
      (by rw [p3]; exact hst) (by rw [p1]; omega) (by rw [p2, p1]) p6 hF'
      (fun b' hb' => by
        have h1 := hB b' (List.mem_cons_of_mem _ hb')
        have h2 := hP'.1 b' hb'
        rw [p1]
        exact ⟨by omega, h1.2⟩)
      hP'.2
    refine ⟨by rw [r1, p1], by rw [← p1]; exact r2, ?_⟩
    refine SkylineOfSet.congr (fun _ => Iff.rfl) (fun p => ?_) r3
    simp only [List.mem_cons, exists_eq_or_imp, or_assoc]

/-- The blocks of `InitBlocks`, one by one. -/
theorem InitBlocks_eq (T n : Nat) :
    InitBlocks T n = (List.range T).map (fun i =>
      if i = T - 1 then
        ({ start := (i * (n / T) : Nat), end_ := (n : Int) - 1, size := 0 } : Block)
      else { start := (i * (n / T) : Nat), end_ := ((i * (n / T) + n / T : Nat) : Int) - 1,
             size := 0 }) := by
  unfold InitBlocks
  apply List.ext_getElem
  · simp
  · intro i h1 h2
    simp only [List.length_modify, List.length_map, List.length_range] at h1
    rw [List.getElem_modify]
    simp only [List.getElem_map, List.getElem_range]
    by_cases hi : T - 1 = i
    · rw [if_pos hi, if_pos hi.symm]
    · rw [if_neg hi, if_neg (fun h => hi h.symm)]

end PSkyline

namespace PSkyline

theorem InitBlocks_spec {T n : Nat} (hT : 1 ≤ T) :
    (∀ b ∈ InitBlocks T n, 0 ≤ b.start ∧ b.start ≤ b.end_ + 1 ∧
      b.start.toNat + (b.end_ - b.start + 1).toNat ≤ n) ∧
    (InitBlocks T n).Pairwise (fun a b =>
      a.start.toNat + (a.end_ - a.start + 1).toNat ≤ b.start.toNat) ∧
    (∀ k, k < n → ∃ b ∈ InitBlocks T n, b.start.toNat ≤ k ∧
      k < b.start.toNat + (b.end_ - b.start + 1).toNat) ∧
    (∃ b0 bs, InitBlocks T n = b0 :: bs ∧ b0.start = 0) := by
  have h1 : n / T * T ≤ n := Nat.div_mul_le_self n T
  refine ⟨?_, ?_, ?_, ?_⟩
  · intro b hb
    rw [InitBlocks_eq, List.mem_map] at hb
    obtain ⟨i, hi, rfl⟩ := hb
    rw [List.mem_range] at hi
    have h2 : (i + 1) * (n / T) ≤ T * (n / T) := Nat.mul_le_mul_right _ (by omega)
    rw [Nat.succ_mul] at h2
    rw [Nat.mul_comm (n / T) T] at h1
    generalize i * (n / T) = s at *
    generalize T * (n / T) = m at *
    generalize n / T = q at *
    by_cases hlast : i = T - 1
    · simp only [if_pos hlast]
      refine ⟨by omega, by omega, by omega⟩
    · simp only [if_neg hlast]
      refine ⟨by omega, by omega, by omega⟩
  · rw [InitBlocks_eq, List.pairwise_map]
    refine (List.pairwise_lt_range T).imp_of_mem ?_
    intro i j _ hjm hij
    have hj : j < T := List.mem_range.mp hjm
    have hi : i ≠ T - 1 := by omega
    have h2 : (i + 1) * (n / T) ≤ j * (n / T) := Nat.mul_le_mul_right _ (by omega)
    rw [Nat.succ_mul] at h2
    simp only [if_neg hi]
    generalize i * (n / T) = s at *
    generalize j * (n / T) = s' at *
    generalize n / T = q at *
    by_cases hlast : j = T - 1
    · simp only [if_pos hlast]
      omega
    · simp only [if_neg hlast]
      omega
  · intro k hk
    rw [InitBlocks_eq]
    by_cases hlt : k / (n / T) < T - 1 ∧ 0 < n / T
    · refine ⟨_, List.mem_map.mpr ⟨k / (n / T), List.mem_range.mpr (by omega), rfl⟩, ?_⟩
      have hne : k / (n / T) ≠ T - 1 := by omega
      have h3 : k / (n / T) * (n / T) ≤ k := Nat.div_mul_le_self k (n / T)
      have h4 : k < (k / (n / T) + 1) * (n / T) := by
        rw [Nat.mul_comm]
        exact Nat.lt_mul_div_succ k hlt.2
      rw [Nat.succ_mul] at h4
      simp only [if_neg hne]
      generalize k / (n / T) * (n / T) = s at *
      generalize k / (n / T) = kq at *
      generalize n / T = q at *
      omega
    · refine ⟨_, List.mem_map.mpr ⟨T - 1, List.mem_range.mpr (by omega), rfl⟩, ?_⟩
      simp only [if_pos]
      have h5 : (T - 1) * (n / T) ≤ k := by
        by_cases hz : 0 < n / T
        · have h6 : T - 1 ≤ k / (n / T) := Nat.le_of_not_lt (fun h => hlt ⟨h, hz⟩)
          calc (T - 1) * (n / T) ≤ k / (n / T) * (n / T) := Nat.mul_le_mul_right _ h6
            _ ≤ k := Nat.div_mul_le_self k (n / T)
        · have : n / T = 0 := Nat.eq_zero_of_not_pos hz
          rw [this]
          simp
      generalize (T - 1) * (n / T) = s at *
      generalize n / T = q at *
      omega
  · rw [InitBlocks_eq]
    obtain ⟨T', rfl⟩ : ∃ T', T = T' + 1 := ⟨T - 1, by omega⟩
    rw [List.range_succ_eq_map, List.map_cons]
    refine ⟨_, _, rfl, ?_⟩
    by_cases h0 : 0 = T' + 1 - 1
    · simp only [if_pos h0]
      simp
    · simp only [if_neg h0]
      simp

theorem InitData_length (rows : List (List ℚ)) : (InitData rows).length = rows.length := by
  simp [InitData]

theorem SReduce_eq {d T : Nat} (data : List TUPLE) (flags : List Nat) (o0 : Block)
    (os : List Block) (hlen : (o0 :: os).length = T) :
    SReduce d T data flags (o0 :: os) =
      ((os.foldl (fun (acc : List TUPLE × List Nat × Block) b =>
          PMerge d acc.1 acc.2.1 acc.2.2 b) (data, flags, o0)).1,
       (os.foldl (fun (acc : List TUPLE × List Nat × Block) b =>
          PMerge d acc.1 acc.2.1 acc.2.2 b) (data, flags, o0)).2.2) := by
  unfold SReduce
  by_cases hT : T = 1
  · rw [if_pos hT]
    have : os = [] := by
      rw [hT] at hlen
      simp only [List.length_cons] at hlen
      exact List.length_eq_zero.mp (by omega)
    subst this
    rfl
  · rw [if_neg hT]
    rfl

/-- With at least one thread `PSkyline::Execute` returns, and the ids it returns are
those of the rows that no row dominates. -/
theorem Execute_exact {d : Nat} (T : Nat) (hT : 1 ≤ T) (rows : List (List ℚ)) :
    ∃ out, Execute d T rows = some out ∧
      ∀ pid, pid ∈ out ↔ ∃ p ∈ InitData rows, p.pid = pid ∧
        ∀ q ∈ InitData rows, ¬ Dominates d q p := by
  obtain ⟨f1, f2, f3, b0, bs, hblocks, hb0⟩ := InitBlocks_spec (T := T) (n := rows.length) hT
  have hlenB : (InitBlocks T rows.length).length = T := by
    rw [InitBlocks_eq]; simp
  have hdl := InitData_length rows
  obtain ⟨data1, out, hPM, hlen1, _, hF⟩ := PMap_spec (d := d) (InitBlocks T rows.length)
    (InitData rows) (by rw [hdl]; exact f1) f2
  have hlenO := hF.length_eq
  rw [hblocks] at hF f1 f2 f3 hlenB hlenO
  cases hF with
  | cons hbo hrest =>
  rename_i o0 os
  obtain ⟨hs, hw, hsk⟩ := hbo
  have hb0n : b0.start.toNat = 0 := by rw [hb0]; rfl
  have hP' := List.pairwise_cons.mp f2
  have hw0 := (f1 b0 (List.mem_cons_self _ _)).2.2
  obtain ⟨r1, r2, r3⟩ := SReduce_fold (d := d) (InitData rows)
    (fun b => (b.end_ - b.start + 1).toNat) bs os data1 (List.replicate rows.length LIVE) o0
    (Win (InitData rows) 0 (b0.end_ - b0.start + 1).toNat)
    (by rw [hs]; exact hb0n) (by rw [hlen1, hdl]; omega) (by rw [hlen1, hdl]; simp)
    (by rw [hb0n] at hsk; exact hsk) hrest
    (fun b hb => by
      have h1 := (f1 b (List.mem_cons_of_mem _ hb)).2.2
      have h2 := hP'.1 b hb
      rw [hlen1, hdl]
      exact ⟨by omega, h1⟩)
    hP'.2
  have hEx : Execute d T rows = some (((SReduce d T data1 (List.replicate rows.length LIVE)
      (o0 :: os)).1.take (SReduce d T data1 (List.replicate rows.length LIVE)
      (o0 :: os)).2.size).map (fun t => t.pid)) := by
    unfold Execute
    rw [if_neg (by omega)]
    simp only [hPM]
  rw [hEx, SReduce_eq _ _ _ _ (by rw [← hlenO]; exact hlenB)]
  refine ⟨_, rfl, fun pid => ?_⟩
  simp only []
  generalize (os.foldl (fun (acc : List TUPLE × List Nat × Block) b =>
          PMerge d acc.1 acc.2.1 acc.2.2 b) (data1, List.replicate rows.length LIVE, o0)) = r
    at r1 r2 r3
  have hsky : SkylineOfSet d (Win r.1 0 r.2.2.size) (fun p => p ∈ InitData rows) := by
    refine SkylineOfSet.congr (fun _ => Iff.rfl) (fun p => ?_) r3
    constructor
    · rintro (⟨k, hk, e⟩ | ⟨b, hb, k, hk, e⟩)
      · rw [← e]
        exact getD_mem (by omega)
      · rw [← e]
        have h1 := (f1 b (List.mem_cons_of_mem _ hb)).2.2
        exact getD_mem (by omega)
    · intro hp
      obtain ⟨k, hk, e⟩ := mem_iff_getD.mp hp
      obtain ⟨b, hb, hlo, hhi⟩ := f3 k (by omega)
      rcases List.mem_cons.mp hb with h | h
      · subst h
        left
        exact ⟨k, by omega, by rw [Nat.zero_add]; exact e⟩
      · right
        refine ⟨b, h, k - b.start.toNat, by omega, ?_⟩
        rw [← e]
        congr 1
        omega
  rw [List.mem_map]
  constructor
  · rintro ⟨p, hp, rfl⟩
    rw [mem_take_iff_Win (by rw [r1]; exact r2)] at hp
    have := (hsky.iff p).mp hp
    exact ⟨p, this.1, rfl, this.2⟩
  · rintro ⟨p, hp, rfl, hno⟩
    refine ⟨p, ?_, rfl⟩
    rw [mem_take_iff_Win (by rw [r1]; exact r2)]
    exact (hsky.iff p).mpr ⟨hp, hno⟩

end PSkyline

/-- A loop that writes `v i` to the cells `i` of `[s, s+n)`. -/
theorem foldl_set_range' {α : Type} (s : Nat) (v : Nat → α) (acc : List α) (n : Nat)
    (hn : s + n ≤ acc.length) :
    ((List.range' s n).foldl (fun a i => a.set i (v i)) acc).length = acc.length ∧
    ∀ k dflt, ((List.range' s n).foldl (fun a i => a.set i (v i)) acc).getD k dflt =
      if s ≤ k ∧ k < s + n then v k else acc.getD k dflt := by
  have e : (List.range' s n).foldl (fun a i => a.set i (v i)) acc =
      (List.range n).foldl (fun a k => a.set (s + k) (v (s + k))) acc := by
    rw [List.range'_eq_map_range, List.foldl_map]
  rw [e]
  obtain ⟨h1, h2⟩ := foldl_set_range s (fun k => v (s + k)) acc n hn
  refine ⟨h1, fun k dflt => ?_⟩
  rw [h2]
  by_cases hk : s ≤ k ∧ k < s + n
  · rw [if_pos hk, if_pos hk]
    congr 1
    omega
  · rw [if_neg hk, if_neg hk]

namespace QFlow

theorem phaseI_spec (d : Nat) (data : List STUPLE) (sky : List Bool) (head1 start stop : Nat)
    (h1 : start ≤ stop) (h2 : stop ≤ sky.length) :
    (phaseI d data sky head1 start stop).length = sky.length ∧
    ∀ i, start ≤ i → i < stop → ((phaseI d data sky head1 start stop).getD i false = true ↔
      ∀ j, j ≤ head1 →
        ¬ Dominates d (data.getD j default).toTUPLE (data.getD i default).toTUPLE) := by
  obtain ⟨a, b⟩ := foldl_set_range' start (fun i => !(List.range (head1 + 1)).any (fun j =>
        DominateLeft d (data.getD j default).toTUPLE (data.getD i default).toTUPLE)) sky
    (stop - start) (by omega)
  refine ⟨a, fun i hi1 hi2 => ?_⟩
  unfold phaseI
  rw [b, if_pos (by omega)]
  simp only [Bool.not_eq_true', List.any_eq_false, List.mem_range, DominateLeft_iff]
  exact ⟨fun h j hj => h j (by omega), fun h j hj => h j (by omega)⟩

theorem phaseII_spec (d : Nat) (data : List STUPLE) (sky : List Bool) (head1 head2 : Nat)
    (h1 : head1 ≤ head2) (h2 : head2 + 1 ≤ sky.length) :
    (phaseII d data sky head1 head2).length = sky.length ∧
    ∀ i, head1 + 1 ≤ i → i ≤ head2 → ((phaseII d data sky head1 head2).getD i false = true ↔
      ∀ j, head1 + 1 ≤ j → j < i →
        ¬ Dominates d (data.getD j default).toTUPLE (data.getD i default).toTUPLE) := by
  obtain ⟨a, b⟩ := foldl_set_range' (head1 + 1)
    (fun i => !(List.range' (head1 + 1) (i - (head1 + 1))).any (fun j =>
        DominateLeft d (data.getD j default).toTUPLE (data.getD i default).toTUPLE)) sky
    (head2 - head1) (by omega)
  refine ⟨a, fun i hi1 hi2 => ?_⟩
  unfold phaseII
  rw [b, if_pos (by omega)]
  simp only [Bool.not_eq_true', List.any_eq_false, List.mem_range'_1, DominateLeft_iff]
  exact ⟨fun h j hj1 hj2 => h j ⟨hj1, by omega⟩, fun h j hj => h j hj.1 (by omega)⟩

theorem compressI_eq (data : List STUPLE) (sky : List Bool) (head1 start stop : Nat) :
    compressI data sky head1 start stop =
      (List.range' start (stop - start)).foldl (fun (acc : List STUPLE × Nat) i =>
        if sky.getD i false = true then
          (acc.1.set (1 + acc.2) (acc.1.getD i default), acc.2 + 1)
        else acc) (data, head1) := by
  unfold compressI
  congr 1
  funext acc i
  rw [Nat.add_comm acc.2 1]

theorem compressII_eq (data : List STUPLE) (sky : List Bool) (head1 head2 : Nat) :
    compressII data sky head1 head2 =
      (List.range' (head1 + 1) (head2 - head1)).foldl (fun (acc : List STUPLE × Nat) i =>
        if sky.getD i false = true then
          (acc.1.set (1 + acc.2) (acc.1.getD i default), acc.2 + 1)
        else acc) (data, head1) := by
  unfold compressII
  congr 1
  funext acc i
  rw [Nat.add_comm acc.2 1]

/-- What a compression of the cells `[s, s+len)` to `data[head1+1 ..]` leaves. -/
theorem compress_spec (data : List STUPLE) (sky : List Bool) (head1 s len : Nat)
    (hs : head1 + 1 ≤ s) (hlen : s + len ≤ data.length) :
    ∃ cand : List Nat, Compressed data sky head1 s len cand
      ((List.range' s len).foldl (fun (acc : List STUPLE × Nat) i =>
        if sky.getD i false = true then
          (acc.1.set (1 + acc.2) (acc.1.getD i default), acc.2 + 1)
        else acc) (data, head1)) := by
  have hpw : (List.range' s len).Pairwise (fun a b => a < b) := List.pairwise_lt_range' s len
  obtain ⟨c1, c2, c3, c4⟩ := compact_foldl (fun i => sky.getD i false = true) 1
    (fun i => i) (List.range' s len) data head1 hpw
    (fun i hi => by rw [List.mem_range'_1] at hi; show 1 + head1 ≤ i; omega)
    (fun i hi => by rw [List.mem_range'_1] at hi; show i < data.length; omega)
  refine ⟨(List.range' s len).filter (fun i => decide (sky.getD i false = true)),
    ?_, ?_, ?_, ?_, c1, c2, ?_, ?_⟩
  · calc _ ≤ (List.range' s len).length := List.length_filter_le _ _
      _ = len := List.length_range' _ _ _
  · intro c hc
    have hm : ((List.range' s len).filter (fun i => decide (sky.getD i false = true))).getD c
        default ∈ (List.range' s len).filter (fun i => decide (sky.getD i false = true)) :=
      getD_mem hc
    rw [List.mem_filter, List.mem_range'_1] at hm
    exact ⟨hm.1.1, hm.1.2, by simpa using hm.2⟩
  · intro i hi1 hi2 hk
    have hm : i ∈ (List.range' s len).filter (fun i => decide (sky.getD i false = true)) := by
      rw [List.mem_filter, List.mem_range'_1]
      exact ⟨⟨hi1, hi2⟩, by simpa using hk⟩
    exact mem_iff_getD.mp hm
  · intro c c' hcc hc'
    have hp := (hpw.filter (fun i => decide (sky.getD i false = true)))
    rw [List.pairwise_iff_getElem] at hp
    have := hp c c' (by omega) hc' hcc
    rw [List.getD_eq_getElem _ _ (by omega), List.getD_eq_getElem _ _ hc']
    exact this
  · intro k hk
    exact c3 k (by omega)
  · intro c hc
    have := c4 c hc
    rw [show head1 + 1 + c = 1 + head1 + c by omega]
    exact this

theorem compressI_spec (data : List STUPLE) (sky : List Bool) (head1 start stop : Nat)
    (hs : head1 + 1 ≤ start) (hlen : start + (stop - start) ≤ data.length) :
    ∃ cand : List Nat, Compressed data sky head1 start (stop - start) cand
      (compressI data sky head1 start stop) := by
  rw [compressI_eq]
  exact compress_spec data sky head1 start (stop - start) hs hlen

theorem compressII_spec (data : List STUPLE) (sky : List Bool) (head1 head2 : Nat)
    (hlen : head1 + 1 + (head2 - head1) ≤ data.length) :
    ∃ cand : List Nat, Compressed data sky head1 (head1 + 1) (head2 - head1) cand
      (compressII data sky head1 head2) := by
  rw [compressII_eq]
  exact compress_spec data sky head1 (head1 + 1) (head2 - head1) (le_refl _) hlen

end QFlow

namespace QFlow

/-- One block of the loop of `QFlow::skyline` keeps the invariant. -/
theorem Inv.step {d : Nat} {S data : List STUPLE} {sky : List Bool} {head1 start stop : Nat}
    (hnb : NoBackDom d S) (inv : Inv d S data sky head1 start) (h1 : start < stop)
    (h2 : stop ≤ S.length) :
    Inv d S
      (compressII (compressI data (phaseI d data sky head1 start stop) head1 start stop).1
        (phaseII d (compressI data (phaseI d data sky head1 start stop) head1 start stop).1
          (phaseI d data sky head1 start stop) head1
          (compressI data (phaseI d data sky head1 start stop) head1 start stop).2) head1
        (compressI data (phaseI d data sky head1 start stop) head1 start stop).2).1
      (phaseII d (compressI data (phaseI d data sky head1 start stop) head1 start stop).1
          (phaseI d data sky head1 start stop) head1
          (compressI data (phaseI d data sky head1 start stop) head1 start stop).2)
      (compressII (compressI data (phaseI d data sky head1 start stop) head1 start stop).1
        (phaseII d (compressI data (phaseI d data sky head1 start stop) head1 start stop).1
          (phaseI d data sky head1 start stop) head1
          (compressI data (phaseI d data sky head1 start stop) head1 start stop).2) head1
        (compressI data (phaseI d data sky head1 start stop) head1 start stop).2).2
      stop := by
  have hlen := inv.len
  have hslen := inv.slen
  have hs := inv.hs
  obtain ⟨a1, a2⟩ := phaseI_spec d data sky head1 start stop (by omega) (by omega)
  generalize phaseI d data sky head1 start stop = sky1 at a1 a2 ⊢
  obtain ⟨cand, hc⟩ := compressI_spec data sky1 head1 start stop hs (by omega)
  generalize compressI data sky1 head1 start stop = c1 at hc ⊢
  have hcb := hc.bound
  have hcl := hc.len
  have hcc := hc.count
  obtain ⟨e1, e2⟩ := phaseII_spec d c1.1 sky1 head1 c1.2 (by omega) (by omega)
  generalize phaseII d c1.1 sky1 head1 c1.2 = sky2 at e1 e2 ⊢
  obtain ⟨cand2, hc2⟩ := compressII_spec c1.1 sky2 head1 c1.2 (by omega)
  generalize compressII c1.1 sky2 head1 c1.2 = c2 at hc2 ⊢
  have hc2b := hc2.bound
  have hc2l := hc2.len
  have hc2c := hc2.count
  -- the candidates
  have hY : ∀ c, c < cand.length → (data.getD (cand.getD c 0) default) =
      (S.getD (cand.getD c 0) default) := fun c hc' => inv.suffix _ (hc.mem c hc').1
  have hpos : ∀ c, c < cand.length →
      c1.1.getD (head1 + 1 + c) default = data.getD (cand.getD c 0) default := hc.pos
  have hK2 : ∀ c, c < cand.length → (sky2.getD (head1 + 1 + c) false = true ↔
      ∀ c', c' < c → ¬ Dominates d (data.getD (cand.getD c' 0) default).toTUPLE
        (data.getD (cand.getD c 0) default).toTUPLE) := by
    intro c hc'
    rw [e2 (head1 + 1 + c) (by omega) (by omega)]
    constructor
    · intro h c' hcc'
      have := h (head1 + 1 + c') (by omega) (by omega)
      rw [hpos c' (by omega), hpos c hc'] at this
      exact this
    · intro h j hj1 hj2
      obtain ⟨c', rfl⟩ : ∃ c', j = head1 + 1 + c' := ⟨j - (head1 + 1), by omega⟩
      rw [hpos c' (by omega), hpos c hc']
      exact h c' (by omega)
  have hpre : ∀ k, k < head1 + 1 → c2.1.getD k default = data.getD k default := by
    intro k hk
    rw [hc2.frame k (Or.inl hk), hc.frame k (Or.inl hk)]
  have hM : ∀ t, WinT c2.1 0 (c2.2 + 1) t ↔ WinT data 0 (head1 + 1) t ∨
      ∃ c, c < cand.length ∧ sky2.getD (head1 + 1 + c) false = true ∧
        (data.getD (cand.getD c 0) default).toTUPLE = t := by
    intro t
    constructor
    · rintro ⟨k, hk, e⟩
      rw [Nat.zero_add] at e
      by_cases hk1 : k < head1 + 1
      · left
        exact ⟨k, hk1, by rw [Nat.zero_add, ← hpre k hk1]; exact e⟩
      · right
        obtain ⟨c', rfl⟩ : ∃ c', k = head1 + 1 + c' := ⟨k - (head1 + 1), by omega⟩
        have hc' : c' < cand2.length := by omega
        obtain ⟨m1, m2, m3⟩ := hc2.mem c' hc'
        obtain ⟨c, hci⟩ : ∃ c, cand2.getD c' 0 = head1 + 1 + c :=
          ⟨cand2.getD c' 0 - (head1 + 1), by omega⟩
        rw [hc2.pos c' hc', hci] at e
        rw [hci] at m2 m3
        have hcm : c < cand.length := by omega
        rw [hpos c hcm] at e
        exact ⟨c, hcm, m3, e⟩
    · rintro (⟨k, hk, e⟩ | ⟨c, hcm, hk, e⟩)
      · rw [Nat.zero_add] at e
        exact ⟨k, by omega, by rw [Nat.zero_add, hpre k hk]; exact e⟩
      · obtain ⟨c', hc', hci⟩ := hc2.all (head1 + 1 + c) (by omega) (by omega) hk
        refine ⟨head1 + 1 + c', by omega, ?_⟩
        rw [Nat.zero_add, hc2.pos c' hc', hci, hpos c hcm]
        exact e
  refine ⟨by rw [hc2l, hcl, hlen], by rw [e1, a1, hslen], by omega, h2, ?_, ?_⟩
  · intro k hk
    rw [hc2.frame k (Or.inr (by omega)), hc.frame k (Or.inr (by omega))]
    exact inv.suffix k (by omega)
  · obtain ⟨s1, s2, s3⟩ := inv.sky
    -- every candidate enters the prefix or is dominated by a member of it
    have hcov : ∀ c, c < cand.length →
        WinT c2.1 0 (c2.2 + 1) (data.getD (cand.getD c 0) default).toTUPLE ∨
        ∃ l, WinT c2.1 0 (c2.2 + 1) l ∧
          Dominates d l (data.getD (cand.getD c 0) default).toTUPLE := by
      intro c
      induction c using Nat.strong_induction_on with
      | _ c ih =>
        intro hcm
        by_cases hk : sky2.getD (head1 + 1 + c) false = true
        · left
          exact (hM _).mpr (Or.inr ⟨c, hcm, hk, rfl⟩)
        · right
          rw [hK2 c hcm] at hk
          push_neg at hk
          obtain ⟨c', hcc', hdom⟩ := hk
          rcases ih c' hcc' (by omega) with h | ⟨l, hl, hdl⟩
          · exact ⟨_, h, hdom⟩
          · exact ⟨l, hl, hdl.trans hdom⟩
    refine ⟨?_, ?_, ?_⟩
    · intro t ht
      rcases (hM t).mp ht with h | ⟨c, hcm, _, e⟩
      · obtain ⟨k, hk, e⟩ := s1 t h
        exact ⟨k, by omega, e⟩
      · obtain ⟨m1, m2, _⟩ := hc.mem c hcm
        refine ⟨cand.getD c 0, by omega, ?_⟩
        rw [Nat.zero_add, ← hY c hcm]
        exact e
    · rintro a ⟨k, hk, e⟩
      rw [Nat.zero_add] at e
      by_cases hks : k < start
      · rcases s2 a ⟨k, hks, by rw [Nat.zero_add]; exact e⟩ with h | ⟨l, hl, hdl⟩
        · exact Or.inl ((hM a).mpr (Or.inl h))
        · exact Or.inr ⟨l, (hM l).mpr (Or.inl hl), hdl⟩
      · have hdk : data.getD k default = S.getD k default := inv.suffix k (by omega)
        by_cases hk1 : sky1.getD k false = true
        · obtain ⟨c, hcm, hci⟩ := hc.all k (by omega) (by omega) hk1
          have := hcov c hcm
          rw [hci, hdk, e] at this
          exact this
        · right
          rw [a2 k (by omega) hk] at hk1
          push_neg at hk1
          obtain ⟨j, hj, hdom⟩ := hk1
          rw [hdk, e] at hdom
          exact ⟨_, (hM _).mpr (Or.inl ⟨j, by omega, by rw [Nat.zero_add]⟩), hdom⟩
    · intro x y hx hy hdom
      rcases (hM x).mp hx with hxP | ⟨cx, hcx, hkx, ex⟩
      · rcases (hM y).mp hy with hyP | ⟨cy, hcy, hky, ey⟩
        · exact s3 x y hxP hyP hdom
        · obtain ⟨j, hj, ej⟩ := hxP
          rw [Nat.zero_add] at ej
          obtain ⟨m1, m2, m3⟩ := hc.mem cy hcy
          have := (a2 _ m1 (by omega)).mp m3 j (by omega)
          rw [ej, ey] at this
          exact this hdom
      · obtain ⟨mx1, mx2, _⟩ := hc.mem cx hcx
        rw [hY cx hcx] at ex
        rcases (hM y).mp hy with hyP | ⟨cy, hcy, hky, ey⟩
        · obtain ⟨k, hk, ek⟩ := s1 y hyP
          rw [Nat.zero_add] at ek
          have := hnb k (cand.getD cx 0) (by omega) (by omega)
          rw [ex, ek] at this
          exact this hdom
        · rcases Nat.lt_trichotomy cx cy with h | h | h
          · have := (hK2 cy hcy).mp hky cx h
            rw [hY cx hcx, ex, ey] at this
            exact this hdom
          · subst h
            rw [hY cx hcx, ex] at ey
            rw [ey] at hdom
            exact Dominates.irrefl d _ hdom
          · obtain ⟨my1, my2, _⟩ := hc.mem cy hcy
            have hlt := hc.mono cy cx h hcx
            have := hnb (cand.getD cy 0) (cand.getD cx 0) hlt (by omega)
            rw [hY cy hcy] at ey
            rw [ex, ey] at this
            exact this hdom

end QFlow

theorem foldl_add_le (f g : Nat → ℚ) : ∀ (l : List Nat) (a b : ℚ),
    (∀ j ∈ l, f j ≤ g j) → a ≤ b →
    l.foldl (fun s j => s + f j) a ≤ l.foldl (fun s j => s + g j) b := by
  intro l
  induction l with
  | nil => intro a b _ h; exact h
  | cons x xs ih =>
    intro a b hle h
    simp only [List.foldl_cons]
    exact ih _ _ (fun j hj => hle j (List.mem_cons_of_mem _ hj))
      (add_le_add h (hle x (List.mem_cons_self _ _)))

theorem foldl_add_lt (f g : Nat → ℚ) : ∀ (l : List Nat) (a b : ℚ),
    (∀ j ∈ l, f j ≤ g j) → a ≤ b → (a < b ∨ ∃ j ∈ l, f j < g j) →
    l.foldl (fun s j => s + f j) a < l.foldl (fun s j => s + g j) b := by
  intro l
  induction l with
  | nil =>
    intro a b _ _ h
    rcases h with h | ⟨j, hj, _⟩
    · exact h
    · exact absurd hj (List.not_mem_nil _)
  | cons x xs ih =>
    intro a b hle hab h
    simp only [List.foldl_cons]
    have hx := hle x (List.mem_cons_self _ _)
    refine ih _ _ (fun j hj => hle j (List.mem_cons_of_mem _ hj)) (add_le_add hab hx) ?_
    rcases h with h | ⟨j, hj, hlt⟩
    · exact Or.inl (add_lt_add_of_lt_of_le h hx)
    · rcases List.mem_cons.mp hj with e | hj'
      · subst e
        exact Or.inl (add_lt_add_of_le_of_lt hab hlt)
      · exact Or.inr ⟨j, hj', hlt⟩

/-- A dominating tuple has the strictly smaller coordinate sum. -/
theorem score_lt_of_dominates {d : Nat} {p q : TUPLE} (h : Dominates d p q) :
    (List.range d).tail.foldl (fun s j => s + p.elem j) (p.elem 0)
      < (List.range d).tail.foldl (fun s j => s + q.elem j) (q.elem 0) := by
  obtain ⟨hall, i, hi, hlt⟩ := h
  obtain ⟨d', rfl⟩ : ∃ d', d = d' + 1 := ⟨d - 1, by omega⟩
  have hmem : ∀ j, j ∈ (List.range (d' + 1)).tail ↔ 1 ≤ j ∧ j < d' + 1 := by
    intro j
    rw [List.range_succ_eq_map, List.tail_cons, List.mem_map]
    constructor
    · rintro ⟨k, hk, rfl⟩
      rw [List.mem_range] at hk
      omega
    · rintro ⟨h1, h2⟩
      exact ⟨j - 1, List.mem_range.mpr (by omega), by omega⟩
  refine foldl_add_lt _ _ _ _ _ (fun j hj => hall j ((hmem j).mp hj).2) (hall 0 (by omega)) ?_
  by_cases h0 : i = 0
  · subst h0
    exact Or.inl hlt
  · exact Or.inr ⟨i, (hmem i).mpr ⟨by omega, hi⟩, hlt⟩

/-- The insertion sort that models `std::sort` permutes its input. -/
theorem stdSort_perm {α : Type} (comp : α → α → Bool) (l : List α) :
    (stdSort comp l).Perm l :=
  List.perm_insertionSort _ l

namespace QFlow

theorem STupleComp_total (d : Nat) (a b : STUPLE) :
    STupleComp d b a = false ∨ STupleComp d a b = false := by
  unfold STupleComp
  generalize (List.range d).tail.foldl (fun s k => s + a.elem k) (a.elem 0) = sa
  generalize (List.range d).tail.foldl (fun s k => s + b.elem k) (b.elem 0) = sb
  by_cases h1 : a.score < b.score
  · left
    rw [if_neg (by linarith), if_pos h1]
  · by_cases h2 : b.score < a.score
    · right
      rw [if_neg h1, if_pos h2]
    · rw [if_neg h1, if_neg h2, if_neg h2, if_neg h1]
      by_cases h3 : sa < sb
      · left
        simp only [decide_eq_false_iff_not]
        linarith
      · right
        simp only [decide_eq_false_iff_not]
        exact h3

theorem STupleComp_trans (d : Nat) (a b c : STUPLE) (h1 : STupleComp d b a = false)
    (h2 : STupleComp d c b = false) : STupleComp d c a = false := by
  unfold STupleComp at *
  generalize (List.range d).tail.foldl (fun s k => s + a.elem k) (a.elem 0) = sa at *
  generalize (List.range d).tail.foldl (fun s k => s + b.elem k) (b.elem 0) = sb at *
  generalize (List.range d).tail.foldl (fun s k => s + c.elem k) (c.elem 0) = sc at *
  by_cases hba : b.score < a.score
  · rw [if_pos hba] at h1
    exact absurd h1 (by simp)
  · rw [if_neg hba] at h1
    by_cases hcb : c.score < b.score
    · rw [if_pos hcb] at h2
      exact absurd h2 (by simp)
    · rw [if_neg hcb] at h2
      have hca : ¬ c.score < a.score := by linarith
      rw [if_neg hca]
      by_cases hab : a.score < b.score
      · rw [if_pos (by linarith)]
      · rw [if_neg hab] at h1
        by_cases hbc : b.score < c.score
        · rw [if_pos (by linarith)]
        · rw [if_neg hbc] at h2
          rw [if_neg (by linarith)]
          simp only [decide_eq_false_iff_not] at *
          linarith

/-- The insertion sort that models `std::sort` orders by `STupleComp`. -/
theorem stdSort_STupleComp (d : Nat) (l : List STUPLE) :
    (stdSort (STupleComp d) l).Perm l ∧
    (stdSort (STupleComp d) l).Pairwise (fun a b => STupleComp d b a = false) := by
  haveI : IsTotal STUPLE (fun a b => STupleComp d b a = false) :=
    ⟨fun a b => STupleComp_total d a b⟩
  haveI : IsTrans STUPLE (fun a b => STupleComp d b a = false) :=
    ⟨fun a b c h1 h2 => STupleComp_trans d a b c h1 h2⟩
  exact ⟨stdSort_perm _ l, List.sorted_insertionSort (fun a b => STupleComp d b a = false) l⟩

theorem skyline.loop_inv_final {d : Nat} {S : List STUPLE} {accum : Nat} (hacc : 1 ≤ accum)
    (hn : S.length < 2 ^ 31) (hnb : NoBackDom d S) :
    ∀ (fuel : Nat) (data : List STUPLE) (sky : List Bool) (head1 start : Nat),
      Inv d S data sky head1 start → (start < S.length → start + accum < 2 ^ 32) →
      S.length - start < fuel →
      ∃ data' sky' head1', skyline.loop d S.length accum fuel data sky head1 start
          = some (data', head1') ∧ Inv d S data' sky' head1' S.length := by
  intro fuel
  induction fuel with
  | zero => intro _ _ _ _ _ _ h; omega
  | succ fuel ih =>
    intro data sky head1 start inv hw hf
    rw [skyline.loop]
    by_cases hlt : start < S.length
    · rw [if_pos hlt]
      simp only []
      rw [Nat.mod_eq_of_lt (hw hlt)]
      by_cases hov : start + accum > S.length
      · rw [if_pos hov]
        exact ih _ _ _ _ (Inv.step hnb inv hlt (le_refl _)) (fun h => absurd h (lt_irrefl _))
          (by omega)
      · rw [if_neg hov]
        exact ih _ _ _ _ (Inv.step hnb inv (by omega) (by omega)) (fun h => by omega) (by omega)
    · rw [if_neg hlt]
      have : start = S.length := le_antisymm inv.hn (by omega)
      subst this
      exact ⟨data, sky, head1, rfl, inv⟩

theorem Init_length_rows (rows : List (List ℚ)) : (Init rows).length = rows.length := by
  simp [Init]

/-- With a block size of at least one and below `2 ^ 32 - 1`, fewer than `2 ^ 31` rows and a
sort that orders by `STupleComp`, `QFlow::Execute` returns on every non-empty input, and
the ids it returns are those of the rows that no row dominates. -/
theorem Execute_correct {d : Nat} (sort : List STUPLE → List STUPLE) (accum : Nat)
    (rows : List (List ℚ)) (hne : rows ≠ []) (hacc : 1 ≤ accum) (hmax : accum + 1 < 2 ^ 32)
    (hlen : rows.length < 2 ^ 31)
    (hsort : ∀ l, (sort l).Perm l ∧
      (sort l).Pairwise (fun a b => STupleComp d b a = false)) :
    ∃ out, Execute d sort accum rows = some out ∧
      ∀ pid, pid ∈ out ↔ ∃ p ∈ Init rows, p.pid = pid ∧
        ∀ q ∈ Init rows, ¬ Dominates d q.toTUPLE p.toTUPLE := by
  obtain ⟨hperm, hpw⟩ := hsort (ComputeScores d (Init rows))
  generalize hS : sort (ComputeScores d (Init rows)) = S at hperm hpw
  have hlenS : S.length = rows.length := by
    rw [hperm.length_eq]
    simp [ComputeScores, Init]
  have hpos : 1 ≤ S.length := by
    rw [hlenS]
    exact Nat.pos_of_ne_zero (fun h => hne (List.length_eq_zero.mp h))
  -- members of the sorted list carry their coordinate sum as score
  have hscore : ∀ s ∈ S, s.score =
      (List.range d).tail.foldl (fun a j => a + s.elem j) (s.elem 0) := by
    intro s hs
    have := hperm.mem_iff.mp hs
    simp only [ComputeScores, List.mem_map] at this
    obtain ⟨t, _, rfl⟩ := this
    rfl
  have hnb : NoBackDom d S := by
    intro i j hij hj hdom
    have hpw' := List.pairwise_iff_getElem.mp hpw i j (by omega) hj hij
    rw [← List.getD_eq_getElem _ default, ← List.getD_eq_getElem _ default] at hpw'
    have h1 := hscore _ (getD_mem (l := S) (j := i) (by omega))
    have h2 := hscore _ (getD_mem (l := S) (j := j) hj)
    have hlt := score_lt_of_dominates hdom
    unfold STupleComp at hpw'
    rw [if_pos (by rw [h1, h2]; exact hlt)] at hpw'
    exact absurd hpw' (by simp)
  -- the tuples of the sorted list are those of the input
  have hST : ∀ t, WinT S 0 S.length t ↔ ∃ p ∈ Init rows, p.toTUPLE = t := by
    intro t
    constructor
    · rintro ⟨k, hk, e⟩
      rw [Nat.zero_add] at e
      have := hperm.mem_iff.mp (getD_mem (l := S) (j := k) hk)
      simp only [ComputeScores, List.mem_map] at this
      obtain ⟨p, hp, e'⟩ := this
      refine ⟨p, hp, ?_⟩
      rw [← e, ← e']
    · rintro ⟨p, hp, e⟩
      have : ({ p with
          score := ((List.range d).tail.foldl (fun s j => s + p.elem j) (p.elem 0)) } :
          STUPLE) ∈ S := by
        apply hperm.mem_iff.mpr
        simp only [ComputeScores, List.mem_map]
        exact ⟨p, hp, rfl⟩
      obtain ⟨k, hk, ek⟩ := mem_iff_getD.mp this
      refine ⟨k, hk, ?_⟩
      rw [Nat.zero_add, ek]
      exact e
  have inv0 : Inv d S S ((List.replicate S.length false).set 0 true) 0 1 := by
    refine ⟨rfl, by simp, le_refl _, hpos, fun _ _ => rfl, fun _ h => h, fun _ h => Or.inl h, ?_⟩
    rintro x y ⟨k, hk, e⟩ ⟨k', hk', e'⟩ hdom
    have hk0 : k = 0 := by omega
    have hk0' : k' = 0 := by omega
    subst hk0 hk0'
    rw [← e, ← e'] at hdom
    exact Dominates.irrefl d _ hdom
  obtain ⟨data', sky', head1', hloop, inv⟩ := skyline.loop_inv_final hacc
    (by rw [hlenS]; exact hlen) hnb (S.length + 1) S
    ((List.replicate S.length false).set 0 true) 0 1 inv0 (fun _ => by omega) (by omega)
  have hEx : Execute d sort accum rows
      = some ((data'.take (head1' + 1)).map (fun t => t.pid)) := by
    unfold Execute
    rw [if_neg hne, hS]
    unfold skyline
    simp only [hloop]
  refine ⟨_, hEx, fun pid => ?_⟩
  have hsz : head1' + 1 ≤ data'.length := by rw [inv.len]; exact inv.hs
  have hiff := fun t => inv.sky.iff t
  rw [List.mem_map]
  constructor
  · rintro ⟨s, hs, rfl⟩
    rw [mem_take_iff_Win hsz] at hs
    obtain ⟨k, hk, e⟩ := hs
    obtain ⟨h1, h2⟩ := (hiff s.toTUPLE).mp ⟨k, hk, by rw [e]⟩
    obtain ⟨p, hp, ep⟩ := (hST _).mp h1
    refine ⟨p, hp, by rw [show p.pid = p.toTUPLE.pid from rfl, ep], ?_⟩
    intro q hq
    rw [ep]
    exact h2 _ ((hST _).mpr ⟨q, hq, rfl⟩)
  · rintro ⟨p, hp, rfl, hno⟩
    have : WinT data' 0 (head1' + 1) p.toTUPLE := by
      refine (hiff _).mpr ⟨(hST _).mpr ⟨p, hp, rfl⟩, ?_⟩
      intro q hq
      obtain ⟨q', hq', e⟩ := (hST _).mp hq
      rw [← e]
      exact hno q' hq'
    obtain ⟨k, hk, e⟩ := this
    refine ⟨data'.getD (0 + k) default, ?_, by
      rw [show (data'.getD (0 + k) default).pid = (data'.getD (0 + k) default).toTUPLE.pid
        from rfl, e]⟩
    rw [mem_take_iff_Win hsz]
    exact ⟨k, hk, rfl⟩

end QFlow

namespace PQFilter

/-- When no point has a smaller sum than the top of any queue, the scoring loop leaves
the queues alone, whatever thread runs which iteration. -/
theorem scan_no_replace (d : Nat) (sched : Nat → Nat) (data : List EPTUPLE)
    (PQs : List (List (Nat × ℚ))) : ∀ n,
    (∀ i, i < n → ∀ q ∈ [] :: PQs,
      ¬ ((top q).2 > sumElems d (data.getD i default).toTUPLE)) →
    scan d n sched data PQs = scan d n (fun _ => 0) data PQs ∧
    (scan d n sched data PQs).2 = PQs ∧
    ∀ j, n ≤ j → (scan d n sched data PQs).1.getD j default = data.getD j default := by
  intro n
  induction n with
  | zero =>
    intro _
    exact ⟨rfl, rfl, fun _ _ => rfl⟩
  | succ n ih =>
    intro h
    obtain ⟨h1, h2, h3⟩ := ih (fun i hi => h i (by omega))
    have hq : ∀ th, PQs.getD th [] ∈ [] :: PQs := by
      intro th
      by_cases hth : th < PQs.length
      · rw [List.getD_eq_getElem _ _ hth]
        exact List.mem_cons_of_mem _ (List.getElem_mem _)
      · rw [List.getD_eq_default _ _ (by omega)]
        exact List.mem_cons_self _ _
    have hstep : ∀ s : Nat → Nat, (scan d n s data PQs).2 = PQs →
        (scan d n s data PQs).1.getD n default = data.getD n default →
        scan d (n + 1) s data PQs =
          ((scan d n s data PQs).1.set n
            { (data.getD n default) with
              score := sumElems d (data.getD n default).toTUPLE }, PQs) := by
      intro s e2 e3
      unfold scan at e2 e3 ⊢
      rw [List.range_succ, List.foldl_append]
      simp only [List.foldl_cons, List.foldl_nil]
      rw [e2, e3, if_neg (h n (by omega) _ (hq (s n)))]
    have e0 := hstep sched h2 (h3 n (le_refl n))
    have h1' : (scan d n (fun _ => 0) data PQs).2 = PQs := by rw [← h1]; exact h2
    have h3' : (scan d n (fun _ => 0) data PQs).1.getD n default = data.getD n default := by
      rw [← h1]; exact h3 n (le_refl n)
    have e1 := hstep (fun _ => 0) h1' h3'
    refine ⟨by rw [e0, e1, h1], by rw [e0], ?_⟩
    intro j hj
    rw [e0]
    simp only []
    rw [getD_set_of_ne _ _ _ _ _ (by omega)]
    exact h3 j (by omega)

end PQFilter

namespace Hybrid

/-- When the pre-filter replaces no queue entry, the result of `Hybrid` does not depend
on the thread that runs each iteration of the scoring loop. -/
theorem Execute_sched (d : Nat) (sort : List EPTUPLE → List EPTUPLE) (sched : Nat → Nat)
    (num_threads accum pq_size : Nat) (rows : List (List ℚ))
    (h : ∀ i, i < rows.length → ∀ q ∈ [] :: (PQFilter.seed d pq_size num_threads
        (rows.enum.map (fun ir =>
          ({ elems := ir.2, pid := ir.1, score := 0, partition := 0 } : EPTUPLE)))).2,
      ¬ ((PQFilter.top q).2 > PQFilter.sumElems d
        ((PQFilter.seed d pq_size num_threads (rows.enum.map (fun ir =>
          ({ elems := ir.2, pid := ir.1, score := 0, partition := 0 } : EPTUPLE)))).1.getD i
            default).toTUPLE)) :
    Execute d sort sched num_threads accum pq_size rows =
      Execute d sort (fun _ => 0) num_threads accum pq_size rows := by
  have := (PQFilter.scan_no_replace d sched _ _ rows.length h).1
  unfold Execute Init PQFilter.Execute
  simp only []
  rw [this]

end Hybrid

/-! ## The dominance primitives of common.h -/

theorem DominanceTest.loop_values (t1 t2 : TUPLE) (ls : List Nat) (b1 b2 : Bool) :
    DominanceTest.loop t1 t2 ls b1 b2 = DOM_LEFT ∨ DominanceTest.loop t1 t2 ls b1 b2 = DOM_RIGHT ∨
      DominanceTest.loop t1 t2 ls b1 b2 = DOM_INCOMP := by
  induction ls generalizing b1 b2 with
  | nil =>
    unfold DominanceTest.loop
    split_ifs <;> simp
  | cons i rest ih =>
    unfold DominanceTest.loop
    simp only []
    split_ifs <;> first | exact Or.inr (Or.inr rfl) | exact ih _ _

theorem DominanceTest_incomp_iff (d : Nat) (t1 t2 : TUPLE) :
    DominanceTest d t1 t2 = DOM_INCOMP ↔ ¬ Dominates d t1 t2 ∧ ¬ Dominates d t2 t1 := by
  rw [← DominanceTest_left_iff, ← DominanceTest_right_iff]
  have h := DominanceTest.loop_values t1 t2 (List.range d) false false
  have e1 : DOM_INCOMP ≠ DOM_LEFT := by decide
  have e2 : DOM_INCOMP ≠ DOM_RIGHT := by decide
  unfold DominanceTest
  constructor
  · intro h'
    rw [h']
    exact ⟨e1, e2⟩
  · rintro ⟨h1, h2⟩
    rcases h with h | h | h
    · exact absurd h h1
    · exact absurd h h2
    · exact h

theorem DominateLeftDVC_values (d : Nat) (t1 t2 : TUPLE) :
    DominateLeftDVC d t1 t2 = 1 ∨ DominateLeftDVC d t1 t2 = 0 := by
  unfold DominateLeftDVC
  split_ifs
  · exact Or.inr rfl
  · exact Or.inl rfl

theorem DominateLeftDVC_iff (d : Nat) (t1 t2 : TUPLE) :
    DominateLeftDVC d t1 t2 = 1 ↔ WeakDom d t1 t2 := by
  unfold DominateLeftDVC WeakDom
  by_cases h : (List.range d).any (fun i => decide (t1.elem i > t2.elem i)) = true
  · rw [if_pos h]
    simp only [List.any_eq_true, List.mem_range, decide_eq_true_eq] at h
    obtain ⟨i, hi, hlt⟩ := h
    constructor
    · intro h0
      exact absurd h0 (by decide)
    · intro hw
      exact absurd (hw i hi) (not_le.mpr hlt)
  · rw [if_neg h]
    simp only [List.any_eq_true, List.mem_range, decide_eq_true_eq, not_exists, not_and,
      not_lt] at h
    exact ⟨fun _ => h, fun _ => rfl⟩

/-- Under the distinct-value condition weak dominance is dominance, in at least one
dimension. -/
theorem WeakDom.dominates_of_distinct {d : Nat} {p q : TUPLE} (hd : 0 < d)
    (hv : DistinctValues d p q) (h : WeakDom d p q) : Dominates d p q :=
  ⟨h, 0, hd, lt_of_le_of_ne (h 0 hd) (hv 0 hd)⟩

theorem DT_bitmap_dvc_eq_zero_iff (d : Nat) (cur sky : TUPLE) :
    DT_bitmap_dvc d cur sky = 0 ↔ ∀ i, i < d → cur.elem i < sky.elem i := by
  constructor
  · intro h i hi
    have := DT_bitmap_dvc_testBit d cur sky i
    rw [h, Nat.zero_testBit] at this
    have h2 : ¬ (i < d ∧ sky.elem i ≤ cur.elem i) := by
      intro hc
      rw [decide_eq_true hc] at this
      exact Bool.false_ne_true this
    exact not_le.mp (fun hle => h2 ⟨hi, hle⟩)
  · intro h
    apply Nat.eq_of_testBit_eq
    intro i
    rw [DT_bitmap_dvc_testBit, Nat.zero_testBit]
    apply decide_eq_false
    rintro ⟨hi, hle⟩
    exact absurd (h i hi) (not_lt.mpr hle)

theorem DT_bitmap_lt (d : Nat) (cur sky : TUPLE) : DT_bitmap d cur sky < 2 ^ d := by
  apply Nat.lt_pow_two_of_testBit
  intro i hi
  rw [DT_bitmap_testBit]
  apply decide_eq_false
  omega

/-- Partial dominance for the strict masks: a weakly dominating point has a sub-mask. -/
theorem DT_bitmap_submask (d : Nat) (q p v : TUPLE) (h : WeakDom d q p) :
    DT_bitmap d q v &&& DT_bitmap d p v = DT_bitmap d q v := by
  apply Nat.eq_of_testBit_eq
  intro i
  rw [Nat.testBit_and, DT_bitmap_testBit, DT_bitmap_testBit]
  by_cases hi : i < d
  · by_cases hq : v.elem i < q.elem i
    · have hp : v.elem i < p.elem i := lt_of_lt_of_le hq (h i hi)
      simp [hi, hq, hp]
    · simp [hi, hq]
  · simp [hi]

/-! ## The encoded partition word of `EPTUPLE` -/

/-- A partition that has a bit the mask `m` lacks is no super-mask of anything below `m`. -/
theorem canskip_of_submask {m other : Nat} (h : other &&& m = other) :
    (m ^^^ other) &&& other = 0 := by
  apply Nat.eq_of_testBit_eq
  intro i
  have hi := congrArg (fun x => x.testBit i) h
  simp only [Nat.testBit_and] at hi
  rw [Nat.testBit_and, Nat.testBit_xor, Nat.zero_testBit]
  cases ho : other.testBit i <;> cases hm : m.testBit i <;> simp_all

theorem popcount_le (d p : Nat) (hp : p < 2 ^ d) : popcount p ≤ d := by
  unfold popcount
  have hnd : ((List.range 32).filter (fun i => p.testBit i)).Nodup :=
    (List.nodup_range 32).filter _
  rw [← List.toFinset_card_of_nodup hnd]
  have hsub : ((List.range 32).filter (fun i => p.testBit i)).toFinset ⊆ Finset.range d := by
    intro i hi
    rw [List.mem_toFinset, List.mem_filter] at hi
    rw [Finset.mem_range]
    by_contra hge
    have : p.testBit i = false :=
      Nat.testBit_lt_two_pow (lt_of_lt_of_le hp (Nat.pow_le_pow_right (by decide) (by omega)))
    rw [this] at hi
    exact Bool.false_ne_true hi.2
  calc _ ≤ (Finset.range d).card := Finset.card_le_card hsub
    _ = d := Finset.card_range d

theorem popcount_lt (d p : Nat) (hp : p < 2 ^ d - 1) : popcount p < d := by
  have hp' : p < 2 ^ d := by omega
  -- some bit below `d` is clear
  have hclear : ∃ i, i < d ∧ p.testBit i = false := by
    by_contra hall
    push_neg at hall
    have : p = 2 ^ d - 1 := by
      apply Nat.eq_of_testBit_eq
      intro i
      rw [Nat.testBit_two_pow_sub_one]
      by_cases hi : i < d
      · have := hall i hi
        simp only [ne_eq, Bool.not_eq_false] at this
        rw [this, decide_eq_true hi]
      · rw [decide_eq_false hi]
        exact Nat.testBit_lt_two_pow
          (lt_of_lt_of_le hp' (Nat.pow_le_pow_right (by decide) (by omega)))
    omega
  obtain ⟨j, hj, hjb⟩ := hclear
  unfold popcount
  have hnd : ((List.range 32).filter (fun i => p.testBit i)).Nodup :=
    (List.nodup_range 32).filter _
  rw [← List.toFinset_card_of_nodup hnd]
  have hsub : ((List.range 32).filter (fun i => p.testBit i)).toFinset ⊆
      (Finset.range d).erase j := by
    intro i hi
    rw [List.mem_toFinset, List.mem_filter] at hi
    rw [Finset.mem_erase, Finset.mem_range]
    refine ⟨?_, ?_⟩
    · rintro rfl
      rw [hjb] at hi
      exact Bool.false_ne_true hi.2
    · by_contra hge
      have : p.testBit i = false :=
        Nat.testBit_lt_two_pow
          (lt_of_lt_of_le hp' (Nat.pow_le_pow_right (by decide) (by omega)))
      rw [this] at hi
      exact Bool.false_ne_true hi.2
  calc _ ≤ ((Finset.range d).erase j).card := Finset.card_le_card hsub
    _ = d - 1 := by rw [Finset.card_erase_of_mem (Finset.mem_range.mpr hj), Finset.card_range]
    _ < d := by omega

theorem popcount_all_ones (d : Nat) (hd : d ≤ 32) : popcount (2 ^ d - 1) = d := by
  unfold popcount
  have hnd : ((List.range 32).filter (fun i => (2 ^ d - 1).testBit i)).Nodup :=
    (List.nodup_range 32).filter _
  rw [← List.toFinset_card_of_nodup hnd]
  have : ((List.range 32).filter (fun i => (2 ^ d - 1).testBit i)).toFinset = Finset.range d := by
    ext i
    rw [List.mem_toFinset, List.mem_filter, List.mem_range, Finset.mem_range,
      Nat.testBit_two_pow_sub_one, decide_eq_true_eq]
    omega
  rw [this, Finset.card_range]

theorem EPTUPLE.getPartition_setPartition (d p : Nat) (t : EPTUPLE) (hp : p < 2 ^ d) :
    (t.setPartition d p).getPartition d = p := by
  unfold EPTUPLE.getPartition EPTUPLE.setPartition ALL_ONES
  simp only []
  apply Nat.eq_of_testBit_eq
  intro i
  rw [Nat.testBit_and, Nat.testBit_or, Nat.testBit_shiftLeft, Nat.testBit_two_pow_sub_one]
  by_cases hi : i < d
  · simp [hi]
  · have : p.testBit i = false :=
      Nat.testBit_lt_two_pow (lt_of_lt_of_le hp (Nat.pow_le_pow_right (by decide) (by omega)))
    simp [hi, this]

theorem EPTUPLE.getLevel_setPartition (d p : Nat) (t : EPTUPLE) (hp : p < 2 ^ d) :
    (t.setPartition d p).getLevel d = popcount p := by
  unfold EPTUPLE.getLevel EPTUPLE.setPartition
  simp only []
  apply Nat.eq_of_testBit_eq
  intro i
  rw [Nat.testBit_shiftRight, Nat.testBit_or, Nat.testBit_shiftLeft]
  have : p.testBit (d + i) = false :=
    Nat.testBit_lt_two_pow (lt_of_lt_of_le hp (Nat.pow_le_pow_right (by decide) (by omega)))
  simp [this]

/-- The word written by `setPartition`, split into level and mask. -/
theorem EPTUPLE.partition_setPartition (d p : Nat) (t : EPTUPLE) (hp : p < 2 ^ d) :
    (t.setPartition d p).partition = popcount p * 2 ^ d + p := by
  have h1 := EPTUPLE.getPartition_setPartition d p t hp
  have h2 := EPTUPLE.getLevel_setPartition d p t hp
  unfold EPTUPLE.getPartition ALL_ONES at h1
  unfold EPTUPLE.getLevel at h2
  rw [Nat.and_pow_two_sub_one_eq_mod] at h1
  rw [Nat.shiftRight_eq_div_pow] at h2
  have := Nat.div_add_mod (t.setPartition d p).partition (2 ^ d)
  rw [h1, h2] at this
  rw [← this, Nat.mul_comm]

theorem EPTUPLE.partition_markPruned (d : Nat) (t : EPTUPLE) :
    (t.markPruned d).partition = d * 2 ^ d := by
  unfold EPTUPLE.markPruned
  simp only []
  exact Nat.shiftLeft_eq d d

theorem EPTUPLE.isPruned_setPartition (d p : Nat) (t : EPTUPLE) (hd : 0 < d) (hp : p < 2 ^ d) :
    (t.setPartition d p).isPruned d = false := by
  unfold EPTUPLE.isPruned
  apply decide_eq_false
  intro h
  have h1 := EPTUPLE.getPartition_setPartition d p t hp
  have h2 := EPTUPLE.getLevel_setPartition d p t hp
  unfold EPTUPLE.getPartition ALL_ONES at h1
  unfold EPTUPLE.getLevel at h2
  rw [h, Nat.and_pow_two_sub_one_eq_mod, Nat.shiftLeft_eq, Nat.mul_mod_left] at h1
  rw [h, Nat.shiftLeft_shiftRight] at h2
  subst h1
  have := popcount_le 0 0 (by decide)
  omega

theorem EPTUPLE.partition_setPartition_lt (d p : Nat) (t : EPTUPLE) (hd : d ≤ 27)
    (hp : p < 2 ^ d) : (t.setPartition d p).partition < 2 ^ 32 := by
  rw [EPTUPLE.partition_setPartition d p t hp]
  have h1 := popcount_le d p hp
  have h2 : 2 ^ d ≤ 2 ^ 27 := Nat.pow_le_pow_right (by decide) hd
  calc popcount p * 2 ^ d + p < popcount p * 2 ^ d + 2 ^ d := by omega
    _ = (popcount p + 1) * 2 ^ d := by ring
    _ ≤ 28 * 2 ^ 27 := Nat.mul_le_mul (by omega) h2
    _ < 2 ^ 32 := by norm_num

/-- The pruned marker sorts before a tuple whose mask has all `d` bits set. -/
theorem EPTUPLE.lt_markPruned_all_ones (d : Nat) (x y : EPTUPLE) (hd : 0 < d) (hd' : d ≤ 32) :
    EPTUPLE.lt (x.markPruned d) (y.setPartition d (ALL_ONES d)) = true := by
  have hpos : 2 ≤ 2 ^ d := by
    calc 2 = 2 ^ 1 := rfl
      _ ≤ 2 ^ d := Nat.pow_le_pow_right (by decide) hd
  have h1 := EPTUPLE.partition_setPartition d (ALL_ONES d) y (by unfold ALL_ONES; omega)
  have h2 := EPTUPLE.partition_markPruned d x
  unfold ALL_ONES at h1
  rw [popcount_all_ones d hd'] at h1
  unfold EPTUPLE.lt
  unfold ALL_ONES
  rw [if_pos (by rw [h1, h2]; omega)]

/-- The pruned marker does not sort before a tuple whose mask lacks a bit. -/
theorem EPTUPLE.lt_markPruned_of_lt (d p : Nat) (x y : EPTUPLE) (hp : p < ALL_ONES d) :
    EPTUPLE.lt (x.markPruned d) (y.setPartition d p) = false := by
  unfold ALL_ONES at hp
  have h1 := EPTUPLE.partition_setPartition d p y (by omega)
  have h2 := EPTUPLE.partition_markPruned d x
  have h3 := popcount_lt d p hp
  have h4 : popcount p * 2 ^ d + p < d * 2 ^ d := by
    calc popcount p * 2 ^ d + p < popcount p * 2 ^ d + 2 ^ d := by omega
      _ = (popcount p + 1) * 2 ^ d := by ring
      _ ≤ d * 2 ^ d := Nat.mul_le_mul_right _ h3
  unfold EPTUPLE.lt
  rw [if_neg (by rw [h1, h2]; omega), if_pos (by rw [h1, h2]; exact h4)]

theorem EPTUPLE.isPruned_markPruned (d : Nat) (x : EPTUPLE) :
    (x.markPruned d).isPruned d = true := by
  unfold EPTUPLE.isPruned EPTUPLE.markPruned
  simp

/-- Comparing two words is comparing their quotients and then their remainders. -/
theorem lt_iff_div_mod_lex (m a b : Nat) (hm : 0 < m) :
    a < b ↔ a / m < b / m ∨ (a / m = b / m ∧ a % m < b % m) := by
  have ha := Nat.div_add_mod a m
  have hb := Nat.div_add_mod b m
  have ra := Nat.mod_lt a hm
  have rb := Nat.mod_lt b hm
  constructor
  · intro h
    by_cases hq : a / m < b / m
    · exact Or.inl hq
    · right
      have hle : b / m ≤ a / m := Nat.le_of_not_lt hq
      have hge : a / m ≤ b / m := Nat.div_le_div_right (le_of_lt h)
      have heq : a / m = b / m := le_antisymm hge hle
      refine ⟨heq, ?_⟩
      rw [heq] at ha
      omega
  · rintro (h | ⟨h1, h2⟩)
    · have h3 : m * (a / m + 1) ≤ m * (b / m) := Nat.mul_le_mul_left m h
      rw [Nat.mul_add, Nat.mul_one] at h3
      omega
    · rw [h1] at ha
      omega

theorem EPTUPLE.lt_iff (a b : EPTUPLE) :
    EPTUPLE.lt a b = true ↔
      a.partition < b.partition ∨ (a.partition = b.partition ∧ a.score < b.score) := by
  unfold EPTUPLE.lt
  split_ifs with h1 h2 h3
  · simp [h1]
  · simp only [Bool.false_eq_true, false_iff]
    rintro (h | ⟨h, _⟩) <;> omega
  · simp only [true_iff]
    exact Or.inr ⟨by omega, h3⟩
  · simp only [Bool.false_eq_true, false_iff]
    rintro (h | ⟨_, h⟩)
    · exact h1 h
    · exact h3 h

/-- `EPTUPLE::operator<` compares the triples `(getLevel, getPartition, score)`
lexicographically, whatever the partition words are. -/
theorem EPTUPLE.lt_iff_lex (d : Nat) (a b : EPTUPLE) :
    EPTUPLE.lt a b = true ↔ LexLevelMaskScore d a b := by
  have hm : 0 < 2 ^ d := Nat.pow_pos (by decide)
  have hmod : a.partition = b.partition ↔
      a.partition / 2 ^ d = b.partition / 2 ^ d ∧ a.partition % 2 ^ d = b.partition % 2 ^ d := by
    constructor
    · intro h; rw [h]; exact ⟨rfl, rfl⟩
    · rintro ⟨h1, h2⟩
      rw [← Nat.div_add_mod a.partition (2 ^ d), ← Nat.div_add_mod b.partition (2 ^ d), h1, h2]
  rw [EPTUPLE.lt_iff, lt_iff_div_mod_lex (2 ^ d) _ _ hm, hmod]
  unfold LexLevelMaskScore EPTUPLE.getLevel EPTUPLE.getPartition ALL_ONES
  rw [Nat.and_pow_two_sub_one_eq_mod, Nat.and_pow_two_sub_one_eq_mod,
    Nat.shiftRight_eq_div_pow, Nat.shiftRight_eq_div_pow]
  tauto

/-- `EPTUPLE::operator<` is a strict weak order. -/
theorem EPTUPLE.lt_strictWeakOrder : StrictWeakOrder EPTUPLE.lt := by
  have hf : ∀ a b : EPTUPLE, EPTUPLE.lt a b = false ↔
      ¬ (a.partition < b.partition ∨ (a.partition = b.partition ∧ a.score < b.score)) := by
    intro a b
    rw [← EPTUPLE.lt_iff, Bool.not_eq_true]
  refine ⟨?_, ?_, ?_⟩
  · intro a
    rw [hf]
    rintro (h | ⟨_, h⟩)
    · exact lt_irrefl _ h
    · exact lt_irrefl _ h
  · intro a b c hab hbc
    rw [EPTUPLE.lt_iff] at hab hbc ⊢
    rcases hab with h1 | ⟨h1, h2⟩ <;> rcases hbc with h3 | ⟨h3, h4⟩
    · exact Or.inl (lt_trans h1 h3)
    · exact Or.inl (h3 ▸ h1)
    · exact Or.inl (h1 ▸ h3)
    · exact Or.inr ⟨h1.trans h3, lt_trans h2 h4⟩
  · intro a b c hab hba hbc hcb
    rw [hf] at hab hba hbc hcb
    push_neg at hab hba hbc hcb
    have e1 : a.partition = b.partition := le_antisymm hba.1 hab.1
    have e2 : b.partition = c.partition := le_antisymm hcb.1 hbc.1
    have s1 : a.score = b.score := le_antisymm (hba.2 e1.symm) (hab.2 e1)
    have s2 : b.score = c.score := le_antisymm (hcb.2 e2.symm) (hbc.2 e2)
    constructor
    · rw [hf]
      rintro (h | ⟨_, h⟩)
      · omega
      · rw [s1, s2] at h; exact lt_irrefl _ h
    · rw [hf]
      rintro (h | ⟨_, h⟩)
      · omega
      · rw [s1, s2] at h; exact lt_irrefl _ h

theorem Node.LatBoundList_iff {d : Nat} : ∀ {l : List Node},
    Node.LatBoundList d l ↔ ∀ c ∈ l, c.lattice < ALL_ONES d ∧ Node.LatBound d c
  | [] => by simp [Node.LatBoundList]
  | c :: rest => by
    rw [Node.LatBoundList, Node.LatBoundList_iff (l := rest)]
    simp only [List.mem_cons, forall_eq_or_imp]
    tauto

namespace SkyTree

/-- `PartialDominance` only removes points, with either filter. -/
theorem PartialDominance.loop_subset (d : Nat) (useTree : Bool) (lattice : Nat) :
    ∀ (children : List Node) (ds : List TUPLE),
      (∀ p ∈ PartialDominance.loop d useTree lattice children ds, p ∈ ds) ∧
      (PartialDominance.loop d useTree lattice children ds).length ≤ ds.length := by
  intro children
  induction children with
  | nil =>
    intro ds
    simp [PartialDominance.loop]
  | cons c rest ih =>
    intro ds
    rw [PartialDominance.loop]
    by_cases hle : c.lattice ≤ lattice
    · rw [if_pos hle]
      by_cases hsub : c.lattice &&& lattice = c.lattice
      · rw [if_pos hsub]
        obtain ⟨f1, _, f3⟩ := PartialDominance.filter_spec d useTree c ds.length ds 0 (by omega)
          (by intro j hj; omega)
        simp only []
        by_cases hemp : (PartialDominance.filter d useTree c ds.length ds 0).isEmpty = true
        · rw [if_pos hemp]
          exact ⟨fun p hp => (f1 p hp).1, f3⟩
        · rw [if_neg hemp]
          obtain ⟨h1, h2⟩ := ih (PartialDominance.filter d useTree c ds.length ds 0)
          exact ⟨fun p hp => (f1 p (h1 p hp)).1, by omega⟩
      · rw [if_neg hsub]
        exact ih ds
    · rw [if_neg hle]
      exact ⟨fun p hp => hp, le_refl _⟩

mutual
/-- `PartialDominance_with_trees` keeps the code and the point of the right tree, only
removes nodes from it, and preserves the child-order invariant and the bound on the
codes. -/
theorem PartialDominance_with_trees_struct (d : Nat) (useTree : Bool) (lattice : Nat)
    (left : List Node) : ∀ (T : Node) (dom : List Bool),
    (PartialDominance_with_trees d useTree lattice left T dom).2.1.lattice = T.lattice ∧
    (PartialDominance_with_trees d useTree lattice left T dom).2.1.point = T.point ∧
    (∀ p ∈ (PartialDominance_with_trees d useTree lattice left T dom).2.1.points,
      p ∈ T.points) ∧
    (T.WF d → (PartialDominance_with_trees d useTree lattice left T dom).2.1.WF d) ∧
    (T.LatBound d →
      (PartialDominance_with_trees d useTree lattice left T dom).2.1.LatBound d)
  | .mk l p ch, dom => by
    obtain ⟨h1, h2, h3, h4⟩ :=
      PartialDominance_with_trees.right_struct d useTree lattice left ch dom p
    have key : (PartialDominance_with_trees d useTree lattice left (.mk l p ch) dom).2.1 =
        .mk l p (PartialDominance_with_trees.right d useTree lattice left ch dom).1 := by
      rw [PartialDominance_with_trees]
      split_ifs <;> rfl
    rw [key]
    refine ⟨rfl, rfl, ?_, ?_, ?_⟩
    · intro q hq
      rw [Node.points] at hq ⊢
      rcases List.mem_cons.mp hq with h | h
      · rw [h]; exact List.mem_cons_self _ _
      · exact List.mem_cons_of_mem _ (h1 q h)
    · intro hwf
      rw [Node.WF] at hwf ⊢
      exact ⟨h3 hwf.1, hwf.2.sublist h2⟩
    · intro hb
      rw [Node.LatBound] at hb ⊢
      exact h4 hb
theorem PartialDominance_with_trees.right_struct (d : Nat) (useTree : Bool) (lattice : Nat)
    (left : List Node) : ∀ (ch : List Node) (dom : List Bool) (pt : TUPLE),
    (∀ p ∈ Node.pointsList (PartialDominance_with_trees.right d useTree lattice left ch dom).1,
      p ∈ Node.pointsList ch) ∧
    (((PartialDominance_with_trees.right d useTree lattice left ch dom).1.map
      Node.lattice).Sublist (ch.map Node.lattice)) ∧
    (Node.WFList d pt ch →
      Node.WFList d pt (PartialDominance_with_trees.right d useTree lattice left ch dom).1) ∧
    (Node.LatBoundList d ch →
      Node.LatBoundList d (PartialDominance_with_trees.right d useTree lattice left ch dom).1)
  | [], dom, pt => by
    rw [PartialDominance_with_trees.right]
    simp
  | .mk l p c :: rest, dom, pt => by
    obtain ⟨a1, a2, a3, a4, a5⟩ :=
      PartialDominance_with_trees_struct d useTree lattice left (.mk l p c) dom
    obtain ⟨b1, b2, b3, b4⟩ :=
      PartialDominance_with_trees.right_struct d useTree lattice left rest
        (PartialDominance_with_trees d useTree lattice left (.mk l p c) dom).2.2 pt
    rw [PartialDominance_with_trees.right]
    split_ifs with hflag
    · refine ⟨?_, ?_, ?_, ?_⟩
      · intro q hq
        rw [Node.pointsList]
        exact List.mem_append_right _ (b1 q hq)
      · rw [List.map_cons]
        exact List.Sublist.cons _ b2
      · intro hwf
        rw [Node.WFList] at hwf
        exact b3 hwf.2.2
      · intro hb
        rw [Node.LatBoundList] at hb
        exact b4 hb.2.2
    · refine ⟨?_, ?_, ?_, ?_⟩
      · intro q hq
        rw [Node.pointsList] at hq ⊢
        rcases List.mem_append.mp hq with h | h
        · exact List.mem_append_left _ (a3 q h)
        · exact List.mem_append_right _ (b1 q h)
      · rw [List.map_cons, List.map_cons, a1]
        exact List.Sublist.cons₂ _ b2
      · intro hwf
        rw [Node.WFList] at hwf ⊢
        refine ⟨a4 hwf.1, ?_, b3 hwf.2.2⟩
        intro t ht
        rw [a1]
        exact hwf.2.1 t (a3 t ht)
      · intro hb
        rw [Node.LatBoundList] at hb ⊢
        rw [a1]
        exact ⟨hb.1, a5 hb.2.1, b4 hb.2.2⟩
end

end SkyTree

namespace SkyTree

/-- The loop of `ComputeSkyTree`, for every choice of `useTree` and `useDnC`: it returns,
and the children it builds are in strictly increasing order of their codes, meet the
child-order invariant against the pivot `v`, and carry codes below `ALL_ONES`. -/
theorem ComputeSkyTree.loop_struct (d : Nat) (useTree useDnC : Bool)
    (recurse : List ℚ → List ℚ → List TUPLE → Nat → State → Option (Node × State))
    (bound : Nat) (hrec : RecTree d recurse bound) (U : List TUPLE) (v : TUPLE)
    (ml Ml : List ℚ) :
    ∀ (rest : List (Nat × List TUPLE)) (children : List Node) (st : State),
      (rest.map Prod.fst).Pairwise (· < ·) →
      (∀ e ∈ rest, ∀ p ∈ e.2, p ∈ U ∧ DT_bitmap_dvc d p v = e.1 ∧ e.1 < ALL_ONES d) →
      (∀ e ∈ rest, e.2.length ≤ bound) →
      (∀ c ∈ children, ∀ e ∈ rest, c.lattice < e.1) →
      (children.map Node.lattice).Pairwise (· < ·) →
      Node.WFList d v children → Node.LatBoundList d children →
      (∀ p ∈ Node.pointsList children, p ∈ U) →
      ∃ children1 st1,
        ComputeSkyTree.loop d useTree useDnC recurse v ml Ml rest children st
          = some (children1, st1) ∧
        (children1.map Node.lattice).Pairwise (· < ·) ∧ Node.WFList d v children1 ∧
        Node.LatBoundList d children1 ∧ ∀ p ∈ Node.pointsList children1, p ∈ U := by
  intro rest
  induction rest with
  | nil =>
    intro children st _ _ _ _ hs hwf hb hU
    exact ⟨children, st, by rw [ComputeSkyTree.loop], hs, hwf, hb, hU⟩
  | cons b rest ih =>
    intro children st M1 M2 M4 hkeys hs hwf hb hU
    obtain ⟨k, ds⟩ := b
    rw [List.map_cons, List.pairwise_cons] at M1
    have hmem : (k, ds) ∈ (k, ds) :: rest := List.mem_cons_self _ _
    have M2r : ∀ e ∈ rest, ∀ p ∈ e.2, p ∈ U ∧ DT_bitmap_dvc d p v = e.1 ∧ e.1 < ALL_ONES d :=
      fun e he => M2 e (List.mem_cons_of_mem _ he)
    have M4r : ∀ e ∈ rest, e.2.length ≤ bound := fun e he => M4 e (List.mem_cons_of_mem _ he)
    have hkr : ∀ c ∈ children, ∀ e ∈ rest, c.lattice < e.1 :=
      fun c hc e he => hkeys c hc e (List.mem_cons_of_mem _ he)
    -- what a new child needs to extend the invariant
    have fin : ∀ (T : Node) (st1 : State), T.lattice = k → T.WF d → T.LatBound d →
        (∀ p ∈ T.points, p ∈ ds) →
        ∃ children1 st2,
          ComputeSkyTree.loop d useTree useDnC recurse v ml Ml rest (children ++ [T]) st1
            = some (children1, st2) ∧
          (children1.map Node.lattice).Pairwise (· < ·) ∧ Node.WFList d v children1 ∧
          Node.LatBoundList d children1 ∧ ∀ p ∈ Node.pointsList children1, p ∈ U := by
      intro T st1 hl hw hbT hp
      have hroot : T.point ∈ T.points := by
        cases T with
        | mk l p ch => rw [Node.points]; exact List.mem_cons_self _ _
      apply ih (children ++ [T]) st1 M1.2 M2r M4r
      · intro c hc e he
        rcases List.mem_append.mp hc with h | h
        · exact hkr c h e he
        · rw [List.mem_singleton] at h
          rw [h, hl]
          exact M1.1 e.1 (List.mem_map.mpr ⟨e, he, rfl⟩)
      · rw [List.map_append, List.pairwise_append]
        refine ⟨hs, by simp, ?_⟩
        intro a ha b hb'
        obtain ⟨c, hc, rfl⟩ := List.mem_map.mp ha
        simp only [List.map_cons, List.map_nil, List.mem_singleton] at hb'
        rw [hb', hl]
        exact hkeys c hc (k, ds) hmem
      · rw [Node.WFList_iff]
        intro c hc
        rcases List.mem_append.mp hc with h | h
        · exact (Node.WFList_iff.mp hwf) c h
        · rw [List.mem_singleton] at h
          rw [h]
          refine ⟨hw, ?_⟩
          intro t ht
          rw [hl]
          exact (M2 _ hmem t (hp t ht)).2.1
      · rw [Node.LatBoundList_iff]
        intro c hc
        rcases List.mem_append.mp hc with h | h
        · exact (Node.LatBoundList_iff.mp hb) c h
        · rw [List.mem_singleton] at h
          rw [h, hl]
          exact ⟨(M2 _ hmem _ (hp _ hroot)).2.2, hbT⟩
      · intro p hpp
        rw [Node.pointsList_append, pointsList_singleton] at hpp
        rcases List.mem_append.mp hpp with h | h
        · exact hU p h
        · exact (M2 _ hmem p (hp p h)).1
    have hcur : ∀ p ∈ (if (!useDnC && decide (children.length > 0)) = true then
        PartialDominance d useTree k ds children else ds), p ∈ ds := by
      intro p hp
      split_ifs at hp
      · exact (PartialDominance.loop_subset d useTree k children ds).1 p hp
      · exact hp
    have hcurlen : (if (!useDnC && decide (children.length > 0)) = true then
        PartialDominance d useTree k ds children else ds).length ≤ ds.length := by
      split_ifs
      · exact (PartialDominance.loop_subset d useTree k children ds).2
      · exact le_refl _
    rw [ComputeSkyTree.loop]
    simp only []
    generalize (if (!useDnC && decide (children.length > 0)) = true then
        PartialDominance d useTree k ds children else ds) = cur at hcur hcurlen
    by_cases hpos : cur.length > 0
    · rw [if_pos hpos]
      have hne : cur ≠ [] := by
        intro h; rw [h] at hpos; simp at hpos
      obtain ⟨T, st1, hr, hl, hw, hbT, hp⟩ := hrec (childBox d k v ml Ml).1
        (childBox d k v ml Ml).2 cur k st hne (le_trans hcurlen (M4 _ hmem))
      rw [hr]
      simp only []
      by_cases hdnc : (useDnC && decide (children.length > 0)) = true
      · rw [if_pos hdnc]
        obtain ⟨e1, _, e3, e4, e5⟩ :=
          PartialDominance_with_trees_struct d useTree k children T st1.dominated_
        exact fin _ _ (by rw [e1, hl]) (e4 hw) (e5 hbT)
          (fun p hpp => hcur p (hp p (e3 p hpp)))
      · rw [if_neg hdnc]
        exact fin T st1 hl hw hbT (fun p hpp => hcur p (hp p hpp))
    · rw [if_neg hpos]
      exact ih children st M1.2 M2r M4r hkr hs hwf hb hU

/-- `ComputeSkyTree`, with or without `useTree` and `useDnC`, returns on every non-empty
dataset of at most `fuel` tuples a tree with the child-order invariant, all of whose codes
below the root are smaller than `ALL_ONES`. -/
theorem ComputeSkyTree_struct {d : Nat} (hd : 0 < d) (useTree useDnC : Bool) :
    ∀ fuel, RecTree d (ComputeSkyTree d useTree useDnC fuel) fuel := by
  intro fuel
  induction fuel with
  | zero =>
    intro ml Ml B lat st hne hlen
    cases B with
    | nil => exact absurd rfl hne
    | cons a b => simp at hlen
  | succ fuel ih =>
    intro ml Ml D lat st hne hlen
    obtain ⟨D1, hex, hlen1, hle1, hsub, _, _, _⟩ :=
      PivotSelection.Execute_spec hd ml Ml D hne
    rw [ComputeSkyTree, hex]
    simp only []
    have hvD1 : D1.getD 0 default ∈ D1 := getD_mem (by omega)
    have htail : ∀ p ∈ D1.tail, p ∈ D1 := fun p hp => List.mem_of_mem_tail hp
    obtain ⟨m1, m2, m3, _, _, _⟩ :=
      MapPointToRegion.loop_regions d (D1.getD 0 default) D1.tail [] st.eqm_ 0 (by simp) (by simp)
    have hpm : MapPointToRegion d D1 st.eqm_ =
        MapPointToRegion.loop d (D1.getD 0 default) D1.tail [] st.eqm_ := rfl
    rw [hpm]
    have M2 : ∀ e ∈ (MapPointToRegion.loop d (D1.getD 0 default) D1.tail [] st.eqm_).1,
        ∀ p ∈ e.2, p ∈ D1 ∧ DT_bitmap_dvc d p (D1.getD 0 default) = e.1 ∧
          e.1 < ALL_ONES d := by
      intro e he p hp
      rcases m3 e.1 e.2 p he hp with ⟨_, h, _⟩ | ⟨ha, hb, hc⟩
      · simp at h
      · refine ⟨htail p ha, hc, ?_⟩
        have := (DT_bitmap_dvc_lt_pruned_iff d p (D1.getD 0 default)).mpr hb
        rw [hc] at this
        exact this
    have M4 : ∀ e ∈ (MapPointToRegion.loop d (D1.getD 0 default) D1.tail [] st.eqm_).1,
        e.2.length ≤ fuel := by
      intro e he
      have := m2 e he
      simp only [List.length_tail] at this
      omega
    obtain ⟨children, st1, hloop, hs, hwf, hb, hU⟩ :=
      ComputeSkyTree.loop_struct d useTree useDnC (ComputeSkyTree d useTree useDnC fuel) fuel ih
        D1 (D1.getD 0 default) ml Ml _ []
        { st with eqm_ := (MapPointToRegion.loop d (D1.getD 0 default) D1.tail [] st.eqm_).2 }
        m1 M2 M4 (by simp) (by simp) (by simp [Node.WFList]) (by simp [Node.LatBoundList])
        (by simp [Node.pointsList])
    rw [hloop]
    refine ⟨.mk lat (D1.getD 0 default) children, st1, rfl, rfl, ?_, ?_, ?_⟩
    · rw [Node.WF]
      exact ⟨hwf, hs⟩
    · rw [Node.LatBound]
      exact hb
    · intro p hp
      rw [Node.points] at hp
      rcases List.mem_cons.mp hp with h | h
      · rw [h]; exact hsub _ hvD1
      · exact hsub p (hU p h)

end SkyTree

/-- Overwriting cell `k` of `t` by `a` exchanges `a` for the old content of the cell. -/
theorem perm_cons_set_getD {α : Type} (dflt : α) : ∀ (t : List α) (k : Nat) (a : α),
    k < t.length → (a :: t).Perm (t.getD k dflt :: t.set k a)
  | [], _, _, h => by simp at h
  | b :: t, 0, a, _ => by
    simp only [List.getD_cons_zero, List.set_cons_zero]
    exact List.Perm.swap b a t
  | b :: t, k + 1, a, h => by
    simp only [List.getD_cons_succ, List.set_cons_succ]
    have ih := perm_cons_set_getD dflt t k a (by simpa using h)
    exact ((List.Perm.swap b a t).trans (ih.cons b)).trans (List.Perm.swap _ _ _)

/-- Moving a hole from cell `h` to cell `p`: the vector with the hole filled by `x` holds
the same entries before and after. -/
theorem perm_hole_move {α : Type} (dflt : α) (v : List α) (h p : Nat) (x : α)
    (hh : h < v.length) (hp : p < v.length) (hne : h ≠ p) :
    ((v.set h (v.getD p dflt)).set p x).Perm (v.set h x) := by
  have a1 := perm_cons_set_getD dflt (v.set h (v.getD p dflt)) p x (by simpa using hp)
  rw [getD_set_of_ne _ _ _ _ _ hne] at a1
  have a2 := perm_cons_set_getD dflt v h (v.getD p dflt) hh
  have a3 := perm_cons_set_getD dflt v h x hh
  have c1 : (v.getD h dflt :: v.getD p dflt ::
      (v.set h (v.getD p dflt)).set p x).Perm (v.getD h dflt :: v.getD p dflt :: v.set h x) :=
    (((((a1.symm.cons (v.getD h dflt)).trans (List.Perm.swap _ _ _)).trans
      (a2.symm.cons x)).trans (List.Perm.swap _ _ _)).trans (a3.cons (v.getD p dflt))).trans
      (List.Perm.swap _ _ _)
  exact c1.cons_inv.cons_inv

theorem set_getD_same {α : Type} (dflt : α) (v : List α) (i : Nat) :
    v.set i (v.getD i dflt) = v := by
  by_cases h : i < v.length
  · apply List.ext_getElem
    · simp
    · intro k h1 h2
      rw [List.getElem_set]
      split_ifs with e
      · subst e
        exact List.getD_eq_getElem _ _ h
      · rfl
  · exact List.set_eq_of_length_le (by omega)

namespace PQFilter

/-- `__push_heap` only rearranges: its result holds the entries of the vector with the
hole filled by `value`. -/
theorem push_heap.hole_perm (value : Nat × ℚ) (topIndex : Nat) :
    ∀ (fuel : Nat) (v : List (Nat × ℚ)) (holeIndex : Nat), holeIndex < v.length →
      (push_heap.hole value topIndex fuel v holeIndex).Perm (v.set holeIndex value) := by
  intro fuel
  induction fuel with
  | zero => intro v holeIndex _; exact List.Perm.refl _
  | succ fuel ih =>
    intro v holeIndex hh
    rw [push_heap.hole]
    split_ifs with hc
    · have hp : (holeIndex - 1) / 2 < holeIndex := by omega
      exact (ih _ _ (by rw [List.length_set]; omega)).trans
        (perm_hole_move (0, 0) v holeIndex ((holeIndex - 1) / 2) value hh (by omega) (by omega))
    · exact List.Perm.refl _

/-- More iterations than `holeIndex` do not change the result of `__push_heap`. -/
theorem push_heap.hole_fuel (value : Nat × ℚ) (topIndex : Nat) :
    ∀ (fuel : Nat) (v : List (Nat × ℚ)) (holeIndex : Nat), holeIndex ≤ fuel →
      push_heap.hole value topIndex (fuel + 1) v holeIndex
        = push_heap.hole value topIndex fuel v holeIndex := by
  intro fuel
  induction fuel with
  | zero =>
    intro v holeIndex hh
    have h0 : holeIndex = 0 := by omega
    subst h0
    rw [push_heap.hole, push_heap.hole, if_neg (by omega)]
  | succ fuel ih =>
    intro v holeIndex hh
    conv_lhs => rw [push_heap.hole]
    conv_rhs => rw [push_heap.hole]
    split_ifs with hc
    · exact ih _ _ (by omega)
    · rfl

theorem push_heap_perm (v : List (Nat × ℚ)) : (push_heap v).Perm v := by
  unfold push_heap
  by_cases h : v.length = 0
  · have : v = [] := List.length_eq_zero.mp h
    subst this
    exact List.Perm.refl _
  · have := push_heap.hole_perm (v.getD (v.length - 1) (0, 0)) 0 (v.length - 1) v
      (v.length - 1) (by omega)
    rw [set_getD_same] at this
    exact this

/-- The loop of `__adjust_heap` keeps `holeIndex = secondChild` below `len` and only moves
the hole. -/
theorem adjust_heap.loop_perm (len : Nat) (x : Nat × ℚ) :
    ∀ (fuel : Nat) (v : List (Nat × ℚ)) (holeIndex : Nat), holeIndex < len → len ≤ v.length →
      (adjust_heap.loop len fuel v holeIndex holeIndex).2.1 < len ∧
      (adjust_heap.loop len fuel v holeIndex holeIndex).2.2
        = (adjust_heap.loop len fuel v holeIndex holeIndex).2.1 ∧
      (adjust_heap.loop len fuel v holeIndex holeIndex).1.length = v.length ∧
      ((adjust_heap.loop len fuel v holeIndex holeIndex).1.set
        (adjust_heap.loop len fuel v holeIndex holeIndex).2.1 x).Perm (v.set holeIndex x) := by
  intro fuel
  induction fuel with
  | zero => intro v holeIndex hh _; exact ⟨hh, rfl, rfl, List.Perm.refl _⟩
  | succ fuel ih =>
    intro v holeIndex hh hl
    rw [adjust_heap.loop]
    split_ifs with hc
    · simp only []
      generalize hsc : (if (v.getD (2 * (holeIndex + 1)) (0, 0)).2
          < (v.getD (2 * (holeIndex + 1) - 1) (0, 0)).2 then 2 * (holeIndex + 1) - 1
        else 2 * (holeIndex + 1)) = sc1
      have hb : holeIndex < sc1 ∧ sc1 < len := by
        rw [← hsc]
        split_ifs <;> omega
      obtain ⟨h1, h2, h3, h4⟩ := ih (v.set holeIndex (v.getD sc1 (0, 0))) sc1 hb.2
        (by rw [List.length_set]; exact hl)
      refine ⟨h1, h2, by rw [h3, List.length_set], h4.trans ?_⟩
      exact perm_hole_move (0, 0) v holeIndex sc1 x (by omega) (by omega) (by omega)
    · exact ⟨hh, rfl, rfl, List.Perm.refl _⟩

/-- More iterations than `len` do not change the result of the loop of `__adjust_heap`. -/
theorem adjust_heap.loop_fuel (len : Nat) :
    ∀ (fuel : Nat) (v : List (Nat × ℚ)) (holeIndex secondChild : Nat),
      (len - 1) / 2 ≤ secondChild + fuel →
      adjust_heap.loop len (fuel + 1) v holeIndex secondChild
        = adjust_heap.loop len fuel v holeIndex secondChild := by
  intro fuel
  induction fuel with
  | zero =>
    intro v holeIndex secondChild h
    rw [adjust_heap.loop, adjust_heap.loop, if_neg (by omega)]
  | succ fuel ih =>
    intro v holeIndex secondChild h
    conv_lhs => rw [adjust_heap.loop]
    conv_rhs => rw [adjust_heap.loop]
    split_ifs with hc
    · apply ih
      split_ifs <;> omega
    · rfl

theorem adjust_heap_perm (v : List (Nat × ℚ)) (holeIndex len : Nat) (value : Nat × ℚ)
    (hh : holeIndex < len) (hl : len ≤ v.length) :
    (adjust_heap v holeIndex len value).Perm (v.set holeIndex value) := by
  unfold adjust_heap
  simp only []
  obtain ⟨h1, h2, h3, h4⟩ := adjust_heap.loop_perm len value len v holeIndex hh hl
  generalize adjust_heap.loop len len v holeIndex holeIndex = r at h1 h2 h3 h4
  split_ifs with hc
  · simp only []
    have e : 2 * (r.2.2 + 1) - 1 = len - 1 := by omega
    rw [e]
    have hne : r.2.1 ≠ len - 1 := by omega
    refine (push_heap.hole_perm value holeIndex (len - 1) _ (len - 1)
      (by rw [List.length_set, h3]; omega)).trans ?_
    exact (perm_hole_move (0, 0) r.1 r.2.1 (len - 1) value (by omega) (by omega) hne).trans h4
  · simp only []
    exact (push_heap.hole_perm value holeIndex r.2.1 _ r.2.1 (by omega)).trans h4

theorem pop_heap_perm (v : List (Nat × ℚ)) : (pop_heap v).Perm v := by
  unfold pop_heap
  split_ifs with h
  · simp only []
    refine (adjust_heap_perm _ 0 (v.length - 1) _ (by omega)
      (by rw [List.length_set]; omega)).trans ?_
    have := perm_hole_move (0, 0) v (v.length - 1) 0 (v.getD (v.length - 1) (0, 0)) (by omega)
      (by omega) (by omega)
    rw [set_getD_same] at this
    exact this
  · exact List.Perm.refl _

theorem length_push (q : List (Nat × ℚ)) (x : Nat × ℚ) : (push q x).length = q.length + 1 := by
  unfold push
  rw [(push_heap_perm _).length_eq, List.length_append, List.length_singleton]

theorem length_pop (q : List (Nat × ℚ)) : (pop q).length = q.length - 1 := by
  unfold pop
  rw [List.length_dropLast, (pop_heap_perm _).length_eq]

end PQFilter

namespace PQFilter

/-- The fuel of `drain` suffices: every entry of the queue is drained. -/
theorem drain_length : ∀ (m : Nat) (q : List (Nat × ℚ)), q.length ≤ m →
    (drain m q).length = q.length
  | 0, q, h => by
    have : q = [] := List.length_eq_zero.mp (by omega)
    subst this
    rfl
  | m + 1, q, h => by
    rw [drain]
    split_ifs with hq
    · subst hq
      rfl
    · have hpos : 0 < q.length := List.length_pos.mpr hq
      rw [List.length_cons, drain_length m (pop q) (by rw [length_pop]; omega), length_pop]
      omega

end PQFilter

namespace PQFilter

end PQFilter

namespace PQFilter

end PQFilter

namespace Hybrid

/-- The sentinel that `update_partition_map` restores stands at `end + 1`. -/
theorem update_partition_map_sentinel (d : Nat) (data : List EPTUPLE)
    (part_map : List (Nat × Nat)) (start end_ : Nat) :
    (update_partition_map d data part_map start end_).2.getLast? = some (0, end_ + 1) := by
  unfold update_partition_map
  simp

end Hybrid

theorem CompareTwoLists.loop_eq_iff : ∀ (l1 l2 : List Int), l1.length = l2.length →
    (CompareTwoLists.loop l1 l2 = true ↔ l1 = l2)
  | [], [], _ => by simp [CompareTwoLists.loop]
  | [], b :: l2, h => by simp at h
  | a :: l1, [], h => by simp at h
  | a :: l1, b :: l2, h => by
    have ih := CompareTwoLists.loop_eq_iff l1 l2 (by simpa using h)
    rw [CompareTwoLists.loop]
    by_cases hab : a = b
    · simp [hab, ih]
    · simp [hab]

/-- `CompareTwoLists` returns true iff one list is a rearrangement of the other. -/
theorem CompareTwoLists_iff_perm (list1 list2 : List Int) (print_missing : Bool) :
    CompareTwoLists list1 list2 print_missing = true ↔ list1.Perm list2 := by
  unfold CompareTwoLists
  simp only [ite_self]
  by_cases hlen : list1.length = list2.length
  · rw [if_pos hlen, CompareTwoLists.loop_eq_iff _ _ (by
      rw [List.length_insertionSort, List.length_insertionSort, hlen])]
    constructor
    · intro h
      exact ((List.perm_insertionSort (· ≤ ·) list1).symm.trans (h ▸ List.Perm.refl _)).trans
        (List.perm_insertionSort (· ≤ ·) list2)
    · intro h
      apply List.eq_of_perm_of_sorted (r := (· ≤ ·))
      · exact ((List.perm_insertionSort (· ≤ ·) list1).trans h).trans
          (List.perm_insertionSort (· ≤ ·) list2).symm
      · exact List.sorted_insertionSort (· ≤ ·) list1
      · exact List.sorted_insertionSort (· ≤ ·) list2
  · rw [if_neg hlen]
    simp only [Bool.false_eq_true, false_iff]
    intro h
    exact hlen h.length_eq

/-- The clamps of `doVerboseTest`. -/
theorem doVerboseTest_clamps (n : Nat) (cfg : Config) :
    (n < cfg.alpha_size → (doVerboseTest n cfg).1 = n / 2) ∧
    (n < cfg.pq_size → (doVerboseTest n cfg).2 = 1) ∧
    (¬ n < cfg.alpha_size → (doVerboseTest n cfg).1 = cfg.alpha_size) ∧
    (¬ n < cfg.pq_size → (doVerboseTest n cfg).2 = cfg.pq_size) := by
  unfold doVerboseTest doVerboseTest.clamp
  by_cases h1 : n < cfg.alpha_size <;> by_cases h2 : n < cfg.pq_size <;> simp [h1, h2]

namespace AVX

theorem cmp_movemask_testBit (cmp : ℚ → ℚ → Bool) (a b : TUPLE) (dim w j : Nat) :
    (cmp_movemask cmp a b dim w).testBit j =
      decide (j < w ∧ cmp (a.elem (dim + j)) (b.elem (dim + j)) = true) := by
  have h := testBit_foldl_mask (fun j => cmp (a.elem (dim + j)) (b.elem (dim + j)) = true)
    (List.range w) 0 j
  simp only [SHIFTS] at h
  unfold cmp_movemask
  rw [h]
  simp [List.mem_range]

/-- A mask is non-zero iff the compare holds on some lane. -/
theorem cmp_movemask_and_ne_zero (cmp : ℚ → ℚ → Bool) (a b : TUPLE) (dim w : Nat) :
    cmp_movemask cmp a b dim w &&& (SHIFTS w - 1) ≠ 0 ↔
      ∃ j, j < w ∧ cmp (a.elem (dim + j)) (b.elem (dim + j)) = true := by
  constructor
  · intro h
    obtain ⟨j, hj⟩ := Nat.ne_zero_implies_bit_true h
    rw [Nat.testBit_and, cmp_movemask_testBit] at hj
    simp only [Bool.and_eq_true, decide_eq_true_eq] at hj
    exact ⟨j, hj.1.1, hj.1.2⟩
  · rintro ⟨j, hj, hc⟩ h0
    have := congrArg (fun x => x.testBit j) h0
    simp only [Nat.testBit_and, cmp_movemask_testBit, SHIFTS, Nat.testBit_two_pow_sub_one,
      Nat.zero_testBit] at this
    simp [hj, hc] at this

/-- A mask is full iff the compare holds on every lane. -/
theorem cmp_movemask_eq_full (cmp : ℚ → ℚ → Bool) (a b : TUPLE) (dim w : Nat) :
    cmp_movemask cmp a b dim w = 2 ^ w - 1 ↔
      ∀ j, j < w → cmp (a.elem (dim + j)) (b.elem (dim + j)) = true := by
  constructor
  · intro h j hj
    have := congrArg (fun x => x.testBit j) h
    simp only [cmp_movemask_testBit, Nat.testBit_two_pow_sub_one] at this
    simpa [hj] using this
  · intro h
    apply Nat.eq_of_testBit_eq
    intro j
    rw [cmp_movemask_testBit, Nat.testBit_two_pow_sub_one]
    by_cases hj : j < w
    · simp [hj, h j hj]
    · simp [hj]

/-! ### The bitmaps -/

theorem bitmapBlocks_inv (cmp : ℚ → ℚ → Bool) (d w : Nat) (cur sky : TUPLE) :
    ∀ (fuel : Nat) (s : Nat × Nat), s.1 ≤ d →
      (∀ i, s.2.testBit i = decide (i < s.1 ∧ cmp (sky.elem i) (cur.elem i) = true)) →
      (bitmapBlocks cmp d w cur sky fuel s).1 ≤ d ∧
      ∀ i, (bitmapBlocks cmp d w cur sky fuel s).2.testBit i =
        decide (i < (bitmapBlocks cmp d w cur sky fuel s).1 ∧
          cmp (sky.elem i) (cur.elem i) = true) := by
  intro fuel
  induction fuel with
  | zero => intro s h1 h2; exact ⟨h1, h2⟩
  | succ fuel ih =>
    intro s h1 h2
    obtain ⟨dim, lattice⟩ := s
    rw [bitmapBlocks]
    by_cases hw : dim + w ≤ d
    · rw [if_pos hw]
      apply ih _ hw
      intro i
      simp only [] at h2 ⊢
      rw [Nat.testBit_or, h2 i, Nat.testBit_shiftLeft, cmp_movemask_testBit]
      by_cases hi : i < dim
      · have h3 : ¬ i ≥ dim := by omega
        have h4 : i < dim + w := by omega
        simp [hi, h3, h4]
      · have h3 : i ≥ dim := by omega
        have e : dim + (i - dim) = i := by omega
        rw [e]
        by_cases h4 : i < dim + w
        · have h5 : i - dim < w := by omega
          simp [hi, h3, h4, h5]
        · have h5 : ¬ i - dim < w := by omega
          simp [hi, h4, h5]
    · rw [if_neg hw]
      exact ⟨h1, h2⟩

theorem bitmapTail_testBit (cmp : ℚ → ℚ → Bool) (d : Nat) (cur sky : TUPLE) (s : Nat × Nat)
    (h1 : s.1 ≤ d)
    (h2 : ∀ i, s.2.testBit i = decide (i < s.1 ∧ cmp (sky.elem i) (cur.elem i) = true))
    (i : Nat) :
    (bitmapTail cmp d cur sky s).testBit i =
      decide (i < d ∧ cmp (sky.elem i) (cur.elem i) = true) := by
  unfold bitmapTail
  rw [testBit_foldl_mask (fun dim => cmp (sky.elem dim) (cur.elem dim) = true), h2 i]
  simp only [List.mem_range'_1]
  by_cases hc : cmp (sky.elem i) (cur.elem i) = true
  · by_cases hi : i < s.1
    · have : i < d := by omega
      simp [hc, hi, this]
    · by_cases hid : i < d
      · have : s.1 ≤ i ∧ i < s.1 + (d - s.1) := by omega
        simp [hc, hi, hid, this]
      · have : ¬ (s.1 ≤ i ∧ i < s.1 + (d - s.1)) := by omega
        simp [hi, hid, this]
  · simp [hc]

theorem bitmap_testBit (cmp : ℚ → ℚ → Bool) (d : Nat) (cur sky : TUPLE) (i : Nat) :
    (bitmap cmp d cur sky).testBit i =
      decide (i < d ∧ cmp (sky.elem i) (cur.elem i) = true) := by
  have h0 : ∀ i, ((0, 0) : Nat × Nat).2.testBit i =
      decide (i < ((0, 0) : Nat × Nat).1 ∧ cmp (sky.elem i) (cur.elem i) = true) := by
    intro i; simp
  unfold bitmap
  split_ifs
  · obtain ⟨a1, a2⟩ := bitmapBlocks_inv cmp d 8 cur sky d (0, 0) (Nat.zero_le _) h0
    obtain ⟨b1, b2⟩ := bitmapBlocks_inv cmp d 4 cur sky d _ a1 a2
    exact bitmapTail_testBit cmp d cur sky _ b1 b2 i
  · obtain ⟨b1, b2⟩ := bitmapBlocks_inv cmp d 4 cur sky d (0, 0) (Nat.zero_le _) h0
    exact bitmapTail_testBit cmp d cur sky _ b1 b2 i
  · exact bitmapTail_testBit cmp d cur sky _ (Nat.zero_le _) h0 i

/-- The vectorised `DT_bitmap_dvc` returns the scalar value. -/
theorem DT_bitmap_dvc_eq (d : Nat) (cur sky : TUPLE) :
    AVX.DT_bitmap_dvc d cur sky = SkyBench.DT_bitmap_dvc d cur sky := by
  apply Nat.eq_of_testBit_eq
  intro i
  rw [AVX.DT_bitmap_dvc, bitmap_testBit, SkyBench.DT_bitmap_dvc_testBit]
  simp [CMP_LE]

/-- The vectorised `DT_bitmap` returns the scalar value. -/
theorem DT_bitmap_eq (d : Nat) (cur sky : TUPLE) :
    AVX.DT_bitmap d cur sky = SkyBench.DT_bitmap d cur sky := by
  apply Nat.eq_of_testBit_eq
  intro i
  rw [AVX.DT_bitmap, bitmap_testBit, SkyBench.DT_bitmap_testBit]
  simp [CMP_LT]

end AVX

namespace AVX

/-! ### `DominanceTest` -/

/-- What the flags of `DominanceTest` record once the dimensions in `P` are processed. -/
theorem DominanceTest.blocks_inv (d w : Nat) (left right : TUPLE) :
    ∀ (fuel : Nat) (s : Nat × Nat × Nat), s.1 ≤ d →
      (s.2.1 ≠ 0 ↔ ∃ i, i < s.1 ∧ left.elem i < right.elem i) →
      (s.2.2 ≠ 0 ↔ ∃ i, i < s.1 ∧ right.elem i < left.elem i) →
      match DominanceTest.blocks d w left right fuel s with
      | some s1 => s1.1 ≤ d ∧ (s1.2.1 ≠ 0 ↔ ∃ i, i < s1.1 ∧ left.elem i < right.elem i) ∧
          (s1.2.2 ≠ 0 ↔ ∃ i, i < s1.1 ∧ right.elem i < left.elem i)
      | none => (∃ i, i < d ∧ left.elem i < right.elem i) ∧
          ∃ i, i < d ∧ right.elem i < left.elem i := by
  intro fuel
  induction fuel with
  | zero => intro s h1 h2 h3; exact ⟨h1, h2, h3⟩
  | succ fuel ih =>
    intro s h1 h2 h3
    obtain ⟨dim, lb, rb⟩ := s
    simp only [] at h1 h2 h3
    rw [DominanceTest.blocks]
    by_cases hw : dim + w ≤ d
    · rw [if_pos hw]
      have key : ∀ (a b : TUPLE) (x : Nat), (x ≠ 0 ↔ ∃ i, i < dim ∧ a.elem i < b.elem i) →
          ((if x = 0 then cmp_movemask CMP_LT a b dim w &&& (SHIFTS w - 1) else x) ≠ 0 ↔
            ∃ i, i < dim + w ∧ a.elem i < b.elem i) := by
        intro a b x hx
        by_cases hx0 : x = 0
        · rw [if_pos hx0, cmp_movemask_and_ne_zero]
          have hno : ¬ ∃ i, i < dim ∧ a.elem i < b.elem i := fun h => (hx.mpr h) hx0
          constructor
          · rintro ⟨j, hj, hc⟩
            exact ⟨dim + j, by omega, by simpa [CMP_LT] using hc⟩
          · rintro ⟨i, hi, hc⟩
            have hid : dim ≤ i := by
              by_contra hlt
              exact hno ⟨i, by omega, hc⟩
            refine ⟨i - dim, by omega, ?_⟩
            have e : dim + (i - dim) = i := by omega
            rw [e]
            simpa [CMP_LT] using hc
        · rw [if_neg hx0]
          obtain ⟨i, hi, hc⟩ := hx.mp hx0
          exact ⟨fun _ => ⟨i, by omega, hc⟩, fun _ => hx0⟩
      have kl := key left right lb h2
      have kr := key right left rb h3
      simp only []
      by_cases hboth : (if lb = 0 then cmp_movemask CMP_LT left right dim w &&& (SHIFTS w - 1)
          else lb) ≠ 0 ∧
          (if rb = 0 then cmp_movemask CMP_LT right left dim w &&& (SHIFTS w - 1) else rb) ≠ 0
      · rw [if_pos hboth]
        obtain ⟨i, hi, hc⟩ := kl.mp hboth.1
        obtain ⟨i', hi', hc'⟩ := kr.mp hboth.2
        exact ⟨⟨i, by omega, hc⟩, ⟨i', by omega, hc'⟩⟩
      · rw [if_neg hboth]
        exact ih _ hw kl kr
    · rw [if_neg hw]
      exact ⟨h1, h2, h3⟩

theorem DominanceTest.tail_inv (left right : TUPLE) :
    ∀ (ks : List Nat) (s : Nat × Nat) (P : Nat → Prop),
      (s.1 ≠ 0 ↔ ∃ i, P i ∧ left.elem i < right.elem i) →
      (s.2 ≠ 0 ↔ ∃ i, P i ∧ right.elem i < left.elem i) →
      match DominanceTest.tail left right ks s with
      | some s1 => (s1.1 ≠ 0 ↔ ∃ i, (P i ∨ i ∈ ks) ∧ left.elem i < right.elem i) ∧
          (s1.2 ≠ 0 ↔ ∃ i, (P i ∨ i ∈ ks) ∧ right.elem i < left.elem i)
      | none => (∃ i, (P i ∨ i ∈ ks) ∧ left.elem i < right.elem i) ∧
          ∃ i, (P i ∨ i ∈ ks) ∧ right.elem i < left.elem i := by
  intro ks
  induction ks with
  | nil =>
    intro s P h2 h3
    simp only [DominanceTest.tail, List.not_mem_nil, or_false]
    exact ⟨h2, h3⟩
  | cons k rest ih =>
    intro s P h2 h3
    obtain ⟨lb, rb⟩ := s
    simp only [] at h2 h3
    rw [DominanceTest.tail]
    have key : ∀ (a b : TUPLE) (x : Nat), (x ≠ 0 ↔ ∃ i, P i ∧ a.elem i < b.elem i) →
        ((if x = 0 ∧ a.elem k < b.elem k then 1 else x) ≠ 0 ↔
          ∃ i, (P i ∨ i = k) ∧ a.elem i < b.elem i) := by
      intro a b x hx
      by_cases hc : x = 0 ∧ a.elem k < b.elem k
      · rw [if_pos hc]
        exact ⟨fun _ => ⟨k, Or.inr rfl, hc.2⟩, fun _ => by decide⟩
      · rw [if_neg hc, hx]
        constructor
        · rintro ⟨i, hi, h⟩
          exact ⟨i, Or.inl hi, h⟩
        · rintro ⟨i, hi | hi, h⟩
          · exact ⟨i, hi, h⟩
          · subst hi
            by_contra hno
            exact hc ⟨by_contra (fun hx0 => hno (hx.mp hx0)), h⟩
    have kl := key left right lb h2
    have kr := key right left rb h3
    have e : ∀ (Q : Nat → Prop), (∃ i, ((P i ∨ i = k) ∨ i ∈ rest) ∧ Q i) ↔
        ∃ i, (P i ∨ i ∈ k :: rest) ∧ Q i := by
      intro Q
      simp only [List.mem_cons, or_assoc]
    by_cases hboth : (if lb = 0 ∧ left.elem k < right.elem k then 1 else lb) ≠ 0 ∧
        (if rb = 0 ∧ right.elem k < left.elem k then 1 else rb) ≠ 0
    · rw [if_pos hboth]
      obtain ⟨i, hi, hc⟩ := kl.mp hboth.1
      obtain ⟨i', hi', hc'⟩ := kr.mp hboth.2
      refine ⟨⟨i, ?_, hc⟩, ⟨i', ?_, hc'⟩⟩
      · rcases hi with h | h
        · exact Or.inl h
        · exact Or.inr (h ▸ List.mem_cons_self _ _)
      · rcases hi' with h | h
        · exact Or.inl h
        · exact Or.inr (h ▸ List.mem_cons_self _ _)
    · rw [if_neg hboth]
      have := ih (if lb = 0 ∧ left.elem k < right.elem k then 1 else lb,
        if rb = 0 ∧ right.elem k < left.elem k then 1 else rb) (fun i => P i ∨ i = k) kl kr
      revert this
      cases DominanceTest.tail left right rest
        (if lb = 0 ∧ left.elem k < right.elem k then 1 else lb,
         if rb = 0 ∧ right.elem k < left.elem k then 1 else rb) with
      | none =>
        intro this
        exact ⟨(e _).mp this.1, (e _).mp this.2⟩
      | some s1 =>
        intro this
        exact ⟨this.1.trans (e _), this.2.trans (e _)⟩

/-- The loop of the branch `NUM_DIMS < 4` computes the same flags as the scalar tail. -/
theorem DominanceTest.small_eq_tail (left right : TUPLE) :
    ∀ (ks : List Nat) (s : Nat × Nat),
      DominanceTest.small left right ks s = DominanceTest.tail left right ks s := by
  intro ks
  induction ks with
  | nil => intro s; rfl
  | cons k rest ih =>
    intro s
    obtain ⟨lb, rb⟩ := s
    rw [DominanceTest.small, DominanceTest.tail]
    have e : ∀ (x : Nat) (c : Prop) [Decidable c],
        (if x = 0 then (if c then 1 else 0) else x) = if x = 0 ∧ c then 1 else x := by
      intro x c _
      by_cases hx : x = 0 <;> by_cases hc : c <;> simp [hx, hc]
    simp only [e, ih]

/-- The value of the vectorised `DominanceTest` in terms of the two existentials. -/
theorem DominanceTest_value (d : Nat) (left right : TUPLE) :
    (AVX.DominanceTest d left right = DOM_LEFT ↔
      (∃ i, i < d ∧ left.elem i < right.elem i) ∧ ¬ ∃ i, i < d ∧ right.elem i < left.elem i) ∧
    (AVX.DominanceTest d left right = DOM_RIGHT ↔
      (∃ i, i < d ∧ right.elem i < left.elem i) ∧ ¬ ∃ i, i < d ∧ left.elem i < right.elem i) ∧
    (AVX.DominanceTest d left right = DOM_LEFT ∨ AVX.DominanceTest d left right = DOM_RIGHT ∨
      AVX.DominanceTest d left right = DOM_INCOMP) := by
  -- the result once the flags are characterised
  have fin : ∀ (r : Option (Nat × Nat)),
      (match r with
        | some s1 => (s1.1 ≠ 0 ↔ ∃ i, i < d ∧ left.elem i < right.elem i) ∧
            (s1.2 ≠ 0 ↔ ∃ i, i < d ∧ right.elem i < left.elem i)
        | none => (∃ i, i < d ∧ left.elem i < right.elem i) ∧
            ∃ i, i < d ∧ right.elem i < left.elem i) →
      (DominanceTest.finish r = DOM_LEFT ↔
        (∃ i, i < d ∧ left.elem i < right.elem i) ∧
          ¬ ∃ i, i < d ∧ right.elem i < left.elem i) ∧
      (DominanceTest.finish r = DOM_RIGHT ↔
        (∃ i, i < d ∧ right.elem i < left.elem i) ∧
          ¬ ∃ i, i < d ∧ left.elem i < right.elem i) ∧
      (DominanceTest.finish r = DOM_LEFT ∨ DominanceTest.finish r = DOM_RIGHT ∨
        DominanceTest.finish r = DOM_INCOMP) := by
    intro r hr
    have e1 : DOM_INCOMP ≠ DOM_LEFT := by decide
    have e2 : DOM_INCOMP ≠ DOM_RIGHT := by decide
    have e3 : DOM_LEFT ≠ DOM_RIGHT := by decide
    cases r with
    | none =>
      exact ⟨⟨fun h => absurd h e1, fun h => absurd hr.2 h.2⟩,
        ⟨fun h => absurd h e2, fun h => absurd hr.1 h.2⟩, Or.inr (Or.inr rfl)⟩
    | some s1 =>
      obtain ⟨lb, rb⟩ := s1
      simp only [] at hr
      simp only [DominanceTest.finish]
      rw [← hr.1, ← hr.2]
      by_cases hl : lb = 0 <;> by_cases hr' : rb = 0 <;>
        simp [hl, hr', e1, e2, e3, e3.symm]
  have none_case : (∃ i, i < d ∧ left.elem i < right.elem i) ∧
      (∃ i, i < d ∧ right.elem i < left.elem i) →
      (DOM_INCOMP = DOM_LEFT ↔
        (∃ i, i < d ∧ left.elem i < right.elem i) ∧
          ¬ ∃ i, i < d ∧ right.elem i < left.elem i) ∧
      (DOM_INCOMP = DOM_RIGHT ↔
        (∃ i, i < d ∧ right.elem i < left.elem i) ∧
          ¬ ∃ i, i < d ∧ left.elem i < right.elem i) ∧
      (DOM_INCOMP = DOM_LEFT ∨ DOM_INCOMP = DOM_RIGHT ∨ DOM_INCOMP = DOM_INCOMP) := by
    intro h
    have e1 : DOM_INCOMP ≠ DOM_LEFT := by decide
    have e2 : DOM_INCOMP ≠ DOM_RIGHT := by decide
    exact ⟨⟨fun h' => absurd h' e1, fun h' => absurd h.2 h'.2⟩,
      ⟨fun h' => absurd h' e2, fun h' => absurd h.1 h'.2⟩, Or.inr (Or.inr rfl)⟩
  -- the scalar tail after the blocks
  have tl : ∀ (s2 : Nat × Nat × Nat), s2.1 ≤ d →
      (s2.2.1 ≠ 0 ↔ ∃ i, i < s2.1 ∧ left.elem i < right.elem i) →
      (s2.2.2 ≠ 0 ↔ ∃ i, i < s2.1 ∧ right.elem i < left.elem i) →
      match DominanceTest.tail left right (List.range' s2.1 (d - s2.1)) s2.2 with
      | some s1 => (s1.1 ≠ 0 ↔ ∃ i, i < d ∧ left.elem i < right.elem i) ∧
          (s1.2 ≠ 0 ↔ ∃ i, i < d ∧ right.elem i < left.elem i)
      | none => (∃ i, i < d ∧ left.elem i < right.elem i) ∧
          ∃ i, i < d ∧ right.elem i < left.elem i := by
    intro s2 h1 h2 h3
    have e : ∀ i, ((i < s2.1) ∨ i ∈ List.range' s2.1 (d - s2.1)) ↔ i < d := by
      intro i
      rw [List.mem_range'_1]
      omega
    have := DominanceTest.tail_inv left right (List.range' s2.1 (d - s2.1)) s2.2
      (fun i => i < s2.1) h2 h3
    simp only [e] at this
    exact this
  have z2 : ((0 : Nat) ≠ 0 ↔ ∃ i, i < 0 ∧ left.elem i < right.elem i) := by simp
  have z3 : ((0 : Nat) ≠ 0 ↔ ∃ i, i < 0 ∧ right.elem i < left.elem i) := by simp
  unfold AVX.DominanceTest
  split_ifs
  · have b1 := DominanceTest.blocks_inv d 8 left right d (0, 0, 0) (Nat.zero_le _) z2 z3
    revert b1
    cases DominanceTest.blocks d 8 left right d (0, 0, 0) with
    | none => intro b1; exact none_case b1
    | some s1 =>
      intro b1
      simp only []
      have b2 := DominanceTest.blocks_inv d 4 left right d s1 b1.1 b1.2.1 b1.2.2
      revert b2
      cases DominanceTest.blocks d 4 left right d s1 with
      | none => intro b2; exact none_case b2
      | some s2 =>
        intro b2
        exact fin _ (tl s2 b2.1 b2.2.1 b2.2.2)
  · have b2 := DominanceTest.blocks_inv d 4 left right d (0, 0, 0) (Nat.zero_le _) z2 z3
    revert b2
    cases DominanceTest.blocks d 4 left right d (0, 0, 0) with
    | none => intro b2; exact none_case b2
    | some s2 =>
      intro b2
      exact fin _ (tl s2 b2.1 b2.2.1 b2.2.2)
  · rw [DominanceTest.small_eq_tail]
    have := tl (0, 0, 0) (Nat.zero_le _) z2 z3
    simp only [Nat.sub_zero, List.range'_eq_map_range, Nat.zero_add] at this
    simp only [List.map_id'] at this
    exact fin _ this

theorem dominates_iff_exists (d : Nat) (a b : TUPLE) :
    Dominates d a b ↔
      (∃ i, i < d ∧ a.elem i < b.elem i) ∧ ¬ ∃ i, i < d ∧ b.elem i < a.elem i := by
  unfold Dominates
  constructor
  · rintro ⟨h1, h2⟩
    exact ⟨h2, fun ⟨i, hi, hc⟩ => absurd (h1 i hi) (not_le.mpr hc)⟩
  · rintro ⟨h1, h2⟩
    refine ⟨fun i hi => ?_, h1⟩
    by_contra hc
    exact h2 ⟨i, hi, not_le.mp hc⟩

/-- The vectorised `DominanceTest` returns the scalar value. -/
theorem DominanceTest_eq (d : Nat) (left right : TUPLE) :
    AVX.DominanceTest d left right = SkyBench.DominanceTest d left right := by
  obtain ⟨a1, a2, a3⟩ := DominanceTest_value d left right
  have s1 := SkyBench.DominanceTest_left_iff d left right
  have s2 := SkyBench.DominanceTest_right_iff d left right
  have s3 := SkyBench.DominanceTest.loop_values left right (List.range d) false false
  rw [dominates_iff_exists] at s1 s2
  have s3' : SkyBench.DominanceTest d left right = DOM_LEFT ∨
      SkyBench.DominanceTest d left right = DOM_RIGHT ∨
      SkyBench.DominanceTest d left right = DOM_INCOMP := s3
  rcases s3' with h | h | h
  · rw [h]; exact a1.mpr (s1.mp h)
  · rw [h]; exact a2.mpr (s2.mp h)
  · rw [h]
    rcases a3 with h' | h' | h'
    · have := s1.mpr (a1.mp h'); rw [h] at this; exact absurd this (by decide)
    · have := s2.mpr (a2.mp h'); rw [h] at this; exact absurd this (by decide)
    · exact h'

end AVX

namespace AVX

/-! ### `DominateLeft` and `DominateLeftDVC` -/

theorem leBlocks_inv (d w full : Nat) (hfull : full = 2 ^ w - 1) (left right : TUPLE) :
    ∀ (fuel dim : Nat), dim ≤ d → (∀ i, i < dim → left.elem i ≤ right.elem i) →
      match leBlocks d w full left right fuel dim with
      | some dim1 => dim1 ≤ d ∧ ∀ i, i < dim1 → left.elem i ≤ right.elem i
      | none => ∃ i, i < d ∧ ¬ left.elem i ≤ right.elem i := by
  intro fuel
  induction fuel with
  | zero => intro dim h1 h2; exact ⟨h1, h2⟩
  | succ fuel ih =>
    intro dim h1 h2
    rw [leBlocks]
    by_cases hw : dim + w ≤ d
    · rw [if_pos hw]
      by_cases hm : cmp_movemask CMP_LE left right dim w ≠ full
      · rw [if_pos hm]
        rw [hfull, Ne, cmp_movemask_eq_full] at hm
        simp only [not_forall] at hm
        obtain ⟨j, hj, hc⟩ := hm
        refine ⟨dim + j, by omega, ?_⟩
        simpa [CMP_LE] using hc
      · rw [if_neg hm]
        rw [hfull, Ne, not_not, cmp_movemask_eq_full] at hm
        apply ih (dim + w) hw
        intro i hi
        by_cases hid : i < dim
        · exact h2 i hid
        · have := hm (i - dim) (by omega)
          have e : dim + (i - dim) = i := by omega
          rw [e] at this
          simpa [CMP_LE] using this
    · rw [if_neg hw]
      exact ⟨h1, h2⟩

theorem leTail_iff (d : Nat) (left right : TUPLE) (dim : Nat) :
    leTail d left right dim = true ↔ ∀ k, dim ≤ k → k < d → left.elem k ≤ right.elem k := by
  unfold leTail
  simp only [List.all_eq_true, List.mem_range'_1, Bool.not_eq_true', decide_eq_false_iff_not,
    not_lt]
  constructor
  · intro h k h1 h2
    exact h k ⟨h1, by omega⟩
  · intro h k hk
    exact h k hk.1 (by omega)

/-- The lane-wise part of `DominateLeft` passes iff `left` is no larger on every
dimension. -/
theorem leAll_iff (d : Nat) (left right : TUPLE) :
    leAll d left right = true ↔ WeakDom d left right := by
  have fin : ∀ dim2, dim2 ≤ d → (∀ i, i < dim2 → left.elem i ≤ right.elem i) →
      (leTail d left right dim2 = true ↔ WeakDom d left right) := by
    intro dim2 _ h2
    rw [leTail_iff]
    constructor
    · intro h i hi
      by_cases hid : i < dim2
      · exact h2 i hid
      · exact h i (by omega) hi
    · intro h k _ hk
      exact h k hk
  have no : (∃ i, i < d ∧ ¬ left.elem i ≤ right.elem i) →
      (false = true ↔ WeakDom d left right) := by
    rintro ⟨i, hi, hc⟩
    simp only [Bool.false_eq_true, false_iff]
    exact fun h => hc (h i hi)
  have z : ∀ i, i < 0 → left.elem i ≤ right.elem i := fun i hi => absurd hi (by omega)
  unfold leAll
  split_ifs
  · have b1 := leBlocks_inv d 8 255 (by norm_num) left right d 0 (Nat.zero_le _) z
    revert b1
    cases leBlocks d 8 255 left right d 0 with
    | none => intro b1; exact no b1
    | some dim1 =>
      intro b1
      simp only []
      have b2 := leBlocks_inv d 4 15 (by norm_num) left right d dim1 b1.1 b1.2
      revert b2
      cases leBlocks d 4 15 left right d dim1 with
      | none => intro b2; exact no b2
      | some dim2 => intro b2; exact fin dim2 b2.1 b2.2
  · have b2 := leBlocks_inv d 4 15 (by norm_num) left right d 0 (Nat.zero_le _) z
    revert b2
    cases leBlocks d 4 15 left right d 0 with
    | none => intro b2; exact no b2
    | some dim2 => intro b2; exact fin dim2 b2.1 b2.2
  · exact fin 0 (Nat.zero_le _) z

/-- The vectorised `DominateLeft` returns the scalar value. -/
theorem DominateLeft_eq (d : Nat) (left right : TUPLE) :
    AVX.DominateLeft d left right = SkyBench.DominateLeft d left right := by
  rw [Bool.eq_iff_iff, SkyBench.DominateLeft_iff]
  unfold AVX.DominateLeft
  by_cases h : leAll d left right = true
  · rw [if_pos h]
    have hw := (leAll_iff d left right).mp h
    simp only [List.any_eq_true, List.mem_range, decide_eq_true_eq]
    constructor
    · rintro ⟨i, hi, hne⟩
      exact ⟨hw, i, hi, lt_of_le_of_ne (hw i hi) (fun e => hne e.symm)⟩
    · rintro ⟨_, i, hi, hlt⟩
      exact ⟨i, hi, fun e => absurd hlt (by rw [e]; exact lt_irrefl _)⟩
  · rw [if_neg h]
    simp only [Bool.false_eq_true, false_iff]
    intro hd
    exact h ((leAll_iff d left right).mpr hd.weak)

/-- The vectorised `DominateLeftDVC` returns true exactly when the scalar one returns 1. -/
theorem DominateLeftDVC_eq (d : Nat) (left right : TUPLE) :
    (if AVX.DominateLeftDVC d left right = true then 1 else 0) =
      SkyBench.DominateLeftDVC d left right := by
  unfold AVX.DominateLeftDVC
  by_cases h : leAll d left right = true
  · rw [if_pos h]
    exact ((SkyBench.DominateLeftDVC_iff d left right).mpr ((leAll_iff d left right).mp h)).symm
  · rw [if_neg h]
    rcases SkyBench.DominateLeftDVC_values d left right with h1 | h1
    · exact absurd ((leAll_iff d left right).mpr
        ((SkyBench.DominateLeftDVC_iff d left right).mp h1)) h
    · exact h1.symm

end AVX

namespace QFlow

theorem ComputeScores_scored (d : Nat) (data : List STUPLE) :
    ∀ t ∈ ComputeScores d data, Scored d t := by
  intro t ht
  simp only [ComputeScores, List.mem_map] at ht
  obtain ⟨t0, _, rfl⟩ := ht
  rfl

/-- With scores that are coordinate sums, a dominating point has the smaller score and
compares less. -/
theorem STupleComp_of_dominates (d : Nat) (p q : STUPLE) (hp : Scored d p) (hq : Scored d q)
    (h : Dominates d p.toTUPLE q.toTUPLE) : p.score < q.score ∧ STupleComp d p q = true := by
  have hlt : p.score < q.score := by
    rw [hp, hq]
    exact score_lt_of_dominates h
  refine ⟨hlt, ?_⟩
  unfold STupleComp
  rw [if_pos hlt]

/-- In an array sorted by `STupleComp` no point is dominated by a later one. -/
theorem noBackDom_of_sorted (d : Nat) (S : List STUPLE) (hs : ∀ t ∈ S, Scored d t)
    (hpw : S.Pairwise (fun a b => STupleComp d b a = false)) : NoBackDom d S := by
  intro i j hij hj hdom
  have hpw' := List.pairwise_iff_getElem.mp hpw i j (by omega) hj hij
  rw [← List.getD_eq_getElem _ default, ← List.getD_eq_getElem _ default] at hpw'
  have h1 := hs _ (getD_mem (l := S) (j := i) (by omega))
  have h2 := hs _ (getD_mem (l := S) (j := j) hj)
  rw [(STupleComp_of_dominates d _ _ h2 h1 hdom).2] at hpw'
  exact Bool.noConfusion hpw'

theorem STupleComp_iff (d : Nat) (a b : STUPLE) :
    STupleComp d a b = true ↔
      a.score < b.score ∨ (a.score = b.score ∧
        (List.range d).tail.foldl (fun s k => s + a.elem k) (a.elem 0)
          < (List.range d).tail.foldl (fun s k => s + b.elem k) (b.elem 0)) := by
  unfold STupleComp
  by_cases h1 : a.score < b.score
  · simp [h1]
  · by_cases h2 : b.score < a.score
    · rw [if_neg h1, if_pos h2]
      simp only [Bool.false_eq_true, false_iff]
      rintro (h | ⟨h, _⟩)
      · exact h1 h
      · rw [h] at h2; exact lt_irrefl _ h2
    · rw [if_neg h1, if_neg h2]
      have e : a.score = b.score := le_antisymm (not_lt.mp h2) (not_lt.mp h1)
      simp [h1, e]

/-- `STupleComp` is a strict weak order. -/
theorem STupleComp_strictWeakOrder (d : Nat) : StrictWeakOrder (STupleComp d) := by
  have hf : ∀ a b : STUPLE, STupleComp d a b = false ↔
      ¬ (a.score < b.score ∨ (a.score = b.score ∧
        (List.range d).tail.foldl (fun s k => s + a.elem k) (a.elem 0)
          < (List.range d).tail.foldl (fun s k => s + b.elem k) (b.elem 0))) := by
    intro a b
    rw [← STupleComp_iff, Bool.not_eq_true]
  refine ⟨?_, ?_, ?_⟩
  · intro a
    rw [hf]
    rintro (h | ⟨_, h⟩)
    · exact lt_irrefl _ h
    · exact lt_irrefl _ h
  · intro a b c hab hbc
    rw [STupleComp_iff] at hab hbc ⊢
    rcases hab with h1 | ⟨h1, h2⟩ <;> rcases hbc with h3 | ⟨h3, h4⟩
    · exact Or.inl (lt_trans h1 h3)
    · exact Or.inl (h3 ▸ h1)
    · exact Or.inl (h1 ▸ h3)
    · exact Or.inr ⟨h1.trans h3, lt_trans h2 h4⟩
  · intro a b c hab hba hbc hcb
    rw [hf] at hab hba hbc hcb
    push_neg at hab hba hbc hcb
    have e1 : a.score = b.score := le_antisymm hba.1 hab.1
    have e2 : b.score = c.score := le_antisymm hcb.1 hbc.1
    have s1 := le_antisymm (hba.2 e1.symm) (hab.2 e1)
    have s2 := le_antisymm (hcb.2 e2.symm) (hbc.2 e2)
    constructor
    · rw [hf]
      rintro (h | ⟨_, h⟩)
      · rw [e1, e2] at h; exact lt_irrefl _ h
      · rw [s1, s2] at h; exact lt_irrefl _ h
    · rw [hf]
      rintro (h | ⟨_, h⟩)
      · rw [e1, e2] at h; exact lt_irrefl _ h
      · rw [s1, s2] at h; exact lt_irrefl _ h

end QFlow

namespace PSkyline

/-- The inclusive ranges built by `PSkyline::Init`. -/
theorem InitBlocks_ranges {T n : Nat} (hT : 1 ≤ T) :
    (InitBlocks T n).length = T ∧
    (InitBlocks T n).Pairwise (fun a b => a.end_ < b.start) ∧
    (∀ k : Nat, (∃ b ∈ InitBlocks T n, b.start ≤ (k : Int) ∧ (k : Int) ≤ b.end_) ↔ k < n) ∧
    (∀ i, i + 1 < T →
      ((InitBlocks T n).getD i default).end_ - ((InitBlocks T n).getD i default).start + 1
        = ((n / T : Nat) : Int)) ∧
    ((InitBlocks T n).getD (T - 1) default).end_
        - ((InitBlocks T n).getD (T - 1) default).start + 1
      = ((n - (T - 1) * (n / T) : Nat) : Int) := by
  have h1 : n / T * T ≤ n := Nat.div_mul_le_self n T
  have hget : ∀ i, i < T → (InitBlocks T n).getD i default =
      if i = T - 1 then
        ({ start := (i * (n / T) : Nat), end_ := (n : Int) - 1, size := 0 } : Block)
      else { start := (i * (n / T) : Nat), end_ := ((i * (n / T) + n / T : Nat) : Int) - 1,
             size := 0 } := by
    intro i hi
    rw [InitBlocks_eq, List.getD_eq_getElem _ _ (by simpa using hi)]
    simp
  have hlast : (T - 1) * (n / T) ≤ n := by
    calc (T - 1) * (n / T) ≤ T * (n / T) := Nat.mul_le_mul_right _ (by omega)
      _ = n / T * T := Nat.mul_comm _ _
      _ ≤ n := h1
  refine ⟨by rw [InitBlocks_eq]; simp, ?_, ?_, ?_, ?_⟩
  · rw [InitBlocks_eq, List.pairwise_map]
    refine (List.pairwise_lt_range T).imp_of_mem ?_
    intro i j _ hjm hij
    have hj : j < T := List.mem_range.mp hjm
    have hi : i ≠ T - 1 := by omega
    have h2 : (i + 1) * (n / T) ≤ j * (n / T) := Nat.mul_le_mul_right _ (by omega)
    rw [Nat.succ_mul] at h2
    simp only [if_neg hi]
    generalize i * (n / T) = s at *
    generalize j * (n / T) = s' at *
    generalize n / T = q at *
    by_cases hl : j = T - 1
    · simp only [if_pos hl]
      omega
    · simp only [if_neg hl]
      omega
  · intro k
    constructor
    · rintro ⟨b, hb, hs, he⟩
      rw [InitBlocks_eq, List.mem_map] at hb
      obtain ⟨i, hi, rfl⟩ := hb
      rw [List.mem_range] at hi
      have h2 : (i + 1) * (n / T) ≤ T * (n / T) := Nat.mul_le_mul_right _ (by omega)
      rw [Nat.succ_mul] at h2
      rw [Nat.mul_comm (n / T) T] at h1
      generalize i * (n / T) = s at *
      generalize T * (n / T) = m at *
      generalize n / T = q at *
      by_cases hl : i = T - 1
      · simp only [if_pos hl] at hs he
        omega
      · simp only [if_neg hl] at hs he
        omega
    · intro hk
      rw [InitBlocks_eq]
      by_cases hlt : k / (n / T) < T - 1 ∧ 0 < n / T
      · refine ⟨_, List.mem_map.mpr ⟨k / (n / T), List.mem_range.mpr (by omega), rfl⟩, ?_⟩
        have hne : k / (n / T) ≠ T - 1 := by omega
        have h3 : k / (n / T) * (n / T) ≤ k := Nat.div_mul_le_self k (n / T)
        have h4 : k < (k / (n / T) + 1) * (n / T) := by
          rw [Nat.mul_comm]
          exact Nat.lt_mul_div_succ k hlt.2
        rw [Nat.succ_mul] at h4
        simp only [if_neg hne]
        generalize k / (n / T) * (n / T) = s at *
        generalize k / (n / T) = kq at *
        generalize n / T = q at *
        omega
      · refine ⟨_, List.mem_map.mpr ⟨T - 1, List.mem_range.mpr (by omega), rfl⟩, ?_⟩
        simp only [if_pos]
        have h5 : (T - 1) * (n / T) ≤ k := by
          by_cases hz : 0 < n / T
          · have h6 : T - 1 ≤ k / (n / T) := Nat.le_of_not_lt (fun h => hlt ⟨h, hz⟩)
            calc (T - 1) * (n / T) ≤ k / (n / T) * (n / T) := Nat.mul_le_mul_right _ h6
              _ ≤ k := Nat.div_mul_le_self k (n / T)
          · have : n / T = 0 := Nat.eq_zero_of_not_pos hz
            rw [this]
            simp
        generalize (T - 1) * (n / T) = s at *
        generalize n / T = q at *
        omega
  · intro i hi
    rw [hget i (by omega), if_neg (by omega)]
    simp only []
    generalize i * (n / T) = s at *
    generalize n / T = q at *
    omega
  · rw [hget (T - 1) (by omega), if_pos rfl]
    simp only []
    generalize (T - 1) * (n / T) = s at *
    omega

end PSkyline

/-- Overwriting cell `k` of `t` by `a` exchanges `a` for the old content of the cell. -/
theorem perm_cons_set {α : Type} [Inhabited α] : ∀ (t : List α) (k : Nat) (a : α),
    k < t.length → (a :: t).Perm (t.getD k default :: t.set k a)
  | [], _, _, h => by simp at h
  | b :: t, 0, a, _ => by
    simp only [List.getD_cons_zero, List.set_cons_zero]
    exact List.Perm.swap b a t
  | b :: t, k + 1, a, h => by
    simp only [List.getD_cons_succ, List.set_cons_succ]
    have ih := perm_cons_set t k a (by simpa using h)
    exact ((List.Perm.swap b a t).trans (ih.cons b)).trans (List.Perm.swap _ _ _)

/-- The idiom `l[i] = l.back(); l.pop_back();` removes exactly the old `l[i]`. -/
theorem perm_set_dropLast {α : Type} [Inhabited α] (L : List α) (i : Nat) (hi : i < L.length) :
    L.Perm (L.getD i default :: (L.set i (L.getD (L.length - 1) default)).dropLast) := by
  have h1 := perm_cons_set L i (L.getD (L.length - 1) default) hi
  have hne : L.set i (L.getD (L.length - 1) default) ≠ [] := by
    intro h
    have := congrArg List.length h
    rw [List.length_set, List.length_nil] at this
    omega
  have hlast : (L.set i (L.getD (L.length - 1) default)).getLast hne
      = L.getD (L.length - 1) default := by
    rw [List.getLast_eq_getElem, ← List.getD_eq_getElem _ default]
    simp only [List.length_set]
    rw [getD_set' _ _ _ _ _ (by omega)]
    split_ifs
    · rfl
    · rfl
  have h2 : (L.set i (L.getD (L.length - 1) default)).Perm
      (L.getD (L.length - 1) default ::
        (L.set i (L.getD (L.length - 1) default)).dropLast) := by
    have := List.dropLast_append_getLast hne
    rw [hlast] at this
    exact (List.Perm.of_eq this.symm).trans (List.perm_append_singleton _ _)
  have h3 := (h1.trans (h2.cons _)).trans (List.Perm.swap _ _ _)
  exact h3.cons_inv

namespace PivotSelection

theorem perm_popAt (ds : List TUPLE) (cp : Nat) (hcp : cp < ds.length) :
    ds.Perm (ds.getD cp default :: popAt ds cp) :=
  perm_set_dropLast ds cp hcp

theorem perm_popAt_set (ds : List TUPLE) (cp : Nat) (h1 : 1 ≤ cp) (hcp : cp < ds.length) :
    ds.Perm (ds.getD 0 default :: popAt (ds.set 0 (ds.getD cp default)) cp) := by
  have a := perm_cons_set ds 0 (ds.getD cp default) (by omega)
  have b := perm_popAt (ds.set 0 (ds.getD cp default)) cp (by simpa using hcp)
  rw [getD_set_of_ne _ _ _ _ _ (by omega)] at b
  exact ((a.trans (b.cons _)).trans (List.Perm.swap _ _ _)).cons_inv

theorem perm_swapHead (ds : List TUPLE) (cp : Nat) (h1 : 1 ≤ cp) (hcp : cp < ds.length) :
    ds.Perm (swapHead ds cp) := by
  have a := perm_cons_set ds 0 (ds.getD cp default) (by omega)
  have b := perm_cons_set (ds.set 0 (ds.getD cp default)) cp (ds.getD 0 default)
    (by simpa using hcp)
  rw [getD_set_of_ne _ _ _ _ _ (by omega)] at b
  exact (a.trans b).cons_inv

/-- The tuples that the pivot-selection loop removes are dominated by tuples of the
dataset, and nothing else changes but the order. -/
theorem Execute.loop_removed {d : Nat} (hd : 0 < d) (ml rl : List ℚ) (orig : List TUPLE) :
    ∀ (fuel : Nat) (ds : List TUPLE) (cp : Nat) (md : ℚ) (r : List TUPLE),
      Inv d ml rl orig ds cp md → Execute.loop d ml rl fuel ds cp md = some r →
      ∃ removed, ds.Perm (r ++ removed) ∧ ∀ q ∈ removed, ∃ p ∈ ds, Dominates d p q := by
  intro fuel
  induction fuel with
  | zero => intro ds cp md r _ h; simp [Execute.loop] at h
  | succ fuel ih =>
    intro ds cp md r inv hr
    have hlen := inv.len
    have hcp1 := inv.cp1
    rw [Execute.loop] at hr
    -- one removal followed by the rest of the loop
    have step : ∀ (ds1 : List TUPLE) (x : TUPLE), ds.Perm (x :: ds1) →
        (∃ p ∈ ds, Dominates d p x) →
        (∃ removed, ds1.Perm (r ++ removed) ∧ ∀ q ∈ removed, ∃ p ∈ ds1, Dominates d p q) →
        ∃ removed, ds.Perm (r ++ removed) ∧ ∀ q ∈ removed, ∃ p ∈ ds, Dominates d p q := by
      rintro ds1 x hperm hx ⟨removed, h1, h2⟩
      refine ⟨x :: removed, ?_, ?_⟩
      · exact (hperm.trans (h1.cons x)).trans List.perm_middle.symm
      · intro q hq
        rcases List.mem_cons.mp hq with h | h
        · rw [h]; exact hx
        · obtain ⟨p, hp, hdom⟩ := h2 q h
          exact ⟨p, hperm.mem_iff.mpr (List.mem_cons_of_mem _ hp), hdom⟩
    by_cases hcp : cp ≤ ds.length - 1
    · rw [if_pos hcp] at hr
      simp only [] at hr
      by_cases hl : DominanceTest d (ds.getD 0 default) (ds.getD cp default) = DOM_LEFT
      · rw [if_pos hl] at hr
        have hdom := (DominanceTest_left_iff _ _ _).mp hl
        have inv' := inv.remove hcp 0 (by omega) hdom
        exact step _ _ (perm_popAt ds cp (by omega)) ⟨_, getD_mem (by omega), hdom⟩
          (ih _ _ _ r inv' hr)
      · rw [if_neg hl] at hr
        by_cases hrt : DominanceTest d (ds.getD 0 default) (ds.getD cp default) = DOM_RIGHT
        · rw [if_pos hrt] at hr
          have hdom := (DominanceTest_right_iff _ _ _).mp hrt
          have inv' := inv.domRight hcp hdom
          exact step _ _ (perm_popAt_set ds cp hcp1 (by omega))
            ⟨_, getD_mem (show cp < ds.length by omega), hdom⟩ (ih _ _ _ r inv' hr)
        · rw [if_neg hrt] at hr
          have hnl : ¬ Dominates d (ds.getD 0 default) (ds.getD cp default) :=
            fun h => hl ((DominanceTest_left_iff _ _ _).mpr h)
          have hnr : ¬ Dominates d (ds.getD cp default) (ds.getD 0 default) :=
            fun h => hrt ((DominanceTest_right_iff _ _ _).mpr h)
          by_cases hlt : ComputeDistance d (ds.getD cp default).elems ml rl < md
          · rw [if_pos hlt] at hr
            by_cases hev : EvaluatePoint d cp ds = true
            · rw [if_pos hev] at hr
              have inv' := inv.swap hcp hnl hlt hev
              obtain ⟨removed, h1, h2⟩ := ih _ _ _ r inv' hr
              have hp := perm_swapHead ds cp hcp1 (by omega)
              refine ⟨removed, hp.trans h1, ?_⟩
              intro q hq
              obtain ⟨p, hpm, hdom⟩ := h2 q hq
              exact ⟨p, hp.mem_iff.mpr hpm, hdom⟩
            · rw [if_neg hev] at hr
              have inv' := inv.evalFalse hd hcp hlt hev
              -- the point that makes `EvaluatePoint` fail dominates strictly
              have hx : ∃ p ∈ ds, Dominates d p (ds.getD cp default) := by
                have hev' := hev
                rw [EvaluatePoint_iff] at hev'
                simp only [not_forall, not_not] at hev'
                obtain ⟨i, hi, hw⟩ := hev'
                refine ⟨ds.getD i default, getD_mem (by omega), ?_⟩
                rcases hw.dominates_or_coordEq with h | h
                · exact h
                · exfalso
                  have he := ComputeDistance_congr d hd _ _ ml rl h
                  by_cases h0 : i = 0
                  · subst h0
                    rw [← he, ← inv.md_eq] at hlt
                    exact lt_irrefl _ hlt
                  · have hs := inv.seen i (by omega) hi (by omega)
                    rw [he] at hs
                    exact absurd hlt (not_lt.mpr hs.2.1)
              exact step _ _ (perm_popAt ds cp (by omega)) hx (ih _ _ _ r inv' hr)
          · rw [if_neg hlt] at hr
            have inv' := inv.advance hnl hnr hlt
            exact ih _ _ _ r inv' hr
    · rw [if_neg hcp] at hr
      have : ds = r := Option.some.inj hr
      subst this
      exact ⟨[], by simp, by simp⟩

/-- `PivotSelection::Execute` returns on every non-empty dataset; the result and the
removed tuples together are a rearrangement of the dataset, and every removed tuple is
dominated by a tuple of the dataset. -/
theorem Execute_removed {d : Nat} (hd : 0 < d) (min_list max_list : List ℚ) (ds : List TUPLE)
    (hne : ds ≠ []) :
    ∃ r removed, Execute d min_list max_list ds = some r ∧ ds.Perm (r ++ removed) ∧
      ∀ q ∈ removed, ∃ p ∈ ds, Dominates d p q := by
  obtain ⟨r, hr, _⟩ := Execute_spec hd min_list max_list ds hne
  have hlen : 1 ≤ ds.length := by
    cases ds with
    | nil => exact absurd rfl hne
    | cons _ _ => simp
  have inv0 : Inv d min_list (SetRangeList d min_list max_list) ds ds 1
      (ComputeDistance d (ds.getD 0 default).elems min_list
        (SetRangeList d min_list max_list)) := by
    refine ⟨hlen, le_refl _, rfl, fun j hj => getD_mem hj, ?_, ?_⟩
    · intro p hp
      obtain ⟨j, hj, e⟩ := mem_iff_getD.mp hp
      exact ⟨j, hj, Or.inl e⟩
    · intro j h1 h2; omega
  have hr' := hr
  unfold Execute at hr'
  rw [if_neg hne] at hr'
  obtain ⟨removed, h1, h2⟩ := Execute.loop_removed hd min_list _ ds _ ds 1 _ r inv0 hr'
  exact ⟨r, removed, hr, h1, h2⟩

end PivotSelection

namespace SkyTree

theorem MaxDepth.loop_le_iff : ∀ (rest : List Node) (depth k : Nat),
    MaxDepth.loop rest depth ≤ k ↔ depth ≤ k ∧ ∀ c ∈ rest, MaxDepth c ≤ k
  | [], depth, k => by simp [MaxDepth.loop]
  | c :: rest, depth, k => by
    rw [MaxDepth.loop, MaxDepth.loop_le_iff rest]
    simp only [List.mem_cons, forall_eq_or_imp]
    split_ifs with h
    · constructor
      · rintro ⟨h1, h2⟩
        exact ⟨by omega, h1, h2⟩
      · rintro ⟨_, h2, h3⟩
        exact ⟨h2, h3⟩
    · constructor
      · rintro ⟨h1, h2⟩
        exact ⟨h1, by omega, h2⟩
      · rintro ⟨h1, _, h3⟩
        exact ⟨h1, h3⟩

/-- The depth of a node is one more than the largest depth of a child. -/
theorem MaxDepth_le_iff (l : Nat) (p : TUPLE) (ch : List Node) (k : Nat) :
    MaxDepth (.mk l p ch) ≤ k + 1 ↔ ∀ c ∈ ch, MaxDepth c ≤ k := by
  cases ch with
  | nil => simp [MaxDepth]
  | cons c rest =>
    rw [MaxDepth, Nat.add_le_add_iff_right, MaxDepth.loop_le_iff]
    simp only [List.mem_cons, forall_eq_or_imp]

theorem MaxDepth_pos : ∀ (T : Node), 1 ≤ MaxDepth T
  | .mk _ _ [] => by simp [MaxDepth]
  | .mk _ _ (c :: rest) => by rw [MaxDepth]; omega

mutual
/-- `PartialDominance_with_trees` does not deepen the right tree. -/
theorem PartialDominance_with_trees_depth (d : Nat) (useTree : Bool) (lattice : Nat)
    (left : List Node) : ∀ (T : Node) (dom : List Bool),
    MaxDepth (PartialDominance_with_trees d useTree lattice left T dom).2.1 ≤ MaxDepth T
  | .mk l p ch, dom => by
    have key : (PartialDominance_with_trees d useTree lattice left (.mk l p ch) dom).2.1 =
        .mk l p (PartialDominance_with_trees.right d useTree lattice left ch dom).1 := by
      rw [PartialDominance_with_trees]
      split_ifs <;> rfl
    rw [key]
    obtain ⟨k, hk⟩ : ∃ k, MaxDepth (.mk l p ch) = k + 1 :=
      ⟨MaxDepth (.mk l p ch) - 1, by have := MaxDepth_pos (.mk l p ch); omega⟩
    rw [hk, MaxDepth_le_iff]
    exact PartialDominance_with_trees.right_depth d useTree lattice left ch dom k
      ((MaxDepth_le_iff l p ch k).mp (le_of_eq hk))
theorem PartialDominance_with_trees.right_depth (d : Nat) (useTree : Bool) (lattice : Nat)
    (left : List Node) : ∀ (ch : List Node) (dom : List Bool) (k : Nat),
    (∀ c ∈ ch, MaxDepth c ≤ k) →
    ∀ c ∈ (PartialDominance_with_trees.right d useTree lattice left ch dom).1, MaxDepth c ≤ k
  | [], dom, k, _ => by
    rw [PartialDominance_with_trees.right]
    simp
  | .mk l p c :: rest, dom, k, h => by
    have a := PartialDominance_with_trees_depth d useTree lattice left (.mk l p c) dom
    have b := PartialDominance_with_trees.right_depth d useTree lattice left rest
      (PartialDominance_with_trees d useTree lattice left (.mk l p c) dom).2.2 k
      (fun c' hc' => h c' (List.mem_cons_of_mem _ hc'))
    have hk := h _ (List.mem_cons_self _ _)
    rw [PartialDominance_with_trees.right]
    split_ifs with hflag
    · exact b
    · intro c' hc'
      rcases List.mem_cons.mp hc' with e | e
      · rw [e]; omega
      · exact b c' e
end

/-- The children built by the loop of `ComputeSkyTree` are no deeper than the largest
bucket. -/
theorem ComputeSkyTree.loop_depth (d : Nat) (useTree useDnC : Bool)
    (recurse : List ℚ → List ℚ → List TUPLE → Nat → State → Option (Node × State))
    (hrec : RecDepth recurse) (bound : Nat) (v : TUPLE) (ml Ml : List ℚ) :
    ∀ (rest : List (Nat × List TUPLE)) (children : List Node) (st : State)
      (children1 : List Node) (st1 : State),
      (∀ e ∈ rest, e.2.length ≤ bound) → (∀ c ∈ children, MaxDepth c ≤ bound) →
      ComputeSkyTree.loop d useTree useDnC recurse v ml Ml rest children st
        = some (children1, st1) →
      ∀ c ∈ children1, MaxDepth c ≤ bound := by
  intro rest
  induction rest with
  | nil =>
    intro children st children1 st1 _ hc hr
    rw [ComputeSkyTree.loop] at hr
    have := Option.some.inj hr
    rw [← (Prod.mk.inj this).1]
    exact hc
  | cons b rest ih =>
    intro children st children1 st1 M4 hc hr
    obtain ⟨k, ds⟩ := b
    have M4r : ∀ e ∈ rest, e.2.length ≤ bound := fun e he => M4 e (List.mem_cons_of_mem _ he)
    have hcurlen : (if (!useDnC && decide (children.length > 0)) = true then
        PartialDominance d useTree k ds children else ds).length ≤ ds.length := by
      split_ifs
      · exact (PartialDominance.loop_subset d useTree k children ds).2
      · exact le_refl _
    rw [ComputeSkyTree.loop] at hr
    simp only [] at hr
    generalize (if (!useDnC && decide (children.length > 0)) = true then
        PartialDominance d useTree k ds children else ds) = cur at hcurlen hr
    have hds := M4 (k, ds) (List.mem_cons_self _ _)
    by_cases hpos : cur.length > 0
    · rw [if_pos hpos] at hr
      cases hrc : recurse (childBox d k v ml Ml).1 (childBox d k v ml Ml).2 cur k st with
      | none => rw [hrc] at hr; simp at hr
      | some res =>
        obtain ⟨T, st2⟩ := res
        rw [hrc] at hr
        simp only [] at hr
        have hT : MaxDepth T ≤ bound := by
          have := hrec _ _ _ _ _ _ _ hrc
          simp only [] at hds
          omega
        have ext : ∀ (T1 : Node), MaxDepth T1 ≤ bound →
            ∀ c ∈ children ++ [T1], MaxDepth c ≤ bound := by
          intro T1 h1 c hcm
          rcases List.mem_append.mp hcm with h | h
          · exact hc c h
          · rw [List.mem_singleton] at h
            rw [h]; exact h1
        by_cases hdnc : (useDnC && decide (children.length > 0)) = true
        · rw [if_pos hdnc] at hr
          exact ih _ _ _ _ M4r (ext _ (le_trans
            (PartialDominance_with_trees_depth d useTree k children T st2.dominated_) hT)) hr
        · rw [if_neg hdnc] at hr
          exact ih _ _ _ _ M4r (ext T hT) hr
    · rw [if_neg hpos] at hr
      exact ih _ _ _ _ M4r hc hr

/-- The tree that `ComputeSkyTree` returns is no deeper than the dataset is long. -/
theorem ComputeSkyTree_depth {d : Nat} (hd : 0 < d) (useTree useDnC : Bool) :
    ∀ fuel, RecDepth (ComputeSkyTree d useTree useDnC fuel) := by
  intro fuel
  induction fuel with
  | zero =>
    intro ml Ml B lat st T st' h
    simp [ComputeSkyTree] at h
  | succ fuel ih =>
    intro ml Ml D lat st T st' h
    rw [ComputeSkyTree] at h
    have hne : D ≠ [] := by
      intro h0
      rw [h0] at h
      simp [PivotSelection.Execute] at h
    obtain ⟨D1, hex, hlen1, hle1, _, _, _, _⟩ := PivotSelection.Execute_spec hd ml Ml D hne
    rw [hex] at h
    simp only [] at h
    obtain ⟨_, m2, _, _, _, _⟩ :=
      MapPointToRegion.loop_regions d (D1.getD 0 default) D1.tail [] st.eqm_ 0 (by simp) (by simp)
    have hpm : MapPointToRegion d D1 st.eqm_ =
        MapPointToRegion.loop d (D1.getD 0 default) D1.tail [] st.eqm_ := rfl
    rw [hpm] at h
    have M4 : ∀ e ∈ (MapPointToRegion.loop d (D1.getD 0 default) D1.tail [] st.eqm_).1,
        e.2.length ≤ D1.length - 1 := by
      intro e he
      have := m2 e he
      simp only [List.length_tail] at this
      omega
    cases hl : ComputeSkyTree.loop d useTree useDnC (ComputeSkyTree d useTree useDnC fuel)
        (D1.getD 0 default) ml Ml
        (MapPointToRegion.loop d (D1.getD 0 default) D1.tail [] st.eqm_).1 []
        { st with eqm_ := (MapPointToRegion.loop d (D1.getD 0 default) D1.tail []
          st.eqm_).2 } with
    | none => rw [hl] at h; simp at h
    | some res =>
      obtain ⟨children, st1⟩ := res
      rw [hl] at h
      simp only [Option.some.injEq, Prod.mk.injEq] at h
      rw [← h.1]
      have hch := ComputeSkyTree.loop_depth d useTree useDnC _ ih (D1.length - 1)
        (D1.getD 0 default) ml Ml _ [] _ children st1 M4 (by simp) hl
      have := (MaxDepth_le_iff lat (D1.getD 0 default) children (D1.length - 1)).mpr hch
      omega

end SkyTree

theorem window_length (data : List TUPLE) (s m : Nat) : (window data s m).length = m := by
  simp [window]

theorem window_getD (data : List TUPLE) (s m k : Nat) (hk : k < m) :
    (window data s m).getD k default = data.getD (s + k) default := by
  rw [List.getD_eq_getElem _ _ (by rw [window_length]; exact hk)]
  simp [window]

theorem mem_window {data : List TUPLE} {s m : Nat} {p : TUPLE} :
    p ∈ window data s m ↔ Win data s m p := by
  simp only [window, List.mem_map, List.mem_range, Win]

theorem window_succ (data : List TUPLE) (s m : Nat) :
    window data s (m + 1) = window data s m ++ [data.getD (s + m) default] := by
  simp [window, List.range_succ]

theorem window_set (data : List TUPLE) (s m i : Nat) (x : TUPLE)
    (hb : s + m ≤ data.length) :
    window (data.set (s + i) x) s m = (window data s m).set i x := by
  apply List.ext_getElem
  · simp [window_length]
  · intro k h1 h2
    rw [window_length] at h1
    rw [← List.getD_eq_getElem _ default, ← List.getD_eq_getElem _ default,
      window_getD _ _ _ _ h1,
      getD_set' (window data s m) i k x default (by rw [window_length]; exact h1),
      getD_set' data (s + i) (s + k) x default (by omega), window_getD _ _ _ _ h1]
    by_cases e : i = k
    · rw [if_pos e, if_pos (by omega)]
    · rw [if_neg e, if_neg (by omega)]

/-- The step `D[i] = D[tail--]` removes the old `D[i]` from the window. -/
theorem window_pop (data : List TUPLE) (s T I : Nat) (hI : I ≤ T) (hb : s + T < data.length) :
    (window data s (T + 1)).Perm
      (data.getD (s + I) default ::
        window (data.set (s + I) (data.getD (s + T) default)) s T) := by
  have h := perm_set_dropLast (window data s (T + 1)) I (by rw [window_length]; omega)
  rw [window_length, Nat.add_sub_cancel, window_getD _ _ _ _ (by omega),
    window_getD _ _ _ _ (by omega), ← window_set _ _ _ _ _ (by omega),
    window_succ (data.set (s + I) (data.getD (s + T) default)) s T, List.dropLast_concat] at h
  exact h

/-- The step `D[head] = D[i]; D[i] = D[tail--]` removes the old `D[head]` from the
window. -/
theorem window_pop_set (data : List TUPLE) (s T H I : Nat) (hHI : H < I) (hI : I ≤ T)
    (hb : s + T < data.length) :
    (window data s (T + 1)).Perm
      (data.getD (s + H) default ::
        window ((data.set (s + H) (data.getD (s + I) default)).set (s + I)
          ((data.set (s + H) (data.getD (s + I) default)).getD (s + T) default)) s T) := by
  have a := perm_cons_set (window data s (T + 1)) H (data.getD (s + I) default)
    (by rw [window_length]; omega)
  rw [window_getD _ _ _ _ (by omega), ← window_set _ _ _ _ _ (by omega)] at a
  have b := window_pop (data.set (s + H) (data.getD (s + I) default)) s T I hI
    (by rw [List.length_set]; exact hb)
  rw [getD_set_of_ne _ _ _ _ _ (by omega)] at b
  exact ((a.trans (b.cons _)).trans (List.Perm.swap _ _ _)).cons_inv

/-- One removal followed by further removals. -/
theorem removed_step {d : Nat} {W W1 R : List TUPLE} {x : TUPLE} (hperm : W.Perm (x :: W1))
    (hx : ∃ p ∈ W, Dominates d p x)
    (h : ∃ removed, W1.Perm (R ++ removed) ∧ ∀ q ∈ removed, ∃ p ∈ W1, Dominates d p q) :
    ∃ removed, W.Perm (R ++ removed) ∧ ∀ q ∈ removed, ∃ p ∈ W, Dominates d p q := by
  obtain ⟨removed, h1, h2⟩ := h
  refine ⟨x :: removed, ?_, ?_⟩
  · exact (hperm.trans (h1.cons x)).trans List.perm_middle.symm
  · intro q hq
    rcases List.mem_cons.mp hq with h | h
    · rw [h]; exact hx
    · obtain ⟨p, hp, hdom⟩ := h2 q h
      exact ⟨p, hperm.mem_iff.mpr (List.mem_cons_of_mem _ hp), hdom⟩

namespace PSkyline

/-- The inner loop of `sskyline` only removes tuples that a tuple of the window
dominates. -/
theorem sskyline.inner_perm {d : Nat} (s H : Nat) :
    ∀ (fuel : Nat) (data : List TUPLE) (T I : Nat) (data' : List TUPLE) (tl : Int),
      H < I → I ≤ T + 1 → s + T < data.length →
      sskyline.inner d s (H : Int) fuel data (T : Int) (I : Int) = some (data', tl) →
      ∃ T' : Nat, tl = (T' : Int) ∧ T' ≤ T ∧ data'.length = data.length ∧
        ∃ removed, (window data s (T + 1)).Perm (window data' s (T' + 1) ++ removed) ∧
          ∀ r ∈ removed, ∃ a ∈ window data s (T + 1), Dominates d a r := by
  intro fuel
  induction fuel with
  | zero => intro data T I data' tl _ _ _ h; simp [sskyline.inner] at h
  | succ fuel ih =>
    intro data T I data' tl hHI hI2 hb hr
    rw [sskyline.inner] at hr
    by_cases hIT : (I : Int) ≤ (T : Int)
    · have hIT' : I ≤ T := by omega
      rw [if_pos hIT] at hr
      simp only [Int.toNat_ofNat] at hr
      have memH : data.getD (s + H) default ∈ window data s (T + 1) :=
        mem_window.mpr ⟨H, by omega, rfl⟩
      have memI : data.getD (s + I) default ∈ window data s (T + 1) :=
        mem_window.mpr ⟨I, by omega, rfl⟩
      have eT : T - 1 + 1 = T := by omega
      by_cases hl : DominanceTest d (data.getD (s + H) default) (data.getD (s + I) default)
          = DOM_LEFT
      · rw [if_pos hl] at hr
        have e : ((T : Int) - 1) = ((T - 1 : Nat) : Int) := by omega
        rw [e] at hr
        obtain ⟨T', h1, h2, h3, h4⟩ := ih _ (T - 1) I data' tl hHI (by omega)
          (by rw [List.length_set]; omega) hr
        rw [eT] at h4
        rw [List.length_set] at h3
        exact ⟨T', h1, by omega, h3, removed_step (window_pop data s T I hIT' hb)
          ⟨_, memH, (DominanceTest_left_iff _ _ _).mp hl⟩ h4⟩
      · rw [if_neg hl] at hr
        by_cases hrt : DominanceTest d (data.getD (s + H) default) (data.getD (s + I) default)
            = DOM_RIGHT
        · rw [if_pos hrt] at hr
          have e : ((T : Int) - 1) = ((T - 1 : Nat) : Int) := by omega
          have e2 : ((H : Int) + 1) = ((H + 1 : Nat) : Int) := by omega
          rw [e, e2] at hr
          obtain ⟨T', h1, h2, h3, h4⟩ := ih _ (T - 1) (H + 1) data' tl (by omega) (by omega)
            (by rw [List.length_set, List.length_set]; omega) hr
          rw [eT] at h4
          rw [List.length_set, List.length_set] at h3
          exact ⟨T', h1, by omega, h3, removed_step (window_pop_set data s T H I hHI hIT' hb)
            ⟨_, memI, (DominanceTest_right_iff _ _ _).mp hrt⟩ h4⟩
        · rw [if_neg hrt] at hr
          have e2 : ((I : Int) + 1) = ((I + 1 : Nat) : Int) := by omega
          rw [e2] at hr
          exact ih _ T (I + 1) data' tl (by omega) (by omega) hb hr
    · rw [if_neg hIT] at hr
      simp only [Option.some.injEq, Prod.mk.injEq] at hr
      refine ⟨T, hr.2.symm, le_refl _, by rw [hr.1], [], ?_, by simp⟩
      rw [hr.1, List.append_nil]

/-- The outer loop of `sskyline` only removes tuples that a tuple of the window
dominates. -/
theorem sskyline.outer_perm {d : Nat} (s w : Nat) :
    ∀ (fuel : Nat) (data : List TUPLE) (H Tp : Nat) (data' : List TUPLE) (Tp' : Nat),
      s + Tp ≤ data.length →
      sskyline.outer d s w fuel data (H : Int) ((Tp : Int) - 1) = some (data', (Tp' : Int) - 1) →
      ∃ removed, (window data s Tp).Perm (window data' s Tp' ++ removed) ∧
        ∀ r ∈ removed, ∃ a ∈ window data s Tp, Dominates d a r := by
  intro fuel
  induction fuel with
  | zero => intro data H Tp data' Tp' _ h; simp [sskyline.outer] at h
  | succ fuel ih =>
    intro data H Tp data' Tp' hb hr
    rw [sskyline.outer] at hr
    by_cases hlt : (H : Int) < (Tp : Int) - 1
    · rw [if_pos hlt] at hr
      have e1 : ((Tp : Int) - 1) = ((Tp - 1 : Nat) : Int) := by omega
      have e2 : ((H : Int) + 1) = ((H + 1 : Nat) : Int) := by omega
      rw [e1, e2] at hr
      cases hin : sskyline.inner d s (H : Int) ((w + 1) * (w + 1)) data ((Tp - 1 : Nat) : Int)
          ((H + 1 : Nat) : Int) with
      | none => rw [hin] at hr; simp at hr
      | some res =>
        obtain ⟨data1, tl⟩ := res
        rw [hin] at hr
        simp only [] at hr
        obtain ⟨T', h1, h2, h3, removed1, h4, h5⟩ := sskyline.inner_perm s H _ data (Tp - 1)
          (H + 1) data1 tl (by omega) (by omega) (by omega) hin
        have eT : Tp - 1 + 1 = Tp := by omega
        rw [eT] at h4 h5
        have e3 : tl = ((T' + 1 : Nat) : Int) - 1 := by omega
        rw [e3] at hr
        obtain ⟨removed2, h6, h7⟩ := ih data1 (H + 1) (T' + 1) data' Tp' (by omega) hr
        refine ⟨removed2 ++ removed1, ?_, ?_⟩
        · rw [← List.append_assoc]
          exact h4.trans (h6.append_right removed1)
        · intro r hrm
          rcases List.mem_append.mp hrm with h | h
          · obtain ⟨a, ha, hdom⟩ := h7 r h
            exact ⟨a, h4.mem_iff.mpr (List.mem_append_left _ ha), hdom⟩
          · exact h5 r h
    · rw [if_neg hlt] at hr
      simp only [Option.some.injEq, Prod.mk.injEq] at hr
      have : Tp = Tp' := by omega
      refine ⟨[], ?_, by simp⟩
      rw [hr.1, this, List.append_nil]

/-- A list that loses only dominated tuples and ends as a skyline is the list of the
undominated tuples. -/
theorem perm_undominated {d : Nat} {L L' removed : List TUPLE} (hp : L.Perm (L' ++ removed))
    (hrem : ∀ r ∈ removed, ∃ a ∈ L, Dominates d a r)
    (hsky : SkylineOfSet d (fun p => p ∈ L') (fun p => p ∈ L)) :
    L'.Perm (undominated d L) := by
  have h1 := hp.filter (fun p => decide (∀ q ∈ L, ¬ Dominates d q p))
  rw [List.filter_append] at h1
  have h2 : removed.filter (fun p => decide (∀ q ∈ L, ¬ Dominates d q p)) = [] := by
    rw [List.filter_eq_nil_iff]
    intro r hr
    obtain ⟨a, ha, hdom⟩ := hrem r hr
    simp only [decide_eq_true_eq, not_forall, not_not]
    exact ⟨a, ha, hdom⟩
  have h3 : L'.filter (fun p => decide (∀ q ∈ L, ¬ Dominates d q p)) = L' := by
    rw [List.filter_eq_self]
    intro x hx
    simp only [decide_eq_true_eq]
    intro q hq hdom
    rcases hsky.2.1 q hq with h | ⟨l, hl, hlq⟩
    · exact hsky.2.2 q x h hx hdom
    · exact hsky.2.2 l x hl hx (hlq.trans hdom)
  rw [h2, h3, List.append_nil] at h1
  exact h1.symm

/-- `sskyline` on a block inside the array returns, leaves the undominated tuples of the
block (each as often as it occurs) in the first `size` cells of the block, and changes
nothing outside the block. -/
theorem sskyline_perm {d : Nat} (data : List TUPLE) (b : Block) (h0 : 0 ≤ b.start)
    (h1 : b.start ≤ b.end_ + 1)
    (hb : b.start.toNat + (b.end_ - b.start + 1).toNat ≤ data.length) :
    ∃ data' z, sskyline d data b = some (data', { b with size := z }) ∧
      z ≤ (b.end_ - b.start + 1).toNat ∧ data'.length = data.length ∧
      (∀ k, (k < b.start.toNat ∨ b.start.toNat + (b.end_ - b.start + 1).toNat ≤ k) →
        data'.getD k default = data.getD k default) ∧
      (window data' b.start.toNat z).Perm
        (undominated d (window data b.start.toNat (b.end_ - b.start + 1).toNat)) := by
  obtain ⟨data', z, hs, hz, hlen, hframe, hsky⟩ := sskyline_spec (d := d) data b h0 h1 hb
  refine ⟨data', z, hs, hz, hlen, hframe, ?_⟩
  have hs' := hs
  unfold sskyline at hs'
  simp only [] at hs'
  cases ho : sskyline.outer d b.start.toNat (b.end_ - b.start + 1).toNat
      ((b.end_ - b.start + 1).toNat + 1) data 0 (b.end_ - b.start + 1 - 1) with
  | none => rw [ho] at hs'; simp at hs'
  | some res =>
    obtain ⟨data1, tl⟩ := res
    rw [ho] at hs'
    simp only [Option.some.injEq, Prod.mk.injEq, Block.mk.injEq] at hs'
    have e1 : (b.end_ - b.start + 1 - 1 : Int)
        = (((b.end_ - b.start + 1).toNat : Nat) : Int) - 1 := by omega
    have e0 : (0 : Int) = ((0 : Nat) : Int) := rfl
    rw [e1, e0] at ho
    -- the returned tail is that of the specification lemma
    obtain ⟨data2, Tp2, hr2, _⟩ := @sskyline.outer_spec d
      (Win data b.start.toNat (b.end_ - b.start + 1).toNat) data b.start.toNat
      (b.end_ - b.start + 1).toNat ((b.end_ - b.start + 1).toNat + 1) data 0 (b.end_ - b.start + 1).toNat
      (by
        refine ⟨by omega, by omega, by omega, rfl, hb, fun _ _ => rfl, ?_, ?_, ?_⟩
        · intro j hj; exact ⟨j, by omega, rfl⟩
        · rintro a ⟨k, hk, e⟩; exact ⟨k, by omega, Or.inl e⟩
        · intro j j' hj; omega) (by omega)
    rw [ho] at hr2
    simp only [Option.some.injEq, Prod.mk.injEq] at hr2
    have hz2 : z = Tp2 := by
      have := hs'.2.2.2
      omega
    rw [hr2.2] at ho
    obtain ⟨removed, hp, hrem⟩ := sskyline.outer_perm (d := d) b.start.toNat
      (b.end_ - b.start + 1).toNat _ data 0 _ data1 Tp2 hb ho
    rw [hs'.1, ← hz2] at hp
    refine perm_undominated hp hrem ?_
    exact SkylineOfSet.congr (fun p => mem_window.symm) (fun p => mem_window.symm) hsky

end PSkyline

theorem window_add (data : List TUPLE) (s a b : Nat) :
    window data s (a + b) = window data s a ++ window data (s + a) b := by
  induction b with
  | zero => simp [window]
  | succ b ih =>
    rw [← Nat.add_assoc, window_succ, ih, window_succ, List.append_assoc, Nat.add_assoc]

theorem window_congr {data data' : List TUPLE} {s s' m : Nat}
    (h : ∀ k, k < m → data.getD (s + k) default = data'.getD (s' + k) default) :
    window data s m = window data' s' m := by
  unfold window
  apply List.map_congr_left
  intro k hk
  exact h k (List.mem_range.mp hk)

namespace PSkyline

/-- One more left tuple checked, whichever it is. -/
theorem FlagInvOn.check_any {d : Nat} {data1 : List TUPLE} {ls a b len n : Nat} {done : List Nat}
    {f : List Nat}
    (hLp : ∀ i i', i < a → i' < a →
      ¬ Dominates d (data1.getD (ls + i) default) (data1.getD (ls + i') default))
    (hRp : ∀ j j', j < b → j' < b →
      ¬ Dominates d (data1.getD (ls + a + j) default) (data1.getD (ls + a + j') default))
    (hlen : ls + a + b ≤ len) (hn : n < a) (hdone : ∀ i ∈ done, i < a)
    (inv : FlagInvOn d (fun i => data1.getD (ls + i) default)
      (fun j => data1.getD (ls + a + j) default) ls a b len done f) :
    FlagInvOn d (fun i => data1.getD (ls + i) default)
      (fun j => data1.getD (ls + a + j) default) ls a b len (done ++ [n])
      ((CheckSurvival d (data1.getD (ls + n) default) data1 (ls + a) (ls + a)
          (List.range b) f).2.set (ls + n)
        (CheckSurvival d (data1.getD (ls + n) default) data1 (ls + a) (ls + a)
          (List.range b) f).1) := by
  have hfl := inv.hlen
  obtain ⟨c1, c2, c3, c4, c5⟩ := CheckSurvival_spec d (data1.getD (ls + n) default) data1
    (ls + a) (ls + a) (List.range b) f
    (by intro j hj; rw [List.mem_range] at hj; omega)
  generalize hr : CheckSurvival d (data1.getD (ls + n) default) data1 (ls + a) (ls + a)
    (List.range b) f = r at c1 c2 c3 c4 c5
  have hmem : ∀ i, i ∈ done ++ [n] ↔ i ∈ done ∨ i = n := by
    intro i
    rw [List.mem_append, List.mem_singleton]
  -- flags of the right tuples after the check
  have hright : ∀ j, j < b → (r.2.getD (ls + a + j) LIVE = DEAD ↔
      ∃ i ∈ done ++ [n], Dominates d (data1.getD (ls + i) default)
        (data1.getD (ls + a + j) default)) := by
    intro j hj
    constructor
    · intro hD
      rcases c2 (ls + a + j) with h | ⟨_, j', _, e, hd⟩
      · rw [h] at hD
        obtain ⟨i, hi, hd⟩ := (inv.right j hj).mp hD
        exact ⟨i, (hmem i).mpr (Or.inl hi), hd⟩
      · have : j' = j := by omega
        subst this
        exact ⟨n, (hmem n).mpr (Or.inr rfl), hd⟩
    · rintro ⟨i, hi, hd⟩
      by_cases hin : i = n
      · subst hin
        rcases c4 with hL | hD
        · rcases c5 hL j (List.mem_range.mpr hj) with h | h
          · exact h
          · exact absurd hd h.1
        · exfalso
          obtain ⟨j', hj', hd'⟩ := c3 hD
          exact hRp j' j (List.mem_range.mp hj') hj (hd'.trans hd)
      · have hid : i ∈ done := by
          rcases (hmem i).mp hi with h | h
          · exact h
          · exact absurd h hin
        have hD := (inv.right j hj).mpr ⟨i, hid, hd⟩
        rcases c2 (ls + a + j) with h | ⟨h, _⟩
        · rw [h]; exact hD
        · exact h
  refine ⟨by simp only [List.length_set]; rw [c1, hfl], ?_, ?_, ?_⟩
  · intro i hi
    by_cases hin : i = n
    · subst hin
      rw [getD_set' _ _ _ _ _ (by rw [c1]; omega), if_pos rfl]
      constructor
      · intro hL j hj hdom
        rcases c5 hL j (List.mem_range.mpr hj) with h | h
        · obtain ⟨i', hi', hd'⟩ := (hright j hj).mp h
          have hi'a : i' < a := by
            rcases (hmem i').mp hi' with h | h
            · exact hdone i' h
            · omega
          exact hLp i' i hi'a hn (hd'.trans hdom)
        · exact h.2 hdom
      · intro hno
        rcases c4 with hL | hD
        · exact hL
        · obtain ⟨j', hj', hd'⟩ := c3 hD
          exact absurd hd' (hno j' (List.mem_range.mp hj'))
    · have hid : i ∈ done := by
        rcases (hmem i).mp hi with h | h
        · exact h
        · exact absurd h hin
      rw [getD_set_of_ne _ _ _ _ _ (by omega)]
      rcases c2 (ls + i) with h | ⟨_, j', _, e, _⟩
      · rw [h]; exact inv.left i hid
      · have := hdone i hid
        omega
  · intro j hj
    rw [getD_set_of_ne _ _ _ _ _ (by omega)]
    exact hright j hj
  · intro j hj
    rw [getD_set_of_ne _ _ _ _ _ (by omega)]
    rcases c2 (ls + a + j) with h | ⟨h, _⟩
    · rw [h]; exact inv.bool j hj
    · exact Or.inl h

/-- The flag loop of `PMerge` over the left tuples, taken in any order. -/
theorem FlagInvOn.loop_any {d : Nat} {data1 : List TUPLE} {ls a b len : Nat}
    (hLp : ∀ i i', i < a → i' < a →
      ¬ Dominates d (data1.getD (ls + i) default) (data1.getD (ls + i') default))
    (hRp : ∀ j j', j < b → j' < b →
      ¬ Dominates d (data1.getD (ls + a + j) default) (data1.getD (ls + a + j') default))
    (hlen : ls + a + b ≤ len) :
    ∀ (rest done : List Nat) (f : List Nat), (∀ i ∈ done, i < a) → (∀ i ∈ rest, i < a) →
      FlagInvOn d (fun i => data1.getD (ls + i) default)
        (fun j => data1.getD (ls + a + j) default) ls a b len done f →
      FlagInvOn d (fun i => data1.getD (ls + i) default)
        (fun j => data1.getD (ls + a + j) default) ls a b len (done ++ rest)
        (rest.foldl
          (fun f i =>
            let r := CheckSurvival d (data1.getD (ls + i) default) data1 (ls + a)
              (ls + a) (List.range b) f
            r.2.set (ls + i) r.1) f) := by
  intro rest
  induction rest with
  | nil =>
    intro done f _ _ inv
    rw [List.append_nil]
    exact inv
  | cons n rest ih =>
    intro done f hdone hrest inv
    rw [List.foldl_cons]
    have hn : n < a := hrest n (List.mem_cons_self _ _)
    have inv1 := FlagInvOn.check_any hLp hRp hlen hn hdone inv
    have hdone1 : ∀ i ∈ done ++ [n], i < a := by
      intro i hi
      rcases List.mem_append.mp hi with h | h
      · exact hdone i h
      · rw [List.mem_singleton] at h
        omega
    have := ih (done ++ [n]) _ hdone1 (fun i hi => hrest i (List.mem_cons_of_mem _ hi)) inv1
    rw [List.append_assoc, List.singleton_append] at this
    exact this

/-- `PMergeIn` on two dominance-free prefixes, the left one before the right one: the
merged prefix lists the undominated tuples of the two, whatever the order of the checks. -/
theorem PMergeIn_undominated {d : Nat} (order : List Nat) (data : List TUPLE)
    (flags : List Nat) (left right : Block)
    (horder : order.Perm (List.range left.size))
    (hL : ∀ x ∈ window data left.start.toNat left.size,
      ∀ y ∈ window data left.start.toNat left.size, ¬ Dominates d x y)
    (hR : ∀ x ∈ window data right.start.toNat right.size,
      ∀ y ∈ window data right.start.toNat right.size, ¬ Dominates d x y)
    (hord : left.start.toNat + left.size ≤ right.start.toNat)
    (hbound : right.start.toNat + right.size ≤ data.length)
    (hfl : flags.length = data.length) :
    (PMergeIn d order data flags left right).1.length = data.length ∧
    (PMergeIn d order data flags left right).2.2.start = left.start ∧
    (∀ k, (k < left.start.toNat ∨ left.start.toNat + left.size + right.size ≤ k) →
      (PMergeIn d order data flags left right).1.getD k default = data.getD k default) ∧
    window (PMergeIn d order data flags left right).1 left.start.toNat
        (PMergeIn d order data flags left right).2.2.size =
      undominated d (window data left.start.toNat left.size ++
        window data right.start.toNat right.size) := by
  generalize hls : left.start.toNat = ls at *
  generalize hrs : right.start.toNat = rs at *
  generalize ha : left.size = a at *
  generalize hb : right.size = b at *
  -- the data after the memmove
  obtain ⟨m1, m2⟩ := foldl_set_range (ls + a) (fun k => data.getD (rs + k) default) data b
    (by omega)
  have hd1 : memmove data (ls + a) rs b =
      (List.range b).foldl (fun acc k => acc.set (ls + a + k) (data.getD (rs + k) default))
        data := rfl
  rw [← hd1] at m1 m2
  generalize hdata1 : memmove data (ls + a) rs b = data1 at m1 m2
  have hLd : ∀ i, i < a → data1.getD (ls + i) default = data.getD (ls + i) default := by
    intro i hi
    rw [m2, if_neg (by omega)]
  have hRd : ∀ j, j < b → data1.getD (ls + a + j) default = data.getD (rs + j) default := by
    intro j hj
    rw [m2, if_pos (by omega)]
    congr 2
    omega
  -- the flags after the reset
  obtain ⟨z1, z2⟩ := foldl_set_range ls (fun _ => LIVE) flags (a + b) (by omega)
  generalize hflags1 : (List.range (a + b)).foldl (fun f k => f.set (ls + k) LIVE) flags
    = flags1 at z1 z2
  have hzero : ∀ k, k < a + b → flags1.getD (ls + k) LIVE = LIVE := by
    intro k hk
    rw [z2, if_pos (by omega)]
  -- the flags after the checks
  have hLp : ∀ i i', i < a → i' < a →
      ¬ Dominates d (data1.getD (ls + i) default) (data1.getD (ls + i') default) := by
    intro i i' hi hi'
    rw [hLd i hi, hLd i' hi']
    exact hL _ (mem_window.mpr ⟨i, hi, rfl⟩) _ (mem_window.mpr ⟨i', hi', rfl⟩)
  have hRp : ∀ j j', j < b → j' < b →
      ¬ Dominates d (data1.getD (ls + a + j) default) (data1.getD (ls + a + j') default) := by
    intro j j' hj hj'
    rw [hRd j hj, hRd j' hj']
    exact hR _ (mem_window.mpr ⟨j, hj, rfl⟩) _ (mem_window.mpr ⟨j', hj', rfl⟩)
  have hmem : ∀ i, i ∈ order ↔ i < a := fun i => by
    rw [horder.mem_iff, List.mem_range]
  have inv0 : FlagInvOn d (fun i => data1.getD (ls + i) default)
      (fun j => data1.getD (ls + a + j) default) ls a b data.length [] flags1 := by
    refine ⟨by rw [z1, hfl], fun i hi => by simp at hi, ?_, ?_⟩
    · intro j hj
      rw [show ls + a + j = ls + (a + j) by omega, hzero (a + j) (by omega)]
      constructor
      · intro h; exact absurd h LIVE_ne_DEAD
      · rintro ⟨i, hi, _⟩; simp at hi
    · intro j hj
      rw [show ls + a + j = ls + (a + j) by omega, hzero (a + j) (by omega)]
      exact Or.inr rfl
  have inv := FlagInvOn.loop_any hLp hRp (show ls + a + b ≤ data.length by omega) order [] flags1
    (by simp) (fun i hi => (hmem i).mp hi) inv0
  rw [List.nil_append] at inv
  generalize hflags2 : order.foldl
      (fun f i =>
        let r := CheckSurvival d (data1.getD (ls + i) default) data1 (ls + a)
          (ls + a) (List.range b) f
        r.2.set (ls + i) r.1) flags1 = flags2 at inv
  -- the compaction
  have hpw : (List.range (a + b)).Pairwise (fun x y => ls + x < ls + y) :=
    (List.pairwise_lt_range (a + b)).imp (fun h => by omega)
  have hlo : ∀ i ∈ List.range (a + b), ls + 0 ≤ ls + i := fun i _ => by omega
  have hhi : ∀ i ∈ List.range (a + b), ls + i < data1.length := by
    intro i hi
    rw [List.mem_range] at hi
    omega
  obtain ⟨c1, c2, c3, c4⟩ := compact_foldl (fun i => flags2.getD (ls + i) LIVE = LIVE) ls
    (fun i => ls + i) (List.range (a + b)) data1 0 hpw hlo hhi
  have hPM : PMergeIn d order data flags left right =
      (((List.range (a + b)).foldl (fun (acc : List TUPLE × Nat) i =>
          if flags2.getD (ls + i) LIVE = LIVE then
            (acc.1.set (ls + acc.2) (acc.1.getD (ls + i) default), acc.2 + 1)
          else acc) (data1, 0)).1, flags2,
        { left with size := ((List.range (a + b)).foldl (fun (acc : List TUPLE × Nat) i =>
          if flags2.getD (ls + i) LIVE = LIVE then
            (acc.1.set (ls + acc.2) (acc.1.getD (ls + i) default), acc.2 + 1)
          else acc) (data1, 0)).2 }) := by
    rw [← hflags2, ← hflags1, ← hdata1, ← hls, ← hrs, ← ha, ← hb]
    rfl
  rw [hPM]
  generalize hres : (List.range (a + b)).foldl (fun (acc : List TUPLE × Nat) i =>
          if flags2.getD (ls + i) LIVE = LIVE then
            (acc.1.set (ls + acc.2) (acc.1.getD (ls + i) default), acc.2 + 1)
          else acc) (data1, 0) = res at c1 c2 c3 c4
  simp only [Nat.add_zero, Nat.zero_add, Nat.sub_zero] at c2 c3 c4
  have hcount : res.2 ≤ a + b := by
    rw [c2]
    calc (List.filter (fun i => decide (flags2.getD (ls + i) LIVE = LIVE))
            (List.range (a + b))).length
        ≤ (List.range (a + b)).length := List.length_filter_le _ _
      _ = a + b := List.length_range _
  refine ⟨by rw [c1, m1], rfl, ?_, ?_⟩
  · intro k hk
    show res.1.getD k default = data.getD k default
    by_cases hk1 : k < ls
    · rw [c3 k (Or.inl hk1), m2, if_neg (by omega)]
    · have hk2 : ls + a + b ≤ k := by omega
      rw [c3 k (Or.inr (by rw [← c2]; omega)), m2, if_neg (by omega)]
  · show window res.1 ls res.2 = undominated d (window data ls a ++ window data rs b)
    have hU : window data ls a ++ window data rs b = window data1 ls (a + b) := by
      rw [window_add, window_congr hLd, window_congr hRd]
    rw [hU]
    -- a cell is kept iff no tuple of the union dominates its tuple
    have hkeep : ∀ i, i < a + b → (flags2.getD (ls + i) LIVE = LIVE ↔
        ∀ q ∈ window data1 ls (a + b), ¬ Dominates d q (data1.getD (ls + i) default)) := by
      intro i hi
      have split : ∀ q, q ∈ window data1 ls (a + b) ↔
          (∃ i', i' < a ∧ data1.getD (ls + i') default = q) ∨
          (∃ j, j < b ∧ data1.getD (ls + a + j) default = q) := by
        intro q
        rw [window_add, List.mem_append, mem_window, mem_window]
        rfl
      by_cases hia : i < a
      · rw [inv.left i ((hmem i).mpr hia)]
        constructor
        · intro h q hq
          rcases (split q).mp hq with ⟨i', hi', rfl⟩ | ⟨j, hj, rfl⟩
          · exact hLp i' i hi' hia
          · exact h j hj
        · intro h j hj
          exact h _ ((split _).mpr (Or.inr ⟨j, hj, rfl⟩))
      · obtain ⟨j, rfl⟩ : ∃ j, i = a + j := ⟨i - a, by omega⟩
        have hj : j < b := by omega
        rw [← Nat.add_assoc]
        constructor
        · intro hk q hq
          rcases (split q).mp hq with ⟨i', hi', rfl⟩ | ⟨j', hj', rfl⟩
          · intro hdom
            have hD := (inv.right j hj).mpr ⟨i', (hmem i').mpr hi', hdom⟩
            rw [hk] at hD
            exact LIVE_ne_DEAD hD
          · exact hRp j' j hj' hj
        · intro h
          rcases inv.bool j hj with hD | hLv
          · exfalso
            obtain ⟨i', hi', hdom⟩ := (inv.right j hj).mp hD
            exact h _ ((split _).mpr (Or.inl ⟨i', (hmem i').mp hi', rfl⟩)) hdom
          · exact hLv
    have hfilter : List.filter (fun i => decide (flags2.getD (ls + i) LIVE = LIVE))
        (List.range (a + b)) =
        List.filter ((fun p => decide (∀ q ∈ window data1 ls (a + b), ¬ Dominates d q p)) ∘
          (fun k => data1.getD (ls + k) default)) (List.range (a + b)) := by
      apply List.filter_congr
      intro i hi
      rw [List.mem_range] at hi
      simp only [Function.comp]
      exact decide_eq_decide.mpr (hkeep i hi)
    have hund : undominated d (window data1 ls (a + b)) =
        (List.filter (fun i => decide (flags2.getD (ls + i) LIVE = LIVE))
          (List.range (a + b))).map (fun k => data1.getD (ls + k) default) := by
      rw [hfilter, ← List.filter_map]
      rfl
    rw [hund]
    apply List.ext_getElem
    · rw [window_length, List.length_map, c2]
    · intro k h1 h2
      rw [window_length] at h1
      rw [← List.getD_eq_getElem _ default, window_getD _ _ _ _ h1, c4 k (by rw [← c2]; exact h1),
        List.getElem_map, ← List.getD_eq_getElem _ 0]

end PSkyline

namespace Hybrid

theorem scanLive_bounds (d : Nat) (data : List EPTUPLE) (stop : Nat) :
    ∀ (fuel i : Nat), i ≤ stop →
      i ≤ scanLive d data stop fuel i ∧ scanLive d data stop fuel i ≤ stop := by
  intro fuel
  induction fuel with
  | zero => intro i h; exact ⟨le_refl _, h⟩
  | succ fuel ih =>
    intro i h
    rw [scanLive]
    split_ifs with hc
    · have := ih (i + 1) (by omega)
      exact ⟨by omega, this.2⟩
    · exact ⟨le_refl _, h⟩

theorem copyLive_bounds (d : Nat) (stop : Nat) :
    ∀ (fuel : Nat) (data : List EPTUPLE) (i head : Nat),
      head ≤ (copyLive d stop fuel data i head).2 ∧
      (copyLive d stop fuel data i head).2 ≤ head + fuel ∧
      (copyLive d stop fuel data i head).1.length = data.length := by
  intro fuel
  induction fuel with
  | zero => intro data i head; exact ⟨le_refl _, le_refl _, rfl⟩
  | succ fuel ih =>
    intro data i head
    rw [copyLive]
    split_ifs with hc
    · obtain ⟨h1, h2, h3⟩ := ih (data.set head (data.getD i default)) (i + 1) (head + 1)
      exact ⟨by omega, by omega, by rw [h3, List.length_set]⟩
    · exact ⟨le_refl _, by omega, rfl⟩

theorem compare_to_skyline_points_length (d : Nat) (part_map : List (Nat × Nat))
    (data : List EPTUPLE) (i : Nat) :
    (compare_to_skyline_points d part_map data i).length = data.length := by
  unfold compare_to_skyline_points
  simp only []
  split_ifs
  · rw [List.length_set]
  · rfl

theorem phaseI_length (d : Nat) (part_map : List (Nat × Nat)) :
    ∀ (l : List Nat) (data : List EPTUPLE),
      (l.foldl (fun acc i => compare_to_skyline_points d part_map acc i) data).length
        = data.length := by
  intro l
  induction l with
  | nil => intro data; rfl
  | cons i rest ih =>
    intro data
    rw [List.foldl_cons, ih, compare_to_skyline_points_length]

theorem sortRange_length (sort : List EPTUPLE → List EPTUPLE) (hsort : ∀ l, (sort l).Perm l)
    (data : List EPTUPLE) (start stop : Nat) (h1 : start ≤ stop) (h2 : stop ≤ data.length) :
    (sortRange sort data start stop).length = data.length := by
  unfold sortRange
  rw [List.length_append, List.length_append, (hsort _).length_eq, List.length_take,
    List.length_drop, List.length_take, List.length_drop]
  omega

theorem compare_to_peers.below_le (d : Nat) (data : List EPTUPLE) (me : Nat) :
    ∀ (l : List Nat) (i : Nat), (∀ x ∈ l, x ≤ me) →
      compare_to_peers.below d data me l = some i → i ≤ me := by
  intro l
  induction l with
  | nil =>
    intro i _ h
    simp only [compare_to_peers.below, Option.some.injEq] at h
    omega
  | cons x rest ih =>
    intro i hl h
    have hrest : ∀ y ∈ rest, y ≤ me := fun y hy => hl y (List.mem_cons_of_mem _ hy)
    rw [compare_to_peers.below] at h
    split_ifs at h
    · exact ih i hrest h
    · simp only [Option.some.injEq] at h
      rw [← h]
      exact hl x (List.mem_cons_self _ _)
    · exact ih i hrest h
    · exact ih i hrest h

theorem compare_to_peers.skip_some (d : Nat) (data : List EPTUPLE) (me : Nat) :
    ∀ (fuel i : Nat), i ≤ me → me - i < fuel →
      ∃ i1, compare_to_peers.skip d data me fuel i = some i1 ∧ i1 ≤ me := by
  intro fuel
  induction fuel with
  | zero => intro i _ h; omega
  | succ fuel ih =>
    intro i hi hf
    rw [compare_to_peers.skip]
    by_cases hc : (data.getD i default).getPartition d < (data.getD me default).getPartition d
    · rw [if_pos hc]
      have hne : i ≠ me := by
        intro e
        rw [e] at hc
        exact lt_irrefl _ hc
      exact ih (i + 1) (by omega) (by omega)
    · rw [if_neg hc]
      exact ⟨i, rfl, hi⟩

theorem compare_to_peers.same_some (d : Nat) (data : List EPTUPLE) (me : Nat) :
    ∀ (fuel i : Nat), i ≤ me → me - i < fuel →
      ∃ b, compare_to_peers.same d data me fuel i = some b := by
  intro fuel
  induction fuel with
  | zero => intro i _ h; omega
  | succ fuel ih =>
    intro i hi hf
    rw [compare_to_peers.same]
    by_cases hc : (data.getD i default).score < (data.getD me default).score
    · rw [if_pos hc]
      have hne : i ≠ me := by
        intro e
        rw [e] at hc
        exact lt_irrefl _ hc
      split_ifs
      · exact ⟨true, rfl⟩
      · exact ih (i + 1) (by omega) (by omega)
    · rw [if_neg hc]
      exact ⟨false, rfl⟩

/-- `compare_to_peers` returns: its loops stop at `me` at the latest. -/
theorem compare_to_peers_some (d : Nat) (data : List EPTUPLE) (me start : Nat)
    (hme : me ≤ data.length) :
    ∃ data', compare_to_peers d data me start = some data' ∧ data'.length = data.length := by
  unfold compare_to_peers
  cases hb : compare_to_peers.below d data me (List.range' start (me - start)) with
  | none => exact ⟨_, rfl, by rw [List.length_set]⟩
  | some i =>
    have hi : i ≤ me := compare_to_peers.below_le d data me _ i
      (by intro x hx; rw [List.mem_range'_1] at hx; omega) hb
    obtain ⟨i1, hs, hi1⟩ := compare_to_peers.skip_some d data me (data.length + 1 - i) i hi
      (by omega)
    obtain ⟨b, hsame⟩ := compare_to_peers.same_some d data me (data.length + 1 - i1) i1 hi1
      (by omega)
    simp only [hs, hsame]
    cases b
    · exact ⟨data, rfl, rfl⟩
    · exact ⟨_, rfl, by rw [List.length_set]⟩

theorem phaseII_some (d : Nat) (start : Nat) :
    ∀ (l : List Nat) (data : List EPTUPLE), (∀ i ∈ l, i ≤ data.length) →
      ∃ data', phaseII d start l data = some data' ∧ data'.length = data.length := by
  intro l
  induction l with
  | nil => intro data _; exact ⟨data, rfl, rfl⟩
  | cons i rest ih =>
    intro data hl
    obtain ⟨data1, h1, h2⟩ := compare_to_peers_some d data i start (hl i (List.mem_cons_self _ _))
    obtain ⟨data2, h3, h4⟩ := ih data1
      (by intro j hj; rw [h2]; exact hl j (List.mem_cons_of_mem _ hj))
    rw [phaseII, h1]
    exact ⟨data2, h3, by rw [h4, h2]⟩

theorem update_partition_map.loop_length (d : Nat) :
    ∀ (l : List Nat) (data : List EPTUPLE) (part_map : List (Nat × Nat)) (lv ps : Nat),
      (update_partition_map.loop d l data part_map lv ps).1.length = data.length := by
  intro l
  induction l with
  | nil => intro data part_map lv ps; rfl
  | cons i rest ih =>
    intro data part_map lv ps
    rw [update_partition_map.loop]
    simp only []
    split_ifs
    · rw [ih]
    · rw [ih, List.length_set]

theorem update_partition_map_length (d : Nat) (data : List EPTUPLE)
    (part_map : List (Nat × Nat)) (start end_ : Nat) :
    (update_partition_map d data part_map start end_).1.length = data.length := by
  unfold update_partition_map
  exact update_partition_map.loop_length d _ _ _ _ _

/-- The loop of `Hybrid::skyline` returns when `accum ≥ 1`, with `head ≤ n`. -/
theorem skyline.loop_terminates (d : Nat) (sort : List EPTUPLE → List EPTUPLE)
    (hsort : ∀ l, (sort l).Perm l) (n accum : Nat) (hacc : 1 ≤ accum) :
    ∀ (fuel : Nat) (data : List EPTUPLE) (part_map : List (Nat × Nat)) (head start : Nat),
      n - start < fuel → head ≤ start → head ≤ n → n ≤ data.length →
      ∃ data' head', skyline.loop d sort n accum fuel data part_map head start
          = some (data', head') ∧ head' ≤ n ∧ data'.length = data.length := by
  intro fuel
  induction fuel with
  | zero => intro data part_map head start h; omega
  | succ fuel ih =>
    intro data part_map head start hf hhs hhn hn
    rw [skyline.loop]
    by_cases hlt : start < n
    · rw [if_pos hlt]
      simp only []
      generalize hstop : (if start + accum > n then n else start + accum) = stop
      have hstop1 : start ≤ stop ∧ stop ≤ n ∧ stop ≤ start + accum := by
        rw [← hstop]
        split_ifs <;> omega
      generalize hdata1 : (List.range' start (stop - start)).foldl
        (fun acc i => compare_to_skyline_points d part_map acc i) data = data1
      have hl1 : data1.length = data.length := by rw [← hdata1, phaseI_length]
      have hl2 : (sortRange sort data1 start stop).length = data.length := by
        rw [sortRange_length sort hsort _ _ _ hstop1.1 (by omega), hl1]
      generalize hdata2 : sortRange sort data1 start stop = data2 at hl2
      have hsc := scanLive_bounds d data2 stop (stop - start) start hstop1.1
      generalize hs1 : scanLive d data2 stop (stop - start) start = stop1 at hsc
      obtain ⟨data3, h3, hl3⟩ := phaseII_some d start (List.range' start (stop1 - start)) data2
        (by intro i hi; rw [List.mem_range'_1] at hi; omega)
      rw [h3]
      simp only []
      have hl4 : (sortRange sort data3 start stop1).length = data.length := by
        rw [sortRange_length sort hsort _ _ _ hsc.1 (by omega), hl3, hl2]
      generalize hdata4 : sortRange sort data3 start stop1 = data4 at hl4
      obtain ⟨c1, c2, c3⟩ := copyLive_bounds d stop1 (stop1 - start) data4 start head
      generalize hr : copyLive d stop1 (stop1 - start) data4 start head = r at c1 c2 c3
      have hlu := update_partition_map_length d r.1 part_map head r.2
      obtain ⟨data', head', e1, e2, e3⟩ := ih (update_partition_map d r.1 part_map head r.2).1
        (update_partition_map d r.1 part_map head r.2).2 r.2 (start + accum)
        (by omega) (by omega) (by omega) (by rw [hlu, c3, hl4]; exact hn)
      exact ⟨data', head', e1, e2, by rw [e3, hlu, c3, hl4]⟩
    · rw [if_neg hlt]
      exact ⟨data, head, rfl, hhn, rfl⟩

/-- At the top of every iteration of the loop of `Hybrid::skyline`, `head ≤ start` and
`head ≤ n`. -/
theorem skyline.cursors_le (d : Nat) (sort : List EPTUPLE → List EPTUPLE) (n accum : Nat) :
    ∀ (fuel : Nat) (data : List EPTUPLE) (part_map : List (Nat × Nat)) (head start : Nat),
      head ≤ start → head ≤ n →
      ∀ c ∈ skyline.cursors d sort n accum fuel data part_map head start,
        c.1 ≤ c.2 ∧ c.1 ≤ n := by
  intro fuel
  induction fuel with
  | zero => intro data part_map head start _ _ c hc; simp [skyline.cursors] at hc
  | succ fuel ih =>
    intro data part_map head start hhs hhn c hc
    rw [skyline.cursors] at hc
    rcases List.mem_cons.mp hc with e | hc
    · rw [e]; exact ⟨hhs, hhn⟩
    · by_cases hlt : start < n
      · rw [if_pos hlt] at hc
        simp only [] at hc
        generalize hstop : (if start + accum > n then n else start + accum) = stop at hc
        have hstop1 : start ≤ stop ∧ stop ≤ n ∧ stop ≤ start + accum := by
          rw [← hstop]
          split_ifs <;> omega
        generalize hdata2 : sortRange sort ((List.range' start (stop - start)).foldl
          (fun acc i => compare_to_skyline_points d part_map acc i) data) start stop = data2
          at hc
        have hsc := scanLive_bounds d data2 stop (stop - start) start hstop1.1
        generalize hs1 : scanLive d data2 stop (stop - start) start = stop1 at hsc hc
        cases h3 : phaseII d start (List.range' start (stop1 - start)) data2 with
        | none => rw [h3] at hc; simp at hc
        | some data3 =>
          rw [h3] at hc
          simp only [] at hc
          obtain ⟨c1, c2, _⟩ := copyLive_bounds d stop1 (stop1 - start)
            (sortRange sort data3 start stop1) start head
          exact ih _ _ _ _ (by omega) (by omega) c hc
      · rw [if_neg hlt] at hc
        simp at hc

/-- With `accum = 0` the loop of `Hybrid::skyline` never leaves `start`: no amount of fuel
gives a result. -/
theorem skyline.loop_stuck (d : Nat) (sort : List EPTUPLE → List EPTUPLE) (n : Nat) :
    ∀ (fuel : Nat) (data : List EPTUPLE) (part_map : List (Nat × Nat)) (head start : Nat),
      start < n → skyline.loop d sort n 0 fuel data part_map head start = none := by
  intro fuel
  induction fuel with
  | zero => intro data part_map head start _; rfl
  | succ fuel ih =>
    intro data part_map head start hlt
    rw [skyline.loop, if_pos hlt]
    simp only []
    generalize (if start + 0 > n then n else start + 0) = stop
    generalize sortRange sort ((List.range' start (stop - start)).foldl
      (fun acc i => compare_to_skyline_points d part_map acc i) data) start stop = data2
    generalize scanLive d data2 stop (stop - start) start = stop1
    cases phaseII d start (List.range' start (stop1 - start)) data2 with
    | none => rfl
    | some data3 =>
      simp only []
      exact ih _ _ _ _ hlt

end Hybrid

/-- `PMerge` is `PMergeIn` with the left points taken in index order. -/
theorem PSkyline.PMergeIn_range (d : Nat) (data : List TUPLE) (flags : List Nat)
    (left right : Block) :
    PSkyline.PMergeIn d (List.range left.size) data flags left right
      = PSkyline.PMerge d data flags left right := rfl

/-- On an input of one row the clamp of `doVerboseTest` sets alpha to zero. -/
theorem doVerboseTest_one (cfg : Config) (h : 1 < cfg.alpha_size) :
    (doVerboseTest 1 cfg).1 = 0 := by
  unfold doVerboseTest doVerboseTest.clamp
  simp only [if_pos h]
  split_ifs <;> rfl

/-- Pivot selection returns, keeps a sub-multiset of the dataset, removes only dominated
points and keeps every copy of an undominated point. -/
theorem PivotSelection.Execute_conservative {d : Nat} (hd : 0 < d) (min_list max_list : List ℚ)
    (ds : List TUPLE) (hne : ds ≠ []) :
    ∃ r removed, PivotSelection.Execute d min_list max_list ds = some r ∧
      ds.Perm (r ++ removed) ∧ (∀ q ∈ removed, ∃ p ∈ ds, Dominates d p q) ∧
      ∀ q, (∀ p ∈ ds, ¬ Dominates d p q) → r.count q = ds.count q := by
  obtain ⟨r, removed, h1, h2, h3⟩ := PivotSelection.Execute_removed hd min_list max_list ds hne
  refine ⟨r, removed, h1, h2, h3, fun q hq => ?_⟩
  have hc := h2.count_eq q
  rw [List.count_append] at hc
  have hz : removed.count q = 0 := by
    rw [List.count_eq_zero]
    intro hm
    obtain ⟨p, hp, hdom⟩ := h3 q hm
    exact hq p hp hdom
  omega

/-- With at least one dimension `ComputeSkyTree` returns on every non-empty dataset a tree
whose depth is at most the number of tuples. -/
theorem SkyTree.ComputeSkyTree_height {d : Nat} (hd : 0 < d) (useTree useDnC : Bool)
    (fuel : Nat) (ml Ml : List ℚ) (D : List TUPLE) (lat : Nat) (st : SkyTree.State)
    (hne : D ≠ []) (hfuel : D.length ≤ fuel) :
    ∃ T st', SkyTree.ComputeSkyTree d useTree useDnC fuel ml Ml D lat st = some (T, st') ∧
      SkyTree.MaxDepth T ≤ D.length := by
  obtain ⟨T, st', h1, _⟩ :=
    SkyTree.ComputeSkyTree_struct hd useTree useDnC fuel ml Ml D lat st hne hfuel
  exact ⟨T, st', h1, SkyTree.ComputeSkyTree_depth hd useTree useDnC fuel _ _ _ _ _ _ _ h1⟩

/-! # The claims -/

/-- C1: for every non-empty input (and at least one dimension) SkyTree with
`useTree = true`, `useDnC = false` returns, and the pids it returns are, as a set, exactly
the pids of the input points that no input point dominates. -/
theorem C1_SkyTree_exact_skyline {d : Nat} (hd : 0 < d) (rows : List (List ℚ))
    (hne : rows ≠ []) :
    ∃ out, SkyTree.Execute d true false rows = some out ∧
      ∀ pid, pid ∈ out ↔ ∃ p ∈ SkyTree.Init rows, p.pid = pid ∧
        ∀ q ∈ SkyTree.Init rows, ¬ Dominates d q p :=
  SkyTree.Execute_skyline hd rows hne

theorem C1_SkyTree_exact_skyline_witness :
    (0 < 2 ∧ E1 ≠ []) ∧
    ∃ out, SkyTree.Execute 2 true false E1 = some out ∧
      ∀ pid, pid ∈ out ↔ ∃ p ∈ SkyTree.Init E1, p.pid = pid ∧
        ∀ q ∈ SkyTree.Init E1, ¬ Dominates 2 q p :=
  ⟨⟨by decide, by decide⟩, C1_SkyTree_exact_skyline (by decide) E1 (by decide)⟩

set_option maxRecDepth 100000 in
unseal Rat.add Rat.mul Rat.inv Rat.sub in
/-- C2: a failing input of Hybrid. With four dimensions, one thread, queue capacity 1 and
block size 7, the seven rows of `hybridRows` give the pids `[1, 2, 0, 3]`: pid 4 is
missing although no row dominates row 4. -/
theorem C2_Hybrid_drops_skyline_point :
    Hybrid.Execute 4 (stdSort EPTUPLE.lt) (fun _ => 0) 1 7 1 hybridRows = some [1, 2, 0, 3] ∧
    hybridRows.getD 4 [] = [5, 5, 5, 5] ∧
    ∀ q ∈ hybridRows, ¬ Dominates 4 { elems := q, pid := 0 } { elems := [5, 5, 5, 5], pid := 4 } := by
  refine ⟨by decide, by decide, by decide⟩

set_option maxRecDepth 100000 in
unseal Rat.add Rat.mul Rat.inv Rat.sub in
/-- C3, counterexample: with the block size `4294967295` the sum `start + accum_` wraps to
`0` in the first iteration; on the three rows of `wrapRows` QFlow returns the pids
`[0, 0, 0]`, without pid 1, although no row dominates row 1. -/
theorem C3_counterexample :
    QFlow.Execute 2 (stdSort (QFlow.STupleComp 2)) 4294967295 wrapRows = some [0, 0, 0] ∧
    ∃ p ∈ QFlow.Init wrapRows, p.pid = 1 ∧
      ∀ q ∈ QFlow.Init wrapRows, ¬ Dominates 2 q.toTUPLE p.toTUPLE := by
  refine ⟨by decide, { elems := [2, 1], pid := 1, score := 0 }, by decide, by decide, by decide⟩

/-- C3, amended: for every non-empty input of fewer than `2 ^ 31` rows, every block size
of at least one and below `2 ^ 32 - 1`, and every sort that orders by `STupleComp`, QFlow
returns, and the pids it returns are, as a set, exactly the pids of the input points that
no input point dominates. -/
theorem C3_QFlow_exact_skyline {d : Nat} (sort : List STUPLE → List STUPLE) (accum : Nat)
    (rows : List (List ℚ)) (hne : rows ≠ []) (hacc : 1 ≤ accum) (hmax : accum + 1 < 2 ^ 32)
    (hlen : rows.length < 2 ^ 31)
    (hsort : ∀ l, (sort l).Perm l ∧
      (sort l).Pairwise (fun a b => QFlow.STupleComp d b a = false)) :
    ∃ out, QFlow.Execute d sort accum rows = some out ∧
      ∀ pid, pid ∈ out ↔ ∃ p ∈ QFlow.Init rows, p.pid = pid ∧
        ∀ q ∈ QFlow.Init rows, ¬ Dominates d q.toTUPLE p.toTUPLE :=
  QFlow.Execute_correct sort accum rows hne hacc hmax hlen hsort

theorem C3_QFlow_exact_skyline_witness :
    (E1 ≠ [] ∧ 1 ≤ 2 ∧ 2 + 1 < 2 ^ 32 ∧ E1.length < 2 ^ 31 ∧
      ∀ l, (stdSort (QFlow.STupleComp 2) l).Perm l ∧
      (stdSort (QFlow.STupleComp 2) l).Pairwise (fun a b => QFlow.STupleComp 2 b a = false)) ∧
    ∃ out, QFlow.Execute 2 (stdSort (QFlow.STupleComp 2)) 2 E1 = some out ∧
      ∀ pid, pid ∈ out ↔ ∃ p ∈ QFlow.Init E1, p.pid = pid ∧
        ∀ q ∈ QFlow.Init E1, ¬ Dominates 2 q.toTUPLE p.toTUPLE :=
  ⟨⟨by decide, by decide, by decide, by decide, QFlow.stdSort_STupleComp 2⟩,
    C3_QFlow_exact_skyline (stdSort (QFlow.STupleComp 2)) 2 E1 (by decide) (by decide)
      (by decide) (by decide) (QFlow.stdSort_STupleComp 2)⟩

/-- C4: for every input, the empty one included, and every thread count of at least one,
PSkyline (PMap, then SReduce) returns, and the pids of `data_[0 .. result.size)` are, as
a set, exactly the pids of the input points that no input point dominates. -/
theorem C4_PSkyline_exact_skyline {d : Nat} (T : Nat) (hT : 1 ≤ T) (rows : List (List ℚ)) :
    ∃ out, PSkyline.Execute d T rows = some out ∧
      ∀ pid, pid ∈ out ↔ ∃ p ∈ PSkyline.InitData rows, p.pid = pid ∧
        ∀ q ∈ PSkyline.InitData rows, ¬ Dominates d q p :=
  PSkyline.Execute_exact T hT rows

theorem C4_PSkyline_exact_skyline_witness :
    1 ≤ 4 ∧
    ∃ out, PSkyline.Execute 2 4 E1 = some out ∧
      ∀ pid, pid ∈ out ↔ ∃ p ∈ PSkyline.InitData E1, p.pid = pid ∧
        ∀ q ∈ PSkyline.InitData E1, ¬ Dominates 2 q p :=
  ⟨by decide, C4_PSkyline_exact_skyline 4 (by decide) E1⟩

set_option maxRecDepth 100000 in
unseal Rat.add Rat.mul Rat.inv Rat.sub in
/-- C5: a failing input of ParallelBSkyTree. On the five rows of `partitionRows` in two
dimensions it returns the pids `[4, 0, 3]`, although row 4 dominates row 3. -/
theorem C5_ParallelBSkyTree_keeps_dominated_point :
    ParallelBSkyTree.Execute 2 partitionRows = some [4, 0, 3] ∧
    partitionRows.getD 4 [] = [1/4, 0] ∧ partitionRows.getD 3 [] = [1, 0] ∧
    Dominates 2 { elems := [1/4, 0], pid := 4 } { elems := [1, 0], pid := 3 } := by
  refine ⟨by decide, by decide, by decide, by decide⟩

/-- C6: for every input and every thread count `T` of at least one, PSkyline with `T`
blocks and PSkyline with a single block both return, and they return the same set of
pids. -/
theorem C6_PSkyline_thread_invariance {d : Nat} (T : Nat) (hT : 1 ≤ T)
    (rows : List (List ℚ)) :
    ∃ outT out1, PSkyline.Execute d T rows = some outT ∧
      PSkyline.Execute d 1 rows = some out1 ∧ ∀ pid, pid ∈ outT ↔ pid ∈ out1 := by
  obtain ⟨outT, h1, h2⟩ := PSkyline.Execute_exact (d := d) T hT rows
  obtain ⟨out1, h3, h4⟩ := PSkyline.Execute_exact (d := d) 1 (le_refl 1) rows
  exact ⟨outT, out1, h1, h3, fun pid => (h2 pid).trans (h4 pid).symm⟩

theorem C6_PSkyline_thread_invariance_witness :
    1 ≤ 4 ∧
    ∃ outT out1, PSkyline.Execute 2 4 E1 = some outT ∧
      PSkyline.Execute 2 1 E1 = some out1 ∧ ∀ pid, pid ∈ outT ↔ pid ∈ out1 :=
  ⟨by decide, C6_PSkyline_thread_invariance 4 (by decide) E1⟩

set_option maxRecDepth 100000 in
unseal Rat.add Rat.mul Rat.inv Rat.sub in
/-- The rows of scenario E1 that no row dominates are rows 0, 1, 3 and 4. -/
theorem E1_skyline (pid : Nat) :
    (∃ p ∈ QFlow.Init E1, p.pid = pid ∧
      ∀ q ∈ QFlow.Init E1, ¬ Dominates 2 q.toTUPLE p.toTUPLE) ↔ pid ∈ [0, 1, 3, 4] := by
  have h1 : ∀ p ∈ QFlow.Init E1,
      (∀ q ∈ QFlow.Init E1, ¬ Dominates 2 q.toTUPLE p.toTUPLE) → p.pid ∈ [0, 1, 3, 4] := by
    decide
  have h2 : ∀ pid ∈ [0, 1, 3, 4], ∃ p ∈ QFlow.Init E1, p.pid = pid ∧
      ∀ q ∈ QFlow.Init E1, ¬ Dominates 2 q.toTUPLE p.toTUPLE := by
    decide
  constructor
  · rintro ⟨p, hp, rfl, hno⟩
    exact h1 p hp hno
  · exact h2 pid

set_option maxRecDepth 100000 in
unseal Rat.add Rat.mul Rat.inv Rat.sub in
/-- C7: on scenario E1 SkyTree, ParallelBSkyTree, PSkyline with four threads, QFlow with
block size 2 (under every sort that orders by `STupleComp`) and Hybrid with block size 2,
queue capacity 1 and four threads (under every assignment of the pre-filter iterations to
threads, for both models of `std::sort`) each return a list whose set of pids is
`{0, 1, 3, 4}`. -/
theorem C7_E1_all_algorithms :
    (∃ out, SkyTree.Execute 2 true false E1 = some out ∧
      ∀ pid, pid ∈ out ↔ pid ∈ [0, 1, 3, 4]) ∧
    (∃ out, ParallelBSkyTree.Execute 2 E1 = some out ∧
      ∀ pid, pid ∈ out ↔ pid ∈ [0, 1, 3, 4]) ∧
    (∃ out, PSkyline.Execute 2 4 E1 = some out ∧
      ∀ pid, pid ∈ out ↔ pid ∈ [0, 1, 3, 4]) ∧
    (∀ sort : List STUPLE → List STUPLE,
      (∀ l, (sort l).Perm l ∧
        (sort l).Pairwise (fun a b => QFlow.STupleComp 2 b a = false)) →
      ∃ out, QFlow.Execute 2 sort 2 E1 = some out ∧
        ∀ pid, pid ∈ out ↔ pid ∈ [0, 1, 3, 4]) ∧
    (∀ sched : Nat → Nat,
      ∃ out, Hybrid.Execute 2 (stdSort EPTUPLE.lt) sched 4 2 1 E1 = some out ∧
        ∀ pid, pid ∈ out ↔ pid ∈ [0, 1, 3, 4]) ∧
    (∀ sched : Nat → Nat,
      ∃ out, Hybrid.Execute 2 (stdSortRev EPTUPLE.lt) sched 4 2 1 E1 = some out ∧
        ∀ pid, pid ∈ out ↔ pid ∈ [0, 1, 3, 4]) := by
  refine ⟨⟨[0, 4, 1, 3], by decide, ?_⟩, ⟨[0, 1, 4, 3], by decide, ?_⟩,
    ⟨[0, 1, 3, 4], by decide, fun _ => Iff.rfl⟩, ?_, ?_, ?_⟩
  · intro pid
    simp only [List.mem_cons, List.mem_singleton, List.not_mem_nil, or_false]
    omega
  · intro pid
    simp only [List.mem_cons, List.mem_singleton, List.not_mem_nil, or_false]
    omega
  · intro sort hsort
    obtain ⟨out, h1, h2⟩ := QFlow.Execute_correct (d := 2) sort 2 E1 (by decide) (by decide)
      (by decide) (by decide) hsort
    exact ⟨out, h1, fun pid => (h2 pid).trans (E1_skyline pid)⟩
  · intro sched
    refine ⟨[0, 1, 4, 3], ?_, ?_⟩
    · rw [Hybrid.Execute_sched _ _ _ _ _ _ _ (by decide)]
      decide
    · intro pid
      simp only [List.mem_cons, List.mem_singleton, List.not_mem_nil, or_false]
      omega
  · intro sched
    refine ⟨[1, 0, 4, 3], ?_, ?_⟩
    · rw [Hybrid.Execute_sched _ _ _ _ _ _ _ (by decide)]
      decide
    · intro pid
      simp only [List.mem_cons, List.mem_singleton, List.not_mem_nil, or_false]
      omega

set_option maxRecDepth 100000 in
unseal Rat.add Rat.mul Rat.inv Rat.sub in
/-- C8: a failing input of Hybrid. With four dimensions, one thread, queue capacity 1 and
block size 9, the nine rows of `hybridDupRows` give the pids `[1, 2, 3, 0]`: rows 4 and 5
have the same coordinates and no row dominates them, yet neither pid is returned. On
scenario E2 all five algorithms return the pids `0, 1, 2, 3, 4`. -/
theorem C8_Hybrid_drops_duplicates :
    (Hybrid.Execute 4 (stdSort EPTUPLE.lt) (fun _ => 0) 1 9 1 hybridDupRows
        = some [1, 2, 3, 0] ∧
      hybridDupRows.getD 4 [] = [5, 5, 5, 5] ∧ hybridDupRows.getD 5 [] = [5, 5, 5, 5] ∧
      ∀ q ∈ hybridDupRows,
        ¬ Dominates 4 { elems := q, pid := 0 } { elems := [5, 5, 5, 5], pid := 4 }) ∧
    (SkyTree.Execute 3 true false E2 = some [0, 1, 2, 3, 4] ∧
      ParallelBSkyTree.Execute 3 E2 = some [0, 4, 3, 1, 2] ∧
      PSkyline.Execute 3 4 E2 = some [0, 1, 2, 3, 4] ∧
      QFlow.Execute 3 (stdSort (QFlow.STupleComp 3)) 2 E2 = some [0, 1, 2, 3, 4] ∧
      ∀ sched : Nat → Nat,
        Hybrid.Execute 3 (stdSort EPTUPLE.lt) sched 4 2 1 E2 = some [0, 1, 2, 3, 4]) := by
  refine ⟨⟨by decide, by decide, by decide, by decide⟩, by decide, by decide, by decide,
    by decide, fun sched => ?_⟩
  rw [Hybrid.Execute_sched _ _ _ _ _ _ _ (by decide)]
  decide

/-- C9: for every non-empty dataset `D` (and at least one dimension)
`PivotSelection::Execute` returns, and afterwards `D[0]` is a point of the original
dataset that no point of the original dataset dominates. -/
theorem C9_pivot_on_skyline {d : Nat} (hd : 0 < d) (min_list max_list : List ℚ)
    (D : List TUPLE) (hne : D ≠ []) :
    ∃ r, PivotSelection.Execute d min_list max_list D = some r ∧
      r.getD 0 default ∈ D ∧ ∀ q ∈ D, ¬ Dominates d q (r.getD 0 default) := by
  obtain ⟨r, h1, h2, _, h4, _, h6, _⟩ :=
    PivotSelection.Execute_spec hd min_list max_list D hne
  exact ⟨r, h1, h4 _ (getD_mem (by omega)), h6⟩

theorem C9_pivot_on_skyline_witness :
    (0 < 2 ∧ pivotTuples ≠ []) ∧
    ∃ r, PivotSelection.Execute 2 [0, 0] [1, 1] pivotTuples = some r ∧
      r.getD 0 default ∈ pivotTuples ∧
      ∀ q ∈ pivotTuples, ¬ Dominates 2 q (r.getD 0 default) :=
  ⟨⟨by decide, by decide⟩, C9_pivot_on_skyline (by decide) [0, 0] [1, 1] pivotTuples (by decide)⟩

/-- C11: `DominanceTest(t1, t2)` returns `DOM_LEFT` iff `t1` is no larger than `t2` on
every dimension and smaller on at least one, `DOM_RIGHT` iff the same holds with the
arguments exchanged, and `DOM_INCOMP` in every other case; points equal on every
dimension give `DOM_INCOMP`. -/
theorem C11_DominanceTest_decides (d : Nat) (t1 t2 : TUPLE) :
    (DominanceTest d t1 t2 = DOM_LEFT ↔
      (∀ i, i < d → t1.elem i ≤ t2.elem i) ∧ ∃ i, i < d ∧ t1.elem i < t2.elem i) ∧
    (DominanceTest d t1 t2 = DOM_RIGHT ↔
      (∀ i, i < d → t2.elem i ≤ t1.elem i) ∧ ∃ i, i < d ∧ t2.elem i < t1.elem i) ∧
    (DominanceTest d t1 t2 = DOM_INCOMP ↔ ¬ Dominates d t1 t2 ∧ ¬ Dominates d t2 t1) ∧
    (DominanceTest d t1 t2 = DOM_LEFT ∨ DominanceTest d t1 t2 = DOM_RIGHT ∨
      DominanceTest d t1 t2 = DOM_INCOMP) ∧
    ((∀ i, i < d → t1.elem i = t2.elem i) → DominanceTest d t1 t2 = DOM_INCOMP) := by
  refine ⟨DominanceTest_left_iff d t1 t2, DominanceTest_right_iff d t1 t2,
    DominanceTest_incomp_iff d t1 t2, DominanceTest.loop_values t1 t2 _ _ _, fun h => ?_⟩
  have he : CoordEq d t1 t2 := h
  exact (DominanceTest_incomp_iff d t1 t2).mpr ⟨he.not_dominates, he.symm.not_dominates⟩

unseal Rat.add Rat.mul Rat.inv Rat.sub in
theorem C11_DominanceTest_decides_witness :
    (∀ i, i < 3 → dvcPivot.elem i = dvcPivot.elem i) ∧
    DominanceTest 3 dvcPivot dvcPivot = DOM_INCOMP ∧ DominanceTest 3 dvcLow dvcHigh = DOM_LEFT :=
  ⟨fun _ _ => rfl, (C11_DominanceTest_decides 3 dvcPivot dvcPivot).2.2.2.2 (fun _ _ => rfl),
    by decide⟩

/-- C12: `DominateLeft(t1, t2)` returns true iff `t1` is no larger than `t2` on every
dimension and smaller on at least one; on points equal on every dimension it returns
false. -/
theorem C12_DominateLeft_decides (d : Nat) (t1 t2 : TUPLE) :
    (DominateLeft d t1 t2 = true ↔
      (∀ i, i < d → t1.elem i ≤ t2.elem i) ∧ ∃ i, i < d ∧ t1.elem i < t2.elem i) ∧
    ((∀ i, i < d → t1.elem i = t2.elem i) → DominateLeft d t1 t2 = false) := by
  refine ⟨DominateLeft_iff d t1 t2, fun h => ?_⟩
  have he : CoordEq d t1 t2 := h
  cases hv : DominateLeft d t1 t2
  · rfl
  · exact absurd ((DominateLeft_iff d t1 t2).mp hv) he.not_dominates

/-- C13: `DominateLeftDVC(t1, t2)` returns 1 iff `t1.elems[i] <= t2.elems[i]` for every
dimension `i`, and 0 otherwise; so it returns 1 on two equal points, and, with at least
one dimension, on points that differ on every dimension it returns 1 exactly when
`DominateLeft(t1, t2)` is true. -/
theorem C13_DominateLeftDVC_decides (d : Nat) (t1 t2 : TUPLE) :
    (DominateLeftDVC d t1 t2 = 1 ↔ ∀ i, i < d → t1.elem i ≤ t2.elem i) ∧
    (DominateLeftDVC d t1 t2 = 1 ∨ DominateLeftDVC d t1 t2 = 0) ∧
    ((∀ i, i < d → t1.elem i = t2.elem i) → DominateLeftDVC d t1 t2 = 1) ∧
    (0 < d → (∀ i, i < d → t1.elem i ≠ t2.elem i) →
      (DominateLeftDVC d t1 t2 = 1 ↔ DominateLeft d t1 t2 = true)) := by
  refine ⟨DominateLeftDVC_iff d t1 t2, DominateLeftDVC_values d t1 t2, fun h => ?_,
    fun hd hv => ?_⟩
  · exact (DominateLeftDVC_iff d t1 t2).mpr (fun i hi => le_of_eq (h i hi))
  · rw [DominateLeftDVC_iff, DominateLeft_iff]
    exact ⟨fun h => WeakDom.dominates_of_distinct hd hv h, fun h => h.weak⟩

unseal Rat.add Rat.mul Rat.inv Rat.sub in
theorem C13_DominateLeftDVC_decides_witness :
    (0 < 3 ∧ ∀ i, i < 3 → dvcLow.elem i ≠ dvcHigh.elem i) ∧
    (DominateLeftDVC 3 dvcLow dvcHigh = 1 ↔ DominateLeft 3 dvcLow dvcHigh = true) ∧
    DominateLeftDVC 3 dvcLow dvcHigh = 1 ∧ DominateLeftDVC 3 dvcPivot dvcPivot = 1 :=
  ⟨⟨by decide, by decide⟩,
    (C13_DominateLeftDVC_decides 3 dvcLow dvcHigh).2.2.2 (by decide) (by decide),
    by decide, by decide⟩

/-- C14: for every position `i`, bit `i` of `DT_bitmap_dvc(cur, sky)` is 1 iff `i < d`
and `sky.elems[i] <= cur.elems[i]`, and bit `i` of `DT_bitmap(cur, sky)` is 1 iff `i < d`
and `sky.elems[i] < cur.elems[i]`; in particular every bit at a position `>= d` is 0 and
both masks are below `2 ^ d`. -/
theorem C14_bitmap_bits (d : Nat) (cur sky : TUPLE) (i : Nat) :
    ((DT_bitmap_dvc d cur sky).testBit i = true ↔ i < d ∧ sky.elem i ≤ cur.elem i) ∧
    ((DT_bitmap d cur sky).testBit i = true ↔ i < d ∧ sky.elem i < cur.elem i) ∧
    (d ≤ i → (DT_bitmap_dvc d cur sky).testBit i = false ∧
      (DT_bitmap d cur sky).testBit i = false) ∧
    DT_bitmap_dvc d cur sky < 2 ^ d ∧ DT_bitmap d cur sky < 2 ^ d := by
  refine ⟨?_, ?_, fun hi => ⟨?_, ?_⟩, DT_bitmap_dvc_lt d cur sky, DT_bitmap_lt d cur sky⟩
  · rw [DT_bitmap_dvc_testBit, decide_eq_true_eq]
  · rw [DT_bitmap_testBit, decide_eq_true_eq]
  · rw [DT_bitmap_dvc_testBit]
    exact decide_eq_false (fun h => absurd h.1 (by omega))
  · rw [DT_bitmap_testBit]
    exact decide_eq_false (fun h => absurd h.1 (by omega))

/-- C15: with at least one dimension, for points `cur` and `sky` that differ on every
dimension, `DT_bitmap_dvc(cur, sky) = ALL_ONES` iff `sky` dominates `cur`, it is `0` iff
`cur` dominates `sky`, and it is any other value iff neither dominates the other. -/
theorem C15_bitmap_dvc_under_DVC (d : Nat) (cur sky : TUPLE) (hd : 0 < d)
    (hv : DistinctValues d cur sky) :
    (DT_bitmap_dvc d cur sky = ALL_ONES d ↔ Dominates d sky cur) ∧
    (DT_bitmap_dvc d cur sky = 0 ↔ Dominates d cur sky) ∧
    ((DT_bitmap_dvc d cur sky ≠ ALL_ONES d ∧ DT_bitmap_dvc d cur sky ≠ 0) ↔
      (¬ Dominates d sky cur ∧ ¬ Dominates d cur sky)) := by
  have hv' : DistinctValues d sky cur := fun i hi h => hv i hi h.symm
  have h1 : DT_bitmap_dvc d cur sky = ALL_ONES d ↔ Dominates d sky cur := by
    unfold ALL_ONES
    rw [DT_bitmap_dvc_eq_all_ones_iff]
    exact ⟨fun h => WeakDom.dominates_of_distinct hd hv' h, fun h => h.weak⟩
  have h2 : DT_bitmap_dvc d cur sky = 0 ↔ Dominates d cur sky := by
    rw [DT_bitmap_dvc_eq_zero_iff]
    constructor
    · intro h
      exact ⟨fun i hi => le_of_lt (h i hi), 0, hd, h 0 hd⟩
    · intro h i hi
      exact lt_of_le_of_ne (h.1 i hi) (hv i hi)
  exact ⟨h1, h2, by rw [Ne, Ne, h1, h2]⟩

unseal Rat.add Rat.mul Rat.inv Rat.sub in
theorem C15_bitmap_dvc_under_DVC_witness :
    (0 < 3 ∧ DistinctValues 3 dvcHigh dvcLow) ∧
    (DT_bitmap_dvc 3 dvcHigh dvcLow = ALL_ONES 3 ↔ Dominates 3 dvcLow dvcHigh) ∧
    DT_bitmap_dvc 3 dvcHigh dvcLow = ALL_ONES 3 :=
  ⟨⟨by decide, by decide⟩,
    (C15_bitmap_dvc_under_DVC 3 dvcHigh dvcLow (by decide) (by decide)).1, by decide⟩

/-- C16, bitmap law 1: for all points `a` and `b`, `DT_bitmap_dvc(a, b) = ALL_ONES`
holds exactly when `DominateLeftDVC(b, a) = 1` (so the first implies the second), and
`DT_bitmap_dvc(a, a) = ALL_ONES`. -/
theorem C16_bitmap_law_all_ones (d : Nat) (a b : TUPLE) :
    (DT_bitmap_dvc d a b = ALL_ONES d ↔ DominateLeftDVC d b a = 1) ∧
    DT_bitmap_dvc d a a = ALL_ONES d := by
  unfold ALL_ONES
  rw [DT_bitmap_dvc_eq_all_ones_iff, DominateLeftDVC_iff, DT_bitmap_dvc_eq_all_ones_iff]
  exact ⟨Iff.rfl, WeakDom.refl d a⟩

/-- C17, bitmap law 3: for all points `a` and `b`, if `DT_bitmap_dvc(a, b) = 0` then
`DominateLeftDVC(a, b) = 1` or `EqualityTest(a, b)` is true; indeed `a` is then smaller
than `b` on every dimension. -/
theorem C17_bitmap_law_zero (d : Nat) (a b : TUPLE) (h : DT_bitmap_dvc d a b = 0) :
    (DominateLeftDVC d a b = 1 ∨ EqualityTest d a b = true) ∧
    ∀ i, i < d → a.elem i < b.elem i := by
  have hlt := (DT_bitmap_dvc_eq_zero_iff d a b).mp h
  exact ⟨Or.inl ((DominateLeftDVC_iff d a b).mpr (fun i hi => le_of_lt (hlt i hi))), hlt⟩

unseal Rat.add Rat.mul Rat.inv Rat.sub in
theorem C17_bitmap_law_zero_witness :
    DT_bitmap_dvc 3 dvcLow dvcHigh = 0 ∧
    (DominateLeftDVC 3 dvcLow dvcHigh = 1 ∨ EqualityTest 3 dvcLow dvcHigh = true) ∧
    ∀ i, i < 3 → dvcLow.elem i < dvcHigh.elem i :=
  ⟨by decide, C17_bitmap_law_zero 3 dvcLow dvcHigh (by decide)⟩

/-- C18, partial dominance: for every pivot `v`, if `p` dominates `q` then
`DT_bitmap_dvc(p, v)` is a sub-mask of `DT_bitmap_dvc(q, v)` and `DT_bitmap(p, v)` is a
sub-mask of `DT_bitmap(q, v)`; so, when the mask part of `t.partition` is the mask of `t`
against `v` and `t.canskip_partition(other)` is non-zero, no point whose mask against `v`
is `other` dominates `t` (for either kind of mask). -/
theorem C18_partial_dominance (d : Nat) (v : TUPLE) :
    (∀ p q, Dominates d p q →
      SubMask (DT_bitmap_dvc d p v) (DT_bitmap_dvc d q v) ∧
      SubMask (DT_bitmap d p v) (DT_bitmap d q v)) ∧
    (∀ (t : EPTUPLE) (other : Nat), t.canskip_partition d other = true →
      (t.getPartition d = DT_bitmap d t.toTUPLE v →
        ∀ x, DT_bitmap d x v = other → ¬ Dominates d x t.toTUPLE) ∧
      (t.getPartition d = DT_bitmap_dvc d t.toTUPLE v →
        ∀ x, DT_bitmap_dvc d x v = other → ¬ Dominates d x t.toTUPLE)) := by
  refine ⟨fun p q h => ⟨DT_bitmap_dvc_submask d p q v h.weak, DT_bitmap_submask d p q v h.weak⟩,
    fun t other hskip => ?_⟩
  have hne : (t.getPartition d ^^^ other) &&& other ≠ 0 := by
    unfold EPTUPLE.canskip_partition at hskip
    exact of_decide_eq_true hskip
  constructor
  · intro ht x hx hdom
    apply hne
    apply canskip_of_submask
    rw [ht, ← hx]
    exact DT_bitmap_submask d x t.toTUPLE v hdom.weak
  · intro ht x hx hdom
    apply hne
    apply canskip_of_submask
    rw [ht, ← hx]
    exact DT_bitmap_dvc_submask d x t.toTUPLE v hdom.weak

set_option maxRecDepth 100000 in
unseal Rat.add Rat.mul Rat.inv Rat.sub in
theorem C18_partial_dominance_witness :
    (Dominates 3 dvcLow dvcHigh ∧ dvcLowE.canskip_partition 3 6 = true ∧
      dvcLowE.getPartition 3 = DT_bitmap 3 dvcLowE.toTUPLE dvcPivot ∧
      DT_bitmap 3 dvcHigh dvcPivot = 6) ∧
    (SubMask (DT_bitmap_dvc 3 dvcLow dvcPivot) (DT_bitmap_dvc 3 dvcHigh dvcPivot) ∧
      SubMask (DT_bitmap 3 dvcLow dvcPivot) (DT_bitmap 3 dvcHigh dvcPivot)) ∧
    ¬ Dominates 3 dvcHigh dvcLowE.toTUPLE :=
  ⟨⟨by decide, by decide, by decide, by decide⟩,
    (C18_partial_dominance 3 dvcPivot).1 dvcLow dvcHigh (by decide),
    ((C18_partial_dominance 3 dvcPivot).2 dvcLowE 6 (by decide)).1 (by decide) dvcHigh
      (by decide)⟩

/-- C19, round trip of the encoded word: with `1 <= d <= 27` and a mask `p <= ALL_ONES`,
after `setPartition(p)` the word is below `2 ^ 32` (nothing overflows), `getPartition()`
is `p`, `getLevel()` is `popcount(p)` and `isPruned()` is false. -/
theorem C19_setPartition_round_trip (d p : Nat) (t : EPTUPLE) (hd : 0 < d) (hd27 : d ≤ 27)
    (hp : p ≤ ALL_ONES d) :
    (t.setPartition d p).getPartition d = p ∧
    (t.setPartition d p).getLevel d = popcount p ∧
    (t.setPartition d p).isPruned d = false ∧
    (t.setPartition d p).partition < 2 ^ 32 := by
  have hpos : 0 < 2 ^ d := Nat.pow_pos (by decide)
  have hp' : p < 2 ^ d := by unfold ALL_ONES at hp; omega
  exact ⟨EPTUPLE.getPartition_setPartition d p t hp', EPTUPLE.getLevel_setPartition d p t hp',
    EPTUPLE.isPruned_setPartition d p t hd hp', EPTUPLE.partition_setPartition_lt d p t hd27 hp'⟩

theorem C19_setPartition_round_trip_witness :
    (0 < 4 ∧ 4 ≤ 27 ∧ 5 ≤ ALL_ONES 4) ∧
    (dvcLowE.setPartition 4 5).getPartition 4 = 5 ∧
    (dvcLowE.setPartition 4 5).getLevel 4 = popcount 5 ∧
    (dvcLowE.setPartition 4 5).isPruned 4 = false ∧
    (dvcLowE.setPartition 4 5).partition < 2 ^ 32 :=
  ⟨⟨by decide, by decide, by decide⟩,
    C19_setPartition_round_trip 4 5 dvcLowE (by decide) (by decide) (by decide)⟩

/-- C20: the pruned marker does not sort last. With `1 <= d <= 27`, for a tuple `x` on
which `markPruned()` was called and a tuple `y` given the full mask by
`setPartition(ALL_ONES)`, `x < y` holds although `y` is not pruned; sorting the block
`y, x` puts `x` first and the scan that stops at the first pruned tuple keeps nothing,
so `y` is dropped. Only for masks `p` other than `ALL_ONES` does `x < y` fail. -/
theorem C20_pruned_marker_sorts_before_full_mask (d : Nat) (x y : EPTUPLE) (hd : 0 < d)
    (hd27 : d ≤ 27) :
    EPTUPLE.lt (x.markPruned d) (y.setPartition d (ALL_ONES d)) = true ∧
    (y.setPartition d (ALL_ONES d)).isPruned d = false ∧
    stdSort EPTUPLE.lt [y.setPartition d (ALL_ONES d), x.markPruned d]
      = [x.markPruned d, y.setPartition d (ALL_ONES d)] ∧
    Hybrid.scanLive d (stdSort EPTUPLE.lt [y.setPartition d (ALL_ONES d), x.markPruned d])
      2 2 0 = 0 ∧
    (∀ p, p < ALL_ONES d → EPTUPLE.lt (x.markPruned d) (y.setPartition d p) = false) := by
  have hpos : 0 < 2 ^ d := Nat.pow_pos (by decide)
  have hlt := EPTUPLE.lt_markPruned_all_ones d x y hd (by omega)
  have hnp := EPTUPLE.isPruned_setPartition d (ALL_ONES d) y hd (by unfold ALL_ONES; omega)
  have hsort : stdSort EPTUPLE.lt [y.setPartition d (ALL_ONES d), x.markPruned d]
      = [x.markPruned d, y.setPartition d (ALL_ONES d)] := by
    simp [stdSort, List.insertionSort, List.orderedInsert, hlt]
  refine ⟨hlt, hnp, hsort, ?_, fun p hp => EPTUPLE.lt_markPruned_of_lt d p x y hp⟩
  rw [hsort]
  simp [Hybrid.scanLive, EPTUPLE.isPruned_markPruned]

theorem C20_pruned_marker_sorts_before_full_mask_witness :
    (0 < 4 ∧ 4 ≤ 27) ∧
    EPTUPLE.lt (dvcLowE.markPruned 4) (dvcLowE.setPartition 4 (ALL_ONES 4)) = true ∧
    (dvcLowE.setPartition 4 (ALL_ONES 4)).isPruned 4 = false ∧
    stdSort EPTUPLE.lt [dvcLowE.setPartition 4 (ALL_ONES 4), dvcLowE.markPruned 4]
      = [dvcLowE.markPruned 4, dvcLowE.setPartition 4 (ALL_ONES 4)] ∧
    Hybrid.scanLive 4
      (stdSort EPTUPLE.lt [dvcLowE.setPartition 4 (ALL_ONES 4), dvcLowE.markPruned 4])
      2 2 0 = 0 ∧
    (∀ p, p < ALL_ONES 4 →
      EPTUPLE.lt (dvcLowE.markPruned 4) (dvcLowE.setPartition 4 p) = false) :=
  ⟨⟨by decide, by decide⟩,
    C20_pruned_marker_sorts_before_full_mask 4 dvcLowE dvcLowE (by decide) (by decide)⟩

/-- C21: for all encoded tuples, and so for those whose partition word was written by
`setPartition`, `a < b` holds iff the triple `(getLevel, getPartition, score)` of `a` is
lexicographically smaller than that of `b`; and `operator<` is a strict weak order. -/
theorem C21_operator_lt_lexicographic (d : Nat) :
    (∀ a b : EPTUPLE, EPTUPLE.lt a b = true ↔ LexLevelMaskScore d a b) ∧
    (∀ (x y : EPTUPLE) (pa pb : Nat),
      EPTUPLE.lt (x.setPartition d pa) (y.setPartition d pb) = true ↔
        LexLevelMaskScore d (x.setPartition d pa) (y.setPartition d pb)) ∧
    StrictWeakOrder EPTUPLE.lt :=
  ⟨EPTUPLE.lt_iff_lex d, fun _ _ _ _ => EPTUPLE.lt_iff_lex d _ _, EPTUPLE.lt_strictWeakOrder⟩

/-- C22: with at least one dimension, `ComputeSkyTree` returns on every non-empty dataset
(given a recursion bound of at least its size), with or without `useTree` and `useDnC`, a
tree in which the children of every node are in strictly increasing order of their
lattice codes, every point below a child with code `c` has `DT_bitmap_dvc(point,
parent.point) = c`, and every such `c` is smaller than `ALL_ONES`. -/
theorem C22_child_order_invariant (d : Nat) (useTree useDnC : Bool) (fuel : Nat)
    (min_list max_list : List ℚ) (dataset : List TUPLE) (lattice : Nat) (st : SkyTree.State)
    (hd : 0 < d) (hne : dataset ≠ []) (hfuel : dataset.length ≤ fuel) :
    ∃ T st', SkyTree.ComputeSkyTree d useTree useDnC fuel min_list max_list dataset lattice st
        = some (T, st') ∧ T.WF d ∧ T.LatBound d := by
  obtain ⟨T, st', h1, _, h3, h4, _⟩ :=
    SkyTree.ComputeSkyTree_struct hd useTree useDnC fuel min_list max_list dataset lattice st
      hne hfuel
  exact ⟨T, st', h1, h3, h4⟩

theorem C22_child_order_invariant_witness :
    ∃ T st', SkyTree.ComputeSkyTree 2 true true 2 [0, 0] [1, 1]
        [{ elems := [1/2, 1/4], pid := 0 }, { elems := [1/4, 1/2], pid := 1 }] 0
        { eqm_ := [], dominated_ := [false, false] }
        = some (T, st') ∧ T.WF 2 ∧ T.LatBound 2 :=
  C22_child_order_invariant 2 true true 2 [0, 0] [1, 1]
    [{ elems := [1/2, 1/4], pid := 0 }, { elems := [1/4, 1/2], pid := 1 }] 0
    { eqm_ := [], dominated_ := [false, false] } (by decide) (List.cons_ne_nil _ _) (by decide)

/-- C23: for every tree with the child-order invariant and every point `cur`,
`FilterPoint(cur, tree)` returns true iff some node of the tree has a point that is no
larger than `cur` on every dimension. -/
theorem C23_FilterPoint_exhaustive (d : Nat) (cur : TUPLE) (T : Node) (hwf : T.WF d) :
    SkyTree.FilterPoint d cur T = true ↔ ∃ t ∈ T.points, WeakDom d t cur :=
  SkyTree.FilterPoint_iff d cur T hwf

set_option maxRecDepth 100000 in
unseal Rat.add Rat.mul Rat.inv Rat.sub in
theorem C23_FilterPoint_exhaustive_witness :
    filterTree.WF 2 ∧
    (SkyTree.FilterPoint 2 { elems := [2, 3], pid := 9 } filterTree = true ↔
      ∃ t ∈ filterTree.points, WeakDom 2 t { elems := [2, 3], pid := 9 }) :=
  ⟨by simp only [filterTree, Node.WF, Node.WFList, Node.points, Node.pointsList, Node.lattice]
      decide,
    C23_FilterPoint_exhaustive 2 { elems := [2, 3], pid := 9 } filterTree
      (by simp only [filterTree, Node.WF, Node.WFList, Node.points, Node.pointsList,
            Node.lattice]
          decide)⟩

set_option maxRecDepth 100000 in
unseal Rat.add Rat.mul Rat.inv Rat.sub in
/-- C25: a failing input of the pre-filter. With two dimensions, one thread and a queue
of capacity 2, the three rows of `prunerRows` (norms 1, 5 and 3) give the pruner list
`[0, 0]`: row 0 twice, and not row 2, which has the second smallest norm. -/
theorem C25_pruners_repeat_a_seed :
    PQFilter.pruners 2 (fun _ => 0) (PQFilter.input prunerRows) 3 2 1 = [0, 0] ∧
    (PQFilter.input prunerRows).map (fun t => PQFilter.sumElems 2 t.toTUPLE) = [1, 5, 3] := by
  decide

set_option maxRecDepth 100000 in
unseal Rat.add Rat.mul Rat.inv Rat.sub in
/-- C26: a failing input of the partition map. Every call of `update_partition_map`
restores the sentinel at `end + 1`; on the rows of `E1` with one thread, block size 2 and
queue capacity 1 the first call, with `end = 2`, leaves the map `[(0,0), (0,3)]`, whose
only range `[0, 3)` holds the index 2 outside the confirmed prefix `[0, 2)`, and the
second call, with `end = 4`, leaves the last range `[3, 5)`. -/
theorem C26_sentinel_one_past_end :
    (∀ (d : Nat) (data : List EPTUPLE) (part_map : List (Nat × Nat)) (start end_ : Nat),
      (Hybrid.update_partition_map d data part_map start end_).2.getLast?
        = some (0, end_ + 1)) ∧
    Hybrid.maps 2 (stdSort EPTUPLE.lt) (fun _ => 0) 1 2 1 E1 =
      [([(0, 0), (0, 3)], 2), ([(0, 0), (1, 2), (2, 3), (0, 5)], 4)] :=
  ⟨Hybrid.update_partition_map_sentinel, by decide⟩

set_option maxRecDepth 100000 in
unseal Rat.add Rat.mul Rat.inv Rat.sub in
/-- C28: a failing input of the divide-and-conquer variant. On the four rows of `dncRows`
in three dimensions SkyTree with `useDnC` returns the pids `[0, 1, 3]`, without it
`[0, 1]`; row 1 dominates row 3. -/
theorem C28_DnC_returns_dominated_duplicate :
    SkyTree.Execute 3 true true dncRows = some [0, 1, 3] ∧
    SkyTree.Execute 3 true false dncRows = some [0, 1] ∧
    Dominates 3 ((SkyTree.Init dncRows).getD 1 default) ((SkyTree.Init dncRows).getD 3 default) := by
  decide

/-- C29, the claim fails on lists with repeated pids: `[1, 1, 2]` and `[1, 2, 2]` hold
the same set of pids and `CompareTwoLists` returns false. -/
theorem C29_counterexample :
    CompareTwoLists [1, 1, 2] [1, 2, 2] false = false ∧
    ∀ x : Int, x ∈ [1, 1, 2] ↔ x ∈ [1, 2, 2] := by
  refine ⟨by decide, fun x => ?_⟩
  simp only [List.mem_cons, List.mem_singleton, List.not_mem_nil, or_false]
  tauto

/-- C29, amended: `CompareTwoLists(list1, list2, false)` returns true iff `list1` and
`list2` hold the same pids with the same multiplicities; for two lists without repeated
pids, iff they hold the same set of pids. -/
theorem C29_CompareTwoLists_multiset (list1 list2 : List Int) :
    (CompareTwoLists list1 list2 false = true ↔ list1.Perm list2) ∧
    (list1.Nodup → list2.Nodup →
      (CompareTwoLists list1 list2 false = true ↔ ∀ x, x ∈ list1 ↔ x ∈ list2)) :=
  ⟨CompareTwoLists_iff_perm list1 list2 false, fun h1 h2 =>
    (CompareTwoLists_iff_perm list1 list2 false).trans (List.perm_ext_iff_of_nodup h1 h2)⟩

theorem C29_CompareTwoLists_multiset_witness :
    ([3, 1, 2] : List Int).Nodup ∧ ([2, 3, 1] : List Int).Nodup ∧
    (CompareTwoLists [3, 1, 2] [2, 3, 1] false = true ↔
      ∀ x : Int, x ∈ [3, 1, 2] ↔ x ∈ [2, 3, 1]) :=
  ⟨by decide, by decide,
    (C29_CompareTwoLists_multiset [3, 1, 2] [2, 3, 1]).2 (by decide) (by decide)⟩

/-- C30: a failing input of the harness. On an input of five rows and the default
configuration (alpha 1024, queue capacity 8) `doPerformanceTest` hands alpha 1024 and
capacity 8 to the algorithms, `doVerboseTest` the clamped alpha 2 and capacity 1. -/
theorem C30_performance_mode_unclamped :
    doPerformanceTest 5 Config.defaults = (1024, 8) ∧
    doVerboseTest 5 Config.defaults = (2, 1) := by
  decide

/-- C31: for every dimension count and every pair of points, the vectorised definitions
of `DominanceTest`, `DominateLeft`, `DominateLeftDVC`, `DT_bitmap_dvc` and `DT_bitmap`
return the value of the scalar definitions of the same name (the vectorised
`DominateLeftDVC` returns a `bool`, read as `1` or `0`). -/
theorem C31_scalar_and_vectorised_agree (d : Nat) (p q : TUPLE) :
    AVX.DominanceTest d p q = DominanceTest d p q ∧
    AVX.DominateLeft d p q = DominateLeft d p q ∧
    (if AVX.DominateLeftDVC d p q = true then 1 else 0) = DominateLeftDVC d p q ∧
    AVX.DT_bitmap_dvc d p q = DT_bitmap_dvc d p q ∧
    AVX.DT_bitmap d p q = DT_bitmap d p q :=
  ⟨AVX.DominanceTest_eq d p q, AVX.DominateLeft_eq d p q, AVX.DominateLeftDVC_eq d p q,
    AVX.DT_bitmap_dvc_eq d p q, AVX.DT_bitmap_eq d p q⟩

set_option maxRecDepth 100000 in
unseal Rat.add Rat.mul Rat.inv Rat.sub in
/-- C32, counterexample: on the four rows of `chainRows` in two dimensions the tree built
by SkyTree has height four, with and without `useDnC`. -/
theorem C32_counterexample :
    SkyTree.depthOf 2 true false chainRows = some 4 ∧
    SkyTree.depthOf 2 true true chainRows = some 4 ∧ 2 < 4 := by
  refine ⟨by decide, by decide, by decide⟩

/-- C32, amended: with at least one dimension `ComputeSkyTree` returns on every non-empty
dataset (given a recursion bound of at least its size) a tree whose height `MaxDepth` is
at most the number of tuples of the dataset. -/
theorem C32_tree_height_bound (d : Nat) (useTree useDnC : Bool) (fuel : Nat)
    (min_list max_list : List ℚ) (dataset : List TUPLE) (lattice : Nat) (st : SkyTree.State)
    (hd : 0 < d) (hne : dataset ≠ []) (hfuel : dataset.length ≤ fuel) :
    ∃ T st', SkyTree.ComputeSkyTree d useTree useDnC fuel min_list max_list dataset lattice st
        = some (T, st') ∧ SkyTree.MaxDepth T ≤ dataset.length :=
  SkyTree.ComputeSkyTree_height hd useTree useDnC fuel min_list max_list dataset lattice st
    hne hfuel

theorem C32_tree_height_bound_witness :
    ∃ T st', SkyTree.ComputeSkyTree 2 true true 2 [0, 0] [1, 1]
        [{ elems := [1/2, 1/4], pid := 0 }, { elems := [1/4, 1/2], pid := 1 }] 0
        { eqm_ := [], dominated_ := [false, false] }
        = some (T, st') ∧ SkyTree.MaxDepth T ≤
          [({ elems := [1/2, 1/4], pid := 0 } : TUPLE), { elems := [1/4, 1/2], pid := 1 }].length :=
  C32_tree_height_bound 2 true true 2 [0, 0] [1, 1]
    [{ elems := [1/2, 1/4], pid := 0 }, { elems := [1/4, 1/2], pid := 1 }] 0
    { eqm_ := [], dominated_ := [false, false] } (by decide) (List.cons_ne_nil _ _) (by decide)

/-- C33: for every `n` and every thread count `T` of at least one, `PSkyline::Init` makes
`T` blocks; every block ends before the next one starts, an index lies in some block iff
it is below `n`, each of the first `T - 1` blocks has `n / T` elements and the last one
the remaining `n - (T - 1) * (n / T)`. -/
theorem C33_Init_block_ranges (T n : Nat) (hT : 1 ≤ T) :
    (PSkyline.InitBlocks T n).length = T ∧
    (PSkyline.InitBlocks T n).Pairwise (fun a b => a.end_ < b.start) ∧
    (∀ k : Nat,
      (∃ b ∈ PSkyline.InitBlocks T n, b.start ≤ (k : Int) ∧ (k : Int) ≤ b.end_) ↔ k < n) ∧
    (∀ i, i + 1 < T →
      ((PSkyline.InitBlocks T n).getD i default).end_
          - ((PSkyline.InitBlocks T n).getD i default).start + 1
        = ((n / T : Nat) : Int)) ∧
    ((PSkyline.InitBlocks T n).getD (T - 1) default).end_
        - ((PSkyline.InitBlocks T n).getD (T - 1) default).start + 1
      = ((n - (T - 1) * (n / T) : Nat) : Int) :=
  PSkyline.InitBlocks_ranges hT

theorem C33_Init_block_ranges_witness :
    1 ≤ 3 ∧
    (PSkyline.InitBlocks 3 8).length = 3 ∧
    (PSkyline.InitBlocks 3 8).Pairwise (fun a b => a.end_ < b.start) ∧
    (∀ k : Nat,
      (∃ b ∈ PSkyline.InitBlocks 3 8, b.start ≤ (k : Int) ∧ (k : Int) ≤ b.end_) ↔ k < 8) ∧
    (∀ i, i + 1 < 3 →
      ((PSkyline.InitBlocks 3 8).getD i default).end_
          - ((PSkyline.InitBlocks 3 8).getD i default).start + 1
        = ((8 / 3 : Nat) : Int)) ∧
    ((PSkyline.InitBlocks 3 8).getD (3 - 1) default).end_
        - ((PSkyline.InitBlocks 3 8).getD (3 - 1) default).start + 1
      = ((8 - (3 - 1) * (8 / 3) : Nat) : Int) :=
  ⟨by decide, C33_Init_block_ranges 3 8 (by decide)⟩

/-- C34: for every block `[start, end]` inside the array, empty ones included, `sskyline`
returns with a size `z`; the tuples `D[start .. start+z)` are, up to their order, the
tuples of the original block that no tuple of the original block dominates, each as often
as it occurs there, and the tuples outside the block are unchanged. -/
theorem C34_sskyline_block_skyline (d : Nat) (data : List TUPLE) (b : Block)
    (h0 : 0 ≤ b.start) (h1 : b.start ≤ b.end_ + 1)
    (hb : b.start.toNat + (b.end_ - b.start + 1).toNat ≤ data.length) :
    ∃ data' z, PSkyline.sskyline d data b = some (data', { b with size := z }) ∧
      z ≤ (b.end_ - b.start + 1).toNat ∧ data'.length = data.length ∧
      (∀ k, (k < b.start.toNat ∨ b.start.toNat + (b.end_ - b.start + 1).toNat ≤ k) →
        data'.getD k default = data.getD k default) ∧
      (window data' b.start.toNat z).Perm
        (undominated d (window data b.start.toNat (b.end_ - b.start + 1).toNat)) :=
  PSkyline.sskyline_perm data b h0 h1 hb

theorem C34_sskyline_block_skyline_witness :
    ∃ data' z, PSkyline.sskyline 2 blockTuples { start := 0, end_ := 3, size := 0 }
        = some (data', { ({ start := 0, end_ := 3, size := 0 } : Block) with size := z }) ∧
      z ≤ ((3 : Int) - 0 + 1).toNat ∧ data'.length = blockTuples.length ∧
      (∀ k, (k < (0 : Int).toNat ∨ (0 : Int).toNat + ((3 : Int) - 0 + 1).toNat ≤ k) →
        data'.getD k default = blockTuples.getD k default) ∧
      (window data' (0 : Int).toNat z).Perm
        (undominated 2 (window blockTuples (0 : Int).toNat ((3 : Int) - 0 + 1).toNat)) :=
  C34_sskyline_block_skyline 2 blockTuples { start := 0, end_ := 3, size := 0 }
    (by decide) (by decide) (by decide)

/-- C35: if the first `left.size` tuples at `left.start` and the first `right.size` tuples
at `right.start` are each free of internal dominance and the left prefix ends before the
right one starts, then `PMerge`, with the left points checked in any order `order`,
leaves in the first `size` cells at `left.start` the tuples of the two prefixes that no
tuple of the two dominates, each as often as it occurs, and changes nothing outside the
merged range; `PMerge` itself is the order `0, 1, ..`. -/
theorem C35_PMerge_any_order (d : Nat) (order : List Nat) (data : List TUPLE)
    (flags : List Nat) (left right : Block)
    (horder : order.Perm (List.range left.size))
    (hL : ∀ x ∈ window data left.start.toNat left.size,
      ∀ y ∈ window data left.start.toNat left.size, ¬ Dominates d x y)
    (hR : ∀ x ∈ window data right.start.toNat right.size,
      ∀ y ∈ window data right.start.toNat right.size, ¬ Dominates d x y)
    (hord : left.start.toNat + left.size ≤ right.start.toNat)
    (hbound : right.start.toNat + right.size ≤ data.length)
    (hfl : flags.length = data.length) :
    ((PSkyline.PMergeIn d order data flags left right).1.length = data.length ∧
      (PSkyline.PMergeIn d order data flags left right).2.2.start = left.start ∧
      (∀ k, (k < left.start.toNat ∨ left.start.toNat + left.size + right.size ≤ k) →
        (PSkyline.PMergeIn d order data flags left right).1.getD k default
          = data.getD k default) ∧
      window (PSkyline.PMergeIn d order data flags left right).1 left.start.toNat
          (PSkyline.PMergeIn d order data flags left right).2.2.size =
        undominated d (window data left.start.toNat left.size ++
          window data right.start.toNat right.size)) ∧
    PSkyline.PMergeIn d (List.range left.size) data flags left right
      = PSkyline.PMerge d data flags left right :=
  ⟨PSkyline.PMergeIn_undominated order data flags left right horder hL hR hord hbound hfl,
    PSkyline.PMergeIn_range d data flags left right⟩

set_option maxRecDepth 100000 in
unseal Rat.add Rat.mul Rat.inv Rat.sub in
theorem C35_PMerge_any_order_witness :
    window (PSkyline.PMergeIn 2 [1, 0] mergeTuples [0, 0, 0, 0]
        { start := 0, end_ := 1, size := 2 } { start := 2, end_ := 3, size := 2 }).1 0
      (PSkyline.PMergeIn 2 [1, 0] mergeTuples [0, 0, 0, 0]
        { start := 0, end_ := 1, size := 2 } { start := 2, end_ := 3, size := 2 }).2.2.size =
      undominated 2 (window mergeTuples 0 2 ++ window mergeTuples 2 2) :=
  (C35_PMerge_any_order 2 [1, 0] mergeTuples [0, 0, 0, 0]
    { start := 0, end_ := 1, size := 2 } { start := 2, end_ := 3, size := 2 }
    (by decide) (by decide) (by decide) (by decide) (by decide) (by decide)).1.2.2.2

/-- C36: when the scores are the sums of the coordinates, a point `p` that dominates `q`
has the smaller score and `STupleComp(p, q)` is true; in an array of such points sorted
by `STupleComp` no point is dominated by a point at a later index; and `STupleComp` is a
strict weak order. -/
theorem C36_QFlow_score_monotone (d : Nat) :
    (∀ p q : STUPLE, QFlow.Scored d p → QFlow.Scored d q → Dominates d p.toTUPLE q.toTUPLE →
      p.score < q.score ∧ QFlow.STupleComp d p q = true) ∧
    (∀ S : List STUPLE, (∀ t ∈ S, QFlow.Scored d t) →
      S.Pairwise (fun a b => QFlow.STupleComp d b a = false) → QFlow.NoBackDom d S) ∧
    StrictWeakOrder (QFlow.STupleComp d) :=
  ⟨QFlow.STupleComp_of_dominates d, QFlow.noBackDom_of_sorted d,
    QFlow.STupleComp_strictWeakOrder d⟩

set_option maxRecDepth 100000 in
unseal Rat.add Rat.mul Rat.inv Rat.sub in
theorem C36_QFlow_score_monotone_witness :
    (scoredPair.getD 0 default).score < (scoredPair.getD 1 default).score ∧
    QFlow.STupleComp 2 (scoredPair.getD 0 default) (scoredPair.getD 1 default) = true :=
  (C36_QFlow_score_monotone 2).1 (scoredPair.getD 0 default) (scoredPair.getD 1 default)
    (by unfold QFlow.Scored; decide) (by unfold QFlow.Scored; decide) (by decide)

set_option maxRecDepth 100000 in
unseal Rat.add Rat.mul Rat.inv Rat.sub in
/-- C37: a failing input of `DoPartioning`. On the five rows of `partitionRows` in two
dimensions, after `SelectBalanced` has made row 4 the pivot, `DoPartioning` leaves the
pids 4, 0, 3, all with the initial partition word: pid 3 remains although its bitmap
against the pivot is the pruned one, and pid 0, whose bitmap is `2`, was never examined. -/
theorem C37_DoPartioning_skips_swapped_in_points :
    ParallelBSkyTree.partitioned 2 partitionRows =
      some ([(4, 2 ^ 32 - 1), (0, 2 ^ 32 - 1), (3, 2 ^ 32 - 1)], []) ∧
    DT_bitmap_dvc 2 { elems := [1, 0], pid := 3 } { elems := [1/4, 0], pid := 4 }
      = SHIFTS 2 - 1 ∧
    DT_bitmap_dvc 2 { elems := [0, 1/2], pid := 0 } { elems := [1/4, 0], pid := 4 } = 2 := by
  refine ⟨by decide, by decide, by decide⟩

/-- C38: with at least one dimension `PivotSelection::Execute` returns on every non-empty
dataset; the returned dataset together with the removed tuples is a rearrangement of the
input, every removed tuple is dominated by a tuple of the input, and a tuple that no
tuple of the input dominates is returned as often as it occurs in the input. -/
theorem C38_pivot_selection_conservative (d : Nat) (min_list max_list : List ℚ)
    (dataset : List TUPLE) (hd : 0 < d) (hne : dataset ≠ []) :
    ∃ r removed, PivotSelection.Execute d min_list max_list dataset = some r ∧
      dataset.Perm (r ++ removed) ∧ (∀ q ∈ removed, ∃ p ∈ dataset, Dominates d p q) ∧
      ∀ q, (∀ p ∈ dataset, ¬ Dominates d p q) → r.count q = dataset.count q :=
  PivotSelection.Execute_conservative hd min_list max_list dataset hne

theorem C38_pivot_selection_conservative_witness :
    ∃ r removed, PivotSelection.Execute 2 [0, 0] [1, 1] pivotTuples = some r ∧
      pivotTuples.Perm (r ++ removed) ∧
      (∀ q ∈ removed, ∃ p ∈ pivotTuples, Dominates 2 p q) ∧
      ∀ q, (∀ p ∈ pivotTuples, ¬ Dominates 2 p q) → r.count q = pivotTuples.count q :=
  C38_pivot_selection_conservative 2 [0, 0] [1, 1] pivotTuples (by decide)
    (List.cons_ne_nil _ _)

/-- C39: on an array of at least `n ≥ 1` tuples and with a length-preserving sort,
`Hybrid::skyline` returns whenever `accum ≥ 1`, with `head ≤ n`; at the top of every
iteration `head ≤ start`; with `accum = 0` the loop has no result whatever the number of
iterations allowed; and on an input of one row the clamp of `doVerboseTest` turns every
alpha above one into zero. -/
theorem C39_Hybrid_skyline_termination (d : Nat) (sort : List EPTUPLE → List EPTUPLE)
    (accum n : Nat) (data : List EPTUPLE) (hsort : ∀ l, (sort l).Perm l) (hn : 1 ≤ n)
    (hlen : n ≤ data.length) :
    (1 ≤ accum →
      ∃ data' head, Hybrid.skyline d sort accum data n = some (data', head) ∧ head ≤ n) ∧
    (∀ fuel, ∀ c ∈ Hybrid.skyline.cursors d sort n accum fuel data
        [((data.getD 0 default).getPartition d, 0), ((data.getD 0 default).getPartition d, 1)]
        0 0, c.1 ≤ c.2) ∧
    (∀ fuel, Hybrid.skyline.loop d sort n 0 fuel data
        [((data.getD 0 default).getPartition d, 0), ((data.getD 0 default).getPartition d, 1)]
        0 0 = none) ∧
    (∀ cfg : Config, 1 < cfg.alpha_size → (doVerboseTest 1 cfg).1 = 0) := by
  refine ⟨fun hacc => ?_, fun fuel c hc => ?_, fun fuel => ?_, doVerboseTest_one⟩
  · obtain ⟨data', head, h1, h2, _⟩ := Hybrid.skyline.loop_terminates d sort hsort n accum hacc
      (n + 1) data
      [((data.getD 0 default).getPartition d, 0), ((data.getD 0 default).getPartition d, 1)]
      0 0 (by omega) (le_refl 0) (Nat.zero_le n) hlen
    exact ⟨data', head, h1, h2⟩
  · exact (Hybrid.skyline.cursors_le d sort n accum fuel data _ 0 0 (le_refl 0)
      (Nat.zero_le n) c hc).1
  · exact Hybrid.skyline.loop_stuck d sort n fuel data _ 0 0 (by omega)

theorem C39_Hybrid_skyline_termination_witness :
    ∃ data' head, Hybrid.skyline 2 (stdSort EPTUPLE.lt) 1 encodedPair 2 = some (data', head) ∧
      head ≤ 2 :=
  (C39_Hybrid_skyline_termination 2 (stdSort EPTUPLE.lt) 1 2 encodedPair
    (stdSort_perm EPTUPLE.lt) (by decide) (by decide)).1 (by decide)

set_option maxRecDepth 100000 in
unseal Rat.add Rat.mul Rat.inv Rat.sub in
/-- C40: a failing input of ParallelBSkyTree. On the three rows of `tieRows` in two
dimensions the single-threaded nest of `BSkyTreeS_ALGO` calls `DT_dvc` on the rows 1 and
2, which are equal on every dimension: the loop of `DT_dvc` ends with neither flag set,
which is where the function reaches `assert( false )`. -/
theorem C40_DT_dvc_called_on_equal_tuples :
    ParallelBSkyTree.firstNestCalls 2 (ParallelBSkyTree.Init tieRows) =
      some [({ elems := [1, 0], pid := 1 }, { elems := [1, 0], pid := 2 })] ∧
    EqualityTest 2 { elems := [1, 0], pid := 1 } { elems := [1, 0], pid := 2 } = true ∧
    DT_dvc.loop { elems := [1, 0], pid := 1 } { elems := [1, 0], pid := 2 } (List.range 2)
      false false = some (false, false) := by
  refine ⟨by decide, by decide, by decide⟩

end SkyBench
